import Mathlib

/-!
# Road maintenance: cost ledger and circular partition optimiser

A shallow embedding of `src/04-Road-Maintenance-Optimization/main.c`.

Conventions of the embedding:

* the C types `ll` (days, totals) and `int` (costs, section indices) are
  modelled by `Int`, and every addition, subtraction and multiplication that
  the C code makes on `ll` values is followed by `wrap64`, the reduction to the
  signed 64-bit range; `compute_total` and `find_best` are therefore the
  functions on 64-bit integers that the program runs. The definitions with the
  suffix `_exact` are the same loops in unbounded integer arithmetic; they are
  the reference against which overflow is measured, and
  `compute_total_eq_exact` and `find_best_eq_exact` give the range of inputs
  on which the program computes the exact values;
* a `CostHistory` is the list `entries[0 .. count-1]`, an `AssignmentList`
  the list `items[0 .. count-1]`; the `capacity` fields only drive
  reallocation and are not modelled;
* `while` loops are functions recursing on a fuel argument that the caller
  sets to the number of iterations the loop can make at most (each loop
  increments an index bounded by `count`; `seek_loop_fuel` and
  `sum_loop_exact_fuel` show that the result does not depend on the fuel
  beyond that bound); `for` loops without early exit are folds over the list of
  values of the loop variable;
* the section count `n` of `find_best` is a natural number, the cost vector
  `c` a list read with default 0;
* C's `%` is `Int.tmod` (truncating remainder) and C's `/` is `Int.tdiv`;
* the command loop of `main` is modelled from the parsed tokens on: a
  command is a date, a section index and a cost, and the outcome of a
  command is the state `main` goes on with or the state at which it prints
  `Invalid input.` and stops.
-/

namespace RoadMaintenance

/-! ## Data model -/

/-- The C struct `CostEntry`: a cost that is in force from `day` on. -/
structure CostEntry where
  day : Int
  cost : Int
deriving DecidableEq, Repr

/-- The C struct `CostHistory`, as the list of its `count` entries. -/
abbrev CostHistory := List CostEntry

/-- The C struct `Assignment`: two inclusive circular arcs of section indices. -/
structure Assignment where
  s1 : Int
  e1 : Int
  s2 : Int
  e2 : Int
deriving DecidableEq, Repr

/-- The C struct `AssignmentList`, as the list of its `count` items. -/
abbrev AssignmentList := List Assignment

/-- The read `h->entries[i]`. -/
def entryAt (h : CostHistory) (i : Nat) : CostEntry := h.getD i ⟨0, 0⟩

/-! ## Signed 64-bit arithmetic

Signed overflow is undefined in C; the model takes the two's-complement
result that the usual targets produce. Every addition, subtraction and
multiplication on `ll` values is followed by `wrap64`. -/

/-- The C constant `LLONG_MAX`. -/
def LLONG_MAX : Int := 9223372036854775807

/-- The C constant `LLONG_MIN`. -/
def LLONG_MIN : Int := -9223372036854775808

/-- The C constant `INT_MAX`. -/
def INT_MAX : Int := 2147483647

/-- The C constant `INT_MIN`. -/
def INT_MIN : Int := -2147483648

/-- The value in `[-2^63, 2^63-1]` congruent to `x` modulo `2^64`. -/
def wrap64 (x : Int) : Int :=
  (x + 9223372036854775808) % 18446744073709551616 - 9223372036854775808

/-- The values of a history fit their C types: `day` is an `ll` and `cost`
an `int`. -/
def TypedHistory (h : CostHistory) : Prop :=
  ∀ e ∈ h, (LLONG_MIN ≤ e.day ∧ e.day ≤ LLONG_MAX) ∧ (INT_MIN ≤ e.cost ∧ e.cost ≤ INT_MAX)

instance (h : CostHistory) : Decidable (TypedHistory h) := by
  unfold TypedHistory; infer_instance

/-! ## Cost ledger -/

/-- The C function `init_history`: the empty history. -/
def init_history : CostHistory := []

/-- The C function `add_cost`: writes `(day, cost)` at index `count` and
increments `count`. -/
def add_cost (h : CostHistory) (day cost : Int) : CostHistory := h ++ [⟨day, cost⟩]

/-- First loop of `compute_total`:
`while(i<h->count && h->entries[i].day <= start) i++;`. -/
def seek_loop (h : CostHistory) (start : Int) : Nat → Nat → Nat
  | 0, i => i
  | fuel + 1, i =>
    if i < h.length ∧ (entryAt h i).day ≤ start then seek_loop h start fuel (i + 1) else i

/-- Second loop of `compute_total`, on the state `(cur, i, total)`:
`while(cur<=end && i<h->count){ ... cur = e + 1; i++; }`, every `ll`
operation wrapped to 64 bits. -/
def sum_loop (h : CostHistory) (end_ : Int) : Nat → Int → Nat → Int → Int
  | 0, _, _, total => total
  | fuel + 1, cur, i, total =>
    if cur ≤ end_ ∧ i < h.length then
      let s := cur
      let e0 := if i + 1 < h.length then wrap64 ((entryAt h (i + 1)).day - 1) else end_
      let e := if e0 > end_ then end_ else e0
      let total1 :=
        if s ≤ e then wrap64 (total + wrap64 (wrap64 (wrap64 (e - s) + 1) * (entryAt h i).cost))
        else total
      sum_loop h end_ fuel (wrap64 (e + 1)) (i + 1) total1
    else total

/-- The C function `compute_total`. -/
def compute_total (h : CostHistory) (start end_ : Int) : Int :=
  if start > end_ ∨ h.length = 0 then 0
  else
    let i0 := seek_loop h start h.length 0
    let i := if i0 > 0 then i0 - 1 else i0
    sum_loop h end_ h.length start i 0

/-! ## The range aggregator in exact arithmetic (reference) -/

/-- The second loop of `compute_total` in unbounded integer arithmetic. -/
def sum_loop_exact (h : CostHistory) (end_ : Int) : Nat → Int → Nat → Int → Int
  | 0, _, _, total => total
  | fuel + 1, cur, i, total =>
    if cur ≤ end_ ∧ i < h.length then
      let s := cur
      let e0 := if i + 1 < h.length then (entryAt h (i + 1)).day - 1 else end_
      let e := if e0 > end_ then end_ else e0
      let total1 := if s ≤ e then total + (e - s + 1) * (entryAt h i).cost else total
      sum_loop_exact h end_ fuel (e + 1) (i + 1) total1
    else total

/-- The function `compute_total` in unbounded integer arithmetic: what the
C function computes when no `ll` operation overflows. -/
def compute_total_exact (h : CostHistory) (start end_ : Int) : Int :=
  if start > end_ ∨ h.length = 0 then 0
  else
    let i0 := seek_loop h start h.length 0
    let i := if i0 > 0 then i0 - 1 else i0
    sum_loop_exact h end_ h.length start i 0

/-! ## Reference semantics of a history (from the data model) -/

/-- The effective cost on day `D`: the cost of the last entry whose
`day ≤ D` (0 when there is none). -/
def effective_cost (h : CostHistory) (D : Int) : Int :=
  match (h.filter (fun e => decide (e.day ≤ D))).getLast? with
  | some e => e.cost
  | none => 0

/-- The per-day sum of the effective cost over the days `start..end_`. -/
def per_day_total (h : CostHistory) (start end_ : Int) : Int :=
  ∑ D in Finset.Icc start end_, effective_cost h D

/-- A valid history: non-empty, first entry at day 0, days strictly
increasing from entry to entry. -/
def ValidHistory (h : CostHistory) : Prop :=
  h ≠ [] ∧ (entryAt h 0).day = 0 ∧ h.Pairwise (fun a b => a.day < b.day)

instance (h : CostHistory) : Decidable (ValidHistory h) := by
  unfold ValidHistory; infer_instance

/-! ## Assignment lists and canonical forms -/

/-- The C function `init_assignments`: the empty list. -/
def init_assignments : AssignmentList := []

/-- The C function `clear_assignments`: `L->count = 0`. -/
def clear_assignments (_L : AssignmentList) : AssignmentList := []

/-- The C function `normalize`, returning the four values it leaves in
`*s1, *e1, *s2, *e2`. -/
def normalize (a : Assignment) (n : Int) : Assignment :=
  let len1 := if a.e1 ≥ a.s1 then a.e1 - a.s1 + 1 else n - a.s1 + a.e1 + 1
  let len2 := if a.e2 ≥ a.s2 then a.e2 - a.s2 + 1 else n - a.s2 + a.e2 + 1
  if len1 > len2 ∨ (len1 = len2 ∧ a.s1 > a.s2) then ⟨a.s2, a.e2, a.s1, a.e1⟩ else a

/-- The loop of `duplicate` over `L->items`, with its early `return 1`;
`na` is the normalised candidate. -/
def duplicate_loop (na : Assignment) (n : Int) : List Assignment → Bool
  | [] => false
  | it :: rest =>
    let ca := normalize it n
    if na.s1 = ca.s1 ∧ na.e1 = ca.e1 ∧ na.s2 = ca.s2 ∧ na.e2 = ca.e2 then true
    else duplicate_loop na n rest

/-- The C function `duplicate`. -/
def duplicate (L : AssignmentList) (s1 e1 s2 e2 : Int) (n : Int) : Bool :=
  duplicate_loop (normalize ⟨s1, e1, s2, e2⟩ n) n L

/-- The C function `add_assignment`. -/
def add_assignment (L : AssignmentList) (s1 e1 s2 e2 : Int) (n : Int) : AssignmentList :=
  if duplicate L s1 e1 s2 e2 n then L else L ++ [⟨s1, e1, s2, e2⟩]

/-! ## Partition optimiser -/

/-- The read `c[i]` of the cost vector. -/
def costAt (c : List Int) (i : Nat) : Int := c.getD i 0

/-- `for(int i=0; i<n; i++) total += c[i];` -/
def total_loop (c : List Int) (n : Nat) : Int :=
  (List.range n).foldl (fun total i => wrap64 (total + costAt c i)) 0

/-- `pref[0] = 0; for(int i=0; i<2*n; i++) pref[i+1] = pref[i] + c[i % n];`
The array is the list of the cells written so far. -/
def pref_loop (c : List Int) (n : Nat) : List Int :=
  (List.range (2 * n)).foldl
    (fun pref i => pref ++ [wrap64 (pref.getD i 0 + costAt c (i % n))]) [0]

/-- Body of the inner loop of `find_best` on the state `(best, res)`; the
loop variables `start` and `end_` are `int`s that are never negative. -/
def sweep_step (pref : List Int) (total : Int) (n : Nat) (st : Int × AssignmentList)
    (start end_ : Nat) : Int × AssignmentList :=
  let a_sum := wrap64 (pref.getD (end_ + 1) 0 - pref.getD start 0)
  let b_sum := wrap64 (total - a_sum)
  let diff := if a_sum ≥ b_sum then wrap64 (a_sum - b_sum) else wrap64 (b_sum - a_sum)
  if st.1 < 0 ∨ diff < st.1 then
    (diff, add_assignment (clear_assignments st.2)
      (Int.tmod (start : Int) (n : Int)) (Int.tmod (end_ : Int) (n : Int))
      (Int.tmod ((end_ : Int) + 1) (n : Int)) (Int.tmod ((start : Int) - 1 + (n : Int)) (n : Int))
      (n : Int))
  else if diff = st.1 then
    (st.1, add_assignment st.2
      (Int.tmod (start : Int) (n : Int)) (Int.tmod (end_ : Int) (n : Int))
      (Int.tmod ((end_ : Int) + 1) (n : Int)) (Int.tmod ((start : Int) - 1 + (n : Int)) (n : Int))
      (n : Int))
  else st

/-- The two nested `for` loops of `find_best`:
`start` in `0..n-1`, `end_` in `start..start+n-2`. -/
def sweep (pref : List Int) (total : Int) (n : Nat) (st : Int × AssignmentList) :
    Int × AssignmentList :=
  (List.range n).foldl
    (fun st start =>
      (List.range' start (n - 1)).foldl (fun st end_ => sweep_step pref total n st start end_) st)
    st

/-- The C function `find_best`: the reported difference and the list left
in `res`. -/
def find_best (c : List Int) (n : Nat) (res : AssignmentList) : Int × AssignmentList :=
  let total := total_loop c n
  let pref := pref_loop c n
  let res := clear_assignments res
  let st := sweep pref total n (-1, res)
  (if st.1 < 0 then 0 else st.1, st.2)

/-! ## The partition optimiser in exact arithmetic (reference) -/

/-- The loop `total += c[i]` in unbounded integer arithmetic. -/
def total_loop_exact (c : List Int) (n : Nat) : Int :=
  (List.range n).foldl (fun total i => total + costAt c i) 0

/-- The loop `pref[i+1] = pref[i] + c[i % n]` in unbounded integer
arithmetic. -/
def pref_loop_exact (c : List Int) (n : Nat) : List Int :=
  (List.range (2 * n)).foldl (fun pref i => pref ++ [pref.getD i 0 + costAt c (i % n)]) [0]

/-- Body of the inner loop of `find_best` in unbounded integer arithmetic. -/
def sweep_step_exact (pref : List Int) (total : Int) (n : Nat) (st : Int × AssignmentList)
    (start end_ : Nat) : Int × AssignmentList :=
  let a_sum := pref.getD (end_ + 1) 0 - pref.getD start 0
  let b_sum := total - a_sum
  let diff := if a_sum ≥ b_sum then a_sum - b_sum else b_sum - a_sum
  if st.1 < 0 ∨ diff < st.1 then
    (diff, add_assignment (clear_assignments st.2)
      (Int.tmod (start : Int) (n : Int)) (Int.tmod (end_ : Int) (n : Int))
      (Int.tmod ((end_ : Int) + 1) (n : Int)) (Int.tmod ((start : Int) - 1 + (n : Int)) (n : Int))
      (n : Int))
  else if diff = st.1 then
    (st.1, add_assignment st.2
      (Int.tmod (start : Int) (n : Int)) (Int.tmod (end_ : Int) (n : Int))
      (Int.tmod ((end_ : Int) + 1) (n : Int)) (Int.tmod ((start : Int) - 1 + (n : Int)) (n : Int))
      (n : Int))
  else st

/-- The two nested loops of `find_best` in unbounded integer arithmetic. -/
def sweep_exact (pref : List Int) (total : Int) (n : Nat) (st : Int × AssignmentList) :
    Int × AssignmentList :=
  (List.range n).foldl
    (fun st start =>
      (List.range' start (n - 1)).foldl
        (fun st end_ => sweep_step_exact pref total n st start end_) st)
    st

/-- The function `find_best` in unbounded integer arithmetic: what the C
function computes when no `ll` operation overflows. -/
def find_best_exact (c : List Int) (n : Nat) (res : AssignmentList) : Int × AssignmentList :=
  let total := total_loop_exact c n
  let pref := pref_loop_exact c n
  let res := clear_assignments res
  let st := sweep_exact pref total n (-1, res)
  (if st.1 < 0 then 0 else st.1, st.2)

/-! ## Reference notions for partitions (from the data model) -/

/-- The index set of the inclusive circular arc `s..e` over `0..n-1`. -/
def arcSet (n s e : Int) : Finset Int :=
  if s ≤ e then Finset.Icc s e else Finset.Icc s (n - 1) ∪ Finset.Icc 0 e

/-- The sum of the costs over the index set of an arc. -/
def arcSum (c : List Int) (n s e : Int) : Int :=
  ∑ x in arcSet n s e, costAt c x.toNat

/-- The imbalance `|sum(A) - sum(B)|` of an assignment. -/
def imbalance (c : List Int) (n : Int) (a : Assignment) : Int :=
  |arcSum c n a.s1 a.e1 - arcSum c n a.s2 a.e2|

/-- An assignment whose indices lie in `0..n-1` and whose two arcs are
disjoint and cover `0..n-1`: a partition of the circle into two
complementary arcs. -/
def IsArcPartition (n : Int) (a : Assignment) : Prop :=
  (0 ≤ a.s1 ∧ a.s1 < n) ∧ (0 ≤ a.e1 ∧ a.e1 < n) ∧ (0 ≤ a.s2 ∧ a.s2 < n) ∧
  (0 ≤ a.e2 ∧ a.e2 < n) ∧
  Disjoint (arcSet n a.s1 a.e1) (arcSet n a.s2 a.e2) ∧
  arcSet n a.s1 a.e1 ∪ arcSet n a.s2 a.e2 = Finset.Ico 0 n

instance (n : Int) (a : Assignment) : Decidable (IsArcPartition n a) := by
  unfold IsArcPartition; infer_instance

/-! ## Two-pass reference for the sweep (from the design of the optimiser) -/

/-- All sweep candidates `(start, end_)`: `start` ascending in `0..n-1`, and
`end_` ascending in `start..start+n-2` within each `start`. -/
def ref_candidates (n : Nat) : List (Nat × Nat) :=
  (List.range n).flatMap fun start => (List.range' start (n - 1)).map fun end_ => (start, end_)

/-- The arc pair of a candidate:
`(start mod n, end mod n, (end+1) mod n, (start-1+n) mod n)`. -/
def ref_assignment (n : Nat) (p : Nat × Nat) : Assignment :=
  ⟨(p.1 : Int) % n, (p.2 : Int) % n, ((p.2 : Int) + 1) % n, ((p.1 : Int) - 1 + n) % n⟩

/-- Sum of the first `k` elements of the cost vector repeated twice. -/
def ref_psum (c : List Int) (k : Nat) : Int := ((c ++ c).take k).sum

/-- The diff of a candidate: `|sumA - sumB|` with
`sumA = prefix[end+1] - prefix[start]` and `sumB = total - sumA`. -/
def ref_diff (c : List Int) (p : Nat × Nat) : Int :=
  |(ref_psum c (p.2 + 1) - ref_psum c p.1)
    - (c.sum - (ref_psum c (p.2 + 1) - ref_psum c p.1))|

/-- Keeps the first occurrence of each canonical form, in order; `seen`
holds the canonical forms already kept. -/
def first_occurrences (n : Int) : List Assignment → List Assignment → List Assignment
  | [], _ => []
  | a :: rest, seen =>
    if normalize a n ∈ seen then first_occurrences n rest seen
    else a :: first_occurrences n rest (seen ++ [normalize a n])

/-- The two-pass reference: the global minimum of the diffs of all
candidates (0 when there is no candidate), and the candidates reaching it,
in sweep order, first occurrence of each canonical form only. -/
def two_pass (c : List Int) (n : Nat) : Int × AssignmentList :=
  match ((ref_candidates n).map (ref_diff c)).min? with
  | none => (0, [])
  | some m =>
    (m, first_occurrences n
      (((ref_candidates n).filter fun p => decide (ref_diff c p = m)).map (ref_assignment n)) [])

/-! ## Auxiliary definitions for the analysis of the sweep -/

/-- The canonical forms of the items of a list. -/
def canon (n : Int) (L : AssignmentList) : List Assignment := L.map fun a => normalize a n

/-- Insertion of a whole assignment, as done by `add_assignment`. -/
def add_asg (n : Int) (L : AssignmentList) (a : Assignment) : AssignmentList :=
  add_assignment L a.s1 a.e1 a.s2 a.e2 n

/-- The diff computed by the loop body for the candidate `p`. -/
def code_diff (pref : List Int) (total : Int) (p : Nat × Nat) : Int :=
  if wrap64 (pref.getD (p.2 + 1) 0 - pref.getD p.1 0)
      ≥ wrap64 (total - wrap64 (pref.getD (p.2 + 1) 0 - pref.getD p.1 0))
  then wrap64 (wrap64 (pref.getD (p.2 + 1) 0 - pref.getD p.1 0)
    - wrap64 (total - wrap64 (pref.getD (p.2 + 1) 0 - pref.getD p.1 0)))
  else wrap64 (wrap64 (total - wrap64 (pref.getD (p.2 + 1) 0 - pref.getD p.1 0))
    - wrap64 (pref.getD (p.2 + 1) 0 - pref.getD p.1 0))

/-- The diff of the loop body for the candidate `p` in unbounded integer
arithmetic. -/
def code_diff_exact (pref : List Int) (total : Int) (p : Nat × Nat) : Int :=
  if pref.getD (p.2 + 1) 0 - pref.getD p.1 0 ≥ total - (pref.getD (p.2 + 1) 0 - pref.getD p.1 0)
  then pref.getD (p.2 + 1) 0 - pref.getD p.1 0
    - (total - (pref.getD (p.2 + 1) 0 - pref.getD p.1 0))
  else total - (pref.getD (p.2 + 1) 0 - pref.getD p.1 0)
    - (pref.getD (p.2 + 1) 0 - pref.getD p.1 0)

/-- The assignment built by the loop body for the candidate `p`. -/
def code_asg (n : Nat) (p : Nat × Nat) : Assignment :=
  ⟨Int.tmod (p.1 : Int) (n : Int), Int.tmod (p.2 : Int) (n : Int),
    Int.tmod ((p.2 : Int) + 1) (n : Int), Int.tmod ((p.1 : Int) - 1 + (n : Int)) (n : Int)⟩

/-- The loop body with the diff and the assignment abstracted. -/
def abs_step {α : Type} (D : α → Int) (A : α → Assignment) (n : Int)
    (st : Int × AssignmentList) (x : α) : Int × AssignmentList :=
  if st.1 < 0 ∨ D x < st.1 then (D x, add_asg n [] (A x))
  else if D x = st.1 then (st.1, add_asg n st.2 (A x))
  else st

/-- The result of the abstract sweep: the minimum diff, and the candidates
reaching it inserted one by one. -/
def abs_result {α : Type} (D : α → Int) (A : α → Assignment) (n : Int) (l : List α) :
    Int × AssignmentList :=
  match (l.map D).min? with
  | none => (-1, [])
  | some m => (m, ((l.filter fun x => decide (D x = m)).map A).foldl (add_asg n) [])

/-- The candidates reaching the diff `m`, as arc pairs in sweep order. -/
def best_arcs (c : List Int) (n : Nat) (m : Int) : List Assignment :=
  ((ref_candidates n).filter fun p => decide (ref_diff c p = m)).map (ref_assignment n)

/-! ## Partition identity -/

/-- The same assignment with its two arcs listed in the other order. -/
def swap_arcs (a : Assignment) : Assignment := ⟨a.s2, a.e2, a.s1, a.e1⟩

/-- Two assignments have the same unordered set of arcs, each arc taken as
its index set. -/
def SameArcs (n : Int) (a b : Assignment) : Prop :=
  (arcSet n a.s1 a.e1 = arcSet n b.s1 b.e1 ∧ arcSet n a.s2 a.e2 = arcSet n b.s2 b.e2) ∨
  (arcSet n a.s1 a.e1 = arcSet n b.s2 b.e2 ∧ arcSet n a.s2 a.e2 = arcSet n b.s1 b.e1)

instance (n : Int) (a b : Assignment) : Decidable (SameArcs n a b) := by
  unfold SameArcs; infer_instance

/-! ## Dates and day numbers -/

/-- The C struct `Date`. -/
structure Date where
  y : Int
  m : Int
  d : Int
deriving DecidableEq, Repr

/-- The C function `is_leap_year`. -/
def is_leap_year (y : Int) : Bool :=
  decide ((Int.tmod y 4 = 0 ∧ Int.tmod y 100 ≠ 0) ∨ Int.tmod y 400 = 0)

/-- The C function `is_valid_date`; `md` is the table of month lengths. -/
def is_valid_date (y m d : Int) : Bool :=
  if y < 1900 ∨ m < 1 ∨ m > 12 ∨ d < 1 then false
  else
    let md : List Int := [0, 31, 28, 31, 30, 31, 30, 31, 31, 30, 31, 30, 31]
    let md := if is_leap_year y then md.set 2 29 else md
    decide (d ≤ md.getD m.toNat 0)

/-- The C function `date_to_days`: `none` for the return value 0, `some out`
for the return value 1. The day number of the date and the day number
`days0` of the base date 1900-01-01 are computed by the same steps:
`if(M<=2){ Y--; M+=12; }`, then era, year of era, day of year, day of era. -/
def date_to_days (dt : Date) : Option Int :=
  if !is_valid_date dt.y dt.m dt.d then none
  else
    let Y := if dt.m ≤ 2 then dt.y - 1 else dt.y
    let M := if dt.m ≤ 2 then dt.m + 12 else dt.m
    let D := dt.d
    let era := Int.tdiv Y 400
    let yoe := Y - era * 400
    let doy := Int.tdiv (153 * (M - 3) + 2) 5 + D - 1
    let doe := yoe * 365 + Int.tdiv yoe 4 - Int.tdiv yoe 100 + doy
    let days := era * 146097 + doe
    let BY : Int := if (1 : Int) ≤ 2 then 1900 - 1 else 1900
    let BM : Int := if (1 : Int) ≤ 2 then 1 + 12 else 1
    let BD : Int := 1
    let era0 := Int.tdiv BY 400
    let y0 := BY - era0 * 400
    let d0 := Int.tdiv (153 * (BM - 3) + 2) 5 + BD - 1
    let days0 := era0 * 146097 + y0 * 365 + Int.tdiv y0 4 - Int.tdiv y0 100 + d0
    some (days - days0)

/-! ## The ledger driven by the command processor -/

/-- The state of `main` that the update command reads and writes: the
array `hist` of the `n` histories and `last_update_day`. -/
structure Ledger where
  hist : List CostHistory
  last_update_day : Int
deriving DecidableEq, Repr

/-- An update command `= date idx: cost` after tokenisation. -/
structure UpdateCmd where
  date : Date
  idx : Int
  cost : Int
deriving DecidableEq, Repr

/-- What `main` does with a command: it goes on with a new state, or prints
`Invalid input.` and leaves the loop with the state it has at that point. -/
inductive Outcome where
  | accepted (st : Ledger)
  | invalid (st : Ledger)
deriving DecidableEq, Repr

/-- The check of `main` on the initial cost list: every cost is positive and
at most `INT_MAX`, and there are 2 to 10000 costs. -/
def accepted_initial (initial : List Int) : Prop :=
  (∀ v ∈ initial, 0 < v ∧ v ≤ INT_MAX) ∧ 2 ≤ initial.length ∧ initial.length ≤ 10000

instance (initial : List Int) : Decidable (accepted_initial initial) := by
  unfold accepted_initial; infer_instance

/-- The seeding in `main`:
`init_history(&hist[i]); add_cost(&hist[i], 0, initial[i]);` for every `i`, and
`last_update_day = -1`. -/
def init_ledger (initial : List Int) : Ledger :=
  { hist := initial.map fun c => add_cost init_history 0 c, last_update_day := -1 }

/-- The `=` branch of the command loop of `main`, from the parsed date,
section index and cost. -/
def update_cmd (st : Ledger) (dt : Date) (idx cost : Int) : Outcome :=
  match date_to_days dt with
  | none => Outcome.invalid st
  | some day =>
    if st.last_update_day ≥ 0 ∧ day ≤ st.last_update_day then Outcome.invalid st
    else
      let st1 : Ledger := { hist := st.hist, last_update_day := day }
      if idx < 0 ∨ idx ≥ st1.hist.length then Outcome.invalid st1
      else if cost ≤ 0 ∨ cost > INT_MAX then Outcome.invalid st1
      else
        Outcome.accepted
          { hist := st1.hist.set idx.toNat (add_cost (st1.hist.getD idx.toNat []) day cost),
            last_update_day := day }

/-- A sequence of update commands, processed until the first invalid one. -/
def run_updates : Ledger → List UpdateCmd → Outcome
  | st, [] => Outcome.accepted st
  | st, cmd :: rest =>
    match update_cmd st cmd.date cmd.idx cmd.cost with
    | Outcome.accepted st1 => run_updates st1 rest
    | Outcome.invalid st1 => Outcome.invalid st1

/-- A history as the command processor keeps it: non-empty, first entry at
day 0, days non-decreasing, and strictly increasing from the second entry
on. -/
def OrderedHistory (h : CostHistory) : Prop :=
  h ≠ [] ∧ (entryAt h 0).day = 0 ∧ h.Pairwise (fun a b => a.day ≤ b.day) ∧
  h.tail.Pairwise (fun a b => a.day < b.day)

instance (h : CostHistory) : Decidable (OrderedHistory h) := by
  unfold OrderedHistory; infer_instance

/-- Invariant of the command loop: every history is ordered, and the days
of the update entries are between 0 and `last_update_day`. -/
def LedgerInv (st : Ledger) : Prop :=
  ∀ h ∈ st.hist, OrderedHistory h ∧ ∀ e ∈ h.tail, 0 ≤ e.day ∧ e.day ≤ st.last_update_day

/-! ## Auxiliary definitions for the analysis of overflow -/

/-- The end `e` of the segment of entry `i`, as computed by the loop body of
`compute_total`: the day before the next entry, capped at `end_`. -/
def seg_end (h : CostHistory) (end_ : Int) (i : Nat) : Int :=
  if (if i + 1 < h.length then (entryAt h (i + 1)).day - 1 else end_) > end_ then end_
  else (if i + 1 < h.length then (entryAt h (i + 1)).day - 1 else end_)

/-- The largest per-section total in the accepted range: 3,652,425 days at
the cost `INT_MAX`. -/
def MAX_SECTION_TOTAL : Int := 3652425 * 2147483647

/-! ## Queries -/

/-- The state of `main` across commands: the ledger and the list
`solutions` that every query hands to `find_best`. -/
structure Session where
  ledger : Ledger
  solutions : AssignmentList
deriving DecidableEq, Repr

/-- What `main` does with a query: it prints the answer of `find_best` for
the per-section totals `costs` and goes on, or prints `Invalid input.` and
stops. -/
inductive QueryOutcome where
  | answered (s : Session) (costs : List Int) (best : Int)
  | invalid (s : Session)
deriving DecidableEq, Repr

/-- The `?` branch of the command loop of `main`, from the two parsed dates:
`costs[i] = compute_total(&hist[i], a, b)` for every section, then
`find_best(costs, n, &solutions)`. -/
def query_cmd (s : Session) (d1 d2 : Date) : QueryOutcome :=
  match date_to_days d1 with
  | none => QueryOutcome.invalid s
  | some a =>
    match date_to_days d2 with
    | none => QueryOutcome.invalid s
    | some b =>
      if a > b then QueryOutcome.invalid s
      else
        let costs := s.ledger.hist.map fun h => compute_total h a b
        let r := find_best costs s.ledger.hist.length s.solutions
        QueryOutcome.answered { ledger := s.ledger, solutions := r.2 } costs r.1

/-! ## Further reference notions -/

/-- The circular length of the arc `s..e`, as `normalize` computes it. -/
def arc_len (n s e : Int) : Int := if e ≥ s then e - s + 1 else n - s + e + 1

/-- The sweep order on candidates: `start` ascending, `end_` ascending within
`start`. -/
def sweep_lt (p q : Nat × Nat) : Prop := p.1 < q.1 ∨ (p.1 = q.1 ∧ p.2 < q.2)

instance (p q : Nat × Nat) : Decidable (sweep_lt p q) := by
  unfold sweep_lt; infer_instance

/-- The sum of `c[i mod n]` for `i` in `start..end_`: the cost of the arc of a
candidate, read along the doubled cost vector. -/
def arc_cost (c : List Int) (n start end_ : Nat) : Int :=
  ∑ i in Finset.Ico start (end_ + 1), costAt c (i % n)

/-- The candidate of the cost vector that sweeps the arc swept by `p` on the
vector rotated by one position. -/
def rotate_cand (n : Nat) (p : Nat × Nat) : Nat × Nat :=
  if p.1 + 1 < n then (p.1 + 1, p.2 + 1) else (p.1 + 1 - n, p.2 + 1 - n)

/-- The candidate of the cost vector that sweeps the arc swept by `p` on the
reversed vector. -/
def reverse_cand (n : Nat) (p : Nat × Nat) : Nat × Nat :=
  if p.2 < n then (n - 1 - p.2, n - 1 - p.1) else (2 * n - 1 - p.2, 2 * n - 1 - p.1)

/-! ## The assignment list with its buffer

`main` declares one `AssignmentList solutions` and hands it to every call of
`find_best`; `clear_assignments` only resets `count`, so the cells of `items`
keep what earlier queries wrote. The definitions below repeat the list
operations on the buffer itself: `items` holds the `capacity` allocated cells
and `count` says how many of them are in use. -/

/-- The C struct `AssignmentList` with its buffer: `items` are the `capacity`
allocated cells, `count` the number of cells in use. -/
structure AssignmentBuf where
  items : List Assignment
  count : Nat
deriving DecidableEq, Repr

/-- The list that a buffer stands for: `items[0 .. count-1]`. -/
def buf_view (L : AssignmentBuf) : AssignmentList := L.items.take L.count

/-- The C function `clear_assignments` on the buffer: `L->count = 0`. -/
def buf_clear (L : AssignmentBuf) : AssignmentBuf := { items := L.items, count := 0 }

/-- The loop of `duplicate` on the buffer: `for(size_t i=0; i<L->count; i++)`
reading `L->items[i]`, with its early `return 1`; `fuel` is the number of
iterations left and `i` the loop variable. -/
def buf_duplicate_loop (na : Assignment) (n : Int) (L : AssignmentBuf) : Nat → Nat → Bool
  | 0, _ => false
  | fuel + 1, i =>
    if i < L.count then
      let ca := normalize (L.items.getD i ⟨0, 0, 0, 0⟩) n
      if na.s1 = ca.s1 ∧ na.e1 = ca.e1 ∧ na.s2 = ca.s2 ∧ na.e2 = ca.e2 then true
      else buf_duplicate_loop na n L fuel (i + 1)
    else false

/-- The C function `duplicate` on the buffer. -/
def buf_duplicate (L : AssignmentBuf) (s1 e1 s2 e2 : Int) (n : Int) : Bool :=
  buf_duplicate_loop (normalize ⟨s1, e1, s2, e2⟩ n) n L L.count 0

/-- The C function `add_assignment` on the buffer: when `count` has reached
the capacity the buffer grows to twice its size (to 8 cells from none), the
old cells kept; then cell `count` is written and `count` incremented. -/
def buf_add (L : AssignmentBuf) (s1 e1 s2 e2 : Int) (n : Int) : AssignmentBuf :=
  if buf_duplicate L s1 e1 s2 e2 n then L
  else
    let cap := L.items.length
    let nc := if cap ≠ 0 then cap * 2 else 8
    let items := if L.count = cap then L.items ++ List.replicate (nc - cap) ⟨0, 0, 0, 0⟩
      else L.items
    { items := items.set L.count ⟨s1, e1, s2, e2⟩, count := L.count + 1 }

/-- Body of the inner loop of `find_best` on the state `(best, res)`, `res`
being the buffer. -/
def buf_sweep_step (pref : List Int) (total : Int) (n : Nat) (st : Int × AssignmentBuf)
    (start end_ : Nat) : Int × AssignmentBuf :=
  let a_sum := wrap64 (pref.getD (end_ + 1) 0 - pref.getD start 0)
  let b_sum := wrap64 (total - a_sum)
  let diff := if a_sum ≥ b_sum then wrap64 (a_sum - b_sum) else wrap64 (b_sum - a_sum)
  if st.1 < 0 ∨ diff < st.1 then
    (diff, buf_add (buf_clear st.2)
      (Int.tmod (start : Int) (n : Int)) (Int.tmod (end_ : Int) (n : Int))
      (Int.tmod ((end_ : Int) + 1) (n : Int)) (Int.tmod ((start : Int) - 1 + (n : Int)) (n : Int))
      (n : Int))
  else if diff = st.1 then
    (st.1, buf_add st.2
      (Int.tmod (start : Int) (n : Int)) (Int.tmod (end_ : Int) (n : Int))
      (Int.tmod ((end_ : Int) + 1) (n : Int)) (Int.tmod ((start : Int) - 1 + (n : Int)) (n : Int))
      (n : Int))
  else st

/-- The two nested `for` loops of `find_best` on the buffer. -/
def buf_sweep (pref : List Int) (total : Int) (n : Nat) (st : Int × AssignmentBuf) :
    Int × AssignmentBuf :=
  (List.range n).foldl
    (fun st start =>
      (List.range' start (n - 1)).foldl
        (fun st end_ => buf_sweep_step pref total n st start end_) st)
    st

/-- The C function `find_best` on the buffer that `main` passes in: the
reported difference and the buffer it leaves. -/
def buf_find_best (c : List Int) (n : Nat) (res : AssignmentBuf) : Int × AssignmentBuf :=
  let total := total_loop c n
  let pref := pref_loop c n
  let res := buf_clear res
  let st := buf_sweep pref total n (-1, res)
  (if st.1 < 0 then 0 else st.1, st.2)

/-! ## Bounds-checked reading and writing of the arrays of `find_best`

The functions below are `find_best` with every array access checked: an
access outside the cells of the array gives `none`. The cost vector `c` has
the cells `0 .. c.length - 1` and `pref` the `2n+1` cells that
`safe_malloc((2*n+1) * sizeof(ll))` allocates. -/

/-- Body of `for(int i=0; i<n; i++) total += c[i];` with the read `c[i]`
checked. -/
def total_step_chk (c : List Int) (total : Int) (i : Nat) : Option Int :=
  if i < c.length then some (wrap64 (total + costAt c i)) else none

/-- The loop `total += c[i]` with checked reads. -/
def total_loop_chk (c : List Int) (n : Nat) : Option Int :=
  (List.range n).foldl (fun acc i => acc.bind fun total => total_step_chk c total i) (some 0)

/-- The write `a[i] = v` checked against the cells of `a`. -/
def write_chk (a : List Int) (i : Nat) (v : Int) : Option (List Int) :=
  if i < a.length then some (a.set i v) else none

/-- Body of `for(int i=0; i<2*n; i++) pref[i+1] = pref[i] + c[i % n];` with the
reads `pref[i]` and `c[i % n]` and the write `pref[i+1]` checked. -/
def pref_step_chk (c : List Int) (n : Nat) (pref : List Int) (i : Nat) : Option (List Int) :=
  if i < pref.length ∧ i % n < c.length then
    write_chk pref (i + 1) (wrap64 (pref.getD i 0 + costAt c (i % n)))
  else none

/-- The array `pref` of `2n+1` allocated cells, after `pref[0] = 0` and the
loop that fills it, every access checked. -/
def pref_loop_chk (c : List Int) (n : Nat) : Option (List Int) :=
  (List.range (2 * n)).foldl (fun acc i => acc.bind fun pref => pref_step_chk c n pref i)
    (write_chk (List.replicate (2 * n + 1) 0) 0 0)

/-- Body of the inner loop of `find_best` with the reads `pref[end+1]` and
`pref[start]` checked. -/
def sweep_step_chk (pref : List Int) (total : Int) (n : Nat) (st : Int × AssignmentList)
    (start end_ : Nat) : Option (Int × AssignmentList) :=
  if end_ + 1 < pref.length ∧ start < pref.length then
    some (sweep_step pref total n st start end_)
  else none

/-- The two nested `for` loops of `find_best` with checked reads. -/
def sweep_chk (pref : List Int) (total : Int) (n : Nat) (st : Int × AssignmentList) :
    Option (Int × AssignmentList) :=
  (List.range n).foldl
    (fun acc start =>
      (List.range' start (n - 1)).foldl
        (fun acc end_ => acc.bind fun st => sweep_step_chk pref total n st start end_) acc)
    (some st)

/-- The C function `find_best` with every array access checked: `none` when
some access is out of range. -/
def find_best_chk (c : List Int) (n : Nat) (res : AssignmentList) :
    Option (Int × AssignmentList) :=
  (total_loop_chk c n).bind fun total =>
    (pref_loop_chk c n).bind fun pref =>
      (sweep_chk pref total n (-1, clear_assignments res)).map fun st =>
        (if st.1 < 0 then 0 else st.1, st.2)

/-! ## Reference notions for day numbers (from the Gregorian calendar) -/

/-- The number of days of month `m` of year `y` in the Gregorian calendar. -/
def gregorian_month_length (y m : Int) : Int :=
  if m = 2 then (if (y % 4 = 0 ∧ y % 100 ≠ 0) ∨ y % 400 = 0 then 29 else 28)
  else if m = 4 ∨ m = 6 ∨ m = 9 ∨ m = 11 then 30
  else 31

/-- The calendar date that follows `dt`. -/
def next_date (dt : Date) : Date :=
  if dt.d < gregorian_month_length dt.y dt.m then ⟨dt.y, dt.m, dt.d + 1⟩
  else if dt.m < 12 then ⟨dt.y, dt.m + 1, 1⟩
  else ⟨dt.y + 1, 1, 1⟩

/-- Chronological order of dates: by year, then month, then day. -/
def date_lt (a b : Date) : Prop :=
  a.y < b.y ∨ (a.y = b.y ∧ (a.m < b.m ∨ (a.m = b.m ∧ a.d < b.d)))

instance (a b : Date) : Decidable (date_lt a b) := by
  unfold date_lt; infer_instance

/-- The number of days from 0000-03-01 to the 1st of March of year `Y`, as
`date_to_days` computes it from the era and the year of the era, all
divisions rounding down. -/
def era_days (Y : Int) : Int :=
  Y / 400 * 146097 + (Y - Y / 400 * 400) * 365 + (Y - Y / 400 * 400) / 4
    - (Y - Y / 400 * 400) / 100

/-- The year of a date when years start in March: the local `Y` of
`date_to_days`. -/
def march_year (dt : Date) : Int := if dt.m ≤ 2 then dt.y - 1 else dt.y

/-- The day of a date within its March-based year: the local `doy` of
`date_to_days`, with the division rounding down. -/
def march_doy (dt : Date) : Int :=
  (153 * ((if dt.m ≤ 2 then dt.m + 12 else dt.m) - 3) + 2) / 5 + dt.d - 1

/-- The day number of a date in closed form: days since 1900-01-01. -/
def ref_day_number (dt : Date) : Int := era_days (march_year dt) + march_doy dt - 693901

end RoadMaintenance

/-!
# Friday the 13th: calendar arithmetic

A shallow embedding of `src/03-Calendar-Logic-Friday13/main.c`.

Conventions of the embedding:

* the fields of `TDATE` are unsigned in C and natural numbers here; a date
  that the C code can receive has `m_Year < 2^32`, `m_Month < 2^16` and
  `m_Day < 2^16`;
* `long long` values (day counts, the year loop variables) are exact
  integers: a day count is below `2^32 * 366`;
* `int` values are integers between `-2^31` and `2^31 - 1`: the conversion
  `int y = d.m_Year` and the steps `y++`, `y--`, `y -= 1` are followed by
  `wrap32`, the two's-complement result of the usual targets (the conversion
  is implementation-defined in C, an overflowing step is undefined); passing
  an `int` to the `unsigned` or `unsigned short` parameter of `makeDate`
  reduces it modulo `2^32` or `2^16`;
* C's `%` is `Int.tmod` and C's `/` is `Int.tdiv`;
* the `while (1)` loops recurse on a fuel argument, the number of iterations
  allowed: `none` means that the loop is still running when the fuel is
  used up;
* the pointer `date` of the search functions is taken to be non-null: they
  return the value returned and the date left in `*date`;
* the pointer `cnt` of `countFriday13` is an `Option`: `none` is the null
  pointer and `some v` a cell holding `v`; the function returns the value
  returned and the content of the cell afterwards.
-/

namespace Friday13

/-! ## Data model and machine integers -/

/-- The C struct `TDATE`. -/
structure TDATE where
  m_Year : Nat
  m_Month : Nat
  m_Day : Nat
deriving DecidableEq, Repr

/-- The C function `makeDate`. -/
def makeDate (y m d : Nat) : TDATE := ⟨y, m, d⟩

/-- The C macro `BASE_YEAR`. -/
def BASE_YEAR : Int := 1900

/-- The C constant `INT_MAX`. -/
def INT_MAX : Int := 2147483647

/-- The C constant `UINT_MAX`. -/
def UINT_MAX : Nat := 4294967295

/-- The value in `[-2^31, 2^31-1]` congruent to `x` modulo `2^32`: the result
of converting to `int`, and of an `int` step on the usual targets. -/
def wrap32 (x : Int) : Int := (x + 2147483648) % 4294967296 - 2147483648

/-- Conversion of an `int` to `unsigned`: reduction modulo `2^32`. -/
def to_unsigned (x : Int) : Nat := (x % 4294967296).toNat

/-- Conversion of an `int` to `unsigned short`: reduction modulo `2^16`. -/
def to_ushort (x : Int) : Nat := (x % 65536).toNat

/-! ## Calendar -/

/-- The C function `leapCalc`. -/
def leapCalc (yr : Int) : Bool :=
  if Int.tmod yr 4000 = 0 then false
  else if Int.tmod yr 400 = 0 then true
  else if Int.tmod yr 100 = 0 then false
  else decide (Int.tmod yr 4 = 0)

/-- The C function `monthDays`; `md` is its table, read at `mon - 1`. -/
def monthDays (yr : Int) (mon : Int) : Int :=
  let md : List Int := [31, 28, 31, 30, 31, 30, 31, 31, 30, 31, 30, 31]
  if mon = 2 ∧ leapCalc yr = true then 29 else md.getD (mon - 1).toNat 0

/-- The C function `legitDate`. -/
def legitDate (d : TDATE) : Bool :=
  if (d.m_Year : Int) < BASE_YEAR ∨ d.m_Month < 1 ∨ d.m_Month > 12 then false
  else if d.m_Day < 1 ∨ (d.m_Day : Int) > monthDays d.m_Year d.m_Month then false
  else true

/-- The C function `dayCountFrom1900`: the year loop runs over
`y = 1900 .. m_Year - 1`, the month loop over `m = 1 .. m_Month - 1`. -/
def dayCountFrom1900 (d : TDATE) : Int :=
  let total : Int := 0
  let total := (List.range (d.m_Year - 1900)).foldl
    (fun (total : Int) (i : Nat) =>
      total + (if leapCalc ((1900 : Int) + (i : Int)) then 366 else 365)) total
  let total := (List.range' 1 (d.m_Month - 1)).foldl
    (fun (total : Int) (m : Nat) => total + monthDays d.m_Year (m : Int)) total
  total + ((d.m_Day : Int) - 1)

/-- The C function `weekDay` (Zeller's congruence). -/
def weekDay (d : TDATE) : Int :=
  let y : Int := wrap32 d.m_Year
  let m : Int := d.m_Month
  let y := if m < 3 then wrap32 (y - 1) else y
  let m := if m < 3 then m + 12 else m
  let k := Int.tmod y 100
  let j := Int.tdiv y 100
  let h := Int.tmod ((d.m_Day : Int) + Int.tdiv (13 * (m + 1)) 5 + k + Int.tdiv k 4
    + Int.tdiv j 4 + 5 * j) 7
  let w := Int.tmod (h + 6) 7
  w

/-- The C function `isFriday13`. -/
def isFriday13 (d : TDATE) : Bool :=
  legitDate d && decide (d.m_Day = 13) && decide (weekDay d = 5)

/-! ## Counting and searching -/

/-- Body of the inner loop of `countFriday13` for the year `y` and month `m`:
the new value of `res`. -/
def count_step (from_ to_ : TDATE) (res : Int) (y m : Nat) : Int :=
  let chk := makeDate y m 13
  if !legitDate chk then res
  else if dayCountFrom1900 chk < dayCountFrom1900 from_ ∨
      dayCountFrom1900 chk > dayCountFrom1900 to_ then res
  else if isFriday13 chk then res + 1
  else res

/-- The C function `countFriday13`, with the pointer `cnt` (`none` when null):
the value returned and the content of the cell of `cnt` afterwards. The outer
loop runs over `y = y1 .. y2`, the inner loop over `m = mStart .. mEnd`. -/
def countFriday13 (from_ to_ : TDATE) (cnt : Option Int) : Bool × Option Int :=
  if cnt.isNone || !legitDate from_ || !legitDate to_ then (false, cnt)
  else if dayCountFrom1900 to_ < dayCountFrom1900 from_ then (false, cnt)
  else
    let y1 := from_.m_Year
    let y2 := to_.m_Year
    let startM := from_.m_Month
    let endM := to_.m_Month
    (true, some ((List.range' y1 (y2 + 1 - y1)).foldl
      (fun res y =>
        let mStart := if y = y1 then startM else 1
        let mEnd := if y = y2 then endM else 12
        (List.range' mStart (mEnd + 1 - mStart)).foldl
          (fun res m => count_step from_ to_ res y m) res)
      0))

/-- The test of a candidate in `prevFriday13`. -/
def accept_prev (date cand : TDATE) : Bool :=
  legitDate cand && decide (dayCountFrom1900 cand < dayCountFrom1900 date) && isFriday13 cand

/-- The loop of `prevFriday13` on the `int` variables `y` and `m`: the value
returned and the date left in `*date`. -/
def prev_loop (date : TDATE) : Nat → Int → Int → Option (Bool × TDATE)
  | 0, _, _ => none
  | fuel + 1, y, m =>
    let cand := makeDate (to_unsigned y) (to_ushort m) 13
    if accept_prev date cand then some (true, cand)
    else
      let m1 := m - 1
      let y1 := if m1 < 1 then wrap32 (y - 1) else y
      let m2 := if m1 < 1 then 12 else m1
      if y1 < BASE_YEAR then some (false, date)
      else prev_loop date fuel y1 m2

/-- The C function `prevFriday13`. -/
def prevFriday13 (fuel : Nat) (date : TDATE) : Option (Bool × TDATE) :=
  if !legitDate date then some (false, date)
  else prev_loop date fuel (wrap32 date.m_Year) date.m_Month

/-- The test of a candidate in `nextFriday13`. -/
def accept_next (date cand : TDATE) : Bool :=
  legitDate cand && decide (dayCountFrom1900 cand > dayCountFrom1900 date) && isFriday13 cand

/-- The loop of `nextFriday13` on the `int` variables `y` and `m`. -/
def next_loop (date : TDATE) : Nat → Int → Int → Option (Bool × TDATE)
  | 0, _, _ => none
  | fuel + 1, y, m =>
    let cand := makeDate (to_unsigned y) (to_ushort m) 13
    if accept_next date cand then some (true, cand)
    else
      let m1 := m + 1
      let y1 := if m1 > 12 then wrap32 (y + 1) else y
      let m2 := if m1 > 12 then 1 else m1
      next_loop date fuel y1 m2

/-- The C function `nextFriday13`. -/
def nextFriday13 (fuel : Nat) (date : TDATE) : Option (Bool × TDATE) :=
  if !legitDate date then some (false, date)
  else next_loop date fuel (wrap32 date.m_Year) date.m_Month

/-! ## Reference notions (from the calendar) -/

/-- Chronological order of dates: by year, then month, then day. -/
def date_before (a b : TDATE) : Prop :=
  a.m_Year < b.m_Year ∨ (a.m_Year = b.m_Year ∧
    (a.m_Month < b.m_Month ∨ (a.m_Month = b.m_Month ∧ a.m_Day < b.m_Day)))

instance (a b : TDATE) : Decidable (date_before a b) := by
  unfold date_before; infer_instance

/-- The number of days of the years `1900 .. Y-1`. -/
def year_days (Y : Nat) : Int :=
  (List.range (Y - 1900)).foldl
    (fun (total : Int) (i : Nat) =>
      total + (if leapCalc ((1900 : Int) + (i : Int)) then 366 else 365)) 0

/-- The number of days of the months `1 .. M-1` of year `Y`. -/
def month_days_before (Y M : Nat) : Int :=
  (List.range' 1 (M - 1)).foldl (fun (total : Int) (m : Nat) => total + monthDays Y (m : Int)) 0

/-- The number of days of the years `1 .. x` in the Gregorian calendar, where
every fourth year is a leap year except the centuries not divisible by 400. -/
def gregorian_days (x : Int) : Int := 365 * x + x / 4 - x / 100 + x / 400

/-- The number of the month `m` of year `y`, months counted from January of
year 0. -/
def month_index (y m : Nat) : Nat := 12 * y + (m - 1)

/-- The 13th of the month with number `t`: the candidate that the search
loops test in that month. -/
def month_cand (t : Nat) : TDATE := ⟨t / 12, t % 12 + 1, 13⟩

/-- A Friday 13th of the calendar: a legit 13th whose day count falls on a
Friday, day 0 (1900-01-01) being a Monday. -/
def calendar_friday13 (d : TDATE) : Prop :=
  legitDate d = true ∧ d.m_Day = 13 ∧ (dayCountFrom1900 d + 1) % 7 = 5

instance (d : TDATE) : Decidable (calendar_friday13 d) := by
  unfold calendar_friday13; infer_instance

/-- A date that counts between `from_` and `to_`: a legit 13th for which
`weekDay` returns 5, not before `from_` and not after `to_`. -/
def counted (from_ to_ d : TDATE) : Prop :=
  legitDate d = true ∧ d.m_Day = 13 ∧ weekDay d = 5 ∧
  dayCountFrom1900 from_ ≤ dayCountFrom1900 d ∧ dayCountFrom1900 d ≤ dayCountFrom1900 to_

instance (from_ to_ d : TDATE) : Decidable (counted from_ to_ d) := by
  unfold counted; infer_instance

end Friday13

/-!
# Toll system: searching the sightings of a car

A shallow embedding of the timestamp comparison and the two binary searches
of `src/05-Toll-System-Traffic-Analysis/main.c`.

Conventions of the embedding:

* the `int` fields of a `Tick` are integers and `tick_cmp` subtracts them
  exactly; `tick_cmp32` is the same function with every subtraction wrapped
  to 32 bits, and the two agree on the timestamps that `valid_tick` accepts,
  the only ones that the program stores or searches for;
* the array `arr` of `n` sightings is a list read with a default value, and
  indices (`size_t`) are natural numbers;
* the `while` loops recurse on a fuel argument that the caller sets to `n`,
  the interval `left..right` losing at least one index per iteration.
-/

namespace TollSystem

/-- The C struct `Tick`: month, day, hour, minute. -/
structure Tick where
  m : Int
  d : Int
  h : Int
  n : Int
deriving DecidableEq, Repr

/-- The C struct `Peep`: one sighting, a camera number and a timestamp. -/
structure Peep where
  camid : Int
  t : Tick
deriving DecidableEq, Repr

/-- The C table `month_days`. -/
def month_days : List Int := [31, 28, 31, 30, 31, 30, 31, 31, 30, 31, 30, 31]

/-- The C function `valid_tick`. -/
def valid_tick (t : Tick) : Bool :=
  if t.m < 1 ∨ t.m > 12 then false
  else if t.d < 1 ∨ t.d > month_days.getD (t.m - 1).toNat 0 then false
  else if t.h < 0 ∨ t.h > 23 then false
  else if t.n < 0 ∨ t.n > 59 then false
  else true

/-- The C function `tick_cmp`. -/
def tick_cmp (a b : Tick) : Int :=
  if a.m ≠ b.m then a.m - b.m
  else if a.d ≠ b.d then a.d - b.d
  else if a.h ≠ b.h then a.h - b.h
  else a.n - b.n

/-- The value in `[-2^31, 2^31-1]` congruent to `x` modulo `2^32`. -/
def wrap32 (x : Int) : Int := (x + 2147483648) % 4294967296 - 2147483648

/-- The C function `tick_cmp` in 32-bit arithmetic. -/
def tick_cmp32 (a b : Tick) : Int :=
  if a.m ≠ b.m then wrap32 (a.m - b.m)
  else if a.d ≠ b.d then wrap32 (a.d - b.d)
  else if a.h ≠ b.h then wrap32 (a.h - b.h)
  else wrap32 (a.n - b.n)

/-- The read `arr[i].t`. -/
def tickAt (arr : List Peep) (i : Nat) : Tick := (arr.getD i ⟨0, ⟨0, 0, 0, 0⟩⟩).t

/-- The loop of `lower_bound` on the state `(left, right)`. -/
def lower_bound_loop (arr : List Peep) (target : Tick) : Nat → Nat → Nat → Nat
  | 0, left, _ => left
  | fuel + 1, left, right =>
    if left < right then
      let mid := left + (right - left) / 2
      if tick_cmp (tickAt arr mid) target < 0 then lower_bound_loop arr target fuel (mid + 1) right
      else lower_bound_loop arr target fuel left mid
    else left

/-- The C function `lower_bound`. -/
def lower_bound (arr : List Peep) (n : Nat) (target : Tick) : Nat :=
  lower_bound_loop arr target n 0 n

/-- The loop of `upper_bound` on the state `(left, right)`. -/
def upper_bound_loop (arr : List Peep) (target : Tick) : Nat → Nat → Nat → Nat
  | 0, left, _ => left
  | fuel + 1, left, right =>
    if left < right then
      let mid := left + (right - left) / 2
      if tick_cmp (tickAt arr mid) target ≤ 0 then upper_bound_loop arr target fuel (mid + 1) right
      else upper_bound_loop arr target fuel left mid
    else left

/-- The C function `upper_bound`. -/
def upper_bound (arr : List Peep) (n : Nat) (target : Tick) : Nat :=
  upper_bound_loop arr target n 0 n

/-- The array of `n` sightings is sorted non-decreasingly by `tick_cmp`, as
`qsort` with `peep_cmp` leaves it. -/
def SortedPeeps (arr : List Peep) (n : Nat) : Prop :=
  ∀ j, j < n → ∀ i, i < j → tick_cmp (tickAt arr i) (tickAt arr j) ≤ 0

instance (arr : List Peep) (n : Nat) : Decidable (SortedPeeps arr n) := by
  unfold SortedPeeps; infer_instance

/-- The binary search for the first index in `left..right` at which a test on
the index fails: the common shape of the two loops. -/
def partition_loop (p : Nat → Bool) : Nat → Nat → Nat → Nat
  | 0, left, _ => left
  | fuel + 1, left, right =>
    if left < right then
      let mid := left + (right - left) / 2
      if p mid then partition_loop p fuel (mid + 1) right
      else partition_loop p fuel left mid
    else left

end TollSystem

set_option maxRecDepth 8192

namespace RoadMaintenance

/-! ## Range aggregation: `compute_total_exact` against the per-day sum -/

section Aggregation

theorem entryAt_eq_getElem (h : CostHistory) (i : Nat) (hi : i < h.length) :
    entryAt h i = h[i] := by
  unfold entryAt; exact List.getD_eq_getElem _ _ hi

/-- The seek loop stops at the first index at or after `i` whose entry has
`day > start` (or at `count`). -/
theorem seek_loop_spec (h : CostHistory) (start : Int) (fuel i : Nat)
    (hf : h.length - i ≤ fuel) (hi : i ≤ h.length) :
    i ≤ seek_loop h start fuel i ∧ seek_loop h start fuel i ≤ h.length ∧
    (∀ j, i ≤ j → j < seek_loop h start fuel i → (entryAt h j).day ≤ start) ∧
    (seek_loop h start fuel i < h.length →
      start < (entryAt h (seek_loop h start fuel i)).day) := by
  induction fuel generalizing i with
  | zero =>
    have : i = h.length := by omega
    subst this
    simp [seek_loop]
    intro j h1 h2; omega
  | succ fuel ih =>
    unfold seek_loop
    by_cases hc : i < h.length ∧ (entryAt h i).day ≤ start
    · rw [if_pos hc]
      obtain ⟨h1, h2, h3, h4⟩ := ih (i + 1) (by omega) (by omega)
      refine ⟨by omega, h2, ?_, h4⟩
      intro j hj1 hj2
      rcases Nat.eq_or_lt_of_le hj1 with heq | hlt
      · subst heq; exact hc.2
      · exact h3 j (by omega) hj2
    · rw [if_neg hc]
      refine ⟨le_refl _, hi, ?_, ?_⟩
      · intro j h1 h2; omega
      · intro hlt
        by_contra hcon
        exact hc ⟨hlt, by omega⟩

/-- More fuel than the remaining entries does not change the seek loop. -/
theorem seek_loop_fuel (h : CostHistory) (start : Int) (fuel i : Nat)
    (hf : h.length - i ≤ fuel) :
    seek_loop h start fuel i = seek_loop h start (h.length - i) i := by
  induction fuel generalizing i with
  | zero =>
    have : h.length - i = 0 := by omega
    rw [this]
  | succ fuel ih =>
    by_cases hi : i < h.length
    · obtain ⟨k, hk⟩ : ∃ k, h.length - i = k + 1 := ⟨h.length - i - 1, by omega⟩
      rw [hk]
      unfold seek_loop
      by_cases hc : i < h.length ∧ (entryAt h i).day ≤ start
      · rw [if_pos hc, if_pos hc, ih (i + 1) (by omega)]
        have : h.length - (i + 1) = k := by omega
        rw [this]
      · rw [if_neg hc, if_neg hc]
    · have : h.length - i = 0 := by omega
      rw [this]
      unfold seek_loop
      rw [if_neg (by omega)]

/-- Once the window is exhausted the summation loop returns its accumulator. -/
theorem sum_loop_exact_done (h : CostHistory) (end_ : Int) (fuel : Nat) (cur : Int) (i : Nat)
    (total : Int) (hd : end_ < cur ∨ h.length ≤ i) :
    sum_loop_exact h end_ fuel cur i total = total := by
  cases fuel with
  | zero => rfl
  | succ fuel =>
    unfold sum_loop_exact
    rw [if_neg (by omega)]

theorem sum_Icc_split (f : Int → Int) (a b c : Int) (h1 : a ≤ b + 1) (h2 : b ≤ c) :
    ∑ D in Finset.Icc a c, f D
      = ∑ D in Finset.Icc a b, f D + ∑ D in Finset.Icc (b + 1) c, f D := by
  rw [← Finset.sum_union]
  · congr 1; ext x; simp only [Finset.mem_Icc, Finset.mem_union]; omega
  · rw [Finset.disjoint_left]; intro x; simp only [Finset.mem_Icc]; omega

theorem sum_Icc_const (f : Int → Int) (a b k : Int) (h1 : a ≤ b + 1)
    (hf : ∀ D, a ≤ D → D ≤ b → f D = k) :
    ∑ D in Finset.Icc a b, f D = (b - a + 1) * k := by
  rw [Finset.sum_congr rfl (fun D hD => hf D (Finset.mem_Icc.1 hD).1 (Finset.mem_Icc.1 hD).2)]
  rw [Finset.sum_const, Int.card_Icc, nsmul_eq_mul]
  congr 1
  omega

/-- In a history with strictly increasing days, entry `i` is the effective
one on every day from its own day up to the day before the next entry. -/
theorem effective_cost_eq (h : CostHistory) (hs : h.Pairwise (fun a b => a.day < b.day))
    (i : Nat) (hi : i < h.length) (D : Int) (h1 : (entryAt h i).day ≤ D)
    (h2 : i + 1 < h.length → D < (entryAt h (i + 1)).day) :
    effective_cost h D = (entryAt h i).cost := by
  have hsplit : h = h.take i ++ h[i] :: h.drop (i + 1) := by
    rw [← List.drop_eq_getElem_cons hi, List.take_append_drop]
  have hlater : ∀ y ∈ h.drop (i + 1), D < y.day := by
    intro y hy
    by_cases hi1 : i + 1 < h.length
    · rw [List.drop_eq_getElem_cons hi1] at hy
      have hD := h2 hi1
      rw [entryAt_eq_getElem h (i + 1) hi1] at hD
      rcases List.mem_cons.1 hy with rfl | hy
      · exact hD
      · have hp : (h[i + 1] :: h.drop (i + 1 + 1)).Pairwise (fun a b => a.day < b.day) := by
          rw [← List.drop_eq_getElem_cons hi1]
          exact hs.sublist (List.drop_sublist _ _)
        have := (List.pairwise_cons.1 hp).1 y hy
        omega
    · rw [List.drop_eq_nil_of_le (by omega)] at hy
      simp at hy
  have hfil : (h.drop (i + 1)).filter (fun e => decide (e.day ≤ D)) = [] := by
    rw [List.filter_eq_nil_iff]
    intro y hy
    have := hlater y hy
    simp; omega
  rw [entryAt_eq_getElem h i hi] at h1 ⊢
  unfold effective_cost
  have : (h.filter (fun e => decide (e.day ≤ D))).getLast? = some h[i] := by
    conv_lhs => rw [hsplit]
    rw [List.filter_append, List.filter_cons_of_pos (by simpa using h1), hfil,
      List.getLast?_append_cons]
    rfl
  rw [this]

/-- Invariant of the summation loop: started at an entry that is in force
on day `cur`, it adds the per-day sum of the effective cost over
`cur..end_`. -/
theorem sum_loop_exact_spec (h : CostHistory) (hs : h.Pairwise (fun a b => a.day < b.day))
    (end_ : Int) (fuel : Nat) (cur : Int) (i : Nat) (total : Int)
    (hi : i < h.length) (hf : h.length - i ≤ fuel)
    (h1 : (entryAt h i).day ≤ cur)
    (h2 : i + 1 < h.length → cur < (entryAt h (i + 1)).day) :
    sum_loop_exact h end_ fuel cur i total = total + per_day_total h cur end_ := by
  induction fuel generalizing cur i total with
  | zero => omega
  | succ fuel ih =>
    unfold sum_loop_exact
    by_cases hc : cur ≤ end_
    · rw [if_pos ⟨hc, hi⟩]
      simp only []
      by_cases hn : i + 1 < h.length ∧ (entryAt h (i + 1)).day - 1 ≤ end_
      · -- the next entry starts inside the window
        obtain ⟨hn1, hn2⟩ := hn
        have hlt := h2 hn1
        rw [if_pos hn1, if_neg (by omega), if_pos (by omega)]
        rw [ih _ _ _ hn1 (by omega) (by omega)]
        · unfold per_day_total
          rw [sum_Icc_split (effective_cost h) cur ((entryAt h (i + 1)).day - 1) end_
            (by omega) hn2]
          rw [sum_Icc_const (effective_cost h) cur ((entryAt h (i + 1)).day - 1)
            (entryAt h i).cost (by omega)
            (fun D hD1 hD2 => effective_cost_eq h hs i hi D (by omega) (fun _ => by omega))]
          ring
        · intro hi2
          have := (List.pairwise_iff_getElem.1 hs) (i + 1) (i + 1 + 1) hn1 hi2 (by omega)
          rw [entryAt_eq_getElem h _ hi2, entryAt_eq_getElem h _ hn1]
          omega
      · -- the current entry covers the rest of the window
        have he : (if (if i + 1 < h.length then (entryAt h (i + 1)).day - 1 else end_) > end_
            then end_ else (if i + 1 < h.length then (entryAt h (i + 1)).day - 1 else end_))
            = end_ := by
          by_cases hn1 : i + 1 < h.length
          · rw [if_pos hn1, if_pos (by
              have : ¬ (entryAt h (i + 1)).day - 1 ≤ end_ := fun hh => hn ⟨hn1, hh⟩
              omega)]
          · rw [if_neg hn1, if_neg (by omega)]
        rw [he, if_pos hc, sum_loop_exact_done h end_ fuel (end_ + 1) (i + 1) _ (Or.inl (by omega))]
        unfold per_day_total
        rw [sum_Icc_const (effective_cost h) cur end_ (entryAt h i).cost (by omega)]
        intro D hD1 hD2
        apply effective_cost_eq h hs i hi D (by omega)
        intro hn1
        have : ¬ (entryAt h (i + 1)).day - 1 ≤ end_ := fun hh => hn ⟨hn1, hh⟩
        omega
    · rw [if_neg (by omega)]
      unfold per_day_total
      rw [Finset.Icc_eq_empty (by omega)]
      simp

/-- On a valid history and a window starting at day 0 or later,
`compute_total_exact` is the per-day sum of the effective cost. -/
theorem compute_total_exact_eq_per_day (h : CostHistory) (hv : ValidHistory h) (start end_ : Int)
    (h0 : 0 ≤ start) (hse : start ≤ end_) :
    compute_total_exact h start end_ = per_day_total h start end_ := by
  obtain ⟨hne, hd0, hs⟩ := hv
  have hlen : 0 < h.length := List.length_pos.2 hne
  unfold compute_total_exact
  rw [if_neg (by omega)]
  simp only []
  obtain ⟨-, r2, r3, r4⟩ := seek_loop_spec h start h.length 0 (by omega) (by omega)
  have hpos : 0 < seek_loop h start h.length 0 := by
    by_contra hcon
    have hz : seek_loop h start h.length 0 = 0 := by omega
    have := r4 (by omega)
    rw [hz] at this
    omega
  rw [if_pos hpos]
  rw [sum_loop_exact_spec h hs end_ h.length start _ 0 (by omega) (by omega)
    (r3 _ (by omega) (by omega))]
  · simp
  · intro hlt
    have e : seek_loop h start h.length 0 - 1 + 1 = seek_loop h start h.length 0 := by omega
    rw [e] at hlt ⊢
    exact r4 hlt

end Aggregation

section Ledger

/-- More fuel than the remaining entries does not change the summation loop. -/
theorem sum_loop_exact_fuel (h : CostHistory) (end_ : Int) (fuel : Nat) (cur : Int) (i : Nat)
    (total : Int) (hf : h.length - i ≤ fuel) :
    sum_loop_exact h end_ fuel cur i total = sum_loop_exact h end_ (h.length - i) cur i total := by
  induction fuel generalizing cur i total with
  | zero =>
    have : h.length - i = 0 := by omega
    rw [this]
  | succ fuel ih =>
    by_cases hi : i < h.length
    · obtain ⟨k, hk⟩ : ∃ k, h.length - i = k + 1 := ⟨h.length - i - 1, by omega⟩
      rw [hk]
      unfold sum_loop_exact
      by_cases hc : cur ≤ end_ ∧ i < h.length
      · rw [if_pos hc, if_pos hc]
        simp only []
        rw [ih _ (i + 1) _ (by omega)]
        have : h.length - (i + 1) = k := by omega
        rw [this]
      · rw [if_neg hc, if_neg hc]
    · rw [sum_loop_exact_done h end_ _ cur i total (Or.inr (by omega)),
        sum_loop_exact_done h end_ _ cur i total (Or.inr (by omega))]

theorem per_day_total_single (h : CostHistory) (d : Int) :
    per_day_total h d d = effective_cost h d := by
  unfold per_day_total
  rw [Finset.Icc_self, Finset.sum_singleton]

/-- In a history with strictly increasing days the last entry has the
largest day. -/
theorem day_le_last (h : CostHistory) (hs : h.Pairwise (fun a b => a.day < b.day))
    (x : CostEntry) (hl : h.getLast? = some x) : ∀ a ∈ h, a.day ≤ x.day := by
  obtain ⟨ys, rfl⟩ := List.getLast?_eq_some_iff.1 hl
  intro a ha
  rcases List.mem_append.1 ha with ha | ha
  · exact le_of_lt ((List.pairwise_append.1 hs).2.2 a ha x (by simp))
  · simp at ha; subst ha; exact le_refl _

/-- Appending an entry with a later day keeps a history valid. -/
theorem add_cost_valid (h : CostHistory) (hv : ValidHistory h) (P c_prev D C : Int)
    (hl : h.getLast? = some ⟨P, c_prev⟩) (hD : P < D) : ValidHistory (add_cost h D C) := by
  obtain ⟨hne, hd0, hs⟩ := hv
  refine ⟨by simp [add_cost], ?_, ?_⟩
  · cases h with
    | nil => exact absurd rfl hne
    | cons a t => simpa [add_cost, entryAt] using hd0
  · unfold add_cost
    rw [List.pairwise_append]
    refine ⟨hs, by simp, ?_⟩
    intro a ha b hb
    simp at hb; subst hb
    have := day_le_last h hs _ hl a ha
    simp only at this ⊢
    omega

theorem effective_cost_add_cost_new (h : CostHistory) (D C : Int) :
    effective_cost (add_cost h D C) D = C := by
  unfold effective_cost add_cost
  rw [List.filter_append, List.filter_cons_of_pos (by simp), List.filter_nil,
    List.getLast?_concat]

theorem effective_cost_add_cost_old (h : CostHistory)
    (hs : h.Pairwise (fun a b => a.day < b.day)) (P c_prev D C d : Int)
    (hl : h.getLast? = some ⟨P, c_prev⟩) (h1 : P ≤ d) (h2 : d < D) :
    effective_cost (add_cost h D C) d = c_prev := by
  unfold effective_cost add_cost
  rw [List.filter_append, List.filter_cons_of_neg (by simp; omega), List.filter_nil,
    List.append_nil]
  have : h.filter (fun e => decide (e.day ≤ d)) = h := by
    rw [List.filter_eq_self]
    intro a ha
    have := day_le_last h hs _ hl a ha
    simp only at this
    simp; omega
  rw [this, hl]

theorem first_day_le_last (h : CostHistory) (hv : ValidHistory h) (P c_prev : Int)
    (hl : h.getLast? = some ⟨P, c_prev⟩) : 0 ≤ P := by
  obtain ⟨hne, hd0, hs⟩ := hv
  cases h with
  | nil => exact absurd rfl hne
  | cons a t =>
    have := day_le_last _ hs _ hl a (by simp)
    simp [entryAt] at hd0
    simp only at this
    omega

end Ledger

/-! ## Duplicate detection and insertion -/

section Dedup

theorem min?_int_iff (xs : List Int) (a : Int) :
    xs.min? = some a ↔ a ∈ xs ∧ ∀ b ∈ xs, a ≤ b := by
  haveI : Std.Antisymm (fun a b : Int => a ≤ b) := ⟨fun h1 h2 => Int.le_antisymm h1 h2⟩
  apply List.min?_eq_some_iff
  · intro a; exact le_refl a
  · intro a b; exact min_choice a b
  · intro a b c; exact le_min_iff

theorem assignment_eq_iff (a b : Assignment) :
    a = b ↔ a.s1 = b.s1 ∧ a.e1 = b.e1 ∧ a.s2 = b.s2 ∧ a.e2 = b.e2 := by
  constructor
  · rintro rfl; exact ⟨rfl, rfl, rfl, rfl⟩
  · cases a; cases b; simp only [Assignment.mk.injEq]; exact id

theorem duplicate_loop_iff (na : Assignment) (n : Int) (L : AssignmentList) :
    duplicate_loop na n L = true ↔ na ∈ canon n L := by
  induction L with
  | nil => simp [duplicate_loop, canon]
  | cons it rest ih =>
    unfold duplicate_loop
    simp only []
    by_cases hc : na.s1 = (normalize it n).s1 ∧ na.e1 = (normalize it n).e1 ∧
        na.s2 = (normalize it n).s2 ∧ na.e2 = (normalize it n).e2
    · rw [if_pos hc]
      have : na = normalize it n := (assignment_eq_iff _ _).2 hc
      simp [canon, this]
    · rw [if_neg hc, ih]
      have : na ≠ normalize it n := fun h => hc ((assignment_eq_iff _ _).1 h)
      simp [canon, this]

theorem add_asg_eq (n : Int) (L : AssignmentList) (a : Assignment) :
    add_asg n L a = if normalize a n ∈ canon n L then L else L ++ [a] := by
  unfold add_asg add_assignment duplicate
  by_cases h : normalize a n ∈ canon n L
  · rw [if_pos h, if_pos ((duplicate_loop_iff _ n L).2 h)]
  · rw [if_neg h, if_neg (fun hh => h ((duplicate_loop_iff _ n L).1 hh))]

/-- Inserting a list of assignments one by one keeps exactly the first
occurrence of each canonical form. -/
theorem foldl_add_asg_eq (n : Int) (l acc : AssignmentList) :
    l.foldl (add_asg n) acc = acc ++ first_occurrences n l (canon n acc) := by
  induction l generalizing acc with
  | nil => simp [first_occurrences]
  | cons a rest ih =>
    rw [List.foldl_cons, ih, add_asg_eq]
    by_cases h : normalize a n ∈ canon n acc
    · rw [if_pos h]
      conv_rhs => rw [first_occurrences, if_pos h]
    · rw [if_neg h]
      conv_rhs => rw [first_occurrences, if_neg h]
      simp [canon]

theorem mem_foldl_add_asg (n : Int) (l acc : AssignmentList) (x : Assignment)
    (hx : x ∈ l.foldl (add_asg n) acc) : x ∈ acc ∨ x ∈ l := by
  induction l generalizing acc with
  | nil => exact Or.inl hx
  | cons a rest ih =>
    rw [List.foldl_cons] at hx
    rcases ih _ hx with h | h
    · rw [add_asg_eq] at h
      by_cases hc : normalize a n ∈ canon n acc
      · rw [if_pos hc] at h; exact Or.inl h
      · rw [if_neg hc] at h
        rcases List.mem_append.1 h with h | h
        · exact Or.inl h
        · simp at h; subst h; exact Or.inr (by simp)
    · exact Or.inr (List.mem_cons_of_mem _ h)

theorem canon_add_asg_subset (n : Int) (acc : AssignmentList) (a y : Assignment)
    (hy : y ∈ canon n acc) : y ∈ canon n (add_asg n acc a) := by
  rw [add_asg_eq]
  by_cases hc : normalize a n ∈ canon n acc
  · rw [if_pos hc]; exact hy
  · rw [if_neg hc]; unfold canon at hy ⊢; rw [List.map_append]; exact List.mem_append_left _ hy

theorem canon_mem_add_asg (n : Int) (acc : AssignmentList) (a : Assignment) :
    normalize a n ∈ canon n (add_asg n acc a) := by
  rw [add_asg_eq]
  by_cases hc : normalize a n ∈ canon n acc
  · rw [if_pos hc]; exact hc
  · rw [if_neg hc]; unfold canon; simp

theorem canon_foldl_subset (n : Int) (l acc : AssignmentList) (y : Assignment)
    (hy : y ∈ canon n acc) : y ∈ canon n (l.foldl (add_asg n) acc) := by
  induction l generalizing acc with
  | nil => exact hy
  | cons a rest ih => exact ih _ (canon_add_asg_subset n acc a y hy)

/-- Every inserted assignment has its canonical form in the resulting list. -/
theorem canon_mem_foldl (n : Int) (l acc : AssignmentList) (x : Assignment) (hx : x ∈ l) :
    normalize x n ∈ canon n (l.foldl (add_asg n) acc) := by
  induction l generalizing acc with
  | nil => simp at hx
  | cons a rest ih =>
    rw [List.foldl_cons]
    rcases List.mem_cons.1 hx with rfl | h
    · exact canon_foldl_subset n rest _ _ (canon_mem_add_asg n acc x)
    · exact ih _ h

theorem canon_nodup_add_asg (n : Int) (acc : AssignmentList) (a : Assignment)
    (h : (canon n acc).Nodup) : (canon n (add_asg n acc a)).Nodup := by
  rw [add_asg_eq]
  by_cases hc : normalize a n ∈ canon n acc
  · rw [if_pos hc]; exact h
  · rw [if_neg hc]
    unfold canon at hc h ⊢
    rw [List.map_append, List.nodup_append]
    refine ⟨h, by simp, ?_⟩
    intro x hx1 hx2
    simp at hx2
    subst hx2
    exact hc hx1

theorem canon_nodup_foldl (n : Int) (l acc : AssignmentList) (h : (canon n acc).Nodup) :
    (canon n (l.foldl (add_asg n) acc)).Nodup := by
  induction l generalizing acc with
  | nil => exact h
  | cons a rest ih => exact ih _ (canon_nodup_add_asg n acc a h)

end Dedup

/-! ## The sweep as a fold over the candidate list -/

section Sweep

theorem sweep_step_exact_eq (pref : List Int) (total : Int) (n : Nat) (st : Int × AssignmentList)
    (p : Nat × Nat) :
    sweep_step_exact pref total n st p.1 p.2
      = abs_step (code_diff_exact pref total) (code_asg n) n st p := rfl

theorem foldl_flatMap_eq {α β γ : Type} (f : α → List β) (g : γ → β → γ) (L : List α) (st : γ) :
    (L.flatMap f).foldl g st = L.foldl (fun st a => (f a).foldl g st) st := by
  induction L generalizing st with
  | nil => rfl
  | cons a rest ih => rw [List.flatMap_cons, List.foldl_append, ih, List.foldl_cons]

theorem sweep_exact_eq_foldl (pref : List Int) (total : Int) (n : Nat) (st : Int × AssignmentList) :
    sweep_exact pref total n st
      = (ref_candidates n).foldl (abs_step (code_diff_exact pref total) (code_asg n) n) st := by
  unfold sweep_exact ref_candidates
  rw [foldl_flatMap_eq]
  congr 1
  funext st start
  rw [List.foldl_map]
  rfl

end Sweep

section SweepResult

theorem abs_result_nil {α : Type} (D : α → Int) (A : α → Assignment) (n : Int) :
    abs_result D A n [] = (-1, []) := rfl

theorem abs_result_of_min {α : Type} (D : α → Int) (A : α → Assignment) (n : Int)
    (l : List α) (m : Int) (hm : (l.map D).min? = some m) :
    abs_result D A n l
      = (m, ((l.filter fun x => decide (D x = m)).map A).foldl (add_asg n) []) := by
  unfold abs_result; rw [hm]

/-- The single-pass sweep with reset on improvement computes the minimum
diff and the candidates reaching it, inserted in order. -/
theorem abs_sweep {α : Type} (D : α → Int) (A : α → Assignment) (n : Int) (l : List α)
    (hD : ∀ x ∈ l, 0 ≤ D x) :
    l.foldl (abs_step D A n) (-1, []) = abs_result D A n l := by
  induction l using List.reverseRecOn with
  | nil => rfl
  | append_singleton l x ih =>
    rw [List.foldl_append, ih (fun y hy => hD y (List.mem_append_left _ hy))]
    simp only [List.foldl_cons, List.foldl_nil]
    have hx : 0 ≤ D x := hD x (by simp)
    cases hmin : (l.map D).min? with
    | none =>
      have hl : l = [] := by
        have := List.min?_eq_none_iff.1 hmin
        simpa using this
      subst hl
      have h1 : ((([] : List α) ++ [x]).map D).min? = some (D x) := by
        rw [min?_int_iff]; simp
      rw [abs_result_nil, abs_result_of_min D A n _ _ h1]
      unfold abs_step
      rw [if_pos (Or.inl (by decide))]
      simp
    | some m =>
      obtain ⟨hm1, hm2⟩ := (min?_int_iff _ _).1 hmin
      have hm0 : 0 ≤ m := by
        obtain ⟨y, hy, rfl⟩ := List.mem_map.1 hm1
        exact hD y (List.mem_append_left _ hy)
      have hle : ∀ y ∈ l, m ≤ D y := fun y hy => hm2 _ (List.mem_map.2 ⟨y, hy, rfl⟩)
      rw [abs_result_of_min D A n l m hmin]
      unfold abs_step
      simp only []
      by_cases h1 : D x < m
      · -- strict improvement: the list is reset
        have hmin2 : ((l ++ [x]).map D).min? = some (D x) := by
          rw [min?_int_iff]
          refine ⟨by simp, ?_⟩
          intro b hb
          rw [List.map_append, List.mem_append] at hb
          rcases hb with hb | hb
          · have := hm2 b hb; omega
          · simp at hb; omega
        rw [if_pos (Or.inr h1), abs_result_of_min D A n _ _ hmin2]
        have hf : l.filter (fun y => decide (D y = D x)) = [] := by
          rw [List.filter_eq_nil_iff]
          intro y hy
          have := hle y hy
          simp; omega
        rw [List.filter_append, hf]
        simp
      · have hmin2 : ((l ++ [x]).map D).min? = some m := by
          rw [min?_int_iff]
          refine ⟨by rw [List.map_append]; exact List.mem_append_left _ hm1, ?_⟩
          intro b hb
          rw [List.map_append, List.mem_append] at hb
          rcases hb with hb | hb
          · exact hm2 b hb
          · simp at hb; omega
        rw [if_neg (by omega), abs_result_of_min D A n _ _ hmin2, List.filter_append]
        by_cases h2 : D x = m
        · -- a tie: the candidate is inserted
          rw [if_pos h2]
          have : [x].filter (fun y => decide (D y = m)) = [x] := by simp [h2]
          rw [this, List.map_append, List.foldl_append]
          rfl
        · -- worse than the best: nothing changes
          rw [if_neg h2]
          have : [x].filter (fun y => decide (D y = m)) = [] := by simp [h2]
          rw [this, List.append_nil]

end SweepResult

/-! ## Prefix sums over the doubled cost vector -/

section Prefix

theorem sum_take_succ_getD (l : List Int) (k : Nat) :
    (l.take (k + 1)).sum = (l.take k).sum + l.getD k 0 := by
  rw [List.take_succ, List.sum_append]
  by_cases hk : k < l.length
  · rw [List.getElem?_eq_getElem hk, List.getD_eq_getElem _ _ hk]; simp
  · rw [List.getElem?_eq_none (by omega), List.getD_eq_default _ _ (by omega)]; simp

theorem sum_take_eq_sum_range (l : List Int) (k : Nat) :
    (l.take k).sum = ∑ i in Finset.range k, l.getD i 0 := by
  induction k with
  | zero => simp
  | succ k ih => rw [sum_take_succ_getD, Finset.sum_range_succ, ih]

theorem total_loop_exact_eq (c : List Int) (k : Nat) :
    total_loop_exact c k = (c.take k).sum := by
  unfold total_loop_exact
  induction k with
  | zero => simp
  | succ k ih =>
    rw [List.range_succ, List.foldl_append, ih, sum_take_succ_getD]
    rfl

theorem total_loop_exact_eq_sum (c : List Int) (n : Nat) (hc : c.length = n) :
    total_loop_exact c n = c.sum := by
  rw [total_loop_exact_eq, ← hc, List.take_length]

theorem doubled_getD (c : List Int) (n : Nat) (hc : c.length = n) (i : Nat) (hi : i < 2 * n) :
    (c ++ c).getD i 0 = costAt c (i % n) := by
  unfold costAt
  by_cases h : i < n
  · rw [List.getD_append _ _ _ _ (by omega), Nat.mod_eq_of_lt h]
  · rw [List.getD_append_right _ _ _ _ (by omega), hc]
    congr 1
    rw [Nat.mod_eq_sub_mod (by omega), Nat.mod_eq_of_lt (by omega)]

/-- The sum of `c[i mod n]` for `i` in `0..k-1`. -/
theorem ref_psum_eq_sum (c : List Int) (n : Nat) (hc : c.length = n) (k : Nat)
    (hk : k ≤ 2 * n) :
    ref_psum c k = ∑ i in Finset.range k, costAt c (i % n) := by
  unfold ref_psum
  rw [sum_take_eq_sum_range]
  apply Finset.sum_congr rfl
  intro i hi
  exact doubled_getD c n hc i (by have := Finset.mem_range.1 hi; omega)

theorem ref_psum_succ (c : List Int) (n : Nat) (hc : c.length = n) (k : Nat)
    (hk : k < 2 * n) :
    ref_psum c (k + 1) = ref_psum c k + costAt c (k % n) := by
  unfold ref_psum
  rw [sum_take_succ_getD, doubled_getD c n hc k hk]

/-- After `k` iterations the prefix array holds the `k + 1` prefix sums
`pref[0..k]`. -/
theorem pref_loop_exact_cells (c : List Int) (n : Nat) (hc : c.length = n) (k : Nat)
    (hk : k ≤ 2 * n) :
    (List.range k).foldl (fun pref i => pref ++ [pref.getD i 0 + costAt c (i % n)]) [0]
      = (List.range (k + 1)).map (ref_psum c) := by
  induction k with
  | zero => rfl
  | succ k ih =>
    rw [List.range_succ, List.foldl_append, ih (by omega)]
    simp only [List.foldl_cons, List.foldl_nil]
    rw [List.range_succ (n := k + 1), List.map_append]
    congr 1
    rw [List.getD_eq_getElem _ _ (by simp)]
    simp only [List.getElem_map, List.getElem_range, List.map_cons, List.map_nil]
    rw [ref_psum_succ c n hc k (by omega)]

theorem pref_loop_exact_getD (c : List Int) (n : Nat) (hc : c.length = n) (k : Nat)
    (hk : k ≤ 2 * n) :
    (pref_loop_exact c n).getD k 0 = ref_psum c k := by
  unfold pref_loop_exact
  rw [pref_loop_exact_cells c n hc (2 * n) (le_refl _), List.getD_eq_getElem _ _ (by simp; omega)]
  simp

theorem mem_ref_candidates (n : Nat) (p : Nat × Nat) :
    p ∈ ref_candidates n ↔ p.1 < n ∧ p.1 ≤ p.2 ∧ p.2 < p.1 + (n - 1) := by
  unfold ref_candidates
  rw [List.mem_flatMap]
  constructor
  · rintro ⟨s, hs, hp⟩
    rw [List.mem_map] at hp
    obtain ⟨e, he, rfl⟩ := hp
    rw [List.mem_range'_1] at he
    exact ⟨List.mem_range.1 hs, he.1, he.2⟩
  · rintro ⟨h1, h2, h3⟩
    refine ⟨p.1, List.mem_range.2 h1, ?_⟩
    rw [List.mem_map]
    exact ⟨p.2, List.mem_range'_1.2 ⟨h2, h3⟩, rfl⟩

theorem code_diff_exact_eq_ref_diff (c : List Int) (n : Nat) (hc : c.length = n) (p : Nat × Nat)
    (hp : p ∈ ref_candidates n) :
    code_diff_exact (pref_loop_exact c n) (total_loop_exact c n) p = ref_diff c p := by
  obtain ⟨h1, h2, h3⟩ := (mem_ref_candidates n p).1 hp
  unfold code_diff_exact ref_diff
  rw [pref_loop_exact_getD c n hc _ (by omega), pref_loop_exact_getD c n hc _ (by omega),
    total_loop_exact_eq_sum c n hc]
  split
  · rw [abs_of_nonneg (by omega)]
  · rw [abs_of_neg (by omega)]; ring

theorem code_asg_eq_ref_assignment (n : Nat) (p : Nat × Nat) (hp : p ∈ ref_candidates n) :
    code_asg n p = ref_assignment n p := by
  obtain ⟨h1, h2, h3⟩ := (mem_ref_candidates n p).1 hp
  unfold code_asg ref_assignment
  rw [Int.tmod_eq_emod (by omega) (by omega), Int.tmod_eq_emod (by omega) (by omega),
    Int.tmod_eq_emod (by omega) (by omega), Int.tmod_eq_emod (by omega) (by omega)]

theorem ref_diff_nonneg (c : List Int) (p : Nat × Nat) : 0 ≤ ref_diff c p := abs_nonneg _

theorem abs_result_congr {α : Type} (D D2 : α → Int) (A A2 : α → Assignment) (n : Int)
    (l : List α) (hD : ∀ x ∈ l, D x = D2 x) (hA : ∀ x ∈ l, A x = A2 x) :
    abs_result D A n l = abs_result D2 A2 n l := by
  unfold abs_result
  have h1 : l.map D = l.map D2 := List.map_congr_left hD
  rw [h1]
  cases (l.map D2).min? with
  | none => rfl
  | some m =>
    simp only []
    have h2 : l.filter (fun x => decide (D x = m)) = l.filter (fun x => decide (D2 x = m)) := by
      apply List.filter_congr
      intro x hx
      rw [hD x hx]
    rw [h2]
    have h3 : (l.filter (fun x => decide (D2 x = m))).map A
        = (l.filter (fun x => decide (D2 x = m))).map A2 :=
      List.map_congr_left (fun x hx => hA x (List.mem_filter.1 hx).1)
    rw [h3]

/-- The state left by the sweep, in terms of the reference diff and arc
pair of each candidate. -/
theorem sweep_exact_eq_abs_result (c : List Int) (n : Nat) (hc : c.length = n) :
    sweep_exact (pref_loop_exact c n) (total_loop_exact c n) n (-1, [])
      = abs_result (ref_diff c) (ref_assignment n) n (ref_candidates n) := by
  rw [sweep_exact_eq_foldl]
  have hfold : (ref_candidates n).foldl
      (abs_step (code_diff_exact (pref_loop_exact c n) (total_loop_exact c n)) (code_asg n) n) (-1, [])
      = abs_result (code_diff_exact (pref_loop_exact c n) (total_loop_exact c n)) (code_asg n) n
          (ref_candidates n) := by
    apply abs_sweep
    intro p hp
    rw [code_diff_exact_eq_ref_diff c n hc p hp]
    exact ref_diff_nonneg c p
  rw [hfold]
  exact abs_result_congr _ _ _ _ _ _ (fun p hp => code_diff_exact_eq_ref_diff c n hc p hp)
    (fun p hp => code_asg_eq_ref_assignment n p hp)

/-- The single-pass sweep of `find_best_exact` agrees with the two-pass reference. -/
theorem find_best_exact_eq_two_pass (c : List Int) (n : Nat) (hc : c.length = n)
    (res : AssignmentList) : find_best_exact c n res = two_pass c n := by
  unfold find_best_exact two_pass clear_assignments
  simp only []
  rw [sweep_exact_eq_abs_result c n hc]
  unfold abs_result
  cases hmin : ((ref_candidates n).map (ref_diff c)).min? with
  | none => simp
  | some m =>
    simp only []
    obtain ⟨hm1, -⟩ := (min?_int_iff _ _).1 hmin
    obtain ⟨p, -, rfl⟩ := List.mem_map.1 hm1
    rw [if_neg (by have := ref_diff_nonneg c p; omega), foldl_add_asg_eq]
    rfl

end Prefix

/-! ## Circular arcs -/

section Arcs

theorem mem_arcSet (n s e x : Int) :
    x ∈ arcSet n s e ↔
      (s ≤ e ∧ s ≤ x ∧ x ≤ e) ∨ (e < s ∧ ((s ≤ x ∧ x ≤ n - 1) ∨ (0 ≤ x ∧ x ≤ e))) := by
  unfold arcSet
  split
  · rw [Finset.mem_Icc]; omega
  · rw [Finset.mem_union, Finset.mem_Icc, Finset.mem_Icc]; omega

theorem arcSet_nonempty (n s e : Int) (hs : s < n) : (arcSet n s e).Nonempty := by
  refine ⟨s, ?_⟩
  rw [mem_arcSet]
  omega

/-- Membership form of `IsArcPartition`: inside `0..n-1` an index is on the
first arc exactly when it is not on the second. -/
theorem isArcPartition_iff (n : Int) (a : Assignment) :
    IsArcPartition n a ↔
      (0 ≤ a.s1 ∧ a.s1 < n) ∧ (0 ≤ a.e1 ∧ a.e1 < n) ∧ (0 ≤ a.s2 ∧ a.s2 < n) ∧
      (0 ≤ a.e2 ∧ a.e2 < n) ∧
      ∀ x : Int, (x ∈ arcSet n a.s1 a.e1 → ¬ x ∈ arcSet n a.s2 a.e2) ∧
        ((x ∈ arcSet n a.s1 a.e1 ∨ x ∈ arcSet n a.s2 a.e2) ↔ (0 ≤ x ∧ x < n)) := by
  unfold IsArcPartition
  constructor
  · rintro ⟨h1, h2, h3, h4, hd, hu⟩
    refine ⟨h1, h2, h3, h4, fun x => ⟨fun hx => Finset.disjoint_left.1 hd hx, ?_⟩⟩
    rw [← Finset.mem_union, hu, Finset.mem_Ico]
  · rintro ⟨h1, h2, h3, h4, H⟩
    refine ⟨h1, h2, h3, h4, Finset.disjoint_left.2 (fun x hx => (H x).1 hx), ?_⟩
    ext x
    rw [Finset.mem_union, Finset.mem_Ico]
    exact (H x).2

theorem emod_wrap (x n : Int) (h1 : n ≤ x) (h2 : x < 2 * n) : x % n = x - n := by
  have : x = (x - n) + n := by ring
  conv_lhs => rw [this]
  rw [Int.add_emod_self, Int.emod_eq_of_lt (by omega) (by omega)]

/-- The arc pair of a candidate without the modulo operations. -/
theorem ref_assignment_explicit (n : Nat) (p : Nat × Nat) (hp : p ∈ ref_candidates n) :
    ref_assignment n p =
      ⟨(p.1 : Int), if (p.2 : Int) < n then (p.2 : Int) else (p.2 : Int) - n,
        if (p.2 : Int) + 1 < n then (p.2 : Int) + 1 else (p.2 : Int) + 1 - n,
        if 0 < (p.1 : Int) then (p.1 : Int) - 1 else (n : Int) - 1⟩ := by
  obtain ⟨h1, h2, h3⟩ := (mem_ref_candidates n p).1 hp
  unfold ref_assignment
  rw [assignment_eq_iff]
  have hn1 : ((n - 1 : Nat) : Int) = (n : Int) - 1 := by omega
  dsimp only
  refine ⟨?_, ?_, ?_, ?_⟩
  · apply Int.emod_eq_of_lt <;> omega
  · split
    · apply Int.emod_eq_of_lt <;> omega
    · apply emod_wrap <;> omega
  · split
    · apply Int.emod_eq_of_lt <;> omega
    · apply emod_wrap <;> omega
  · split
    · rw [Int.add_emod_self]
      apply Int.emod_eq_of_lt <;> omega
    · have : (p.1 : Int) = 0 := by omega
      rw [this]
      apply Int.emod_eq_of_lt <;> omega

/-- The arc pair of every candidate is a partition of the circle. -/
theorem ref_assignment_isArcPartition (n : Nat) (p : Nat × Nat) (hp : p ∈ ref_candidates n) :
    IsArcPartition n (ref_assignment n p) := by
  obtain ⟨h1, h2, h3⟩ := (mem_ref_candidates n p).1 hp
  rw [ref_assignment_explicit n p hp, isArcPartition_iff]
  simp only [mem_arcSet]
  refine ⟨by omega, ?_, ?_, ?_, ?_⟩
  · split <;> omega
  · split <;> omega
  · split <;> omega
  · intro x
    split <;> split <;> split <;> omega

theorem arc_partition_unique (n s1 e1 s2 e2 : Int)
    (h1 : 0 ≤ s1 ∧ s1 < n) (h2 : 0 ≤ e1 ∧ e1 < n) (h3 : 0 ≤ s2 ∧ s2 < n)
    (h4 : 0 ≤ e2 ∧ e2 < n)
    (H : ∀ x : Int, 0 ≤ x → x < n →
      (((s1 ≤ e1 ∧ s1 ≤ x ∧ x ≤ e1) ∨
          (e1 < s1 ∧ ((s1 ≤ x ∧ x ≤ n - 1) ∨ (0 ≤ x ∧ x ≤ e1)))) ↔
       ¬ ((s2 ≤ e2 ∧ s2 ≤ x ∧ x ≤ e2) ∨
          (e2 < s2 ∧ ((s2 ≤ x ∧ x ≤ n - 1) ∨ (0 ≤ x ∧ x ≤ e2)))))) :
    (s1 ≤ e1 → e1 - s1 + 1 < n) ∧ (e1 < s1 → e1 + 1 < s1) ∧
    s2 = (if e1 + 1 < n then e1 + 1 else 0) ∧ e2 = (if 0 < s1 then s1 - 1 else n - 1) := by
  have a1 := H s1 h1.1 h1.2
  have a2 := H e1 h2.1 h2.2
  have a3 := H s2 h3.1 h3.2
  have a4 := H e2 h4.1 h4.2
  have a5 := H 0 (le_refl _) (by omega)
  have a6 := H (n - 1) (by omega) (by omega)
  have a7 := H (e1 + 1) (by omega)
  have a8 := H (s1 - 1)
  clear H
  split <;> split <;> omega

/-- Every partition of the circle into two complementary arcs is the arc
pair of a sweep candidate. -/
theorem isArcPartition_is_candidate (n : Nat) (a : Assignment) (ha : IsArcPartition n a) :
    ∃ p ∈ ref_candidates n, ref_assignment n p = a := by
  rw [isArcPartition_iff] at ha
  obtain ⟨h1, h2, h3, h4, H⟩ := ha
  simp only [mem_arcSet] at H
  obtain ⟨u1, u2, u3, u4⟩ := arc_partition_unique n a.s1 a.e1 a.s2 a.e2 h1 h2 h3 h4 (by
    intro x hx0 hxn
    have := H x
    constructor
    · exact this.1
    · intro hnb
      rcases this.2.2 ⟨hx0, hxn⟩ with h | h
      · exact h
      · exact absurd h hnb)
  obtain ⟨s, hs⟩ : ∃ s : Nat, a.s1 = s := ⟨a.s1.toNat, by omega⟩
  obtain ⟨e, he⟩ : ∃ e : Nat, (if a.s1 ≤ a.e1 then a.e1 else a.e1 + n) = e :=
    ⟨(if a.s1 ≤ a.e1 then a.e1 else a.e1 + n).toNat, by split <;> omega⟩
  have hp : (s, e) ∈ ref_candidates n := by
    rw [mem_ref_candidates]
    simp only []
    split at he <;> omega
  refine ⟨(s, e), hp, ?_⟩
  rw [ref_assignment_explicit n _ hp, assignment_eq_iff]
  simp only []
  refine ⟨by omega, ?_, ?_, ?_⟩
  · split at he <;> split <;> omega
  · rw [u3]; split at he <;> split <;> split <;> omega
  · rw [u4]; split <;> split <;> omega

end Arcs

/-! ## Arc sums against prefix-sum lookups -/

section ArcSums

theorem sum_Icc_nat (g : Int → Int) (a k : Nat) :
    ∑ x in Finset.Icc (a : Int) ((a : Int) + k - 1), g x
      = ∑ i in Finset.Ico a (a + k), g (i : Int) := by
  induction k with
  | zero =>
    rw [Finset.Icc_eq_empty (by omega)]
    simp
  | succ k ih =>
    rw [sum_Icc_split g a ((a : Int) + k - 1) ((a : Int) + (k + 1 : Nat) - 1) (by omega)
      (by omega), ih]
    rw [show a + (k + 1) = (a + k) + 1 from rfl, Finset.sum_Ico_succ_top (by omega)]
    congr 1
    have e1 : (a : Int) + k - 1 + 1 = ((a + k : Nat) : Int) := by omega
    have e2 : (a : Int) + (k + 1 : Nat) - 1 = ((a + k : Nat) : Int) := by omega
    rw [e1, e2, Finset.Icc_self, Finset.sum_singleton]

theorem sum_Icc_nat_bounds (g : Int → Int) (a b : Nat) (hab : a ≤ b + 1) :
    ∑ x in Finset.Icc (a : Int) (b : Int), g x = ∑ i in Finset.Ico a (b + 1), g (i : Int) := by
  have := sum_Icc_nat g a (b + 1 - a)
  have e1 : (a : Int) + (b + 1 - a : Nat) - 1 = (b : Int) := by omega
  have e2 : a + (b + 1 - a) = b + 1 := by omega
  rw [e1, e2] at this
  exact this

/-- The sum of all costs is the sum over the index set `0..n-1`. -/
theorem sum_eq_sum_Ico (c : List Int) (n : Nat) (hc : c.length = n) :
    c.sum = ∑ x in Finset.Ico (0 : Int) n, costAt c x.toNat := by
  by_cases hn : n = 0
  · subst hn
    have : c = [] := List.length_eq_zero.1 hc
    subst this
    simp
  · have hI : Finset.Ico (0 : Int) n = Finset.Icc ((0 : Nat) : Int) ((n - 1 : Nat) : Int) := by
      ext x; rw [Finset.mem_Ico, Finset.mem_Icc]; omega
    rw [hI, sum_Icc_nat_bounds (fun x => costAt c x.toNat) 0 (n - 1) (by omega)]
    have e : n - 1 + 1 = n := by omega
    rw [e, ← Finset.range_eq_Ico]
    simp only [Int.toNat_ofNat]
    unfold costAt
    rw [← sum_take_eq_sum_range, ← hc, List.take_length]

/-- The prefix-sum lookup of a candidate is the sum of the costs over the
index set of its first arc. -/
theorem ref_psum_sub_eq_arcSum (c : List Int) (n : Nat) (hc : c.length = n) (p : Nat × Nat)
    (hp : p ∈ ref_candidates n) :
    ref_psum c (p.2 + 1) - ref_psum c p.1
      = arcSum c n (ref_assignment n p).s1 (ref_assignment n p).e1 := by
  obtain ⟨h1, h2, h3⟩ := (mem_ref_candidates n p).1 hp
  rw [ref_psum_eq_sum c n hc _ (by omega), ref_psum_eq_sum c n hc _ (by omega),
    ← Finset.sum_Ico_eq_sub _ (by omega), ref_assignment_explicit n p hp]
  dsimp only
  unfold arcSum arcSet
  by_cases hw : (p.2 : Int) < n
  · rw [if_pos hw, if_pos (by omega),
      sum_Icc_nat_bounds (fun x => costAt c x.toNat) p.1 p.2 (by omega)]
    apply Finset.sum_congr rfl
    intro i hi
    have := Finset.mem_Ico.1 hi
    simp only [Int.toNat_ofNat]
    rw [Nat.mod_eq_of_lt (by omega)]
  · rw [if_neg hw, if_neg (by omega), Finset.sum_union (by
      rw [Finset.disjoint_left]; intro x; rw [Finset.mem_Icc, Finset.mem_Icc]; omega)]
    have hb1 : ((n : Int) - 1) = ((n - 1 : Nat) : Int) := by omega
    have hb2 : ((p.2 : Int) - n) = ((p.2 - n : Nat) : Int) := by omega
    rw [hb1, hb2, sum_Icc_nat_bounds (fun x => costAt c x.toNat) p.1 (n - 1) (by omega)]
    have hz : (0 : Int) = ((0 : Nat) : Int) := rfl
    rw [hz, sum_Icc_nat_bounds (fun x => costAt c x.toNat) 0 (p.2 - n) (by omega)]
    rw [← Finset.sum_Ico_consecutive (fun i => costAt c (i % n)) (show p.1 ≤ n by omega)
      (show n ≤ p.2 + 1 by omega)]
    have e1 : n - 1 + 1 = n := by omega
    rw [e1]
    congr 1
    · apply Finset.sum_congr rfl
      intro i hi
      have := Finset.mem_Ico.1 hi
      simp only [Int.toNat_ofNat]
      rw [Nat.mod_eq_of_lt (by omega)]
    · have e2 : Finset.Ico n (p.2 + 1) = Finset.Ico (0 + n) (p.2 - n + 1 + n) := by
        congr 1 <;> omega
      rw [e2, ← Finset.sum_Ico_add' (fun i => costAt c (i % n)) 0 (p.2 - n + 1) n]
      apply Finset.sum_congr rfl
      intro i hi
      have := Finset.mem_Ico.1 hi
      simp only [Int.toNat_ofNat]
      rw [Nat.add_mod_right, Nat.mod_eq_of_lt (by omega)]

/-- The two arc sums of a partition add up to the sum of all costs. -/
theorem arcSum_add_of_partition (c : List Int) (n : Nat) (hc : c.length = n) (a : Assignment)
    (ha : IsArcPartition n a) :
    arcSum c n a.s1 a.e1 + arcSum c n a.s2 a.e2 = c.sum := by
  obtain ⟨-, -, -, -, hd, hu⟩ := ha
  unfold arcSum
  rw [← Finset.sum_union hd, hu, sum_eq_sum_Ico c n hc]

/-- The diff of a candidate is the imbalance of its arc pair, each arc
summed over its index set. -/
theorem ref_diff_eq_imbalance (c : List Int) (n : Nat) (hc : c.length = n) (p : Nat × Nat)
    (hp : p ∈ ref_candidates n) :
    ref_diff c p = imbalance c n (ref_assignment n p) := by
  have h1 := ref_psum_sub_eq_arcSum c n hc p hp
  have h2 := arcSum_add_of_partition c n hc _ (ref_assignment_isArcPartition n p hp)
  unfold ref_diff imbalance
  rw [h1]
  congr 1
  omega

end ArcSums

/-! ## The result of `find_best_exact` -/

section Result

theorem ref_candidates_ne_nil (n : Nat) (hn : 2 ≤ n) : ref_candidates n ≠ [] := by
  have : ((0, 0) : Nat × Nat) ∈ ref_candidates n := by
    rw [mem_ref_candidates]; simp only []; omega
  exact List.ne_nil_of_mem this

theorem mem_best_arcs (c : List Int) (n : Nat) (m : Int) (a : Assignment) :
    a ∈ best_arcs c n m ↔ ∃ p ∈ ref_candidates n, ref_diff c p = m ∧ ref_assignment n p = a := by
  unfold best_arcs
  rw [List.mem_map]
  constructor
  · rintro ⟨p, hp, rfl⟩
    rw [List.mem_filter] at hp
    exact ⟨p, hp.1, by simpa using hp.2, rfl⟩
  · rintro ⟨p, hp, hd, rfl⟩
    exact ⟨p, List.mem_filter.2 ⟨hp, by simpa using hd⟩, rfl⟩

/-- For `n ≥ 2` the reported difference is the least diff of a candidate,
and the list holds the candidates reaching it, inserted in sweep order. -/
theorem find_best_exact_spec (c : List Int) (n : Nat) (hn : 2 ≤ n) (hc : c.length = n)
    (res : AssignmentList) :
    (∃ p ∈ ref_candidates n, ref_diff c p = (find_best_exact c n res).1) ∧
    (∀ p ∈ ref_candidates n, (find_best_exact c n res).1 ≤ ref_diff c p) ∧
    (find_best_exact c n res).2 = (best_arcs c n (find_best_exact c n res).1).foldl (add_asg n) [] := by
  rw [find_best_exact_eq_two_pass c n hc res]
  unfold two_pass
  cases hmin : ((ref_candidates n).map (ref_diff c)).min? with
  | none =>
    have := List.min?_eq_none_iff.1 hmin
    exact absurd (List.map_eq_nil_iff.1 this) (ref_candidates_ne_nil n hn)
  | some m =>
    obtain ⟨hm1, hm2⟩ := (min?_int_iff _ _).1 hmin
    obtain ⟨p, hp, hpm⟩ := List.mem_map.1 hm1
    refine ⟨⟨p, hp, hpm⟩, fun q hq => hm2 _ (List.mem_map.2 ⟨q, hq, rfl⟩), ?_⟩
    simp only []
    rw [foldl_add_asg_eq]
    rfl

theorem abs_step_nodup {α : Type} (D : α → Int) (A : α → Assignment) (n : Int)
    (st : Int × AssignmentList) (x : α) (h : (canon n st.2).Nodup) :
    (canon n (abs_step D A n st x).2).Nodup := by
  unfold abs_step
  split
  · exact canon_nodup_add_asg n [] (A x) (by simp [canon])
  · split
    · exact canon_nodup_add_asg n st.2 (A x) h
    · exact h

theorem foldl_abs_step_nodup {α : Type} (D : α → Int) (A : α → Assignment) (n : Int)
    (l : List α) (st : Int × AssignmentList) (h : (canon n st.2).Nodup) :
    (canon n (l.foldl (abs_step D A n) st).2).Nodup := by
  induction l generalizing st with
  | nil => exact h
  | cons x rest ih => exact ih _ (abs_step_nodup D A n st x h)

theorem ref_psum_scale (c : List Int) (k : Int) (j : Nat) :
    ref_psum (c.map fun x => k * x) j = k * ref_psum c j := by
  unfold ref_psum
  rw [← List.map_append, ← List.map_take, List.sum_map_mul_left, List.map_id']

theorem ref_diff_scale (c : List Int) (k : Int) (hk : 0 ≤ k) (p : Nat × Nat) :
    ref_diff (c.map fun x => k * x) p = k * ref_diff c p := by
  unfold ref_diff
  rw [ref_psum_scale, ref_psum_scale, List.sum_map_mul_left, List.map_id']
  conv_rhs => rw [← abs_of_nonneg hk, ← abs_mul]
  congr 1
  ring

/-- Multiplying all costs by a positive factor multiplies the best
difference by it and leaves the list of assignments unchanged. -/
theorem two_pass_scale (c : List Int) (n : Nat) (k : Int) (hk : 0 < k) :
    two_pass (c.map fun x => k * x) n = (k * (two_pass c n).1, (two_pass c n).2) := by
  unfold two_pass
  cases hmin : ((ref_candidates n).map (ref_diff c)).min? with
  | none =>
    have h0 : ref_candidates n = [] := List.map_eq_nil_iff.1 (List.min?_eq_none_iff.1 hmin)
    rw [h0]
    simp
  | some m =>
    obtain ⟨hm1, hm2⟩ := (min?_int_iff _ _).1 hmin
    obtain ⟨p, hp, hpm⟩ := List.mem_map.1 hm1
    have hmin2 : ((ref_candidates n).map (ref_diff (c.map fun x => k * x))).min?
        = some (k * m) := by
      rw [min?_int_iff]
      constructor
      · exact List.mem_map.2 ⟨p, hp, by rw [ref_diff_scale c k (le_of_lt hk), hpm]⟩
      · intro b hb
        obtain ⟨q, hq, rfl⟩ := List.mem_map.1 hb
        rw [ref_diff_scale c k (le_of_lt hk)]
        exact mul_le_mul_of_nonneg_left (hm2 _ (List.mem_map.2 ⟨q, hq, rfl⟩)) (le_of_lt hk)
    rw [hmin2]
    simp only []
    have hf : (ref_candidates n).filter
          (fun p => decide (ref_diff (c.map fun x => k * x) p = k * m))
        = (ref_candidates n).filter (fun p => decide (ref_diff c p = m)) := by
      apply List.filter_congr
      intro q _
      rw [ref_diff_scale c k (le_of_lt hk)]
      have : k * ref_diff c q = k * m ↔ ref_diff c q = m :=
        ⟨fun h => mul_left_cancel₀ (ne_of_gt hk) h, fun h => by rw [h]⟩
      simp only [this]
    rw [hf]

end Result

/-! ## Canonical forms decide partition identity -/

section Identity

theorem normalize_cases (a : Assignment) (n : Int) :
    normalize a n = a ∨ normalize a n = swap_arcs a := by
  unfold normalize swap_arcs
  simp only []
  split_ifs <;> first | exact Or.inl rfl | exact Or.inr rfl

/-- Listing the two arcs in the other order does not change the canonical
form, as long as the arcs do not start at the same index. -/
theorem normalize_swap_arcs (a : Assignment) (n : Int) (hne : a.s1 ≠ a.s2) :
    normalize (swap_arcs a) n = normalize a n := by
  unfold normalize swap_arcs
  simp only []
  split_ifs <;> first | rfl | (exfalso; omega)

theorem partition_mem_iff (n : Int) (a : Assignment) (ha : IsArcPartition n a) (x : Int)
    (h0 : 0 ≤ x) (hn : x < n) :
    x ∈ arcSet n a.s1 a.e1 ↔ ¬ x ∈ arcSet n a.s2 a.e2 := by
  rw [isArcPartition_iff] at ha
  obtain ⟨-, -, -, -, H⟩ := ha
  constructor
  · exact (H x).1
  · intro hnb
    rcases (H x).2.2 ⟨h0, hn⟩ with h | h
    · exact h
    · exact absurd h hnb

theorem partition_starts_ne (n : Int) (a : Assignment) (ha : IsArcPartition n a) :
    a.s1 ≠ a.s2 := by
  intro heq
  have h1 := ha.1
  have h := (partition_mem_iff n a ha a.s1 h1.1 h1.2).1 (by rw [mem_arcSet]; omega)
  apply h
  rw [mem_arcSet, ← heq]
  omega

theorem isArcPartition_swap_arcs (n : Int) (a : Assignment) (ha : IsArcPartition n a) :
    IsArcPartition n (swap_arcs a) := by
  obtain ⟨h1, h2, h3, h4, hd, hu⟩ := ha
  exact ⟨h3, h4, h1, h2, hd.symm, by rw [Finset.union_comm]; exact hu⟩

/-- The second arc of a partition is determined by the index set of the
first arc. -/
theorem second_arc_unique (n : Int) (a b : Assignment) (ha : IsArcPartition n a)
    (hb : IsArcPartition n b) (hA : arcSet n a.s1 a.e1 = arcSet n b.s1 b.e1) :
    a.s2 = b.s2 ∧ a.e2 = b.e2 := by
  have Ha := partition_mem_iff n a ha
  have Hb := partition_mem_iff n b hb
  have Hab : ∀ x : Int, 0 ≤ x → x < n →
      (x ∈ arcSet n a.s1 a.e1 ↔ ¬ x ∈ arcSet n b.s2 b.e2) := by
    intro x h0 hn
    rw [hA]
    exact Hb x h0 hn
  simp only [mem_arcSet] at Ha Hab
  obtain ⟨-, -, u3, u4⟩ := arc_partition_unique n a.s1 a.e1 a.s2 a.e2 ha.1 ha.2.1 ha.2.2.1
    ha.2.2.2.1 Ha
  obtain ⟨-, -, v3, v4⟩ := arc_partition_unique n a.s1 a.e1 b.s2 b.e2 ha.1 ha.2.1 hb.2.2.1
    hb.2.2.2.1 Hab
  exact ⟨by rw [u3, v3], by rw [u4, v4]⟩

/-- A partition is determined by the index set of its first arc. -/
theorem partition_of_first_arc (n : Int) (a b : Assignment) (ha : IsArcPartition n a)
    (hb : IsArcPartition n b) (hA : arcSet n a.s1 a.e1 = arcSet n b.s1 b.e1) : a = b := by
  obtain ⟨h1, h2⟩ := second_arc_unique n a b ha hb hA
  have hB : arcSet n (swap_arcs a).s1 (swap_arcs a).e1
      = arcSet n (swap_arcs b).s1 (swap_arcs b).e1 := by
    show arcSet n a.s2 a.e2 = arcSet n b.s2 b.e2
    rw [h1, h2]
  obtain ⟨h3, h4⟩ := second_arc_unique n _ _ (isArcPartition_swap_arcs n a ha)
    (isArcPartition_swap_arcs n b hb) hB
  rw [assignment_eq_iff]
  exact ⟨h3, h4, h1, h2⟩

theorem sameArcs_iff (n : Int) (a b : Assignment) (ha : IsArcPartition n a)
    (hb : IsArcPartition n b) : SameArcs n a b ↔ a = b ∨ a = swap_arcs b := by
  constructor
  · rintro (⟨h, -⟩ | ⟨h, -⟩)
    · exact Or.inl (partition_of_first_arc n a b ha hb h)
    · exact Or.inr (partition_of_first_arc n a (swap_arcs b) ha
        (isArcPartition_swap_arcs n b hb) h)
  · rintro (rfl | rfl)
    · exact Or.inl ⟨rfl, rfl⟩
    · exact Or.inr ⟨rfl, rfl⟩

theorem swap_arcs_swap_arcs (a : Assignment) : swap_arcs (swap_arcs a) = a := rfl

/-- For partitions, equal canonical forms mean equal unordered arc pairs. -/
theorem normalize_eq_iff_sameArcs (n : Int) (a b : Assignment) (ha : IsArcPartition n a)
    (hb : IsArcPartition n b) : normalize a n = normalize b n ↔ SameArcs n a b := by
  rw [sameArcs_iff n a b ha hb]
  constructor
  · intro h
    rcases normalize_cases a n with h1 | h1 <;> rcases normalize_cases b n with h2 | h2
    · left; rw [← h1, h, h2]
    · right; rw [← h1, h, h2]
    · right
      have : swap_arcs a = b := by rw [← h1, h, h2]
      rw [← this, swap_arcs_swap_arcs]
    · left
      have : swap_arcs a = swap_arcs b := by rw [← h1, h, h2]
      have := congrArg swap_arcs this
      simpa [swap_arcs_swap_arcs] using this
  · rintro (rfl | rfl)
    · rfl
    · exact normalize_swap_arcs b n (partition_starts_ne n b hb)

end Identity

/-! ## Day numbers and the command processor -/

section Commands

theorem is_valid_date_bounds (y m d : Int) (h : is_valid_date y m d = true) :
    1900 ≤ y ∧ 1 ≤ m ∧ m ≤ 12 ∧ 1 ≤ d := by
  unfold is_valid_date at h
  split at h
  · exact absurd h (by decide)
  · omega

theorem date_to_days_nonneg (dt : Date) (day : Int) (h : date_to_days dt = some day) :
    0 ≤ day := by
  unfold date_to_days at h
  split at h
  · exact absurd h (by simp)
  · rename_i hv
    have hv2 : is_valid_date dt.y dt.m dt.d = true := by simpa using hv
    obtain ⟨h1, h2, h3, h4⟩ := is_valid_date_bounds _ _ _ hv2
    simp only [Option.some.injEq] at h
    rw [← h]
    have b1 : Int.tdiv (if dt.m ≤ 2 then dt.y - 1 else dt.y) 400
        = (if dt.m ≤ 2 then dt.y - 1 else dt.y) / 400 :=
      Int.tdiv_eq_ediv (by split <;> omega) (by decide)
    rw [b1]
    have b2 : Int.tdiv (153 * ((if dt.m ≤ 2 then dt.m + 12 else dt.m) - 3) + 2) 5
        = (153 * ((if dt.m ≤ 2 then dt.m + 12 else dt.m) - 3) + 2) / 5 :=
      Int.tdiv_eq_ediv (by split <;> omega) (by decide)
    rw [b2]
    have b3 : ∀ x : Int, 0 ≤ x → Int.tdiv x 4 = x / 4 :=
      fun x hx => Int.tdiv_eq_ediv hx (by decide)
    have b4 : ∀ x : Int, 0 ≤ x → Int.tdiv x 100 = x / 100 :=
      fun x hx => Int.tdiv_eq_ediv hx (by decide)
    rw [b3 _ (by split <;> omega), b4 _ (by split <;> omega)]
    have c1 : Int.tdiv (if (1 : Int) ≤ 2 then 1900 - 1 else 1900) 400 = 4 := by decide
    have c2 : Int.tdiv (153 * ((if (1 : Int) ≤ 2 then 1 + 12 else 1) - 3) + 2) 5 = 306 := by
      decide
    rw [c1, c2]
    simp only [show (1 : Int) ≤ 2 from by decide, if_true]
    have c3 : Int.tdiv ((1900 : Int) - 1 - 4 * 400) 4 = 74 := by decide
    have c4 : Int.tdiv ((1900 : Int) - 1 - 4 * 400) 100 = 2 := by decide
    rw [c3, c4]
    split <;> omega
/-- What an accepted update command has checked and done. -/
theorem update_cmd_accepted (st : Ledger) (dt : Date) (idx cost : Int) (st1 : Ledger)
    (h : update_cmd st dt idx cost = Outcome.accepted st1) :
    ∃ day, date_to_days dt = some day ∧
      ¬ (st.last_update_day ≥ 0 ∧ day ≤ st.last_update_day) ∧
      (0 ≤ idx ∧ idx < st.hist.length) ∧ (0 < cost ∧ cost ≤ INT_MAX) ∧
      st1 = { hist := st.hist.set idx.toNat (add_cost (st.hist.getD idx.toNat []) day cost),
              last_update_day := day } := by
  unfold update_cmd at h
  cases hd : date_to_days dt with
  | none => rw [hd] at h; exact absurd h (by simp)
  | some day =>
    rw [hd] at h
    simp only [] at h
    split at h
    · exact absurd h (by simp)
    · rename_i h1
      split at h
      · exact absurd h (by simp)
      · rename_i h2
        split at h
        · exact absurd h (by simp)
        · rename_i h3
          simp only [Outcome.accepted.injEq] at h
          exact ⟨day, rfl, h1, by omega, by omega, h.symm⟩

theorem ledgerInv_init (initial : List Int) : LedgerInv (init_ledger initial) := by
  intro h hh
  unfold init_ledger at hh
  simp only [List.mem_map] at hh
  obtain ⟨c, -, rfl⟩ := hh
  have : add_cost init_history 0 c = [⟨0, c⟩] := rfl
  rw [this]
  exact ⟨⟨by simp, rfl, by simp, by simp⟩, by simp⟩

theorem ledgerInv_update (st : Ledger) (dt : Date) (idx cost : Int) (st1 : Ledger)
    (hinv : LedgerInv st) (h : update_cmd st dt idx cost = Outcome.accepted st1) :
    LedgerInv st1 := by
  obtain ⟨day, hday, hlast, hidx, -, rfl⟩ := update_cmd_accepted st dt idx cost st1 h
  have hday0 := date_to_days_nonneg dt day hday
  intro h1 hh1
  simp only [] at hh1 ⊢
  rcases List.mem_or_eq_of_mem_set hh1 with hold | hnew
  · obtain ⟨ho, ht⟩ := hinv h1 hold
    refine ⟨ho, fun e he => ?_⟩
    have := ht e he
    omega
  · have hlt : idx.toNat < st.hist.length := by omega
    have hmem : st.hist.getD idx.toNat [] ∈ st.hist := by
      rw [List.getD_eq_getElem _ _ hlt]
      exact List.getElem_mem _
    obtain ⟨⟨hne, hz, hle, hs⟩, ht⟩ := hinv _ hmem
    generalize st.hist.getD idx.toNat [] = h0 at hnew hne hz hle hs ht
    subst hnew
    have hall : ∀ a ∈ h0, a.day ≤ day ∧ (a ∈ h0.tail → a.day < day) := by
      intro a ha
      cases h0 with
      | nil => exact absurd rfl hne
      | cons x t =>
        simp only [List.tail_cons] at ht ⊢
        rcases List.mem_cons.1 ha with rfl | hat
        · have hx : a.day = 0 := by simpa [entryAt] using hz
          refine ⟨by omega, fun hat => ?_⟩
          have := ht a hat
          omega
        · have := ht a hat
          exact ⟨by omega, fun _ => by omega⟩
    have htail : (add_cost h0 day cost).tail = h0.tail ++ [⟨day, cost⟩] := by
      cases h0 with
      | nil => exact absurd rfl hne
      | cons x t => rfl
    refine ⟨⟨by simp [add_cost], ?_, ?_, ?_⟩, ?_⟩
    · cases h0 with
      | nil => exact absurd rfl hne
      | cons x t => simpa [add_cost, entryAt] using hz
    · unfold add_cost
      rw [List.pairwise_append]
      refine ⟨hle, by simp, ?_⟩
      intro a ha b hb
      simp at hb; subst hb
      exact (hall a ha).1
    · rw [htail, List.pairwise_append]
      refine ⟨hs, by simp, ?_⟩
      intro a ha b hb
      simp at hb; subst hb
      exact (hall a (List.mem_of_mem_tail ha)).2 ha
    · intro e he
      rw [htail] at he
      rcases List.mem_append.1 he with he | he
      · have := ht e he
        have := (hall e (List.mem_of_mem_tail he)).1
        omega
      · simp at he; subst he
        simp only []
        omega

theorem ledgerInv_run (cmds : List UpdateCmd) (st st1 : Ledger) (hinv : LedgerInv st)
    (h : run_updates st cmds = Outcome.accepted st1) : LedgerInv st1 := by
  induction cmds generalizing st with
  | nil =>
    simp only [run_updates, Outcome.accepted.injEq] at h
    rw [← h]; exact hinv
  | cons cmd rest ih =>
    unfold run_updates at h
    cases hu : update_cmd st cmd.date cmd.idx cmd.cost with
    | accepted st2 =>
      rw [hu] at h
      exact ih st2 (ledgerInv_update st _ _ _ st2 hinv hu) h
    | invalid st2 =>
      rw [hu] at h
      exact absurd h (by simp)

end Commands

/-! ## 64-bit arithmetic against exact arithmetic -/

section Wrap

theorem wrap64_eq_self (x : Int) (h1 : LLONG_MIN ≤ x) (h2 : x ≤ LLONG_MAX) : wrap64 x = x := by
  unfold wrap64
  unfold LLONG_MIN at h1
  unfold LLONG_MAX at h2
  omega

theorem wrap64_range (x : Int) : LLONG_MIN ≤ wrap64 x ∧ wrap64 x ≤ LLONG_MAX := by
  unfold wrap64 LLONG_MIN LLONG_MAX
  omega

theorem wrap64_add_wrap (x y : Int) : wrap64 (wrap64 x + y) = wrap64 (x + y) := by
  unfold wrap64
  omega

theorem wrap64_sub_wrap (x y : Int) : wrap64 (wrap64 x - wrap64 y) = wrap64 (x - y) := by
  unfold wrap64
  omega

theorem wrap64_zero : wrap64 0 = 0 := rfl

theorem sum_loop_exact_succ (h : CostHistory) (end_ : Int) (fuel : Nat) (cur : Int) (i : Nat)
    (total : Int) :
    sum_loop_exact h end_ (fuel + 1) cur i total =
      if cur ≤ end_ ∧ i < h.length then
        sum_loop_exact h end_ fuel (seg_end h end_ i + 1) (i + 1)
          (if cur ≤ seg_end h end_ i
           then total + (seg_end h end_ i - cur + 1) * (entryAt h i).cost else total)
      else total := rfl

theorem sum_loop_succ (h : CostHistory) (end_ : Int) (fuel : Nat) (cur : Int) (i : Nat)
    (total : Int)
    (hday : i + 1 < h.length →
      LLONG_MIN < (entryAt h (i + 1)).day ∧ (entryAt h (i + 1)).day ≤ LLONG_MAX) :
    sum_loop h end_ (fuel + 1) cur i total =
      if cur ≤ end_ ∧ i < h.length then
        sum_loop h end_ fuel (wrap64 (seg_end h end_ i + 1)) (i + 1)
          (if cur ≤ seg_end h end_ i
           then wrap64 (total
             + wrap64 (wrap64 (wrap64 (seg_end h end_ i - cur) + 1) * (entryAt h i).cost))
           else total)
      else total := by
  have he : (if i + 1 < h.length then wrap64 ((entryAt h (i + 1)).day - 1) else end_)
      = (if i + 1 < h.length then (entryAt h (i + 1)).day - 1 else end_) := by
    split
    · rename_i hlt
      have := hday hlt
      rw [wrap64_eq_self _ (by omega) (by omega)]
    · rfl
  rw [sum_loop]
  simp only []
  rw [he]
  rfl

theorem seg_end_spec (h : CostHistory) (end_ : Int) (i : Nat) :
    seg_end h end_ i ≤ end_ ∧
    (i + 1 < h.length → seg_end h end_ i ≤ (entryAt h (i + 1)).day - 1 ∧
      (seg_end h end_ i = end_ ∨ seg_end h end_ i = (entryAt h (i + 1)).day - 1)) ∧
    (¬ i + 1 < h.length → seg_end h end_ i = end_) := by
  unfold seg_end
  split_ifs <;> omega

/-- On a history with non-decreasing days between 0 and `LLONG_MAX` and costs
between 0 and `INT_MAX`, and a window of at most 4,294,967,298 days, the
summation loop computes the exact values, and the total stays below the
number of days passed times `INT_MAX`. -/
theorem sum_loop_eq_exact_nonneg (h : CostHistory)
    (hday : ∀ j, j < h.length → 0 ≤ (entryAt h j).day ∧ (entryAt h j).day ≤ LLONG_MAX)
    (hcost : ∀ j, j < h.length → 0 ≤ (entryAt h j).cost ∧ (entryAt h j).cost ≤ INT_MAX)
    (hsorted : ∀ j, j + 1 < h.length → (entryAt h j).day ≤ (entryAt h (j + 1)).day)
    (start end_ : Int) (h0 : 0 ≤ start) (hspan : end_ - start + 1 ≤ 4294967298)
    (hend : end_ < LLONG_MAX) (fuel : Nat) (cur : Int) (i : Nat) (total : Int)
    (h1 : start ≤ cur) (h2 : cur ≤ end_ + 1)
    (h3 : i + 1 < h.length → cur ≤ (entryAt h (i + 1)).day)
    (h4 : 0 ≤ total) (h5 : total ≤ (cur - start) * 2147483647) :
    sum_loop h end_ fuel cur i total = sum_loop_exact h end_ fuel cur i total ∧
    0 ≤ sum_loop_exact h end_ fuel cur i total ∧
    sum_loop_exact h end_ fuel cur i total ≤ (end_ + 1 - start) * 2147483647 := by
  induction fuel generalizing cur i total with
  | zero => exact ⟨rfl, h4, by show total ≤ _; omega⟩
  | succ fuel ih =>
    rw [sum_loop_exact_succ, sum_loop_succ h end_ fuel cur i total (fun hlt =>
      ⟨lt_of_lt_of_le (by decide) (hday _ hlt).1, (hday _ hlt).2⟩)]
    by_cases hc : cur ≤ end_ ∧ i < h.length
    · rw [if_pos hc, if_pos hc]
      obtain ⟨hce, hil⟩ := hc
      obtain ⟨e1, e2, e3⟩ := seg_end_spec h end_ i
      generalize seg_end h end_ i = e at e1 e2 e3 ⊢
      have hlow : cur - 1 ≤ e := by
        by_cases hlt : i + 1 < h.length
        · have := h3 hlt
          rcases (e2 hlt).2 with h | h <;> omega
        · have := e3 hlt; omega
      have hw1 : wrap64 (e + 1) = e + 1 :=
        wrap64_eq_self _ (by unfold LLONG_MIN; omega) (by omega)
      rw [hw1]
      have hnext : i + 1 + 1 < h.length → e + 1 ≤ (entryAt h (i + 1 + 1)).day := by
        intro hlt2
        have hlt : i + 1 < h.length := by omega
        have := (e2 hlt).1
        have := hsorted (i + 1) hlt2
        omega
      by_cases hs : cur ≤ e
      · rw [if_pos hs, if_pos hs]
        obtain ⟨c1, c2⟩ := hcost i hil
        unfold INT_MAX at c2
        have p1 : 0 ≤ (e - cur + 1) * (entryAt h i).cost := mul_nonneg (by omega) c1
        have p2 : (e - cur + 1) * (entryAt h i).cost ≤ (e - cur + 1) * 2147483647 :=
          mul_le_mul_of_nonneg_left c2 (by omega)
        have hw2 : wrap64 (e - cur) = e - cur :=
          wrap64_eq_self _ (by unfold LLONG_MIN; omega) (by unfold LLONG_MAX; omega)
        have hw3 : wrap64 (e - cur + 1) = e - cur + 1 :=
          wrap64_eq_self _ (by unfold LLONG_MIN; omega) (by unfold LLONG_MAX; omega)
        rw [hw2, hw3]
        generalize (e - cur + 1) * (entryAt h i).cost = p at p1 p2 ⊢
        have hw4 : wrap64 p = p :=
          wrap64_eq_self _ (by unfold LLONG_MIN; omega) (by unfold LLONG_MAX; omega)
        have hw5 : wrap64 (total + p) = total + p :=
          wrap64_eq_self _ (by unfold LLONG_MIN; omega) (by unfold LLONG_MAX; omega)
        rw [hw4, hw5]
        exact ih (e + 1) (i + 1) (total + p) (by omega) (by omega) hnext (by omega) (by omega)
      · rw [if_neg hs, if_neg hs]
        have hcur : e + 1 = cur := by omega
        rw [hcur]
        exact ih cur (i + 1) total h1 h2 (by rw [← hcur]; exact hnext) h4 h5
    · rw [if_neg hc, if_neg hc]
      exact ⟨rfl, h4, by omega⟩

end Wrap

section NoWrap

theorem orderedHistory_days (h : CostHistory) (ho : OrderedHistory h) :
    (∀ j, j < h.length → 0 ≤ (entryAt h j).day) ∧
    (∀ j, j + 1 < h.length → (entryAt h j).day ≤ (entryAt h (j + 1)).day) := by
  obtain ⟨hne, hz, hle, -⟩ := ho
  have hlen : 0 < h.length := List.length_pos.2 hne
  have hp := List.pairwise_iff_getElem.1 hle
  constructor
  · intro j hj
    by_cases hj0 : j = 0
    · subst hj0; omega
    · have := hp 0 j hlen hj (by omega)
      rw [entryAt_eq_getElem h 0 hlen] at hz
      rw [entryAt_eq_getElem h j hj]
      omega
  · intro j hj
    have := hp j (j + 1) (by omega) hj (by omega)
    rw [entryAt_eq_getElem h j (by omega), entryAt_eq_getElem h (j + 1) hj]
    exact this

/-- Per-section totals: on an ordered history with days up to `LLONG_MAX` and
costs in `1..INT_MAX`, and a window of at most 4,294,967,298 days starting at
day 0 or later, `compute_total` computes the exact total, which lies between
0 and the number of days times `INT_MAX`. -/
theorem compute_total_eq_exact_nonneg (h : CostHistory) (ho : OrderedHistory h)
    (hr : ∀ e ∈ h, e.day ≤ LLONG_MAX ∧ 0 < e.cost ∧ e.cost ≤ INT_MAX)
    (start end_ : Int) (h0 : 0 ≤ start) (hse : start ≤ end_)
    (hspan : end_ - start + 1 ≤ 4294967298) (hend : end_ < LLONG_MAX) :
    compute_total h start end_ = compute_total_exact h start end_ ∧
    0 ≤ compute_total_exact h start end_ ∧
    compute_total_exact h start end_ ≤ (end_ + 1 - start) * 2147483647 := by
  obtain ⟨hd0, hsorted⟩ := orderedHistory_days h ho
  have hlen : 0 < h.length := List.length_pos.2 ho.1
  have hmem : ∀ j, j < h.length → entryAt h j ∈ h := by
    intro j hj
    rw [entryAt_eq_getElem h j hj]
    exact List.getElem_mem _
  have hday : ∀ j, j < h.length → 0 ≤ (entryAt h j).day ∧ (entryAt h j).day ≤ LLONG_MAX :=
    fun j hj => ⟨hd0 j hj, (hr _ (hmem j hj)).1⟩
  have hcost : ∀ j, j < h.length → 0 ≤ (entryAt h j).cost ∧ (entryAt h j).cost ≤ INT_MAX :=
    fun j hj => ⟨le_of_lt (hr _ (hmem j hj)).2.1, (hr _ (hmem j hj)).2.2⟩
  obtain ⟨-, r2, -, r4⟩ := seek_loop_spec h start h.length 0 (by omega) (by omega)
  have hz := ho.2.1
  have hinit : (if seek_loop h start h.length 0 > 0 then seek_loop h start h.length 0 - 1
        else seek_loop h start h.length 0) + 1 < h.length →
      start ≤ (entryAt h ((if seek_loop h start h.length 0 > 0
        then seek_loop h start h.length 0 - 1 else seek_loop h start h.length 0) + 1)).day := by
    intro hlt
    by_cases hpos : seek_loop h start h.length 0 > 0
    · rw [if_pos hpos] at hlt ⊢
      have e : seek_loop h start h.length 0 - 1 + 1 = seek_loop h start h.length 0 := by omega
      rw [e] at hlt ⊢
      exact le_of_lt (r4 hlt)
    · have hzero : seek_loop h start h.length 0 = 0 := by omega
      have := r4 (by omega)
      rw [hzero] at this
      omega
  have key := sum_loop_eq_exact_nonneg h hday hcost hsorted start end_ h0 hspan hend h.length start
    (if seek_loop h start h.length 0 > 0 then seek_loop h start h.length 0 - 1
      else seek_loop h start h.length 0) 0 (le_refl _) (by omega) hinit (le_refl _) (by omega)
  unfold compute_total compute_total_exact
  rw [if_neg (by omega), if_neg (by omega)]
  simp only []
  exact key

theorem foldl_congr_mem {α β : Type} (f g : β → α → β) (l : List α) (b : β)
    (h : ∀ b, ∀ x ∈ l, f b x = g b x) : l.foldl f b = l.foldl g b := by
  induction l generalizing b with
  | nil => rfl
  | cons x rest ih =>
    rw [List.foldl_cons, List.foldl_cons, h b x (by simp)]
    exact ih _ (fun b y hy => h b y (List.mem_cons_of_mem _ hy))

theorem sum_loop_done (h : CostHistory) (end_ : Int) (fuel : Nat) (cur : Int) (i : Nat)
    (total : Int) (hi : ¬ i < h.length) : sum_loop h end_ fuel cur i total = total := by
  cases fuel with
  | zero => rfl
  | succ fuel =>
    rw [sum_loop]
    rw [if_neg (fun hc => hi hc.2)]

/-- On a history whose values fit their C types, with non-decreasing days,
and a window of at most 4,294,967,295 days within the range of `ll`, the
summation loop computes the exact values: no operation that contributes to
the result overflows. -/
theorem sum_loop_eq_exact (h : CostHistory)
    (hday : ∀ j, j < h.length → (entryAt h j).day ≤ LLONG_MAX)
    (hcost : ∀ j, j < h.length → INT_MIN ≤ (entryAt h j).cost ∧ (entryAt h j).cost ≤ INT_MAX)
    (hsorted : ∀ j, j + 1 < h.length → (entryAt h j).day ≤ (entryAt h (j + 1)).day)
    (start end_ : Int) (h0 : LLONG_MIN ≤ start) (hspan : end_ - start + 1 ≤ 4294967295)
    (hend : end_ ≤ LLONG_MAX) (fuel : Nat) (cur : Int) (i : Nat) (total : Int)
    (h1 : start ≤ cur) (h2 : cur ≤ end_ + 1)
    (h3 : i + 1 < h.length → cur ≤ (entryAt h (i + 1)).day)
    (h6 : i + 1 < h.length → LLONG_MIN < (entryAt h (i + 1)).day)
    (h4 : -((cur - start) * 2147483648) ≤ total) (h5 : total ≤ (cur - start) * 2147483648) :
    sum_loop h end_ fuel cur i total = sum_loop_exact h end_ fuel cur i total := by
  unfold LLONG_MIN at h0
  unfold LLONG_MAX at hend
  induction fuel generalizing cur i total with
  | zero => rfl
  | succ fuel ih =>
    rw [sum_loop_exact_succ, sum_loop_succ h end_ fuel cur i total
      (fun hlt => ⟨h6 hlt, hday _ hlt⟩)]
    by_cases hc : cur ≤ end_ ∧ i < h.length
    · rw [if_pos hc, if_pos hc]
      obtain ⟨hce, hil⟩ := hc
      obtain ⟨e1, e2, e3⟩ := seg_end_spec h end_ i
      generalize seg_end h end_ i = e at e1 e2 e3 ⊢
      have hlow : cur - 1 ≤ e := by
        by_cases hlt : i + 1 < h.length
        · have := h3 hlt
          rcases (e2 hlt).2 with h | h <;> omega
        · have := e3 hlt; omega
      have htot : (if cur ≤ e
            then wrap64 (total + wrap64 (wrap64 (wrap64 (e - cur) + 1) * (entryAt h i).cost))
            else total)
          = (if cur ≤ e then total + (e - cur + 1) * (entryAt h i).cost else total) ∧
          -((e + 1 - start) * 2147483648)
            ≤ (if cur ≤ e then total + (e - cur + 1) * (entryAt h i).cost else total) ∧
          (if cur ≤ e then total + (e - cur + 1) * (entryAt h i).cost else total)
            ≤ (e + 1 - start) * 2147483648 := by
        by_cases hs : cur ≤ e
        · rw [if_pos hs, if_pos hs]
          obtain ⟨c1, c2⟩ := hcost i hil
          unfold INT_MIN at c1
          unfold INT_MAX at c2
          have p1 : (e - cur + 1) * (-2147483648) ≤ (e - cur + 1) * (entryAt h i).cost :=
            mul_le_mul_of_nonneg_left c1 (by omega)
          have p2 : (e - cur + 1) * (entryAt h i).cost ≤ (e - cur + 1) * 2147483647 :=
            mul_le_mul_of_nonneg_left c2 (by omega)
          have hw2 : wrap64 (e - cur) = e - cur :=
            wrap64_eq_self _ (by unfold LLONG_MIN; omega) (by unfold LLONG_MAX; omega)
          have hw3 : wrap64 (e - cur + 1) = e - cur + 1 :=
            wrap64_eq_self _ (by unfold LLONG_MIN; omega) (by unfold LLONG_MAX; omega)
          rw [hw2, hw3]
          generalize (e - cur + 1) * (entryAt h i).cost = p at p1 p2 ⊢
          have hw4 : wrap64 p = p :=
            wrap64_eq_self _ (by unfold LLONG_MIN; omega) (by unfold LLONG_MAX; omega)
          have hw5 : wrap64 (total + p) = total + p :=
            wrap64_eq_self _ (by unfold LLONG_MIN; omega) (by unfold LLONG_MAX; omega)
          rw [hw4, hw5]
          exact ⟨rfl, by omega, by omega⟩
        · rw [if_neg hs, if_neg hs]
          exact ⟨rfl, by omega, by omega⟩
      obtain ⟨t1, t2, t3⟩ := htot
      rw [t1]
      generalize (if cur ≤ e then total + (e - cur + 1) * (entryAt h i).cost else total) = tot
        at t2 t3 ⊢
      by_cases hlast : i + 1 < h.length
      · have hd := hday _ hlast
        unfold LLONG_MAX at hd
        have he := (e2 hlast).1
        have hw1 : wrap64 (e + 1) = e + 1 :=
          wrap64_eq_self _ (by unfold LLONG_MIN; omega) (by unfold LLONG_MAX; omega)
        rw [hw1]
        have hs1 := h6 hlast
        refine ih (e + 1) (i + 1) tot (by omega) (by omega) ?_ ?_ (by omega) (by omega)
        · intro hlt2
          have := hsorted (i + 1) hlt2
          omega
        · intro hlt2
          have := hsorted (i + 1) hlt2
          omega
      · rw [sum_loop_done h end_ fuel _ (i + 1) tot hlast,
          sum_loop_exact_done h end_ fuel _ (i + 1) tot (by omega)]
    · rw [if_neg hc, if_neg hc]

/-- The range aggregator in its no-overflow range. On a history whose values
fit their C types, with non-decreasing days, and a window of at most
4,294,967,295 days within the range of `ll`, `compute_total` returns the
exact total. -/
theorem compute_total_eq_exact (h : CostHistory)
    (hs : h.Pairwise (fun a b => a.day ≤ b.day)) (ht : TypedHistory h)
    (start end_ : Int) (h0 : LLONG_MIN ≤ start) (hend : end_ ≤ LLONG_MAX)
    (hspan : end_ - start + 1 ≤ 4294967295) :
    compute_total h start end_ = compute_total_exact h start end_ := by
  unfold compute_total compute_total_exact
  by_cases hdeg : start > end_ ∨ h.length = 0
  · rw [if_pos hdeg, if_pos hdeg]
  rw [if_neg hdeg, if_neg hdeg]
  simp only []
  have hlen : 0 < h.length := by omega
  have hmem : ∀ j, j < h.length → entryAt h j ∈ h := by
    intro j hj
    rw [entryAt_eq_getElem h j hj]
    exact List.getElem_mem _
  have hp := List.pairwise_iff_getElem.1 hs
  have hsorted : ∀ j, j + 1 < h.length → (entryAt h j).day ≤ (entryAt h (j + 1)).day := by
    intro j hj
    have := hp j (j + 1) (by omega) hj (by omega)
    rw [entryAt_eq_getElem h j (by omega), entryAt_eq_getElem h (j + 1) hj]
    exact this
  obtain ⟨-, r2, -, r4⟩ := seek_loop_spec h start h.length 0 (by omega) (by omega)
  have hinit : (if seek_loop h start h.length 0 > 0 then seek_loop h start h.length 0 - 1
        else seek_loop h start h.length 0) + 1 < h.length →
      start < (entryAt h ((if seek_loop h start h.length 0 > 0
        then seek_loop h start h.length 0 - 1 else seek_loop h start h.length 0) + 1)).day := by
    intro hlt
    by_cases hpos : seek_loop h start h.length 0 > 0
    · rw [if_pos hpos] at hlt ⊢
      have e : seek_loop h start h.length 0 - 1 + 1 = seek_loop h start h.length 0 := by omega
      rw [e] at hlt ⊢
      exact r4 hlt
    · have hzero : seek_loop h start h.length 0 = 0 := by omega
      rw [if_neg hpos] at hlt ⊢
      rw [hzero] at hlt ⊢
      have h1 := r4 (by omega)
      rw [hzero] at h1
      have h2 := hsorted 0 hlt
      omega
  exact sum_loop_eq_exact h (fun j hj => (ht _ (hmem j hj)).1.2)
    (fun j hj => (ht _ (hmem j hj)).2) hsorted start end_ h0 hspan hend h.length start
    (if seek_loop h start h.length 0 > 0 then seek_loop h start h.length 0 - 1
      else seek_loop h start h.length 0) 0 (le_refl _) (by omega)
    (fun hlt => le_of_lt (hinit hlt)) (fun hlt => lt_of_le_of_lt h0 (hinit hlt))
    (by omega) (by omega)

theorem ref_psum_zero (c : List Int) : ref_psum c 0 = 0 := by
  unfold ref_psum; simp

theorem costAt_bounds_of_mem (c : List Int) (T : Int) (hT : 0 ≤ T)
    (h : ∀ x ∈ c, 0 ≤ x ∧ x ≤ T) (i : Nat) : 0 ≤ costAt c i ∧ costAt c i ≤ T := by
  unfold costAt
  by_cases hi : i < c.length
  · rw [List.getD_eq_getElem _ _ hi]
    exact h _ (List.getElem_mem _)
  · rw [List.getD_eq_default _ _ (by omega)]
    exact ⟨le_refl _, hT⟩

theorem costAt_nonneg_of_mem (c : List Int) (h : ∀ x ∈ c, 0 ≤ x) (i : Nat) :
    0 ≤ costAt c i := by
  unfold costAt
  by_cases hi : i < c.length
  · rw [List.getD_eq_getElem _ _ hi]
    exact h _ (List.getElem_mem _)
  · rw [List.getD_eq_default _ _ (by omega)]

theorem total_loop_exact_replicate (n : Nat) (v : Int) :
    total_loop_exact (List.replicate n v) n = n * v := by
  rw [total_loop_exact_eq_sum _ _ (by simp), List.sum_replicate, nsmul_eq_mul]

/-- The grand total of `find_best` is the exact sum reduced to 64 bits. -/
theorem total_loop_wrap (c : List Int) (k : Nat) :
    total_loop c k = wrap64 (total_loop_exact c k) := by
  unfold total_loop total_loop_exact
  induction k with
  | zero => rfl
  | succ k ih =>
    rw [List.range_succ, List.foldl_append, List.foldl_append, ih]
    simp only [List.foldl_cons, List.foldl_nil]
    exact wrap64_add_wrap _ _

theorem total_loop_range (c : List Int) (n : Nat) :
    LLONG_MIN ≤ total_loop c n ∧ total_loop c n ≤ LLONG_MAX := by
  rw [total_loop_wrap]
  exact wrap64_range _

/-- The cells of `pref` are the exact prefix sums reduced to 64 bits. -/
theorem pref_loop_cells (c : List Int) (n : Nat) (hlen : c.length = n) (k : Nat)
    (hk : k ≤ 2 * n) :
    (List.range k).foldl
        (fun pref i => pref ++ [wrap64 (pref.getD i 0 + costAt c (i % n))]) [0]
      = (List.range (k + 1)).map fun j => wrap64 (ref_psum c j) := by
  induction k with
  | zero => rfl
  | succ k ih =>
    rw [List.range_succ, List.foldl_append, ih (by omega)]
    simp only [List.foldl_cons, List.foldl_nil]
    rw [List.range_succ (n := k + 1), List.map_append]
    congr 1
    rw [List.getD_eq_getElem _ _ (by simp)]
    simp only [List.getElem_map, List.getElem_range, List.map_cons, List.map_nil]
    rw [ref_psum_succ c n hlen k (by omega), wrap64_add_wrap]

theorem pref_loop_length (c : List Int) (n : Nat) (hlen : c.length = n) :
    (pref_loop c n).length = 2 * n + 1 := by
  unfold pref_loop
  rw [pref_loop_cells c n hlen (2 * n) (le_refl _)]
  simp

theorem pref_loop_getD (c : List Int) (n : Nat) (hlen : c.length = n) (k : Nat)
    (hk : k ≤ 2 * n) : (pref_loop c n).getD k 0 = wrap64 (ref_psum c k) := by
  unfold pref_loop
  rw [pref_loop_cells c n hlen (2 * n) (le_refl _), List.getD_eq_getElem _ _ (by simp; omega)]
  simp

theorem ref_psum_length (c : List Int) (n : Nat) (hc : c.length = n) :
    ref_psum c n = c.sum := by
  unfold ref_psum
  rw [← hc, List.take_left]

theorem ref_psum_mono (c : List Int) (n : Nat) (hlen : c.length = n)
    (hc : ∀ i, 0 ≤ costAt c i) (j k : Nat) (hjk : j ≤ k) (hk : k ≤ 2 * n) :
    ref_psum c j ≤ ref_psum c k := by
  induction k, hjk using Nat.le_induction with
  | base => exact le_refl _
  | succ k hjk ih =>
    rw [ref_psum_succ c n hlen k (by omega)]
    have := ih (by omega)
    have := hc (k % n)
    omega

/-- One period of the doubled cost vector adds the sum of the costs. -/
theorem ref_psum_add_period (c : List Int) (n : Nat) (hlen : c.length = n) (j : Nat)
    (hj : j ≤ n) : ref_psum c (j + n) = ref_psum c j + c.sum := by
  induction j with
  | zero => rw [Nat.zero_add, ref_psum_length c n hlen, ref_psum_zero, zero_add]
  | succ j ih =>
    rw [show j + 1 + n = j + n + 1 by omega, ref_psum_succ c n hlen (j + n) (by omega),
      ref_psum_succ c n hlen j (by omega), ih (by omega), Nat.add_mod_right]
    ring

/-- With non-negative costs, the sum over at most one period of the doubled
cost vector lies between 0 and the sum of the costs. -/
theorem ref_psum_arc_bounds (c : List Int) (n : Nat) (hlen : c.length = n)
    (hc : ∀ x ∈ c, 0 ≤ x) (j k : Nat) (hjk : j ≤ k) (hkn : k ≤ j + n) (hj : j ≤ n) :
    0 ≤ ref_psum c k - ref_psum c j ∧ ref_psum c k - ref_psum c j ≤ c.sum := by
  have hnn := costAt_nonneg_of_mem c hc
  have m1 := ref_psum_mono c n hlen hnn j k hjk (by omega)
  have m2 := ref_psum_mono c n hlen hnn k (j + n) hkn (by omega)
  rw [ref_psum_add_period c n hlen j hj] at m2
  omega

theorem sum_nonneg_of_mem (c : List Int) (hc : ∀ x ∈ c, 0 ≤ x) : 0 ≤ c.sum :=
  List.sum_nonneg hc

theorem sweep_step_eq (pref : List Int) (total : Int) (n : Nat) (st : Int × AssignmentList)
    (p : Nat × Nat) :
    sweep_step pref total n st p.1 p.2
      = abs_step (code_diff pref total) (code_asg n) n st p := rfl

theorem sweep_eq_foldl (pref : List Int) (total : Int) (n : Nat) (st : Int × AssignmentList) :
    sweep pref total n st
      = (ref_candidates n).foldl (abs_step (code_diff pref total) (code_asg n) n) st := by
  unfold sweep ref_candidates
  rw [foldl_flatMap_eq]
  congr 1
  funext st start
  rw [List.foldl_map]
  rfl

/-- With non-negative costs whose sum fits 64 bits, the diff that the loop
body computes for a candidate is the exact diff. -/
theorem code_diff_eq_exact (c : List Int) (n : Nat) (hlen : c.length = n)
    (hc : ∀ x ∈ c, 0 ≤ x) (hsum : c.sum ≤ LLONG_MAX) (p : Nat × Nat)
    (hp : p ∈ ref_candidates n) :
    code_diff (pref_loop c n) (total_loop c n) p
      = code_diff_exact (pref_loop_exact c n) (total_loop_exact c n) p := by
  obtain ⟨h1, h2, h3⟩ := (mem_ref_candidates n p).1 hp
  obtain ⟨a1, a2⟩ := ref_psum_arc_bounds c n hlen hc p.1 (p.2 + 1) (by omega) (by omega)
    (by omega)
  have s0 := sum_nonneg_of_mem c hc
  unfold code_diff code_diff_exact
  rw [pref_loop_getD c n hlen _ (show p.2 + 1 ≤ 2 * n by omega),
    pref_loop_getD c n hlen _ (show p.1 ≤ 2 * n by omega),
    pref_loop_exact_getD c n hlen _ (show p.2 + 1 ≤ 2 * n by omega),
    pref_loop_exact_getD c n hlen _ (show p.1 ≤ 2 * n by omega),
    total_loop_wrap, total_loop_exact_eq_sum c n hlen, wrap64_sub_wrap]
  unfold LLONG_MAX at hsum
  generalize c.sum = total at hsum a2 s0 ⊢
  generalize ref_psum c (p.2 + 1) - ref_psum c p.1 = a at a1 a2 ⊢
  have hw0 : wrap64 total = total :=
    wrap64_eq_self _ (by unfold LLONG_MIN; omega) (by unfold LLONG_MAX; omega)
  have hw1 : wrap64 a = a :=
    wrap64_eq_self _ (by unfold LLONG_MIN; omega) (by unfold LLONG_MAX; omega)
  rw [hw0, hw1]
  have hw2 : wrap64 (total - a) = total - a :=
    wrap64_eq_self _ (by unfold LLONG_MIN; omega) (by unfold LLONG_MAX; omega)
  rw [hw2]
  have hw3 : wrap64 (a - (total - a)) = a - (total - a) :=
    wrap64_eq_self _ (by unfold LLONG_MIN; omega) (by unfold LLONG_MAX; omega)
  have hw4 : wrap64 (total - a - a) = total - a - a :=
    wrap64_eq_self _ (by unfold LLONG_MIN; omega) (by unfold LLONG_MAX; omega)
  rw [hw3, hw4]

theorem abs_step_congr {α : Type} (D D2 : α → Int) (A : α → Assignment) (n : Int)
    (st : Int × AssignmentList) (x : α) (h : D x = D2 x) :
    abs_step D A n st x = abs_step D2 A n st x := by
  unfold abs_step
  rw [h]

/-- The partition optimiser in its no-overflow range: with non-negative costs
whose sum is at most `LLONG_MAX`, `find_best` returns what it returns in exact
arithmetic. -/
theorem find_best_eq_exact (c : List Int) (n : Nat) (hlen : c.length = n)
    (hc : ∀ x ∈ c, 0 ≤ x) (hsum : c.sum ≤ LLONG_MAX) (res : AssignmentList) :
    find_best c n res = find_best_exact c n res := by
  unfold find_best find_best_exact
  simp only []
  rw [sweep_eq_foldl, sweep_exact_eq_foldl,
    foldl_congr_mem _ _ _ _ (fun st p hp =>
      abs_step_congr _ _ (code_asg n) n st p (code_diff_eq_exact c n hlen hc hsum p hp))]

/-- With non-negative costs whose doubled sum is at most `LLONG_MAX`, every
cell of `pref` holds the exact prefix sum. -/
theorem pref_loop_eq_exact (c : List Int) (n : Nat) (hlen : c.length = n)
    (hc : ∀ x ∈ c, 0 ≤ x) (hsum : 2 * c.sum ≤ LLONG_MAX) :
    pref_loop c n = pref_loop_exact c n := by
  unfold pref_loop pref_loop_exact
  rw [pref_loop_cells c n hlen (2 * n) (le_refl _),
    pref_loop_exact_cells c n hlen (2 * n) (le_refl _)]
  apply List.map_congr_left
  intro k hk
  have hk2 : k ≤ 2 * n := by have := List.mem_range.1 hk; omega
  have hnn := costAt_nonneg_of_mem c hc
  have m1 := ref_psum_mono c n hlen hnn 0 k (by omega) hk2
  have m2 := ref_psum_mono c n hlen hnn k (n + n) (by omega) (by omega)
  rw [ref_psum_add_period c n hlen n (le_refl _), ref_psum_length c n hlen] at m2
  rw [ref_psum_zero] at m1
  unfold LLONG_MAX at hsum
  exact wrap64_eq_self _ (by unfold LLONG_MIN; omega) (by unfold LLONG_MAX; omega)

theorem total_loop_eq_exact (c : List Int) (n : Nat) (hlen : c.length = n)
    (hc : ∀ x ∈ c, 0 ≤ x) (hsum : c.sum ≤ LLONG_MAX) :
    total_loop c n = total_loop_exact c n := by
  rw [total_loop_wrap, total_loop_exact_eq_sum c n hlen]
  have s0 := sum_nonneg_of_mem c hc
  unfold LLONG_MAX at hsum
  exact wrap64_eq_self _ (by unfold LLONG_MIN; omega) (by unfold LLONG_MAX; omega)

/-! ## What the result list holds, whatever the arithmetic does -/

theorem abs_step_mem {α : Type} (D : α → Int) (A : α → Assignment) (n : Int)
    (st : Int × AssignmentList) (x : α) (a : Assignment)
    (ha : a ∈ (abs_step D A n st x).2) : a ∈ st.2 ∨ a = A x := by
  unfold abs_step at ha
  have hadd : ∀ L : AssignmentList, a ∈ add_asg n L (A x) → a ∈ L ∨ a = A x := by
    intro L h
    rw [add_asg_eq] at h
    split at h
    · exact Or.inl h
    · rcases List.mem_append.1 h with h | h
      · exact Or.inl h
      · exact Or.inr (List.mem_singleton.1 h)
  split at ha
  · rcases hadd [] ha with h | h
    · simp at h
    · exact Or.inr h
  · split at ha
    · exact hadd st.2 ha
    · exact Or.inl ha

theorem foldl_abs_step_mem {α : Type} (D : α → Int) (A : α → Assignment) (n : Int)
    (l : List α) (st : Int × AssignmentList) (a : Assignment)
    (ha : a ∈ (l.foldl (abs_step D A n) st).2) : a ∈ st.2 ∨ ∃ x ∈ l, a = A x := by
  induction l generalizing st with
  | nil => exact Or.inl ha
  | cons x rest ih =>
    rw [List.foldl_cons] at ha
    rcases ih _ ha with h | ⟨y, hy, rfl⟩
    · rcases abs_step_mem D A n st x a h with h | h
      · exact Or.inl h
      · exact Or.inr ⟨x, List.mem_cons_self _ _, h⟩
    · exact Or.inr ⟨y, List.mem_cons_of_mem _ hy, rfl⟩

/-- Every assignment that `find_best` returns is the arc pair of a sweep
candidate, whatever values the sums take. -/
theorem result_is_candidate (c : List Int) (n : Nat) (res : AssignmentList)
    (a : Assignment) (ha : a ∈ (find_best c n res).2) :
    ∃ p ∈ ref_candidates n, a = ref_assignment n p := by
  unfold find_best clear_assignments at ha
  simp only [] at ha
  rw [sweep_eq_foldl] at ha
  rcases foldl_abs_step_mem _ _ _ _ _ a ha with h | ⟨p, hp, rfl⟩
  · simp at h
  · exact ⟨p, hp, code_asg_eq_ref_assignment n p hp⟩

end NoWrap

/-! ## Initialisation, queries, canonical order -/

section Misc

theorem compute_total_exact_single_entry (c a b : Int) (h0 : 0 ≤ a) (hab : a ≤ b) :
    compute_total_exact [⟨0, c⟩] a b = (b - a + 1) * c := by
  have hv : ValidHistory [⟨0, c⟩] := ⟨by simp, rfl, by simp⟩
  rw [compute_total_exact_eq_per_day _ hv a b h0 hab]
  unfold per_day_total
  apply sum_Icc_const _ a b c (by omega)
  intro D hD1 _
  exact effective_cost_eq [⟨0, c⟩] hv.2.2 0 (by simp) D (by show (0 : Int) ≤ D; omega)
    (fun h => absurd h (by simp))

/-- The result of `find_best_exact` does not depend on the list it is handed. -/
theorem find_best_exact_res_irrelevant (c : List Int) (n : Nat) (r1 r2 : AssignmentList) :
    find_best_exact c n r1 = find_best_exact c n r2 := rfl

theorem arc_len_eq_card (n s e : Int) (_hs0 : 0 ≤ s) (hs : s < n) (he0 : 0 ≤ e) (_he : e < n) :
    arc_len n s e = (arcSet n s e).card := by
  unfold arc_len arcSet
  by_cases h : s ≤ e
  · rw [if_pos h, if_pos (by omega), Int.card_Icc]
    omega
  · rw [if_neg (by omega), if_neg h, Finset.card_union_of_disjoint (by
      rw [Finset.disjoint_left]; intro x; rw [Finset.mem_Icc, Finset.mem_Icc]; omega),
      Int.card_Icc, Int.card_Icc]
    push_cast
    omega

theorem normalize_ordered (a : Assignment) (n : Int) :
    arc_len n (normalize a n).s1 (normalize a n).e1
        < arc_len n (normalize a n).s2 (normalize a n).e2 ∨
    (arc_len n (normalize a n).s1 (normalize a n).e1
        = arc_len n (normalize a n).s2 (normalize a n).e2 ∧
      (normalize a n).s1 ≤ (normalize a n).s2) := by
  unfold normalize arc_len
  simp only []
  split_ifs <;> (try dsimp only) <;> omega

theorem normalize_idempotent (a : Assignment) (n : Int) :
    normalize (normalize a n) n = normalize a n := by
  have h := normalize_ordered a n
  generalize normalize a n = b at h
  unfold arc_len at h
  unfold normalize
  simp only []
  split_ifs at h ⊢ <;> first | rfl | (exfalso; omega)

end Misc

/-! ## Windows starting before the first entry -/

section EarlyStart

end EarlyStart

/-! ## Prefix lookups and complementary arcs -/

section Lookups

theorem max?_int_iff (xs : List Int) (a : Int) :
    xs.max? = some a ↔ a ∈ xs ∧ ∀ b ∈ xs, b ≤ a := by
  haveI : Std.Antisymm (fun a b : Int => a ≤ b) := ⟨fun h1 h2 => Int.le_antisymm h1 h2⟩
  apply List.max?_eq_some_iff
  · intro a; exact le_refl a
  · intro a b; exact max_choice a b
  · intro a b c; exact max_le_iff

theorem pref_loop_exact_length (c : List Int) (n : Nat) (hc : c.length = n) :
    (pref_loop_exact c n).length = 2 * n + 1 := by
  unfold pref_loop_exact
  rw [pref_loop_exact_cells c n hc (2 * n) (le_refl _)]
  simp

theorem pref_lookup_eq_sum (c : List Int) (n : Nat) (hc : c.length = n) (start end_ : Nat)
    (h2 : start ≤ end_) (h3 : end_ + 1 ≤ 2 * n) :
    (pref_loop_exact c n).getD (end_ + 1) 0 - (pref_loop_exact c n).getD start 0
      = ∑ i in Finset.Ico start (end_ + 1), costAt c (i % n) := by
  rw [pref_loop_exact_getD c n hc _ h3, pref_loop_exact_getD c n hc _ (by omega),
    ref_psum_eq_sum c n hc _ h3, ref_psum_eq_sum c n hc _ (by omega),
    ← Finset.sum_Ico_eq_sub _ (by omega)]

theorem mem_ref_candidates_of (n start end_ : Nat) (h1 : start < n) (h2 : start ≤ end_)
    (h3 : end_ + 2 ≤ start + n) : (start, end_) ∈ ref_candidates n := by
  rw [mem_ref_candidates]
  simp only []
  omega

end Lookups

/-! ## Balance bound -/

section Balance

theorem ref_diff_eq_abs (c : List Int) (p : Nat × Nat) :
    ref_diff c p = |2 * (ref_psum c (p.2 + 1) - ref_psum c p.1) - c.sum| := by
  unfold ref_diff
  congr 1
  ring

/-- With non-negative costs bounded by `M`, some arc starting at section 0
has an imbalance of at most `M`. -/
theorem exists_balanced_cut (c : List Int) (n : Nat) (hn : 2 ≤ n) (hlen : c.length = n)
    (M : Int) (hc : ∀ i, 0 ≤ costAt c i ∧ costAt c i ≤ M) :
    ∃ j, 1 ≤ j ∧ j ≤ n - 1 ∧ |2 * ref_psum c j - c.sum| ≤ M := by
  have hS : c.sum = ref_psum c n := (ref_psum_length c n hlen).symm
  have hnn : ∀ i, 0 ≤ costAt c i := fun i => (hc i).1
  have key : ∀ k, 1 ≤ k → k ≤ n - 1 →
      (∃ j, 1 ≤ j ∧ j ≤ k ∧ |2 * ref_psum c j - c.sum| ≤ M) ∨
      2 * ref_psum c k - c.sum < -M := by
    intro k hk1 hk2
    induction k, hk1 using Nat.le_induction with
    | base =>
      have h1 : ref_psum c (0 + 1) = ref_psum c 0 + costAt c (0 % n) :=
        ref_psum_succ c n hlen 0 (by omega)
      rw [ref_psum_zero] at h1
      have h2 := ref_psum_mono c n hlen hnn 1 n (by omega) (by omega)
      have h3 := hc (0 % n)
      by_cases hlow : 2 * ref_psum c 1 - c.sum < -M
      · exact Or.inr hlow
      · refine Or.inl ⟨1, le_refl _, le_refl _, ?_⟩
        rw [abs_le]
        simp only [zero_add] at h1
        constructor <;> omega
    | succ k hk1 ih =>
      rcases ih (by omega) with ⟨j, hj1, hj2, hj3⟩ | hlow
      · exact Or.inl ⟨j, hj1, by omega, hj3⟩
      · have h1 := ref_psum_succ c n hlen k (by omega)
        have h3 := hc (k % n)
        by_cases hlow2 : 2 * ref_psum c (k + 1) - c.sum < -M
        · exact Or.inr hlow2
        · refine Or.inl ⟨k + 1, by omega, le_refl _, ?_⟩
          rw [abs_le]
          constructor <;> omega
  rcases key (n - 1) (by omega) (le_refl _) with ⟨j, hj1, hj2, hj3⟩ | hlow
  · exact ⟨j, hj1, hj2, hj3⟩
  · exfalso
    have h1 := ref_psum_succ c n hlen (n - 1) (by omega)
    have e : n - 1 + 1 = n := by omega
    rw [e] at h1
    have h2 := ref_psum_mono c n hlen hnn 0 (n - 1) (by omega) (by omega)
    rw [ref_psum_zero] at h2
    have h3 := hc ((n - 1) % n)
    omega

theorem ref_diff_parity (c : List Int) (p : Nat × Nat) : ref_diff c p % 2 = c.sum % 2 := by
  rw [ref_diff_eq_abs]
  rcases abs_cases (2 * (ref_psum c (p.2 + 1) - ref_psum c p.1) - c.sum) with ⟨h, -⟩ | ⟨h, -⟩
    <;> rw [h] <;> omega

end Balance

/-! ## The two candidates of a partition -/

section Pairs

theorem ref_candidates_sorted (n : Nat) : (ref_candidates n).Pairwise sweep_lt := by
  unfold ref_candidates
  rw [List.pairwise_flatMap]
  constructor
  · intro s _
    rw [List.pairwise_map]
    have : (List.range' s (n - 1)).Pairwise (fun a b => a < b) := List.pairwise_lt_range' s _
    exact this.imp (fun h => Or.inr ⟨rfl, h⟩)
  · have : (List.range n).Pairwise (fun a b => a < b) := List.pairwise_lt_range n
    refine this.imp ?_
    intro s1 s2 hlt x hx y hy
    rw [List.mem_map] at hx hy
    obtain ⟨e1, -, rfl⟩ := hx
    obtain ⟨e2, -, rfl⟩ := hy
    exact Or.inl hlt

theorem sweep_exact_lt_irrefl (p : Nat × Nat) : ¬ sweep_lt p p := by
  unfold sweep_lt; omega

theorem sweep_exact_lt_asymm (p q : Nat × Nat) (h : sweep_lt p q) : ¬ sweep_lt q p := by
  unfold sweep_lt at h ⊢; omega

theorem ref_candidates_nodup (n : Nat) : (ref_candidates n).Nodup := by
  unfold List.Nodup
  refine (ref_candidates_sorted n).imp ?_
  intro a b h heq
  rw [heq] at h
  exact sweep_exact_lt_irrefl _ h

theorem ref_assignment_injective (n : Nat) (p q : Nat × Nat) (hp : p ∈ ref_candidates n)
    (hq : q ∈ ref_candidates n) (h : ref_assignment n p = ref_assignment n q) : p = q := by
  rw [ref_assignment_explicit n p hp, ref_assignment_explicit n q hq, assignment_eq_iff] at h
  obtain ⟨p1, p2, p3⟩ := (mem_ref_candidates n p).1 hp
  obtain ⟨q1, q2, q3⟩ := (mem_ref_candidates n q).1 hq
  dsimp only at h
  obtain ⟨h1, h2, -, -⟩ := h
  have e1 : p.1 = q.1 := by omega
  have e2 : p.2 = q.2 := by
    split at h2 <;> split at h2 <;> omega
  exact Prod.ext e1 e2

/-- The candidate that sweeps the same partition with the roles of the two
arcs swapped. -/
theorem exists_partner (c : List Int) (n : Nat) (hc : c.length = n) (p : Nat × Nat)
    (hp : p ∈ ref_candidates n) :
    ∃ q ∈ ref_candidates n, ref_assignment n q = swap_arcs (ref_assignment n p) ∧ q ≠ p ∧
      ref_diff c q = ref_diff c p ∧ (sweep_lt p q ↔ p.2 + 2 ≤ n) ∧
      (sweep_lt q p ↔ ¬ p.2 + 2 ≤ n) := by
  have hpart := ref_assignment_isArcPartition n p hp
  obtain ⟨q, hq, hqa⟩ := isArcPartition_is_candidate n _
    (isArcPartition_swap_arcs n _ hpart)
  have hne : q ≠ p := by
    intro heq
    rw [heq] at hqa
    have := partition_starts_ne n _ hpart
    apply this
    have := congrArg Assignment.s1 hqa
    exact this
  have hdiff : ref_diff c q = ref_diff c p := by
    rw [ref_diff_eq_imbalance c n hc q hq, ref_diff_eq_imbalance c n hc p hp, hqa]
    unfold imbalance swap_arcs
    exact abs_sub_comm _ _
  have hq1 : (q.1 : Int) = if (p.2 : Int) + 1 < n then (p.2 : Int) + 1 else (p.2 : Int) + 1 - n := by
    have h1 := congrArg Assignment.s1 hqa
    rw [ref_assignment_explicit n q hq, ref_assignment_explicit n p hp] at h1
    exact h1
  obtain ⟨p1, p2, p3⟩ := (mem_ref_candidates n p).1 hp
  refine ⟨q, hq, hqa, hne, hdiff, ?_, ?_⟩
  · unfold sweep_lt
    split at hq1 <;> omega
  · unfold sweep_lt
    split at hq1 <;> omega

/-- Two candidates have the same canonical form exactly when they are the
same candidate or sweep the same partition with the roles swapped. -/
theorem same_canon_iff (n : Nat) (p q : Nat × Nat) (hp : p ∈ ref_candidates n)
    (hq : q ∈ ref_candidates n) :
    normalize (ref_assignment n q) n = normalize (ref_assignment n p) n ↔
      q = p ∨ ref_assignment n q = swap_arcs (ref_assignment n p) := by
  rw [normalize_eq_iff_sameArcs n _ _ (ref_assignment_isArcPartition n q hq)
    (ref_assignment_isArcPartition n p hp),
    sameArcs_iff n _ _ (ref_assignment_isArcPartition n q hq)
    (ref_assignment_isArcPartition n p hp)]
  constructor
  · rintro (h | h)
    · exact Or.inl (ref_assignment_injective n q p hq hp h)
    · exact Or.inr h
  · rintro (h | h)
    · exact Or.inl (by rw [h])
    · exact Or.inr h

end Pairs

/-! ## First occurrences in sweep order -/

section FirstFound

theorem first_occ_split (n : Int) (L : AssignmentList) (a : Assignment)
    (ha : a ∈ L.foldl (add_asg n) []) :
    ∃ l1 l2, L = l1 ++ a :: l2 ∧ ∀ y ∈ l1, normalize y n ≠ normalize a n := by
  induction L using List.reverseRecOn with
  | nil => simp at ha
  | append_singleton L z ih =>
    rw [List.foldl_append, List.foldl_cons, List.foldl_nil, add_asg_eq] at ha
    have hold : a ∈ L.foldl (add_asg n) [] →
        ∃ l1 l2, L ++ [z] = l1 ++ a :: l2 ∧ ∀ y ∈ l1, normalize y n ≠ normalize a n := by
      intro h
      obtain ⟨l1, l2, h1, h2⟩ := ih h
      exact ⟨l1, l2 ++ [z], by rw [h1]; simp, h2⟩
    by_cases hc : normalize z n ∈ canon n (L.foldl (add_asg n) [])
    · rw [if_pos hc] at ha
      exact hold ha
    · rw [if_neg hc] at ha
      rcases List.mem_append.1 ha with h | h
      · exact hold h
      · simp at h
        subst h
        refine ⟨L, [], rfl, ?_⟩
        intro y hy heq
        apply hc
        rw [← heq]
        exact canon_mem_foldl n L [] y hy

theorem foldl_add_asg_sublist (n : Int) (L : AssignmentList) :
    (L.foldl (add_asg n) []).Sublist L := by
  induction L using List.reverseRecOn with
  | nil => exact List.Sublist.refl _
  | append_singleton L z ih =>
    rw [List.foldl_append, List.foldl_cons, List.foldl_nil, add_asg_eq]
    split
    · exact ih.trans (List.sublist_append_left _ _)
    · exact List.Sublist.append ih (List.Sublist.refl _)

theorem best_candidates_sorted (c : List Int) (n : Nat) (m : Int) :
    ((ref_candidates n).filter fun p => decide (ref_diff c p = m)).Pairwise sweep_lt :=
  (ref_candidates_sorted n).filter _

/-- A candidate whose arc pair is in the result is the first of the two
candidates of its partition: its first arc ends at `n - 2` at the latest. -/
theorem first_found_nowrap (c : List Int) (n : Nat) (hc : c.length = n) (m : Int)
    (p : Nat × Nat) (hp : p ∈ ref_candidates n)
    (hin : ref_assignment n p ∈ (best_arcs c n m).foldl (add_asg n) []) : p.2 + 2 ≤ n := by
  by_contra hcon
  obtain ⟨l1, l2, hsplit, hfirst⟩ := first_occ_split n _ _ hin
  have hpL : ref_assignment n p ∈ best_arcs c n m := by
    rw [hsplit]; simp
  obtain ⟨p0, hp0, hp0m, hp0a⟩ := (mem_best_arcs c n m _).1 hpL
  have hpp : p0 = p := ref_assignment_injective n p0 p hp0 hp hp0a
  subst hpp
  obtain ⟨q, hq, hqa, hne, hqd, -, hlt⟩ := exists_partner c n hc p0 hp0
  have hqp : sweep_lt q p0 := hlt.2 hcon
  unfold best_arcs at hsplit
  obtain ⟨B1, B2, hB, hm1, hm2⟩ := List.map_eq_append_iff.1 hsplit
  obtain ⟨p1, B3, hB2, hp1a, hm3⟩ := List.map_eq_cons_iff.1 hm2
  have hsorted := best_candidates_sorted c n m
  rw [hB, hB2] at hsorted
  have hmemB : ∀ x, x ∈ B1 ++ p1 :: B3 → x ∈ ref_candidates n := by
    intro x hx
    rw [← hB2, ← hB] at hx
    exact (List.mem_filter.1 hx).1
  have hp1 : p1 = p0 :=
    ref_assignment_injective n p1 p0 (hmemB p1 (by simp)) hp0 hp1a
  subst hp1
  have hqB : q ∈ B1 ++ p1 :: B3 := by
    rw [← hB2, ← hB]
    exact List.mem_filter.2 ⟨hq, by rw [hp0m] at hqd; simpa using hqd⟩
  rcases List.mem_append.1 hqB with h | h
  · have hql1 : ref_assignment n q ∈ l1 := by
      rw [← hm1]; exact List.mem_map_of_mem _ h
    apply hfirst _ hql1
    rw [hqa]
    exact normalize_swap_arcs _ _ (partition_starts_ne n _
      (ref_assignment_isArcPartition n p1 hp0))
  · rcases List.mem_cons.1 h with h | h
    · exact hne h
    · have := (List.pairwise_append.1 hsorted).2.1
      have := (List.pairwise_cons.1 this).1 q h
      exact sweep_exact_lt_asymm _ _ this hqp

/-- The number of candidates with diff `m` is twice the number of arc pairs
kept among them. -/
theorem best_count_eq_twice (c : List Int) (n : Nat) (hc : c.length = n) (m : Int) :
    ((ref_candidates n).filter fun p => decide (ref_diff c p = m)).length
      = 2 * ((best_arcs c n m).foldl (add_asg n) []).length := by
  have hnd : ((ref_candidates n).filter fun p => decide (ref_diff c p = m)).Nodup :=
    (ref_candidates_nodup n).filter _
  have hmemB : ∀ p, p ∈ ((ref_candidates n).filter fun p => decide (ref_diff c p = m)).toFinset
      ↔ p ∈ ref_candidates n ∧ ref_diff c p = m := by
    intro p
    rw [List.mem_toFinset, List.mem_filter]
    simp
  rw [← List.toFinset_card_of_nodup hnd,
    Finset.card_eq_sum_card_image (fun p => normalize (ref_assignment n p) n)]
  have hfiber : ∀ b ∈ (((ref_candidates n).filter fun p => decide (ref_diff c p = m)).toFinset).image
      (fun p => normalize (ref_assignment n p) n),
      ((((ref_candidates n).filter fun p => decide (ref_diff c p = m)).toFinset).filter
        (fun p => normalize (ref_assignment n p) n = b)).card = 2 := by
    intro b hb
    obtain ⟨p, hpB, rfl⟩ := Finset.mem_image.1 hb
    obtain ⟨hp, hpm⟩ := (hmemB p).1 hpB
    obtain ⟨q, hq, hqa, hne, hqd, -, -⟩ := exists_partner c n hc p hp
    have : (((ref_candidates n).filter fun p => decide (ref_diff c p = m)).toFinset).filter
        (fun r => normalize (ref_assignment n r) n = normalize (ref_assignment n p) n)
        = {p, q} := by
      ext r
      rw [Finset.mem_filter, hmemB, Finset.mem_insert, Finset.mem_singleton]
      constructor
      · rintro ⟨⟨hr, -⟩, hcan⟩
        rcases (same_canon_iff n p r hp hr).1 hcan with h | h
        · exact Or.inl h
        · right
          exact ref_assignment_injective n r q hr hq (by rw [h, hqa])
      · rintro (h | h)
        · subst h
          exact ⟨⟨hp, hpm⟩, rfl⟩
        · subst h
          exact ⟨⟨hq, by rw [hqd, hpm]⟩, (same_canon_iff n p r hp hq).2 (Or.inr hqa)⟩
    rw [this, Finset.card_pair (fun h => hne h.symm)]
  rw [Finset.sum_congr rfl hfiber, Finset.sum_const, smul_eq_mul, mul_comm]
  congr 1
  have hcanon : (((ref_candidates n).filter fun p => decide (ref_diff c p = m)).toFinset).image
      (fun p => normalize (ref_assignment n p) n)
      = (canon n ((best_arcs c n m).foldl (add_asg n) [])).toFinset := by
    ext x
    rw [Finset.mem_image, List.mem_toFinset]
    constructor
    · rintro ⟨p, hpB, rfl⟩
      obtain ⟨hp, hpm⟩ := (hmemB p).1 hpB
      exact canon_mem_foldl n _ [] _ ((mem_best_arcs c n m _).2 ⟨p, hp, hpm, rfl⟩)
    · intro hx
      unfold canon at hx
      obtain ⟨a, ha, rfl⟩ := List.mem_map.1 hx
      rcases mem_foldl_add_asg n _ [] a ha with h | h
      · simp at h
      · obtain ⟨p, hp, hpm, rfl⟩ := (mem_best_arcs c n m _).1 h
        exact ⟨p, (hmemB p).2 ⟨hp, hpm⟩, rfl⟩
  rw [hcanon, List.toFinset_card_of_nodup (canon_nodup_foldl n _ [] (by simp [canon]))]
  simp [canon]

end FirstFound

section Shape

theorem result_from_candidate (c : List Int) (n : Nat) (hc : c.length = n) (m : Int)
    (a : Assignment) (ha : a ∈ (best_arcs c n m).foldl (add_asg n) []) :
    ∃ p ∈ ref_candidates n, a = ref_assignment n p ∧ ref_diff c p = m ∧ p.2 + 2 ≤ n := by
  rcases mem_foldl_add_asg n _ [] a ha with h | h
  · simp at h
  · obtain ⟨p, hp, hpm, rfl⟩ := (mem_best_arcs c n m _).1 h
    exact ⟨p, hp, rfl, hpm, first_found_nowrap c n hc m p hp ha⟩

theorem ref_assignment_nowrap (n : Nat) (p : Nat × Nat) (hp : p ∈ ref_candidates n)
    (h : p.2 + 2 ≤ n) :
    ref_assignment n p = ⟨(p.1 : Int), (p.2 : Int), (p.2 : Int) + 1,
      ((p.1 : Int) + n - 1) % n⟩ := by
  rw [assignment_eq_iff]
  have he := ref_assignment_explicit n p hp
  rw [assignment_eq_iff] at he
  obtain ⟨h1, h2, h3, -⟩ := he
  dsimp only at h1 h2 h3 ⊢
  refine ⟨h1, ?_, ?_, ?_⟩
  · rw [h2, if_pos (by omega)]
  · rw [h3, if_pos (by omega)]
  · show ((p.1 : Int) - 1 + n) % n = _
    rw [show (p.1 : Int) - 1 + n = (p.1 : Int) + n - 1 by ring]

/-- The result list is in sweep order of its candidates. -/
theorem result_sorted (c : List Int) (n : Nat) (hc : c.length = n) (m : Int) :
    ((best_arcs c n m).foldl (add_asg n) []).Pairwise
      (fun a b => a.s1 < b.s1 ∨ (a.s1 = b.s1 ∧ a.e1 < b.e1)) := by
  have hsub := foldl_add_asg_sublist n (best_arcs c n m)
  have hall : ∀ a ∈ (best_arcs c n m).foldl (add_asg n) [],
      ∃ p ∈ ref_candidates n, a = ref_assignment n p ∧ ref_diff c p = m ∧ p.2 + 2 ≤ n :=
    fun a ha => result_from_candidate c n hc m a ha
  generalize (best_arcs c n m).foldl (add_asg n) [] = R at hsub hall
  unfold best_arcs at hsub
  obtain ⟨B, hB, rfl⟩ := List.sublist_map_iff.1 hsub
  rw [List.pairwise_map]
  have hsorted : B.Pairwise sweep_lt := (best_candidates_sorted c n m).sublist hB
  refine hsorted.imp_of_mem ?_
  intro p q hp hq hlt
  have hpc : p ∈ ref_candidates n := (List.mem_filter.1 (hB.subset hp)).1
  have hqc : q ∈ ref_candidates n := (List.mem_filter.1 (hB.subset hq)).1
  obtain ⟨p0, hp0, hpa, -, hp2⟩ := hall _ (List.mem_map_of_mem _ hp)
  obtain ⟨q0, hq0, hqa, -, hq2⟩ := hall _ (List.mem_map_of_mem _ hq)
  have e1 : p = p0 := ref_assignment_injective n p p0 hpc hp0 hpa
  have e2 : q = q0 := ref_assignment_injective n q q0 hqc hq0 hqa
  subst e1 e2
  rw [ref_assignment_nowrap n p hpc hp2, ref_assignment_nowrap n q hqc hq2]
  dsimp only
  unfold sweep_lt at hlt
  omega

end Shape

/-! ## Rotation and reversal of the cost vector -/

section Symmetry

theorem ref_diff_eq_arc_cost (c : List Int) (n : Nat) (hc : c.length = n) (p : Nat × Nat)
    (hp : p ∈ ref_candidates n) :
    ref_diff c p = |2 * arc_cost c n p.1 p.2 - c.sum| := by
  obtain ⟨h1, h2, h3⟩ := (mem_ref_candidates n p).1 hp
  rw [ref_diff_eq_abs, ref_psum_eq_sum c n hc _ (show p.2 + 1 ≤ 2 * n by omega),
    ref_psum_eq_sum c n hc _ (show p.1 ≤ 2 * n by omega),
    ← Finset.sum_Ico_eq_sub _ (show p.1 ≤ p.2 + 1 by omega)]
  rfl

theorem arc_cost_add_period (c : List Int) (n s e : Nat) :
    arc_cost c n (s + n) (e + n) = arc_cost c n s e := by
  unfold arc_cost
  rw [show e + n + 1 = e + 1 + n by omega,
    ← Finset.sum_Ico_add' (fun i => costAt c (i % n)) s (e + 1) n]
  apply Finset.sum_congr rfl
  intro i _
  simp only [Nat.add_mod_right]

theorem costAt_rotate_one (c : List Int) (n : Nat) (hc : c.length = n) (hn : 0 < n) (i : Nat) :
    costAt (c.rotate 1) (i % n) = costAt c ((i + 1) % n) := by
  have hi : i % n < n := Nat.mod_lt _ hn
  unfold costAt
  rw [List.getD_eq_getElem _ _ (by rw [List.length_rotate, hc]; exact hi),
    List.getElem_rotate, List.getD_eq_getElem _ _ (by rw [hc]; exact Nat.mod_lt _ hn)]
  congr 1
  rw [hc, Nat.add_mod (i % n) 1 n, Nat.mod_mod, ← Nat.add_mod]

theorem arc_cost_rotate_one (c : List Int) (n : Nat) (hc : c.length = n) (hn : 0 < n)
    (s e : Nat) : arc_cost (c.rotate 1) n s e = arc_cost c n (s + 1) (e + 1) := by
  unfold arc_cost
  rw [← Finset.sum_Ico_add' (fun i => costAt c (i % n)) s (e + 1) 1]
  apply Finset.sum_congr rfl
  intro i _
  exact costAt_rotate_one c n hc hn i

theorem rotate_cand_spec (c : List Int) (n : Nat) (hc : c.length = n) (p : Nat × Nat)
    (hp : p ∈ ref_candidates n) :
    rotate_cand n p ∈ ref_candidates n ∧
    ref_diff (c.rotate 1) p = ref_diff c (rotate_cand n p) := by
  obtain ⟨h1, h2, h3⟩ := (mem_ref_candidates n p).1 hp
  have hmem : rotate_cand n p ∈ ref_candidates n := by
    rw [mem_ref_candidates]
    unfold rotate_cand
    split <;> dsimp only <;> omega
  refine ⟨hmem, ?_⟩
  rw [ref_diff_eq_arc_cost (c.rotate 1) n (by rw [List.length_rotate, hc]) p hp,
    ref_diff_eq_arc_cost c n hc _ hmem, arc_cost_rotate_one c n hc (by omega),
    (List.rotate_perm c 1).sum_eq]
  unfold rotate_cand
  split
  · rfl
  · dsimp only
    rw [← arc_cost_add_period c n (p.1 + 1 - n) (p.2 + 1 - n)]
    have e1 : p.1 + 1 - n + n = p.1 + 1 := by omega
    have e2 : p.2 + 1 - n + n = p.2 + 1 := by omega
    rw [e1, e2]

theorem rotate_cand_injOn (n : Nat) (p q : Nat × Nat) (hp : p ∈ ref_candidates n)
    (hq : q ∈ ref_candidates n) (h : rotate_cand n p = rotate_cand n q) : p = q := by
  obtain ⟨p1, p2, p3⟩ := (mem_ref_candidates n p).1 hp
  obtain ⟨q1, q2, q3⟩ := (mem_ref_candidates n q).1 hq
  unfold rotate_cand at h
  by_cases hpn : p.1 + 1 < n <;> by_cases hqn : q.1 + 1 < n
  · rw [if_pos hpn, if_pos hqn, Prod.mk.injEq] at h
    exact Prod.ext (by omega) (by omega)
  · rw [if_pos hpn, if_neg hqn, Prod.mk.injEq] at h
    exact Prod.ext (by omega) (by omega)
  · rw [if_neg hpn, if_pos hqn, Prod.mk.injEq] at h
    exact Prod.ext (by omega) (by omega)
  · rw [if_neg hpn, if_neg hqn, Prod.mk.injEq] at h
    exact Prod.ext (by omega) (by omega)

theorem reflect_mod (n i : Nat) (hn : 0 < n) (hi : i ≤ 2 * n - 1) :
    (2 * n - 1 - i) % n = n - 1 - i % n := by
  by_cases h : i < n
  · rw [Nat.mod_eq_of_lt h]
    have : 2 * n - 1 - i = (n - 1 - i) + n := by omega
    rw [this, Nat.add_mod_right, Nat.mod_eq_of_lt (by omega)]
  · have h1 : i % n = i - n := by
      rw [Nat.mod_eq_sub_mod (by omega), Nat.mod_eq_of_lt (by omega)]
    rw [h1, Nat.mod_eq_of_lt (by omega)]
    omega

theorem costAt_reverse (c : List Int) (n : Nat) (hc : c.length = n) (hn : 0 < n) (i : Nat)
    (hi : i ≤ 2 * n - 1) :
    costAt c.reverse (i % n) = costAt c ((2 * n - 1 - i) % n) := by
  have hlt : i % n < n := Nat.mod_lt _ hn
  unfold costAt
  rw [List.getD_eq_getElem _ _ (by rw [List.length_reverse, hc]; exact hlt),
    List.getElem_reverse, List.getD_eq_getElem _ _ (by rw [hc]; exact Nat.mod_lt _ hn)]
  congr 1
  rw [hc, reflect_mod n i hn hi]

theorem arc_cost_reverse (c : List Int) (n : Nat) (hc : c.length = n) (hn : 0 < n)
    (s e : Nat) (hse : s ≤ e) (he : e ≤ 2 * n - 1) :
    arc_cost c.reverse n s e = arc_cost c n (2 * n - 1 - e) (2 * n - 1 - s) := by
  unfold arc_cost
  have h1 : ∑ i in Finset.Ico s (e + 1), costAt c.reverse (i % n)
      = ∑ i in Finset.Ico s (e + 1), (fun j => costAt c (j % n)) (2 * n - 1 - i) := by
    apply Finset.sum_congr rfl
    intro i hi
    have := Finset.mem_Ico.1 hi
    exact costAt_reverse c n hc hn i (by omega)
  rw [h1, Finset.sum_Ico_reflect (fun j => costAt c (j % n)) s (show e + 1 ≤ 2 * n - 1 + 1 by omega)]
  congr 2 <;> omega

theorem reverse_cand_spec (c : List Int) (n : Nat) (hc : c.length = n) (p : Nat × Nat)
    (hp : p ∈ ref_candidates n) :
    reverse_cand n p ∈ ref_candidates n ∧
    ref_diff c.reverse p = ref_diff c (reverse_cand n p) := by
  obtain ⟨h1, h2, h3⟩ := (mem_ref_candidates n p).1 hp
  have hmem : reverse_cand n p ∈ ref_candidates n := by
    rw [mem_ref_candidates]
    unfold reverse_cand
    split <;> dsimp only <;> omega
  refine ⟨hmem, ?_⟩
  rw [ref_diff_eq_arc_cost c.reverse n (by rw [List.length_reverse, hc]) p hp,
    ref_diff_eq_arc_cost c n hc _ hmem,
    arc_cost_reverse c n hc (by omega) p.1 p.2 h2 (by omega), List.sum_reverse]
  unfold reverse_cand
  split
  · dsimp only
    rw [← arc_cost_add_period c n (n - 1 - p.2) (n - 1 - p.1)]
    have e1 : n - 1 - p.2 + n = 2 * n - 1 - p.2 := by omega
    have e2 : n - 1 - p.1 + n = 2 * n - 1 - p.1 := by omega
    rw [e1, e2]
  · rfl

theorem reverse_cand_injOn (n : Nat) (p q : Nat × Nat) (hp : p ∈ ref_candidates n)
    (hq : q ∈ ref_candidates n) (h : reverse_cand n p = reverse_cand n q) : p = q := by
  obtain ⟨p1, p2, p3⟩ := (mem_ref_candidates n p).1 hp
  obtain ⟨q1, q2, q3⟩ := (mem_ref_candidates n q).1 hq
  unfold reverse_cand at h
  by_cases hpn : p.2 < n <;> by_cases hqn : q.2 < n
  · rw [if_pos hpn, if_pos hqn, Prod.mk.injEq] at h
    exact Prod.ext (by omega) (by omega)
  · rw [if_pos hpn, if_neg hqn, Prod.mk.injEq] at h
    exact Prod.ext (by omega) (by omega)
  · rw [if_neg hpn, if_pos hqn, Prod.mk.injEq] at h
    exact Prod.ext (by omega) (by omega)
  · rw [if_neg hpn, if_neg hqn, Prod.mk.injEq] at h
    exact Prod.ext (by omega) (by omega)

end Symmetry

section Transfer

/-- If every candidate diff of `c2` is the diff on `c` of a candidate chosen
injectively, the best difference on `c` is at most that on `c2`, and `c2` has at
most as many candidates of any given diff as `c`. -/
theorem diff_transfer (c c2 : List Int) (n : Nat) (hn : 2 ≤ n) (hc : c.length = n)
    (hc2 : c2.length = n) (f : Nat × Nat → Nat × Nat)
    (h1 : ∀ p ∈ ref_candidates n, f p ∈ ref_candidates n ∧ ref_diff c2 p = ref_diff c (f p))
    (h2 : ∀ p ∈ ref_candidates n, ∀ q ∈ ref_candidates n, f p = f q → p = q)
    (r1 r2 : AssignmentList) :
    (find_best_exact c n r1).1 ≤ (find_best_exact c2 n r2).1 ∧
    ∀ m : Int, ((ref_candidates n).filter fun p => decide (ref_diff c2 p = m)).length
      ≤ ((ref_candidates n).filter fun p => decide (ref_diff c p = m)).length := by
  constructor
  · obtain ⟨⟨p, hp, hpm⟩, -, -⟩ := find_best_exact_spec c2 n hn hc2 r2
    rw [← hpm, (h1 p hp).2]
    exact (find_best_exact_spec c n hn hc r1).2.1 _ (h1 p hp).1
  · intro m
    rw [← List.toFinset_card_of_nodup ((ref_candidates_nodup n).filter _),
      ← List.toFinset_card_of_nodup ((ref_candidates_nodup n).filter _)]
    apply Finset.card_le_card_of_injOn f
    · intro p hp
      rw [List.mem_toFinset, List.mem_filter] at hp ⊢
      obtain ⟨hpc, hpm⟩ := hp
      refine ⟨(h1 p hpc).1, ?_⟩
      rw [(h1 p hpc).2] at hpm
      exact hpm
    · intro p hp q hq hpq
      rw [Finset.mem_coe, List.mem_toFinset, List.mem_filter] at hp hq
      exact h2 p hp.1 q hq.1 hpq

theorem result_length_eq (c : List Int) (n : Nat) (hn : 2 ≤ n) (hc : c.length = n)
    (res : AssignmentList) :
    2 * (find_best_exact c n res).2.length
      = ((ref_candidates n).filter fun p =>
          decide (ref_diff c p = (find_best_exact c n res).1)).length := by
  rw [best_count_eq_twice c n hc]
  congr 2
  exact (find_best_exact_spec c n hn hc res).2.2

theorem rotate_chain (c : List Int) (n : Nat) (hn : 2 ≤ n) (hc : c.length = n) (m : Int)
    (j k : Nat) (hjk : j ≤ k) :
    (find_best_exact (c.rotate j) n []).1 ≤ (find_best_exact (c.rotate k) n []).1 ∧
    ((ref_candidates n).filter fun p => decide (ref_diff (c.rotate k) p = m)).length
      ≤ ((ref_candidates n).filter fun p => decide (ref_diff (c.rotate j) p = m)).length := by
  induction k, hjk using Nat.le_induction with
  | base => exact ⟨le_refl _, le_refl _⟩
  | succ k _ ih =>
    have hck : (c.rotate k).length = n := by rw [List.length_rotate, hc]
    have ht := diff_transfer (c.rotate k) ((c.rotate k).rotate 1) n hn hck
      (by rw [List.length_rotate, hck]) (rotate_cand n)
      (fun p hp => rotate_cand_spec (c.rotate k) n hck p hp)
      (fun p hp q hq h => rotate_cand_injOn n p q hp hq h) [] []
    rw [List.rotate_rotate] at ht
    exact ⟨le_trans ih.1 ht.1, le_trans (ht.2 m) ih.2⟩

theorem rotate_mul_length (c : List Int) (n : Nat) (hc : c.length = n) (r : Nat) :
    c.rotate (n * r) = c := by
  rw [← List.rotate_mod, hc, Nat.mul_mod_right, List.rotate_zero]

/-- Rotating the cost vector changes neither the best difference nor the
number of candidates of any given diff. -/
theorem rotate_invariant (c : List Int) (n : Nat) (hn : 2 ≤ n) (hc : c.length = n) (r : Nat)
    (m : Int) :
    (find_best_exact (c.rotate r) n []).1 = (find_best_exact c n []).1 ∧
    ((ref_candidates n).filter fun p => decide (ref_diff (c.rotate r) p = m)).length
      = ((ref_candidates n).filter fun p => decide (ref_diff c p = m)).length := by
  have hr : r ≤ n * r := Nat.le_mul_of_pos_left r (by omega)
  have a1 := rotate_chain c n hn hc m 0 r (Nat.zero_le _)
  have a2 := rotate_chain c n hn hc m r (n * r) hr
  rw [rotate_mul_length c n hc r] at a2
  rw [List.rotate_zero] at a1
  exact ⟨le_antisymm a2.1 a1.1, le_antisymm a1.2 a2.2⟩

/-- Reversing the cost vector changes neither the best difference nor the
number of candidates of any given diff. -/
theorem reverse_invariant (c : List Int) (n : Nat) (hn : 2 ≤ n) (hc : c.length = n) (m : Int) :
    (find_best_exact c.reverse n []).1 = (find_best_exact c n []).1 ∧
    ((ref_candidates n).filter fun p => decide (ref_diff c.reverse p = m)).length
      = ((ref_candidates n).filter fun p => decide (ref_diff c p = m)).length := by
  have hcr : c.reverse.length = n := by rw [List.length_reverse, hc]
  have t1 := diff_transfer c c.reverse n hn hc hcr (reverse_cand n)
    (fun p hp => reverse_cand_spec c n hc p hp)
    (fun p hp q hq h => reverse_cand_injOn n p q hp hq h) [] []
  have t2 := diff_transfer c.reverse c.reverse.reverse n hn hcr
    (by rw [List.length_reverse, hcr]) (reverse_cand n)
    (fun p hp => reverse_cand_spec c.reverse n hcr p hp)
    (fun p hp q hq h => reverse_cand_injOn n p q hp hq h) [] []
  rw [List.reverse_reverse] at t2
  exact ⟨le_antisymm t2.1 t1.1, le_antisymm (t1.2 m) (t2.2 m)⟩

theorem costAt_rotate (c : List Int) (n : Nat) (hc : c.length = n) (r i : Nat) (hi : i < n) :
    costAt (c.rotate r) i = costAt c ((i + r) % n) := by
  unfold costAt
  rw [List.getD_eq_getElem _ _ (by rw [List.length_rotate, hc]; exact hi),
    List.getElem_rotate,
    List.getD_eq_getElem _ _ (by rw [hc]; exact Nat.mod_lt _ (by omega))]
  congr 1
  rw [hc]

theorem costAt_reverse_index (c : List Int) (n : Nat) (hc : c.length = n) (i : Nat)
    (hi : i < n) : costAt c.reverse i = costAt c (n - 1 - i) := by
  unfold costAt
  rw [List.getD_eq_getElem _ _ (by rw [List.length_reverse, hc]; exact hi),
    List.getElem_reverse, List.getD_eq_getElem _ _ (by omega)]
  congr 1
  rw [hc]

end Transfer

/-! ## The buffer of the assignment list against the list -/

section Buffer

/-- A buffer is well formed when `count` does not exceed the capacity. -/
theorem buf_view_length (L : AssignmentBuf) (hL : L.count ≤ L.items.length) :
    (buf_view L).length = L.count := by
  unfold buf_view
  rw [List.length_take]
  omega

theorem buf_duplicate_loop_eq (na : Assignment) (n : Int) (L : AssignmentBuf)
    (hL : L.count ≤ L.items.length) (fuel i : Nat) (hf : L.count - i ≤ fuel) :
    buf_duplicate_loop na n L fuel i = duplicate_loop na n ((buf_view L).drop i) := by
  induction fuel generalizing i with
  | zero =>
    have hd : (buf_view L).drop i = [] :=
      List.drop_eq_nil_of_le (by rw [buf_view_length L hL]; omega)
    rw [hd]
    rfl
  | succ fuel ih =>
    unfold buf_duplicate_loop
    by_cases hi : i < L.count
    · have hlen : i < (buf_view L).length := by rw [buf_view_length L hL]; exact hi
      have hget : (buf_view L)[i] = L.items.getD i ⟨0, 0, 0, 0⟩ := by
        unfold buf_view
        rw [List.getElem_take, List.getD_eq_getElem _ _ (by omega)]
      rw [if_pos hi, List.drop_eq_getElem_cons hlen, hget]
      simp only []
      unfold duplicate_loop
      simp only []
      rw [ih (i + 1) (by omega)]
    · have hd : (buf_view L).drop i = [] :=
        List.drop_eq_nil_of_le (by rw [buf_view_length L hL]; omega)
      rw [if_neg hi, hd]
      rfl

theorem buf_duplicate_eq (L : AssignmentBuf) (hL : L.count ≤ L.items.length)
    (s1 e1 s2 e2 n : Int) :
    buf_duplicate L s1 e1 s2 e2 n = duplicate (buf_view L) s1 e1 s2 e2 n := by
  unfold buf_duplicate duplicate
  rw [buf_duplicate_loop_eq _ n L hL L.count 0 (by omega), List.drop_zero]

theorem take_succ_set (l : List Assignment) (k : Nat) (a : Assignment) (hk : k < l.length) :
    (l.set k a).take (k + 1) = l.take k ++ [a] := by
  induction l generalizing k with
  | nil => simp at hk
  | cons x t ih =>
    cases k with
    | zero => simp
    | succ k =>
      simp only [List.set_cons_succ, List.take_succ_cons, List.cons_append, List.cons.injEq,
        true_and]
      exact ih k (by simpa using hk)

/-- Adding to the buffer is adding to the list it stands for, and keeps
`count` within the capacity. -/
theorem buf_add_view (L : AssignmentBuf) (hL : L.count ≤ L.items.length)
    (s1 e1 s2 e2 n : Int) :
    buf_view (buf_add L s1 e1 s2 e2 n) = add_assignment (buf_view L) s1 e1 s2 e2 n ∧
    (buf_add L s1 e1 s2 e2 n).count ≤ (buf_add L s1 e1 s2 e2 n).items.length := by
  unfold buf_add add_assignment
  rw [buf_duplicate_eq L hL]
  by_cases hd : duplicate (buf_view L) s1 e1 s2 e2 n = true
  · rw [if_pos hd, if_pos hd]
    exact ⟨rfl, hL⟩
  · rw [if_neg hd, if_neg hd]
    simp only []
    by_cases hc : L.count = L.items.length
    · rw [if_pos hc]
      have hgrow : L.count < (L.items ++ List.replicate
          ((if L.items.length ≠ 0 then L.items.length * 2 else 8) - L.items.length)
          (⟨0, 0, 0, 0⟩ : Assignment)).length := by
        rw [List.length_append, List.length_replicate]
        split <;> omega
      refine ⟨?_, ?_⟩
      · unfold buf_view
        simp only []
        rw [take_succ_set _ _ _ hgrow, List.take_append_of_le_length (by omega)]
      · simp only [List.length_set]
        omega
    · rw [if_neg hc]
      refine ⟨?_, ?_⟩
      · unfold buf_view
        simp only []
        rw [take_succ_set _ _ _ (by omega)]
      · simp only [List.length_set]
        omega

theorem buf_sweep_step_view (pref : List Int) (total : Int) (n : Nat)
    (st : Int × AssignmentBuf) (hL : st.2.count ≤ st.2.items.length) (start end_ : Nat) :
    (buf_sweep_step pref total n st start end_).1
      = (sweep_step pref total n (st.1, buf_view st.2) start end_).1 ∧
    buf_view (buf_sweep_step pref total n st start end_).2
      = (sweep_step pref total n (st.1, buf_view st.2) start end_).2 ∧
    (buf_sweep_step pref total n st start end_).2.count
      ≤ (buf_sweep_step pref total n st start end_).2.items.length := by
  unfold buf_sweep_step sweep_step
  simp only []
  have hclear : (buf_clear st.2).count ≤ (buf_clear st.2).items.length := Nat.zero_le _
  have hcv : buf_view (buf_clear st.2) = clear_assignments (buf_view st.2) := by
    unfold buf_view buf_clear clear_assignments
    simp
  split_ifs <;> first
    | exact ⟨rfl, by rw [(buf_add_view _ hclear _ _ _ _ (n : Int)).1, hcv],
        (buf_add_view _ hclear _ _ _ _ (n : Int)).2⟩
    | exact ⟨rfl, (buf_add_view _ hL _ _ _ _ (n : Int)).1,
        (buf_add_view _ hL _ _ _ _ (n : Int)).2⟩
    | exact ⟨rfl, rfl, hL⟩

theorem buf_foldl_view (pref : List Int) (total : Int) (n start : Nat) (ends : List Nat)
    (st : Int × AssignmentBuf) (hL : st.2.count ≤ st.2.items.length) :
    (ends.foldl (fun st end_ => buf_sweep_step pref total n st start end_) st).1
      = (ends.foldl (fun st end_ => sweep_step pref total n st start end_)
          (st.1, buf_view st.2)).1 ∧
    buf_view (ends.foldl (fun st end_ => buf_sweep_step pref total n st start end_) st).2
      = (ends.foldl (fun st end_ => sweep_step pref total n st start end_)
          (st.1, buf_view st.2)).2 ∧
    (ends.foldl (fun st end_ => buf_sweep_step pref total n st start end_) st).2.count
      ≤ (ends.foldl (fun st end_ => buf_sweep_step pref total n st start end_)
          st).2.items.length := by
  induction ends generalizing st with
  | nil => exact ⟨rfl, rfl, hL⟩
  | cons e rest ih =>
    simp only [List.foldl_cons]
    obtain ⟨h1, h2, h3⟩ := buf_sweep_step_view pref total n st hL start e
    obtain ⟨i1, i2, i3⟩ := ih (buf_sweep_step pref total n st start e) h3
    rw [h1, h2] at i1 i2
    exact ⟨i1, i2, i3⟩

theorem buf_sweep_view (pref : List Int) (total : Int) (n : Nat) (starts : List Nat)
    (st : Int × AssignmentBuf) (hL : st.2.count ≤ st.2.items.length) :
    (starts.foldl (fun st start => (List.range' start (n - 1)).foldl
        (fun st end_ => buf_sweep_step pref total n st start end_) st) st).1
      = (starts.foldl (fun st start => (List.range' start (n - 1)).foldl
        (fun st end_ => sweep_step pref total n st start end_) st) (st.1, buf_view st.2)).1 ∧
    buf_view (starts.foldl (fun st start => (List.range' start (n - 1)).foldl
        (fun st end_ => buf_sweep_step pref total n st start end_) st) st).2
      = (starts.foldl (fun st start => (List.range' start (n - 1)).foldl
        (fun st end_ => sweep_step pref total n st start end_) st) (st.1, buf_view st.2)).2 := by
  induction starts generalizing st with
  | nil => exact ⟨rfl, rfl⟩
  | cons s rest ih =>
    simp only [List.foldl_cons]
    obtain ⟨h1, h2, h3⟩ := buf_foldl_view pref total n s (List.range' s (n - 1)) st hL
    obtain ⟨i1, i2⟩ := ih _ h3
    rw [h1, h2] at i1 i2
    exact ⟨i1, i2⟩

/-- Whatever the buffer holds on entry, `find_best` on the buffer reports the
difference and leaves the list that `find_best` on lists computes. -/
theorem buf_find_best_view (c : List Int) (n : Nat) (L : AssignmentBuf) (res : AssignmentList) :
    (buf_find_best c n L).1 = (find_best c n res).1 ∧
    buf_view (buf_find_best c n L).2 = (find_best c n res).2 := by
  unfold buf_find_best find_best buf_sweep sweep
  simp only []
  obtain ⟨h1, h2⟩ := buf_sweep_view (pref_loop c n) (total_loop c n) n (List.range n)
    (-1, buf_clear L) (Nat.zero_le _)
  have hcv : buf_view (buf_clear L) = clear_assignments res := by
    unfold buf_view buf_clear clear_assignments
    simp
  simp only [hcv] at h1 h2
  rw [h1, h2]
  exact ⟨rfl, rfl⟩

end Buffer

/-! ## Histories whose days are only non-decreasing -/

section SameDay

/-- In a history with non-decreasing days, entry `i` is the effective one on
every day from its own day up to the day before the next entry. -/
theorem effective_cost_eq_le (h : CostHistory) (hs : h.Pairwise (fun a b => a.day ≤ b.day))
    (i : Nat) (hi : i < h.length) (D : Int) (h1 : (entryAt h i).day ≤ D)
    (h2 : i + 1 < h.length → D < (entryAt h (i + 1)).day) :
    effective_cost h D = (entryAt h i).cost := by
  have hsplit : h = h.take i ++ h[i] :: h.drop (i + 1) := by
    rw [← List.drop_eq_getElem_cons hi, List.take_append_drop]
  have hlater : ∀ y ∈ h.drop (i + 1), D < y.day := by
    intro y hy
    by_cases hi1 : i + 1 < h.length
    · rw [List.drop_eq_getElem_cons hi1] at hy
      have hD := h2 hi1
      rw [entryAt_eq_getElem h (i + 1) hi1] at hD
      rcases List.mem_cons.1 hy with rfl | hy
      · exact hD
      · have hp : (h[i + 1] :: h.drop (i + 1 + 1)).Pairwise (fun a b => a.day ≤ b.day) := by
          rw [← List.drop_eq_getElem_cons hi1]
          exact hs.sublist (List.drop_sublist _ _)
        have := (List.pairwise_cons.1 hp).1 y hy
        omega
    · rw [List.drop_eq_nil_of_le (by omega)] at hy
      simp at hy
  have hfil : (h.drop (i + 1)).filter (fun e => decide (e.day ≤ D)) = [] := by
    rw [List.filter_eq_nil_iff]
    intro y hy
    have := hlater y hy
    simp; omega
  rw [entryAt_eq_getElem h i hi] at h1 ⊢
  unfold effective_cost
  have : (h.filter (fun e => decide (e.day ≤ D))).getLast? = some h[i] := by
    conv_lhs => rw [hsplit]
    rw [List.filter_append, List.filter_cons_of_pos (by simpa using h1), hfil,
      List.getLast?_append_cons]
    rfl
  rw [this]

/-- Invariant of the summation loop on a history with non-decreasing days:
started at an entry whose day is at most `cur`, with `cur` at most the next
entry's day, it adds the per-day sum of the effective cost over
`cur..end_`. -/
theorem sum_loop_exact_spec_le (h : CostHistory) (hs : h.Pairwise (fun a b => a.day ≤ b.day))
    (end_ : Int) (fuel : Nat) (cur : Int) (i : Nat) (total : Int)
    (hi : i < h.length) (hf : h.length - i ≤ fuel)
    (h1 : (entryAt h i).day ≤ cur)
    (h2 : i + 1 < h.length → cur ≤ (entryAt h (i + 1)).day) :
    sum_loop_exact h end_ fuel cur i total = total + per_day_total h cur end_ := by
  induction fuel generalizing cur i total with
  | zero => omega
  | succ fuel ih =>
    unfold sum_loop_exact
    by_cases hc : cur ≤ end_
    · rw [if_pos ⟨hc, hi⟩]
      simp only []
      by_cases hn : i + 1 < h.length ∧ (entryAt h (i + 1)).day - 1 ≤ end_
      · -- the next entry starts inside the window
        obtain ⟨hn1, hn2⟩ := hn
        have hle := h2 hn1
        rw [if_pos hn1, if_neg (by omega)]
        rw [ih _ _ _ hn1 (by omega) (by omega)]
        · unfold per_day_total
          rw [sum_Icc_split (effective_cost h) cur ((entryAt h (i + 1)).day - 1) end_
            (by omega) hn2]
          rw [sum_Icc_const (effective_cost h) cur ((entryAt h (i + 1)).day - 1)
            (entryAt h i).cost (by omega)
            (fun D hD1 hD2 => effective_cost_eq_le h hs i hi D (by omega) (fun _ => by omega))]
          by_cases hse : cur ≤ (entryAt h (i + 1)).day - 1
          · rw [if_pos hse]; ring
          · rw [if_neg hse]
            have : (entryAt h (i + 1)).day - 1 - cur + 1 = 0 := by omega
            rw [this]; ring
        · intro hi2
          have := (List.pairwise_iff_getElem.1 hs) (i + 1) (i + 1 + 1) hn1 hi2 (by omega)
          rw [entryAt_eq_getElem h _ hi2, entryAt_eq_getElem h _ hn1]
          omega
      · -- the current entry covers the rest of the window
        have he : (if (if i + 1 < h.length then (entryAt h (i + 1)).day - 1 else end_) > end_
            then end_ else (if i + 1 < h.length then (entryAt h (i + 1)).day - 1 else end_))
            = end_ := by
          by_cases hn1 : i + 1 < h.length
          · rw [if_pos hn1, if_pos (by
              have : ¬ (entryAt h (i + 1)).day - 1 ≤ end_ := fun hh => hn ⟨hn1, hh⟩
              omega)]
          · rw [if_neg hn1, if_neg (by omega)]
        rw [he, if_pos hc, sum_loop_exact_done h end_ fuel (end_ + 1) (i + 1) _ (Or.inl (by omega))]
        unfold per_day_total
        rw [sum_Icc_const (effective_cost h) cur end_ (entryAt h i).cost (by omega)]
        intro D hD1 hD2
        apply effective_cost_eq_le h hs i hi D (by omega)
        intro hn1
        have : ¬ (entryAt h (i + 1)).day - 1 ≤ end_ := fun hh => hn ⟨hn1, hh⟩
        omega
    · rw [if_neg (by omega)]
      unfold per_day_total
      rw [Finset.Icc_eq_empty (by omega)]
      simp

/-- On a non-empty history with non-decreasing days and first day at most
`start`, `compute_total_exact` is the per-day sum of the effective cost. -/
theorem compute_total_exact_eq_per_day_le (h : CostHistory) (hne : h ≠ [])
    (hs : h.Pairwise (fun a b => a.day ≤ b.day)) (start end_ : Int)
    (h0 : (entryAt h 0).day ≤ start) (hse : start ≤ end_) :
    compute_total_exact h start end_ = per_day_total h start end_ := by
  have hlen : 0 < h.length := List.length_pos.2 hne
  unfold compute_total_exact
  rw [if_neg (by omega)]
  simp only []
  obtain ⟨-, r2, r3, r4⟩ := seek_loop_spec h start h.length 0 (by omega) (by omega)
  have hpos : 0 < seek_loop h start h.length 0 := by
    by_contra hcon
    have hz : seek_loop h start h.length 0 = 0 := by omega
    have := r4 (by omega)
    rw [hz] at this
    omega
  rw [if_pos hpos]
  rw [sum_loop_exact_spec_le h hs end_ h.length start _ 0 (by omega) (by omega)
    (r3 _ (by omega) (by omega))]
  · simp
  · intro hlt
    have e : seek_loop h start h.length 0 - 1 + 1 = seek_loop h start h.length 0 := by omega
    rw [e] at hlt ⊢
    exact le_of_lt (r4 hlt)

/-- On every day from the first entry's day on, some entry is the last one
whose day is not later. -/
theorem exists_effective_index (h : CostHistory) (hne : h ≠ []) (D : Int)
    (h0 : (entryAt h 0).day ≤ D) :
    ∃ i, i < h.length ∧ (entryAt h i).day ≤ D ∧
      (i + 1 < h.length → D < (entryAt h (i + 1)).day) := by
  have hlen : 0 < h.length := List.length_pos.2 hne
  obtain ⟨-, r2, r3, r4⟩ := seek_loop_spec h D h.length 0 (by omega) (by omega)
  have hpos : 0 < seek_loop h D h.length 0 := by
    by_contra hcon
    have hz : seek_loop h D h.length 0 = 0 := by omega
    have := r4 (by omega)
    rw [hz] at this
    omega
  refine ⟨seek_loop h D h.length 0 - 1, by omega, r3 _ (by omega) (by omega), ?_⟩
  intro hlt
  have e : seek_loop h D h.length 0 - 1 + 1 = seek_loop h D h.length 0 := by omega
  rw [e] at hlt ⊢
  exact r4 hlt

theorem entryAt_set (h : CostHistory) (j : Nat) (e : CostEntry) (i : Nat) :
    entryAt (h.set j e) i = if i = j ∧ j < h.length then e else entryAt h i := by
  unfold entryAt
  by_cases hi : i < h.length
  · rw [List.getD_eq_getElem _ _ (by simpa using hi), List.getD_eq_getElem _ _ hi,
      List.getElem_set]
    by_cases hij : j = i
    · subst hij; rw [if_pos rfl, if_pos ⟨rfl, hi⟩]
    · rw [if_neg hij, if_neg (fun hh => hij hh.1.symm)]
  · rw [List.getD_eq_default _ _ (by simpa using hi), List.getD_eq_default _ _ (by omega),
      if_neg (by omega)]

/-- Changing the cost of an entry that has the same day as its successor
changes no effective cost. -/
theorem effective_cost_shadowed (h : CostHistory) (hne : h ≠ [])
    (hs : h.Pairwise (fun a b => a.day ≤ b.day)) (j : Nat) (hj : j + 1 < h.length)
    (hday : (entryAt h j).day = (entryAt h (j + 1)).day) (x : Int) (D : Int)
    (h0 : (entryAt h 0).day ≤ D) :
    effective_cost (h.set j ⟨(entryAt h j).day, x⟩) D = effective_cost h D := by
  have hdays : ∀ i, (entryAt (h.set j ⟨(entryAt h j).day, x⟩) i).day = (entryAt h i).day := by
    intro i
    rw [entryAt_set]
    split
    · rename_i hh; rw [hh.1]
    · rfl
  have hs2 : (h.set j ⟨(entryAt h j).day, x⟩).Pairwise (fun a b => a.day ≤ b.day) := by
    rw [List.pairwise_iff_getElem]
    intro a b ha hb hab
    have := (List.pairwise_iff_getElem.1 hs) a b (by simpa using ha) (by simpa using hb) hab
    rw [← entryAt_eq_getElem _ a ha, ← entryAt_eq_getElem _ b hb, hdays, hdays,
      entryAt_eq_getElem h a (by simpa using ha), entryAt_eq_getElem h b (by simpa using hb)]
    exact this
  obtain ⟨i, hi, hi1, hi2⟩ := exists_effective_index h hne D h0
  have hij : i ≠ j := by
    intro hh
    subst hh
    have := hi2 hj
    omega
  rw [effective_cost_eq_le h hs i hi D hi1 hi2,
    effective_cost_eq_le _ hs2 i (by simpa using hi) D (by rw [hdays]; exact hi1)
      (fun hlt => by rw [hdays]; exact hi2 (by simpa using hlt)),
    entryAt_set, if_neg (fun hh => hij hh.1)]

end SameDay

/-! ## Index safety of `find_best` -/

section IndexSafety

theorem total_loop_chk_eq (c : List Int) (n : Nat) (hc : n ≤ c.length) :
    total_loop_chk c n = some (total_loop c n) := by
  unfold total_loop_chk total_loop
  induction n with
  | zero => rfl
  | succ k ih =>
    rw [List.range_succ, List.foldl_append, List.foldl_append, ih (by omega)]
    simp only [List.foldl_cons, List.foldl_nil, Option.some_bind]
    unfold total_step_chk
    rw [if_pos (by omega)]

theorem pref_loop_chk_cells (c : List Int) (n : Nat) (hc : c.length = n) (k : Nat)
    (hk : k ≤ 2 * n) :
    (List.range k).foldl (fun acc i => acc.bind fun pref => pref_step_chk c n pref i)
        (write_chk (List.replicate (2 * n + 1) 0) 0 0)
      = some ((List.range (k + 1)).map (fun j => wrap64 (ref_psum c j))
          ++ List.replicate (2 * n - k) 0) := by
  induction k with
  | zero =>
    unfold write_chk
    rw [if_pos (by simp), List.replicate_succ, List.set_cons_zero]
    rfl
  | succ k ih =>
    rw [List.range_succ, List.foldl_append, ih (by omega)]
    simp only [List.foldl_cons, List.foldl_nil, Option.some_bind]
    have hn : 0 < n := by omega
    unfold pref_step_chk write_chk
    have hlen : ((List.range (k + 1)).map (fun j => wrap64 (ref_psum c j))
        ++ List.replicate (2 * n - k) 0).length = 2 * n + 1 := by
      simp only [List.length_append, List.length_map, List.length_range, List.length_replicate]
      omega
    rw [if_pos ⟨by rw [hlen]; omega, by rw [hc]; exact Nat.mod_lt _ hn⟩,
      if_pos (by rw [hlen]; omega)]
    congr 1
    have hrep : List.replicate (2 * n - k) (0 : Int) = 0 :: List.replicate (2 * n - (k + 1)) 0 := by
      rw [← List.replicate_succ]
      congr 1
      omega
    rw [List.set_append_right _ _ (by simp), hrep]
    simp only [List.length_map, List.length_range, Nat.sub_self, List.set_cons_zero]
    rw [List.range_succ (n := k + 1), List.map_append, List.append_assoc]
    congr 1
    simp only [List.map_cons, List.map_nil, List.singleton_append, List.cons.injEq, and_true]
    rw [List.getD_eq_getElem _ _ (by simp; omega), List.getElem_append_left (by simp)]
    simp only [List.getElem_map, List.getElem_range]
    rw [ref_psum_succ c n hc k (by omega), wrap64_add_wrap]

theorem pref_loop_chk_eq (c : List Int) (n : Nat) (hc : c.length = n) :
    pref_loop_chk c n = some (pref_loop c n) := by
  unfold pref_loop_chk pref_loop
  rw [pref_loop_chk_cells c n hc (2 * n) (le_refl _), pref_loop_cells c n hc (2 * n) (le_refl _)]
  simp

theorem foldl_sweep_chk (pref : List Int) (total : Int) (n start : Nat) (ends : List Nat)
    (hs : start < pref.length) (he : ∀ e ∈ ends, e + 1 < pref.length)
    (st : Int × AssignmentList) :
    ends.foldl (fun acc end_ => acc.bind fun st => sweep_step_chk pref total n st start end_)
        (some st)
      = some (ends.foldl (fun st end_ => sweep_step pref total n st start end_) st) := by
  induction ends generalizing st with
  | nil => rfl
  | cons e rest ih =>
    simp only [List.foldl_cons, Option.some_bind]
    unfold sweep_step_chk
    rw [if_pos ⟨he e (List.mem_cons_self _ _), hs⟩]
    exact ih (fun x hx => he x (List.mem_cons_of_mem _ hx)) _

theorem sweep_chk_eq (pref : List Int) (total : Int) (n : Nat) (hp : pref.length = 2 * n + 1)
    (st : Int × AssignmentList) :
    sweep_chk pref total n st = some (sweep pref total n st) := by
  unfold sweep_chk sweep
  have key : ∀ (starts : List Nat), (∀ s ∈ starts, s < n) → ∀ st : Int × AssignmentList,
      starts.foldl (fun acc start => (List.range' start (n - 1)).foldl
          (fun acc end_ => acc.bind fun st => sweep_step_chk pref total n st start end_) acc)
        (some st)
      = some (starts.foldl (fun st start => (List.range' start (n - 1)).foldl
          (fun st end_ => sweep_step pref total n st start end_) st) st) := by
    intro starts
    induction starts with
    | nil => intro _ st; rfl
    | cons s rest ih =>
      intro hs st
      simp only [List.foldl_cons]
      have hsn := hs s (List.mem_cons_self _ _)
      rw [foldl_sweep_chk pref total n s _ (by omega) (fun e he => by
        have := List.mem_range'_1.1 he
        omega)]
      exact ih (fun x hx => hs x (List.mem_cons_of_mem _ hx)) _
  exact key _ (fun s hs => List.mem_range.1 hs) st

/-- No access of `find_best` is out of range: the checked function returns
what `find_best` returns. -/
theorem find_best_chk_eq (c : List Int) (n : Nat) (hc : c.length = n) (res : AssignmentList) :
    find_best_chk c n res = some (find_best c n res) := by
  unfold find_best_chk find_best
  rw [total_loop_chk_eq c n (by omega), pref_loop_chk_eq c n hc]
  simp only [Option.some_bind]
  rw [sweep_chk_eq _ _ n (pref_loop_length c n hc)]
  rfl

end IndexSafety

section DayNumbers

theorem is_valid_date_iff (y m d : Int) :
    is_valid_date y m d = true ↔
      1900 ≤ y ∧ 1 ≤ m ∧ m ≤ 12 ∧ 1 ≤ d ∧ d ≤ gregorian_month_length y m := by
  unfold is_valid_date gregorian_month_length is_leap_year
  by_cases hr : y < 1900 ∨ m < 1 ∨ m > 12 ∨ d < 1
  · rw [if_pos hr]
    constructor
    · intro h; exact absurd h (by decide)
    · intro h; omega
  · rw [if_neg hr]
    have hy4 : Int.tmod y 4 = y % 4 := Int.tmod_eq_emod (by omega) (by decide)
    have hy100 : Int.tmod y 100 = y % 100 := Int.tmod_eq_emod (by omega) (by decide)
    have hy400 : Int.tmod y 400 = y % 400 := Int.tmod_eq_emod (by omega) (by decide)
    rw [hy4, hy100, hy400]
    have hm : m = 1 ∨ m = 2 ∨ m = 3 ∨ m = 4 ∨ m = 5 ∨ m = 6 ∨ m = 7 ∨ m = 8 ∨ m = 9 ∨ m = 10
        ∨ m = 11 ∨ m = 12 := by omega
    by_cases hl : (y % 4 = 0 ∧ y % 100 ≠ 0) ∨ y % 400 = 0
    · simp only [hl, decide_True, if_true]
      rcases hm with rfl | rfl | rfl | rfl | rfl | rfl | rfl | rfl | rfl | rfl | rfl | rfl <;>
        simp <;> omega
    · simp only [hl, decide_False, if_false]
      rcases hm with rfl | rfl | rfl | rfl | rfl | rfl | rfl | rfl | rfl | rfl | rfl | rfl <;>
        simp <;> omega

/-- The value that `date_to_days` writes for a valid date, in closed form. -/
theorem date_to_days_eq (dt : Date) (hv : is_valid_date dt.y dt.m dt.d = true) :
    date_to_days dt = some (ref_day_number dt) := by
  obtain ⟨h1, h2, h3, h4⟩ := is_valid_date_bounds _ _ _ hv
  unfold date_to_days ref_day_number era_days march_year march_doy
  rw [hv]
  simp only [Bool.not_true, Bool.false_eq_true, if_false]
  have b1 : Int.tdiv (if dt.m ≤ 2 then dt.y - 1 else dt.y) 400
      = (if dt.m ≤ 2 then dt.y - 1 else dt.y) / 400 :=
    Int.tdiv_eq_ediv (by split <;> omega) (by decide)
  rw [b1]
  have b2 : Int.tdiv (153 * ((if dt.m ≤ 2 then dt.m + 12 else dt.m) - 3) + 2) 5
      = (153 * ((if dt.m ≤ 2 then dt.m + 12 else dt.m) - 3) + 2) / 5 :=
    Int.tdiv_eq_ediv (by split <;> omega) (by decide)
  rw [b2]
  have b3 : ∀ x : Int, 0 ≤ x → Int.tdiv x 4 = x / 4 :=
    fun x hx => Int.tdiv_eq_ediv hx (by decide)
  have b4 : ∀ x : Int, 0 ≤ x → Int.tdiv x 100 = x / 100 :=
    fun x hx => Int.tdiv_eq_ediv hx (by decide)
  rw [b3 _ (by split <;> omega), b4 _ (by split <;> omega)]
  have c1 : Int.tdiv (if (1 : Int) ≤ 2 then 1900 - 1 else 1900) 400 = 4 := by decide
  have c2 : Int.tdiv (153 * ((if (1 : Int) ≤ 2 then 1 + 12 else 1) - 3) + 2) 5 = 306 := by
    decide
  rw [c1, c2]
  simp only [show (1 : Int) ≤ 2 from by decide, if_true]
  have c3 : Int.tdiv ((1900 : Int) - 1 - 4 * 400) 4 = 74 := by decide
  have c4 : Int.tdiv ((1900 : Int) - 1 - 4 * 400) 100 = 2 := by decide
  rw [c3, c4]
  congr 1
  omega

end DayNumbers

section DayNumbers2

theorem era_days_closed (Y : Int) :
    era_days Y = 365 * Y + Y / 4 - Y / 100 + Y / 400 := by
  unfold era_days
  omega

theorem era_days_succ (Y : Int) :
    era_days (Y + 1) = era_days Y + 365
      + (if ((Y + 1) % 4 = 0 ∧ (Y + 1) % 100 ≠ 0) ∨ (Y + 1) % 400 = 0 then 1 else 0) := by
  rw [era_days_closed, era_days_closed]
  split <;> omega

theorem era_days_mono (Y1 Y2 : Int) (h : Y1 ≤ Y2) : era_days Y1 ≤ era_days Y2 := by
  rw [era_days_closed, era_days_closed]
  omega

end DayNumbers2

section DayNumbers3

theorem gregorian_month_length_pos (y m : Int) : 28 ≤ gregorian_month_length y m := by
  unfold gregorian_month_length
  split_ifs <;> omega

theorem next_date_spec (dt : Date) (hv : is_valid_date dt.y dt.m dt.d = true) :
    is_valid_date (next_date dt).y (next_date dt).m (next_date dt).d = true ∧
    ref_day_number (next_date dt) = ref_day_number dt + 1 := by
  rw [is_valid_date_iff] at hv ⊢
  obtain ⟨h1, h2, h3, h4, h5⟩ := hv
  obtain ⟨y, m, d⟩ := dt
  simp only [] at h1 h2 h3 h4 h5 ⊢
  by_cases hlt : d < gregorian_month_length y m
  · have hn : next_date ⟨y, m, d⟩ = ⟨y, m, d + 1⟩ := by
      unfold next_date; simp only []; rw [if_pos hlt]
    rw [hn]
    simp only []
    refine ⟨⟨h1, h2, h3, by omega, by omega⟩, ?_⟩
    unfold ref_day_number march_year march_doy
    simp only []
    omega
  · have hd : d = gregorian_month_length y m := by omega
    have hs := era_days_succ (y - 1)
    rw [show y - 1 + 1 = y by ring] at hs
    by_cases hm12 : m < 12
    · have hn : next_date ⟨y, m, d⟩ = ⟨y, m + 1, 1⟩ := by
        unfold next_date; simp only []; rw [if_neg hlt, if_pos hm12]
      rw [hn]
      simp only []
      have hp := gregorian_month_length_pos y (m + 1)
      refine ⟨⟨h1, by omega, by omega, by omega, by omega⟩, ?_⟩
      unfold ref_day_number march_year march_doy
      simp only []
      unfold gregorian_month_length at hd
      have hm : m = 1 ∨ m = 2 ∨ m = 3 ∨ m = 4 ∨ m = 5 ∨ m = 6 ∨ m = 7 ∨ m = 8 ∨ m = 9
          ∨ m = 10 ∨ m = 11 := by omega
      rcases hm with rfl | rfl | rfl | rfl | rfl | rfl | rfl | rfl | rfl | rfl | rfl <;>
        split_ifs at hd hs ⊢ <;> omega
    · have hn : next_date ⟨y, m, d⟩ = ⟨y + 1, 1, 1⟩ := by
        unfold next_date; simp only []; rw [if_neg hlt, if_neg hm12]
      rw [hn]
      simp only []
      have hp := gregorian_month_length_pos (y + 1) 1
      refine ⟨⟨by omega, by omega, by omega, by omega, by omega⟩, ?_⟩
      have hm : m = 12 := by omega
      subst hm
      unfold ref_day_number march_year march_doy
      simp only []
      unfold gregorian_month_length at hd
      have e1 : y + 1 - 1 = y := by ring
      split_ifs at hd ⊢ <;> (try rw [e1]) <;> omega

end DayNumbers3

section DayNumbers4

/-- The day within the March-based year is non-negative and stays within
that year. -/
theorem march_doy_bounds (dt : Date) (hv : is_valid_date dt.y dt.m dt.d = true) :
    0 ≤ march_doy dt ∧
    era_days (march_year dt) + march_doy dt < era_days (march_year dt + 1) := by
  rw [is_valid_date_iff] at hv
  obtain ⟨h1, h2, h3, h4, h5⟩ := hv
  obtain ⟨y, m, d⟩ := dt
  simp only [] at h1 h2 h3 h4 h5 ⊢
  have hs := era_days_succ (march_year ⟨y, m, d⟩)
  rw [hs]
  unfold march_year march_doy at *
  simp only [] at hs ⊢
  unfold gregorian_month_length at h5
  clear hs
  have hm : m = 1 ∨ m = 2 ∨ m = 3 ∨ m = 4 ∨ m = 5 ∨ m = 6 ∨ m = 7 ∨ m = 8 ∨ m = 9
      ∨ m = 10 ∨ m = 11 ∨ m = 12 := by omega
  rcases hm with rfl | rfl | rfl | rfl | rfl | rfl | rfl | rfl | rfl | rfl | rfl | rfl <;>
    split_ifs at h5 ⊢ <;> omega

theorem ref_day_number_lt (a b : Date) (ha : is_valid_date a.y a.m a.d = true)
    (hb : is_valid_date b.y b.m b.d = true) (h : date_lt a b) :
    ref_day_number a < ref_day_number b := by
  obtain ⟨a0, a1⟩ := march_doy_bounds a ha
  obtain ⟨b0, b1⟩ := march_doy_bounds b hb
  unfold ref_day_number
  by_cases hY : march_year a < march_year b
  · have := era_days_mono (march_year a + 1) (march_year b) (by omega)
    omega
  · rw [is_valid_date_iff] at ha hb
    obtain ⟨h1, h2, h3, h4, h5⟩ := ha
    obtain ⟨g1, g2, g3, g4, g5⟩ := hb
    obtain ⟨y, m, d⟩ := a
    obtain ⟨y2, m2, d2⟩ := b
    unfold date_lt at h
    simp only [] at h1 h2 h3 h4 h5 g1 g2 g3 g4 g5 h
    have hYe : march_year ⟨y, m, d⟩ = march_year ⟨y2, m2, d2⟩ := by
      unfold march_year at hY ⊢
      simp only [] at hY ⊢
      split_ifs at hY ⊢ <;> omega
    rw [hYe]
    suffices hd : march_doy ⟨y, m, d⟩ < march_doy ⟨y2, m2, d2⟩ by omega
    clear a0 a1 b0 b1 hY
    unfold march_year at hYe
    unfold march_doy
    simp only [] at hYe ⊢
    unfold gregorian_month_length at h5
    have hm : m = 1 ∨ m = 2 ∨ m = 3 ∨ m = 4 ∨ m = 5 ∨ m = 6 ∨ m = 7 ∨ m = 8 ∨ m = 9
        ∨ m = 10 ∨ m = 11 ∨ m = 12 := by omega
    rcases hm with rfl | rfl | rfl | rfl | rfl | rfl | rfl | rfl | rfl | rfl | rfl | rfl <;>
      split_ifs at h5 hYe ⊢ <;> omega

theorem date_lt_trichotomy (a b : Date) : date_lt a b ∨ a = b ∨ date_lt b a := by
  obtain ⟨y, m, d⟩ := a
  obtain ⟨y2, m2, d2⟩ := b
  unfold date_lt
  simp only [Date.mk.injEq]
  omega

end DayNumbers4

/-! ## The range aggregator inside its no-overflow range -/

section InRange

theorem pairwise_le_of_lt (h : CostHistory) (hs : h.Pairwise (fun a b => a.day < b.day)) :
    h.Pairwise (fun a b => a.day ≤ b.day) :=
  hs.imp (fun hab => le_of_lt hab)

/-- On a valid history whose values fit their C types, and a window of at most
4,294,967,295 days from day 0 on, `compute_total` is the per-day sum of the
effective cost. -/
theorem compute_total_eq_per_day (h : CostHistory) (hv : ValidHistory h) (ht : TypedHistory h)
    (start end_ : Int) (h0 : 0 ≤ start) (hse : start ≤ end_) (hend : end_ ≤ LLONG_MAX)
    (hspan : end_ - start + 1 ≤ 4294967295) :
    compute_total h start end_ = per_day_total h start end_ := by
  rw [compute_total_eq_exact h (pairwise_le_of_lt h hv.2.2) ht start end_
    (le_trans (by decide) h0) hend hspan]
  exact compute_total_exact_eq_per_day h hv start end_ h0 hse

theorem mem_add_cost_new (h : CostHistory) (D C : Int) : (⟨D, C⟩ : CostEntry) ∈ add_cost h D C := by
  unfold add_cost
  simp

end InRange

/-! ## Facts about `find_best` that do not depend on the values of the sums -/

section Frame

theorem find_best_res_irrelevant (c : List Int) (n : Nat) (r1 r2 : AssignmentList) :
    find_best c n r1 = find_best c n r2 := rfl

theorem typed_single (v : Int) (h1 : 0 < v) (h2 : v ≤ INT_MAX) :
    TypedHistory [⟨0, v⟩] := by
  intro e he
  rw [List.mem_singleton] at he
  subst he
  unfold INT_MAX at h2
  unfold LLONG_MIN LLONG_MAX INT_MIN INT_MAX
  simp only []
  omega

theorem nonneg_rotate (c : List Int) (r : Nat) (h : ∀ x ∈ c, 0 ≤ x) :
    ∀ x ∈ c.rotate r, 0 ≤ x :=
  fun x hx => h x (List.mem_rotate.1 hx)

theorem nonneg_reverse (c : List Int) (h : ∀ x ∈ c, 0 ≤ x) : ∀ x ∈ c.reverse, 0 ≤ x :=
  fun x hx => h x (List.mem_reverse.1 hx)

theorem sum_rotate_eq (c : List Int) (r : Nat) : (c.rotate r).sum = c.sum :=
  (List.rotate_perm c r).sum_eq

end Frame

/-! ## Properties of the exact reference functions

The statements of this section are about the functions in unbounded integer
arithmetic; the transfer lemmas `compute_total_eq_exact` and
`find_best_eq_exact` carry them to the program inside its no-overflow range. -/

section Exact

/-- Exact arithmetic: minimality. For every `n ≥ 2` and every cost vector `c[0..n-1]`, the
best difference reported by `find_best_exact` is at most `|sum(A) - sum(B)|` for
every partition of the circular index sequence `0..n-1` into two
complementary contiguous arcs `A = s1..e1` and `B = s2..e2` (an arc given by
its two end indices is never empty). -/
theorem find_best_exact_minimality (c : List Int) (n : Nat) (hn : 2 ≤ n) (hc : c.length = n)
    (res : AssignmentList) (a : Assignment) (ha : IsArcPartition n a) :
    (find_best_exact c n res).1 ≤ |arcSum c n a.s1 a.e1 - arcSum c n a.s2 a.e2| := by
  obtain ⟨p, hp, rfl⟩ := isArcPartition_is_candidate n a ha
  have h := ref_diff_eq_imbalance c n hc p hp
  unfold imbalance at h
  rw [← h]
  exact (find_best_exact_spec c n hn hc res).2.1 p hp

/-- Exact arithmetic: exact tie enumeration. For every `n ≥ 2` and every cost vector, every
partition of `0..n-1` into two complementary circular arcs whose imbalance
equals the reported best difference is present in the result list of
`find_best_exact` as an unordered arc pair: some returned assignment has the same
canonical form. -/
theorem find_best_exact_ties_complete (c : List Int) (n : Nat) (hn : 2 ≤ n) (hc : c.length = n)
    (res : AssignmentList) (a : Assignment) (ha : IsArcPartition n a)
    (hb : |arcSum c n a.s1 a.e1 - arcSum c n a.s2 a.e2| = (find_best_exact c n res).1) :
    ∃ b ∈ (find_best_exact c n res).2, normalize b n = normalize a n := by
  obtain ⟨p, hp, rfl⟩ := isArcPartition_is_candidate n a ha
  have h := ref_diff_eq_imbalance c n hc p hp
  unfold imbalance at h
  rw [← h] at hb
  have hmem : ref_assignment n p ∈ best_arcs c n (find_best_exact c n res).1 :=
    (mem_best_arcs c n _ _).2 ⟨p, hp, hb, rfl⟩
  have hcan := canon_mem_foldl n _ [] _ hmem
  rw [← (find_best_exact_spec c n hn hc res).2.2] at hcan
  unfold canon at hcan
  obtain ⟨b, hb1, hb2⟩ := List.mem_map.1 hcan
  exact ⟨b, hb1, hb2⟩

/-- Exact arithmetic: soundness of the result set. For every `n ≥ 2` and every cost vector,
the result list of `find_best_exact` is non-empty, and for every returned
assignment `(s1,e1,s2,e2)` the absolute difference between the sum of `c` over
the circular arc `s1..e1` and the sum over the circular arc `s2..e2`, each
summed over its index set, is the reported best difference. -/
theorem find_best_exact_sound (c : List Int) (n : Nat) (hn : 2 ≤ n) (hc : c.length = n)
    (res : AssignmentList) :
    (find_best_exact c n res).2 ≠ [] ∧
    ∀ a ∈ (find_best_exact c n res).2,
      |arcSum c n a.s1 a.e1 - arcSum c n a.s2 a.e2| = (find_best_exact c n res).1 := by
  obtain ⟨⟨p, hp, hpm⟩, -, hlist⟩ := find_best_exact_spec c n hn hc res
  constructor
  · have hmem : ref_assignment n p ∈ best_arcs c n (find_best_exact c n res).1 :=
      (mem_best_arcs c n _ _).2 ⟨p, hp, hpm, rfl⟩
    have hcan := canon_mem_foldl n _ [] _ hmem
    rw [← hlist] at hcan
    intro hnil
    rw [hnil] at hcan
    simp [canon] at hcan
  · intro a ha
    rw [hlist] at ha
    rcases mem_foldl_add_asg n _ [] a ha with h | h
    · simp at h
    · obtain ⟨q, hq, hqm, rfl⟩ := (mem_best_arcs c n _ _).1 h
      have := ref_diff_eq_imbalance c n hc q hq
      unfold imbalance at this
      rw [← this, hqm]

/-- Exact arithmetic: for `n = 4` with four equal positive costs `k`, `find_best_exact`
reports best difference 0 and returns exactly 2 assignments, the two
distinct 2-vs-2 splits `0..1 | 2..3` and `1..2 | 3..0`, none duplicated. -/
theorem scenario_A_exact (k : Int) (hk : 0 < k) (res : AssignmentList) :
    find_best_exact [k, k, k, k] 4 res = (0, [⟨0, 1, 2, 3⟩, ⟨1, 2, 3, 0⟩]) := by
  rw [find_best_exact_eq_two_pass [k, k, k, k] 4 rfl res]
  have hc : [k, k, k, k] = [(1 : Int), 1, 1, 1].map fun x => k * x := by simp
  rw [hc, two_pass_scale _ _ _ hk]
  have h1 : two_pass [1, 1, 1, 1] 4 = (0, [⟨0, 1, 2, 3⟩, ⟨1, 2, 3, 0⟩]) := by decide
  rw [h1]
  simp

/-- Exact arithmetic: scenario D. For `n = 2` and every pair of costs `c0`, `c1`,
`find_best_exact` reports best difference `|c0 - c1|` and returns exactly one
assignment, the split of section 0 against section 1, also when `c0 = c1`. -/
theorem scenario_D_exact (c0 c1 : Int) (res : AssignmentList) :
    find_best_exact [c0, c1] 2 res = (|c0 - c1|, [⟨0, 0, 1, 1⟩]) := by
  rw [find_best_exact_eq_two_pass [c0, c1] 2 rfl res]
  have hc : ref_candidates 2 = [(0, 0), (1, 1)] := by decide
  have d0 : ref_diff [c0, c1] (0, 0) = |c0 - c1| := by
    unfold ref_diff ref_psum
    simp only [List.cons_append, List.nil_append, List.take, List.sum_cons, List.sum_nil]
    congr 1; ring
  have d1 : ref_diff [c0, c1] (1, 1) = |c0 - c1| := by
    unfold ref_diff ref_psum
    simp only [List.cons_append, List.nil_append, List.take, List.sum_cons, List.sum_nil]
    rw [← abs_neg]
    congr 1; ring
  have hmin : ((ref_candidates 2).map (ref_diff [c0, c1])).min? = some |c0 - c1| := by
    rw [hc, min?_int_iff]
    simp only [List.map_cons, List.map_nil, d0, d1]
    simp
  unfold two_pass
  rw [hmin]
  simp only []
  rw [hc]
  simp only [List.filter, d0, d1, decide_True, List.map]
  have a0 : ref_assignment 2 (0, 0) = ⟨0, 0, 1, 1⟩ := by decide
  have a1 : ref_assignment 2 (1, 1) = ⟨1, 1, 0, 0⟩ := by decide
  rw [a0, a1]
  have : first_occurrences ((2 : Nat) : Int) [⟨0, 0, 1, 1⟩, ⟨1, 1, 0, 0⟩] []
      = [⟨0, 0, 1, 1⟩] := by decide
  rw [this]

/-- Exact arithmetic: scenario C generalised. For every seed cost `c > 0`, update day
`D > 0` and update cost `c2 > 0`, the history built by seeding `(0, c)` and then
`add_cost D c2` has total `c * D` over `0..D-1`, total `c * D + c2` over `0..D` and
total `c2` over `D..D`. -/
theorem scenario_C_exact (c D c2 : Int) (_hc : 0 < c) (hD : 0 < D) (_hc2 : 0 < c2) :
    compute_total_exact (add_cost (add_cost init_history 0 c) D c2) 0 (D - 1) = c * D ∧
    compute_total_exact (add_cost (add_cost init_history 0 c) D c2) 0 D = c * D + c2 ∧
    compute_total_exact (add_cost (add_cost init_history 0 c) D c2) D D = c2 := by
  have hseed : add_cost init_history 0 c = [⟨0, c⟩] := rfl
  have hv0 : ValidHistory (add_cost init_history 0 c) := by
    rw [hseed]
    exact ⟨by simp, rfl, by simp⟩
  have hl : (add_cost init_history 0 c).getLast? = some ⟨0, c⟩ := by rw [hseed]; rfl
  have hv := add_cost_valid _ hv0 0 c D c2 hl hD
  have hold : ∀ d : Int, 0 ≤ d → d ≤ D - 1 →
      effective_cost (add_cost (add_cost init_history 0 c) D c2) d = c :=
    fun d h1 h2 => effective_cost_add_cost_old _ hv0.2.2 0 c D c2 d hl h1 (by omega)
  have hfirst : per_day_total (add_cost (add_cost init_history 0 c) D c2) 0 (D - 1) = c * D := by
    unfold per_day_total
    rw [sum_Icc_const _ 0 (D - 1) c (by omega) hold]
    ring
  refine ⟨?_, ?_, ?_⟩
  · rw [compute_total_exact_eq_per_day _ hv 0 (D - 1) (le_refl _) (by omega), hfirst]
  · rw [compute_total_exact_eq_per_day _ hv 0 D (le_refl _) (by omega)]
    have hsplit : per_day_total (add_cost (add_cost init_history 0 c) D c2) 0 D
        = per_day_total (add_cost (add_cost init_history 0 c) D c2) 0 (D - 1)
          + per_day_total (add_cost (add_cost init_history 0 c) D c2) (D - 1 + 1) D := by
      unfold per_day_total
      exact sum_Icc_split _ 0 (D - 1) D (by omega) (by omega)
    rw [hsplit, hfirst, show D - 1 + 1 = D by ring, per_day_total_single,
      effective_cost_add_cost_new]
  · rw [compute_total_exact_eq_per_day _ hv D D (by omega) (le_refl _), per_day_total_single,
      effective_cost_add_cost_new]

/-- Exact arithmetic: initialisation. After construction from an accepted list of `n`
initial costs there are `n` histories, the history of section `i` is exactly
the single entry `(0, initial[i])` for every `i` in `0..n-1`, and before any
update `compute_total_exact` on it over `a..b` is `(b - a + 1) * initial[i]` for every
`0 ≤ a ≤ b`. -/
theorem init_ledger_seeds_exact (initial : List Int) (_hacc : accepted_initial initial) :
    (init_ledger initial).hist.length = initial.length ∧
    ∀ i, i < initial.length →
      (init_ledger initial).hist.getD i [] = [⟨0, initial.getD i 0⟩] ∧
      ∀ a b : Int, 0 ≤ a → a ≤ b →
        compute_total_exact ((init_ledger initial).hist.getD i []) a b
          = (b - a + 1) * initial.getD i 0 := by
  have hseed : ∀ i, i < initial.length →
      (init_ledger initial).hist.getD i [] = [⟨0, initial.getD i 0⟩] := by
    intro i hi
    unfold init_ledger
    simp only []
    rw [List.getD_eq_getElem _ _ (by simpa using hi), List.getD_eq_getElem _ _ hi]
    simp [add_cost, init_history]
  refine ⟨by simp [init_ledger], fun i hi => ⟨hseed i hi, fun a b h0 hab => ?_⟩⟩
  rw [hseed i hi]
  exact compute_total_exact_single_entry _ a b h0 hab

/-- Exact arithmetic: doubled prefix sums. In `find_best_exact` the array `pref` has `2n+1` cells,
for every `k` in `0..2n` the cell `pref[k]` is the sum of `c[i mod n]` for `i` in
`0..k-1`, and for every `start` in `0..n-1` and `end_` in `start..start+n-2` the
lookup `pref[end_+1] - pref[start]` is the sum of `c[i mod n]` for `i` in
`start..end_`, which is the sum of `c` over the index set of the circular arc
from `start mod n` to `end_ mod n`. -/
theorem pref_doubled_sums_exact (c : List Int) (n : Nat) (hc : c.length = n) :
    (pref_loop_exact c n).length = 2 * n + 1 ∧
    (∀ k, k ≤ 2 * n →
      (pref_loop_exact c n).getD k 0 = ∑ i in Finset.range k, costAt c (i % n)) ∧
    ∀ start end_ : Nat, start < n → start ≤ end_ → end_ + 2 ≤ start + n →
      (pref_loop_exact c n).getD (end_ + 1) 0 - (pref_loop_exact c n).getD start 0
        = ∑ i in Finset.Ico start (end_ + 1), costAt c (i % n) ∧
      (pref_loop_exact c n).getD (end_ + 1) 0 - (pref_loop_exact c n).getD start 0
        = arcSum c n ((start : Int) % n) ((end_ : Int) % n) := by
  refine ⟨pref_loop_exact_length c n hc, fun k hk => ?_, fun start end_ h1 h2 h3 => ⟨?_, ?_⟩⟩
  · rw [pref_loop_exact_getD c n hc k hk, ref_psum_eq_sum c n hc k hk]
  · exact pref_lookup_eq_sum c n hc start end_ h2 (by omega)
  · rw [pref_loop_exact_getD c n hc _ (by omega), pref_loop_exact_getD c n hc _ (by omega)]
    exact ref_psum_sub_eq_arcSum c n hc (start, end_)
      (mem_ref_candidates_of n start end_ h1 h2 h3)

/-- Exact arithmetic: complementary arc. For every `n ≥ 2`, `start` in `0..n-1` and `end_` in
`start..start+n-2`, the index set of the arc from `(end_+1) mod n` to
`(start-1+n) mod n` is the set of the indices of `0..n-1` that are not on the arc
from `start mod n` to `end_ mod n`, and `total - sumA` is the sum of `c` over that
complementary arc. -/
theorem complementary_arc_exact (c : List Int) (n : Nat) (_hn : 2 ≤ n) (hc : c.length = n)
    (start end_ : Nat) (h1 : start < n) (h2 : start ≤ end_) (h3 : end_ + 2 ≤ start + n) :
    arcSet n (((end_ : Int) + 1) % n) (((start : Int) - 1 + n) % n)
      = Finset.Ico (0 : Int) n \ arcSet n ((start : Int) % n) ((end_ : Int) % n) ∧
    total_loop_exact c n
        - ((pref_loop_exact c n).getD (end_ + 1) 0 - (pref_loop_exact c n).getD start 0)
      = arcSum c n (((end_ : Int) + 1) % n) (((start : Int) - 1 + n) % n) := by
  have hp := mem_ref_candidates_of n start end_ h1 h2 h3
  have hpart := ref_assignment_isArcPartition n (start, end_) hp
  constructor
  · obtain ⟨-, -, -, -, hd, hu⟩ := hpart
    change Disjoint (arcSet n ((start : Int) % n) ((end_ : Int) % n))
      (arcSet n (((end_ : Int) + 1) % n) (((start : Int) - 1 + n) % n)) at hd
    change arcSet n ((start : Int) % n) ((end_ : Int) % n)
      ∪ arcSet n (((end_ : Int) + 1) % n) (((start : Int) - 1 + n) % n)
      = Finset.Ico (0 : Int) n at hu
    rw [← hu, Finset.union_sdiff_cancel_left hd]
  · have hsum := arcSum_add_of_partition c n hc _ hpart
    have hA := ref_psum_sub_eq_arcSum c n hc (start, end_) hp
    rw [total_loop_exact_eq_sum c n hc, pref_loop_exact_getD c n hc _ (by omega),
      pref_loop_exact_getD c n hc _ (by omega)]
    change ref_psum c (end_ + 1) - ref_psum c start
      = arcSum c n ((start : Int) % n) ((end_ : Int) % n) at hA
    change arcSum c n ((start : Int) % n) ((end_ : Int) % n)
      + arcSum c n (((end_ : Int) + 1) % n) (((start : Int) - 1 + n) % n) = c.sum at hsum
    omega

/-- Exact arithmetic: balance bound. For every `n ≥ 2` and every vector of non-negative
costs, the best difference reported by `find_best_exact` is at most the largest
single cost, and it has the same parity as the sum of all costs. -/
theorem balance_bound_exact (c : List Int) (n : Nat) (hn : 2 ≤ n) (hc : c.length = n)
    (hnn : ∀ x ∈ c, 0 ≤ x) (res : AssignmentList) :
    (∀ M, c.max? = some M → (find_best_exact c n res).1 ≤ M) ∧
    (find_best_exact c n res).1 % 2 = c.sum % 2 := by
  obtain ⟨⟨p, hp, hpm⟩, hmin, -⟩ := find_best_exact_spec c n hn hc res
  constructor
  · intro M hM
    obtain ⟨hM1, hM2⟩ := (max?_int_iff c M).1 hM
    have hM0 : 0 ≤ M := hnn M hM1
    have hb : ∀ i, 0 ≤ costAt c i ∧ costAt c i ≤ M :=
      costAt_bounds_of_mem c M hM0 (fun x hx => ⟨hnn x hx, hM2 x hx⟩)
    obtain ⟨j, hj1, hj2, hj3⟩ := exists_balanced_cut c n hn hc M hb
    have hq : (0, j - 1) ∈ ref_candidates n := mem_ref_candidates_of n 0 (j - 1) (by omega)
      (by omega) (by omega)
    have hd := hmin (0, j - 1) hq
    rw [ref_diff_eq_abs] at hd
    simp only [] at hd
    have e : j - 1 + 1 = j := by omega
    rw [e, ref_psum_zero, sub_zero] at hd
    omega
  · rw [← hpm]
    exact ref_diff_parity c p

/-- Exact arithmetic: each partition is swept exactly twice. For every `n ≥ 2`, every
partition of `0..n-1` into two complementary circular arcs `A`, `B` is generated
by exactly two sweep candidates, one with `start` the first index of `A` and
one with `start` the first index of `B` and the roles swapped, both with the
same diff; and the number of sweep candidates whose diff is the best
difference is exactly twice the number of returned assignments. -/
theorem each_partition_swept_twice_exact (c : List Int) (n : Nat) (hn : 2 ≤ n) (hc : c.length = n)
    (res : AssignmentList) :
    (∀ a, IsArcPartition n a →
      ∃ p q, p ∈ ref_candidates n ∧ q ∈ ref_candidates n ∧ p ≠ q ∧
        code_asg n p = a ∧ code_asg n q = ⟨a.s2, a.e2, a.s1, a.e1⟩ ∧
        (p.1 : Int) = a.s1 ∧ (q.1 : Int) = a.s2 ∧
        code_diff_exact (pref_loop_exact c n) (total_loop_exact c n) p
          = code_diff_exact (pref_loop_exact c n) (total_loop_exact c n) q ∧
        ∀ r ∈ ref_candidates n, normalize (code_asg n r) n = normalize a n → r = p ∨ r = q) ∧
    ((ref_candidates n).filter fun p =>
        decide (code_diff_exact (pref_loop_exact c n) (total_loop_exact c n) p = (find_best_exact c n res).1)).length
      = 2 * (find_best_exact c n res).2.length := by
  constructor
  · intro a ha
    obtain ⟨p, hp, rfl⟩ := isArcPartition_is_candidate n a ha
    obtain ⟨q, hq, hqa, hne, hqd, -, -⟩ := exists_partner c n hc p hp
    refine ⟨p, q, hp, hq, fun h => hne h.symm, code_asg_eq_ref_assignment n p hp, ?_, ?_, ?_,
      ?_, ?_⟩
    · rw [code_asg_eq_ref_assignment n q hq, hqa]; rfl
    · have := congrArg Assignment.s1 (ref_assignment_explicit n p hp)
      exact this.symm
    · have h1 := congrArg Assignment.s1 (ref_assignment_explicit n q hq)
      rw [hqa] at h1
      exact h1.symm
    · rw [code_diff_exact_eq_ref_diff c n hc p hp, code_diff_exact_eq_ref_diff c n hc q hq, hqd]
    · intro r hr hcan
      rw [code_asg_eq_ref_assignment n r hr] at hcan
      rcases (same_canon_iff n p r hp hr).1 hcan with h | h
      · exact Or.inl h
      · exact Or.inr (ref_assignment_injective n r q hr hq (by rw [h, hqa]))
  · have hf : ((ref_candidates n).filter fun p =>
          decide (code_diff_exact (pref_loop_exact c n) (total_loop_exact c n) p = (find_best_exact c n res).1))
        = (ref_candidates n).filter fun p => decide (ref_diff c p = (find_best_exact c n res).1) := by
      apply List.filter_congr
      intro p hp
      rw [code_diff_exact_eq_ref_diff c n hc p hp]
    rw [hf, best_count_eq_twice c n hc]
    congr 2
    exact ((find_best_exact_spec c n hn hc res).2.2).symm

/-- Exact arithmetic: shape of stored assignments. For every `n ≥ 2` and cost vector, every
assignment `(s1,e1,s2,e2)` returned by `find_best_exact` is stored as the sweep built
it for a candidate, not in canonical form, and satisfies
`0 ≤ s1 ≤ e1 ≤ n-2`, `s2 = e1 + 1` and `e2 = (s1 + n - 1) mod n`, so that the first
arc does not wrap and `s1 < s2`; and the returned list is strictly increasing
in the lexicographic order on `(s1, e1)`. -/
theorem stored_assignment_shape_exact (c : List Int) (n : Nat) (hn : 2 ≤ n) (hc : c.length = n)
    (res : AssignmentList) :
    (∀ a ∈ (find_best_exact c n res).2,
      (∃ p ∈ ref_candidates n, a = code_asg n p) ∧
      0 ≤ a.s1 ∧ a.s1 ≤ a.e1 ∧ a.e1 ≤ (n : Int) - 2 ∧ a.s2 = a.e1 + 1 ∧
      a.e2 = (a.s1 + n - 1) % n ∧ a.s1 < a.s2) ∧
    (find_best_exact c n res).2.Pairwise
      (fun a b => a.s1 < b.s1 ∨ (a.s1 = b.s1 ∧ a.e1 < b.e1)) := by
  rw [(find_best_exact_spec c n hn hc res).2.2]
  constructor
  · intro a ha
    obtain ⟨p, hp, rfl, -, hp2⟩ := result_from_candidate c n hc _ a ha
    obtain ⟨p1, p2, p3⟩ := (mem_ref_candidates n p).1 hp
    refine ⟨⟨p, hp, (code_asg_eq_ref_assignment n p hp).symm⟩, ?_⟩
    rw [ref_assignment_nowrap n p hp hp2]
    dsimp only
    exact ⟨by omega, by omega, by omega, rfl, rfl, by omega⟩
  · exact result_sorted c n hc _

/-- Exact arithmetic: circular symmetry. For every `n ≥ 2`, every cost vector `c` and every
rotation `r`, `find_best_exact` on the rotated vector, whose entry `i` is
`c[(i+r) mod n]`, reports the same best difference and returns the same number
of assignments as on `c`; and the same holds for the reversed vector, whose
entry `i` is `c[n-1-i]`. -/
theorem circular_symmetry_exact (c : List Int) (n : Nat) (hn : 2 ≤ n) (hc : c.length = n) (r : Nat)
    (res1 res2 : AssignmentList) :
    ((∀ i, i < n → costAt (c.rotate r) i = costAt c ((i + r) % n)) ∧
      (find_best_exact (c.rotate r) n res1).1 = (find_best_exact c n res2).1 ∧
      (find_best_exact (c.rotate r) n res1).2.length = (find_best_exact c n res2).2.length) ∧
    ((∀ i, i < n → costAt c.reverse i = costAt c (n - 1 - i)) ∧
      (find_best_exact c.reverse n res1).1 = (find_best_exact c n res2).1 ∧
      (find_best_exact c.reverse n res1).2.length = (find_best_exact c n res2).2.length) := by
  have hrot : (c.rotate r).length = n := by rw [List.length_rotate, hc]
  have hrev : c.reverse.length = n := by rw [List.length_reverse, hc]
  have b1 : (find_best_exact (c.rotate r) n res1).1 = (find_best_exact c n res2).1 :=
    (rotate_invariant c n hn hc r 0).1
  have b2 : (find_best_exact c.reverse n res1).1 = (find_best_exact c n res2).1 :=
    (reverse_invariant c n hn hc 0).1
  refine ⟨⟨fun i hi => costAt_rotate c n hc r i hi, b1, ?_⟩,
    ⟨fun i hi => costAt_reverse_index c n hc i hi, b2, ?_⟩⟩
  · have l1 := result_length_eq (c.rotate r) n hn hrot res1
    have l2 := result_length_eq c n hn hc res2
    rw [b1, (rotate_invariant c n hn hc r (find_best_exact c n res2).1).2] at l1
    omega
  · have l1 := result_length_eq c.reverse n hn hrev res1
    have l2 := result_length_eq c n hn hc res2
    rw [b2, (reverse_invariant c n hn hc (find_best_exact c n res2).1).2] at l1
    omega

/-- Exact arithmetic: same-day entries. For every non-empty history whose days are only
non-decreasing, with first day 0, and every `0 ≤ start ≤ end_`,
`compute_total_exact` equals the per-day sum in which each day is priced at the
cost of the last entry (highest index) whose day is not later; and an entry
shadowed by a next entry with the same day contributes nothing: whatever its
cost, the total is the same. -/
theorem compute_total_exact_same_day_entries (h : CostHistory) (hne : h ≠ [])
    (hd0 : (entryAt h 0).day = 0) (hs : h.Pairwise (fun a b => a.day ≤ b.day))
    (start end_ : Int) (h0 : 0 ≤ start) (hse : start ≤ end_) :
    compute_total_exact h start end_ = per_day_total h start end_ ∧
    (∀ D, 0 ≤ D → ∃ i, i < h.length ∧ (entryAt h i).day ≤ D ∧
      (∀ j, i < j → j < h.length → D < (entryAt h j).day) ∧
      effective_cost h D = (entryAt h i).cost) ∧
    (∀ j x, j + 1 < h.length → (entryAt h j).day = (entryAt h (j + 1)).day →
      compute_total_exact (h.set j ⟨(entryAt h j).day, x⟩) start end_ = compute_total_exact h start end_) := by
  refine ⟨compute_total_exact_eq_per_day_le h hne hs start end_ (by omega) hse, ?_, ?_⟩
  · intro D hD
    obtain ⟨i, hi, hi1, hi2⟩ := exists_effective_index h hne D (by omega)
    refine ⟨i, hi, hi1, ?_, effective_cost_eq_le h hs i hi D hi1 hi2⟩
    intro j hij hj
    have hnext := hi2 (by omega)
    rcases Nat.eq_or_lt_of_le (Nat.succ_le_of_lt hij) with heq | hlt
    · rw [← heq]; exact hnext
    · have := (List.pairwise_iff_getElem.1 hs) (i + 1) j (by omega) hj hlt
      rw [entryAt_eq_getElem h _ hj]
      rw [entryAt_eq_getElem h _ (by omega)] at hnext
      omega
  · intro j x hj hday
    have hne2 : h.set j ⟨(entryAt h j).day, x⟩ ≠ [] := by
      intro hh
      have := congrArg List.length hh
      simp at this
      exact hne this
    have hdays : ∀ i, (entryAt (h.set j ⟨(entryAt h j).day, x⟩) i).day = (entryAt h i).day := by
      intro i
      rw [entryAt_set]
      split
      · rename_i hh; rw [hh.1]
      · rfl
    have hs2 : (h.set j ⟨(entryAt h j).day, x⟩).Pairwise (fun a b => a.day ≤ b.day) := by
      rw [List.pairwise_iff_getElem]
      intro a b ha hb hab
      have := (List.pairwise_iff_getElem.1 hs) a b (by simpa using ha) (by simpa using hb) hab
      rw [← entryAt_eq_getElem _ a ha, ← entryAt_eq_getElem _ b hb, hdays, hdays,
        entryAt_eq_getElem h a (by simpa using ha), entryAt_eq_getElem h b (by simpa using hb)]
      exact this
    rw [compute_total_exact_eq_per_day_le h hne hs start end_ (by omega) hse,
      compute_total_exact_eq_per_day_le _ hne2 hs2 start end_ (by rw [hdays]; omega) hse]
    unfold per_day_total
    apply Finset.sum_congr rfl
    intro D hD
    exact effective_cost_shadowed h hne hs j hj hday x D (by
      have := (Finset.mem_Icc.1 hD).1
      omega)

end Exact

/-! ## Claims about the range aggregator and the ledger -/

/-- C1: `compute_total` is the per-day sum of the effective cost only while
the total fits 64 bits. The program accepts the cost list `{2147483647, 1}`
and the query `? 1900-01-01 23520000-01-01` (days 0 to 8589809639); on the
history of section 0 `compute_total` returns -268340966594536, while the
per-day sum is 18446475732742957080. For every valid history whose values fit
their C types and every window `0 ≤ start ≤ end_` of at most 4,294,967,295
days, `compute_total h start end_` is the sum over the days `D = start..end_`
of the effective cost on day `D`. -/
theorem compute_total_per_day_sum_overflows :
    (accepted_initial [2147483647, 1] ∧
      query_cmd ⟨init_ledger [2147483647, 1], []⟩ ⟨1900, 1, 1⟩ ⟨23520000, 1, 1⟩
        = QueryOutcome.answered ⟨init_ledger [2147483647, 1], [⟨0, 0, 1, 1⟩]⟩
            [-268340966594536, 8589809640] 268349556404176 ∧
      ValidHistory [⟨0, 2147483647⟩] ∧
      compute_total [⟨0, 2147483647⟩] 0 8589809639 = -268340966594536 ∧
      ∑ D in Finset.Icc (0 : Int) 8589809639, effective_cost [⟨0, 2147483647⟩] D
        = 18446475732742957080) ∧
    (∀ (h : CostHistory) (start end_ : Int), ValidHistory h → TypedHistory h →
      0 ≤ start → start ≤ end_ → end_ ≤ LLONG_MAX → end_ - start + 1 ≤ 4294967295 →
      compute_total h start end_ = ∑ D in Finset.Icc start end_, effective_cost h D) := by
  refine ⟨⟨by decide, by decide, by decide, by decide, ?_⟩, ?_⟩
  · have h := compute_total_exact_eq_per_day [⟨0, 2147483647⟩] (by decide) 0 8589809639
      (by decide) (by decide)
    unfold per_day_total at h
    rw [← h]
    decide
  · intro h start end_ hv ht h0 hse hend hspan
    exact compute_total_eq_per_day h hv ht start end_ h0 hse hend hspan

theorem compute_total_per_day_sum_overflows_witness :
    ValidHistory [⟨0, 5⟩, ⟨10, 8⟩, ⟨11, 1⟩] ∧ TypedHistory [⟨0, 5⟩, ⟨10, 8⟩, ⟨11, 1⟩] ∧
    (0 : Int) ≤ 3 ∧ (3 : Int) ≤ 12 ∧ (12 : Int) ≤ LLONG_MAX ∧
    (12 : Int) - 3 + 1 ≤ 4294967295 ∧
    compute_total [⟨0, 5⟩, ⟨10, 8⟩, ⟨11, 1⟩] 3 12
      = ∑ D in Finset.Icc (3 : Int) 12, effective_cost [⟨0, 5⟩, ⟨10, 8⟩, ⟨11, 1⟩] D :=
  ⟨by decide, by decide, by decide, by decide, by decide, by decide,
    compute_total_per_day_sum_overflows.2 [⟨0, 5⟩, ⟨10, 8⟩, ⟨11, 1⟩] 3 12
      (by decide) (by decide) (by decide) (by decide) (by decide) (by decide)⟩

/-- C8: additivity holds only while the total fits 64 bits. On the history
`[(0, 2147483647)]`, which the program builds from an accepted cost list, the
two halves of the window of days 0 to 8589809639, cut after day 4294904819,
each total 9223237866371478540, while the whole window totals
-268340966594536. For every valid history whose values fit their C types and
every `0 ≤ start ≤ mid < end_` with at most 4,294,967,295 days from `start` to
`end_`, `compute_total h start end_` is `compute_total h start mid` plus
`compute_total h (mid + 1) end_`. -/
theorem compute_total_additivity_overflows :
    (ValidHistory [⟨0, 2147483647⟩] ∧
      compute_total [⟨0, 2147483647⟩] 0 8589809639 = -268340966594536 ∧
      compute_total [⟨0, 2147483647⟩] 0 4294904819 = 9223237866371478540 ∧
      compute_total [⟨0, 2147483647⟩] (4294904819 + 1) 8589809639 = 9223237866371478540) ∧
    (∀ (h : CostHistory) (start mid end_ : Int), ValidHistory h → TypedHistory h →
      0 ≤ start → start ≤ mid → mid < end_ → end_ ≤ LLONG_MAX →
      end_ - start + 1 ≤ 4294967295 →
      compute_total h start end_
        = compute_total h start mid + compute_total h (mid + 1) end_) := by
  refine ⟨⟨by decide, by decide, by decide, by decide⟩, ?_⟩
  intro h start mid end_ hv ht h0 h1 h2 hend hspan
  rw [compute_total_eq_per_day h hv ht start end_ h0 (by omega) hend hspan,
    compute_total_eq_per_day h hv ht start mid h0 h1 (by omega) (by omega),
    compute_total_eq_per_day h hv ht (mid + 1) end_ (by omega) (by omega) hend (by omega)]
  unfold per_day_total
  exact sum_Icc_split (effective_cost h) start mid end_ (by omega) (by omega)

theorem compute_total_additivity_overflows_witness :
    ValidHistory [⟨0, 5⟩, ⟨10, 8⟩] ∧ TypedHistory [⟨0, 5⟩, ⟨10, 8⟩] ∧
    (0 : Int) ≤ 2 ∧ (2 : Int) ≤ 10 ∧ (10 : Int) < 15 ∧ (15 : Int) ≤ LLONG_MAX ∧
    (15 : Int) - 2 + 1 ≤ 4294967295 ∧
    compute_total [⟨0, 5⟩, ⟨10, 8⟩] 2 15
      = compute_total [⟨0, 5⟩, ⟨10, 8⟩] 2 10 + compute_total [⟨0, 5⟩, ⟨10, 8⟩] (10 + 1) 15 :=
  ⟨by decide, by decide, by decide, by decide, by decide, by decide, by decide,
    compute_total_additivity_overflows.2 [⟨0, 5⟩, ⟨10, 8⟩] 2 10 15 (by decide) (by decide)
      (by decide) (by decide) (by decide) (by decide) (by decide)⟩

/-- C9: step semantics. For every valid history whose last entry is
`(P, c_prev)`, after `add_cost h D C` with `D > P` and `C > 0` the total over
the single day `D` is `C`, and over every single day `d` with `P ≤ d < D` it is
`c_prev`, the cost in force before the update. With exact arithmetic this holds
for all integers; the 64-bit `compute_total` gives these totals whenever the
values of the history fit their C types (`ll` days, `int` costs), as every
value that `main` stores does. -/
theorem add_cost_step_semantics (h : CostHistory) (hv : ValidHistory h)
    (P c_prev D C : Int) (hl : h.getLast? = some ⟨P, c_prev⟩) (hD : P < D) (_hC : 0 < C) :
    (compute_total_exact (add_cost h D C) D D = C ∧
      ∀ d : Int, P ≤ d → d < D → compute_total_exact (add_cost h D C) d d = c_prev) ∧
    (TypedHistory (add_cost h D C) →
      compute_total (add_cost h D C) D D = C ∧
      ∀ d : Int, P ≤ d → d < D → compute_total (add_cost h D C) d d = c_prev) := by
  have hv2 := add_cost_valid h hv P c_prev D C hl hD
  have hP := first_day_le_last h hv P c_prev hl
  refine ⟨⟨?_, ?_⟩, fun ht => ?_⟩
  · rw [compute_total_exact_eq_per_day _ hv2 D D (by omega) (le_refl _), per_day_total_single,
      effective_cost_add_cost_new]
  · intro d h1 h2
    rw [compute_total_exact_eq_per_day _ hv2 d d (by omega) (le_refl _), per_day_total_single,
      effective_cost_add_cost_old h hv.2.2 P c_prev D C d hl h1 h2]
  · have hDmax : D ≤ LLONG_MAX := (ht _ (mem_add_cost_new h D C)).1.2
    constructor
    · rw [compute_total_eq_per_day _ hv2 ht D D (by omega) (le_refl _) hDmax (by omega),
        per_day_total_single, effective_cost_add_cost_new]
    · intro d h1 h2
      rw [compute_total_eq_per_day _ hv2 ht d d (by omega) (le_refl _) (by omega) (by omega),
        per_day_total_single, effective_cost_add_cost_old h hv.2.2 P c_prev D C d hl h1 h2]

theorem add_cost_step_semantics_witness :
    ValidHistory [⟨0, 5⟩, ⟨4, 7⟩] ∧
    List.getLast? [(⟨0, 5⟩ : CostEntry), ⟨4, 7⟩] = some ⟨4, 7⟩ ∧ (4 : Int) < 10 ∧ (0 : Int) < 8 ∧
    TypedHistory (add_cost [⟨0, 5⟩, ⟨4, 7⟩] 10 8) ∧
    (compute_total (add_cost [⟨0, 5⟩, ⟨4, 7⟩] 10 8) 10 10 = 8 ∧
     ∀ d : Int, 4 ≤ d → d < 10 → compute_total (add_cost [⟨0, 5⟩, ⟨4, 7⟩] 10 8) d d = 7) :=
  ⟨by decide, by decide, by decide, by decide, by decide,
    (add_cost_step_semantics [⟨0, 5⟩, ⟨4, 7⟩] (by decide) 4 7 10 8 (by decide) (by decide)
      (by decide)).2 (by decide)⟩

/-! ## Claims about the partition optimiser -/

/-- C2: minimality holds only while the sums fit 64 bits. The program accepts
the cost list `{2000000000, 1500000000, 1000000000}` and the query
`? 1900-01-01 8215621-01-07` (3,000,000,000 days); the per-section totals
`6·10^18`, `4.5·10^18`, `3·10^18` are exact, their sum overflows, and `find_best`
reports 4500000000000000000 although the partition of section 0 against
sections 1..2 has imbalance 1500000000000000000. For every `n ≥ 2` and every
vector of `n` non-negative costs whose sum is at most `LLONG_MAX`, the best
difference reported by `find_best` is at most `|sum(A) - sum(B)|` for every
partition of `0..n-1` into two complementary circular arcs `A`, `B`. -/
theorem find_best_minimality_overflows :
    (accepted_initial [2000000000, 1500000000, 1000000000] ∧
      query_cmd ⟨init_ledger [2000000000, 1500000000, 1000000000], []⟩
          ⟨1900, 1, 1⟩ ⟨8215621, 1, 7⟩
        = QueryOutcome.answered
            ⟨init_ledger [2000000000, 1500000000, 1000000000], [⟨2, 0, 1, 1⟩]⟩
            [6000000000000000000, 4500000000000000000, 3000000000000000000]
            4500000000000000000 ∧
      IsArcPartition (3 : Nat) ⟨0, 0, 1, 2⟩ ∧
      |arcSum [6000000000000000000, 4500000000000000000, 3000000000000000000] (3 : Nat) 0 0
          - arcSum [6000000000000000000, 4500000000000000000, 3000000000000000000]
              (3 : Nat) 1 2|
        = 1500000000000000000) ∧
    (∀ (c : List Int) (n : Nat) (res : AssignmentList) (a : Assignment), 2 ≤ n →
      c.length = n → (∀ x ∈ c, 0 ≤ x) → c.sum ≤ LLONG_MAX → IsArcPartition n a →
      (find_best c n res).1 ≤ |arcSum c n a.s1 a.e1 - arcSum c n a.s2 a.e2|) := by
  refine ⟨⟨by decide, by decide, by decide, by decide⟩, ?_⟩
  intro c n res a hn hc hnn hsum ha
  rw [find_best_eq_exact c n hc hnn hsum res]
  exact find_best_exact_minimality c n hn hc res a ha

theorem find_best_minimality_overflows_witness :
    2 ≤ 3 ∧ [(1 : Int), 2, 10].length = 3 ∧ (∀ x ∈ [(1 : Int), 2, 10], 0 ≤ x) ∧
    [(1 : Int), 2, 10].sum ≤ LLONG_MAX ∧ IsArcPartition (3 : Nat) ⟨0, 0, 1, 2⟩ ∧
    (find_best [1, 2, 10] 3 []).1
      ≤ |arcSum [1, 2, 10] (3 : Nat) 0 0 - arcSum [1, 2, 10] (3 : Nat) 1 2| :=
  ⟨by decide, by decide, by decide, by decide, by decide,
    find_best_minimality_overflows.2 [1, 2, 10] 3 [] ⟨0, 0, 1, 2⟩ (by decide) (by decide)
      (by decide) (by decide) (by decide)⟩

/-- C3: the tie enumeration holds only while the sums fit 64 bits. The program
accepts four sections of cost 1073741824 and the query
`? 1900-01-01 11761121-01-20` (4,294,967,296 days); every per-section total is
`2^62`, the diffs of the sweep wrap to negative values, and `find_best` reports
0 with the single assignment `(3,1,2,2)`, so that the partition `0..1 | 2..3`,
whose imbalance is 0, is not in the result. For every `n ≥ 2` and every
vector of `n` non-negative costs whose sum is at most `LLONG_MAX`, every
partition of `0..n-1` into two complementary circular arcs whose imbalance is
the reported best difference has its canonical form in the result list. -/
theorem find_best_ties_overflow :
    (accepted_initial [1073741824, 1073741824, 1073741824, 1073741824] ∧
      query_cmd ⟨init_ledger [1073741824, 1073741824, 1073741824, 1073741824], []⟩
          ⟨1900, 1, 1⟩ ⟨11761121, 1, 20⟩
        = QueryOutcome.answered
            ⟨init_ledger [1073741824, 1073741824, 1073741824, 1073741824], [⟨3, 1, 2, 2⟩]⟩
            [4611686018427387904, 4611686018427387904, 4611686018427387904,
              4611686018427387904] 0 ∧
      IsArcPartition (4 : Nat) ⟨0, 1, 2, 3⟩ ∧
      |arcSum [4611686018427387904, 4611686018427387904, 4611686018427387904,
            4611686018427387904] (4 : Nat) 0 1
          - arcSum [4611686018427387904, 4611686018427387904, 4611686018427387904,
            4611686018427387904] (4 : Nat) 2 3| = 0 ∧
      ¬ ∃ b ∈ (find_best [4611686018427387904, 4611686018427387904, 4611686018427387904,
            4611686018427387904] 4 []).2,
          normalize b (4 : Nat) = normalize ⟨0, 1, 2, 3⟩ (4 : Nat)) ∧
    (∀ (c : List Int) (n : Nat) (res : AssignmentList) (a : Assignment), 2 ≤ n →
      c.length = n → (∀ x ∈ c, 0 ≤ x) → c.sum ≤ LLONG_MAX → IsArcPartition n a →
      |arcSum c n a.s1 a.e1 - arcSum c n a.s2 a.e2| = (find_best c n res).1 →
      ∃ b ∈ (find_best c n res).2, normalize b n = normalize a n) := by
  refine ⟨⟨by decide, by decide, by decide, by decide, by decide⟩, ?_⟩
  intro c n res a hn hc hnn hsum ha hb
  rw [find_best_eq_exact c n hc hnn hsum res] at hb ⊢
  exact find_best_exact_ties_complete c n hn hc res a ha hb

theorem find_best_ties_overflow_witness :
    2 ≤ 4 ∧ [(1 : Int), 1, 1, 1].length = 4 ∧ (∀ x ∈ [(1 : Int), 1, 1, 1], 0 ≤ x) ∧
    [(1 : Int), 1, 1, 1].sum ≤ LLONG_MAX ∧ IsArcPartition (4 : Nat) ⟨2, 3, 0, 1⟩ ∧
    |arcSum [1, 1, 1, 1] (4 : Nat) 2 3 - arcSum [1, 1, 1, 1] (4 : Nat) 0 1|
      = (find_best [1, 1, 1, 1] 4 []).1 ∧
    ∃ b ∈ (find_best [1, 1, 1, 1] 4 []).2,
      normalize b (4 : Nat) = normalize ⟨2, 3, 0, 1⟩ (4 : Nat) :=
  ⟨by decide, by decide, by decide, by decide, by decide, by decide,
    find_best_ties_overflow.2 [1, 1, 1, 1] 4 [] ⟨2, 3, 0, 1⟩ (by decide) (by decide)
      (by decide) (by decide) (by decide) (by decide)⟩

/-- C4: the result set is sound only while the sums fit 64 bits. On the four
per-section totals `2^62` that the program computes for four sections of cost
1073741824 over 4,294,967,296 days, `find_best` reports 0 and returns the
assignment `(3,1,2,2)`, whose arcs have the sums `3·2^62` and `2^62`: the
imbalance 9223372036854775808 is not the reported difference. For every
`n ≥ 2` and every vector of `n` non-negative costs whose sum is at most
`LLONG_MAX`, the result list is non-empty and the arc sums of every returned
assignment, each taken over its index set, differ by the reported best
difference. -/
theorem find_best_soundness_overflows :
    (find_best [4611686018427387904, 4611686018427387904, 4611686018427387904,
          4611686018427387904] 4 [] = (0, [⟨3, 1, 2, 2⟩]) ∧
      |arcSum [4611686018427387904, 4611686018427387904, 4611686018427387904,
            4611686018427387904] (4 : Nat) 3 1
          - arcSum [4611686018427387904, 4611686018427387904, 4611686018427387904,
            4611686018427387904] (4 : Nat) 2 2| = 9223372036854775808) ∧
    (∀ (c : List Int) (n : Nat) (res : AssignmentList), 2 ≤ n → c.length = n →
      (∀ x ∈ c, 0 ≤ x) → c.sum ≤ LLONG_MAX →
      (find_best c n res).2 ≠ [] ∧
      ∀ a ∈ (find_best c n res).2,
        |arcSum c n a.s1 a.e1 - arcSum c n a.s2 a.e2| = (find_best c n res).1) := by
  refine ⟨⟨by decide, by decide⟩, ?_⟩
  intro c n res hn hc hnn hsum
  rw [find_best_eq_exact c n hc hnn hsum res]
  exact find_best_exact_sound c n hn hc res

theorem find_best_soundness_overflows_witness :
    2 ≤ 3 ∧ [(1 : Int), 2, 10].length = 3 ∧ (∀ x ∈ [(1 : Int), 2, 10], 0 ≤ x) ∧
    [(1 : Int), 2, 10].sum ≤ LLONG_MAX ∧
    ((find_best [1, 2, 10] 3 []).2 ≠ [] ∧
     ∀ a ∈ (find_best [1, 2, 10] 3 []).2,
      |arcSum [1, 2, 10] (3 : Nat) a.s1 a.e1 - arcSum [1, 2, 10] (3 : Nat) a.s2 a.e2|
        = (find_best [1, 2, 10] 3 []).1) :=
  ⟨by decide, by decide, by decide, by decide,
    find_best_soundness_overflows.2 [1, 2, 10] 3 [] (by decide) (by decide) (by decide)
      (by decide)⟩

/-- C5: partition completeness. For all `n ≥ 2` and all cost vectors, every
assignment `(s1,e1,s2,e2)` in the result of `find_best` has its four indices
in `0..n-1`, and the circular arcs `s1..e1` and `s2..e2` are both non-empty,
disjoint, and together cover the indices `0..n-1`. -/
theorem find_best_partition_complete (c : List Int) (n : Nat) (hn : 2 ≤ n)
    (hc : c.length = n) (res : AssignmentList) :
    ∀ a ∈ (find_best c n res).2,
      ((0 ≤ a.s1 ∧ a.s1 < n) ∧ (0 ≤ a.e1 ∧ a.e1 < n) ∧ (0 ≤ a.s2 ∧ a.s2 < n) ∧
        (0 ≤ a.e2 ∧ a.e2 < n)) ∧
      (arcSet n a.s1 a.e1).Nonempty ∧ (arcSet n a.s2 a.e2).Nonempty ∧
      Disjoint (arcSet n a.s1 a.e1) (arcSet n a.s2 a.e2) ∧
      arcSet n a.s1 a.e1 ∪ arcSet n a.s2 a.e2 = Finset.Ico (0 : Int) n := by
  intro a ha
  have _hn := hn
  have _hc := hc
  obtain ⟨q, hq, rfl⟩ := result_is_candidate c n res a ha
  obtain ⟨h1, h2, h3, h4, hd, hu⟩ := ref_assignment_isArcPartition n q hq
  exact ⟨⟨h1, h2, h3, h4⟩, arcSet_nonempty _ _ _ h1.2, arcSet_nonempty _ _ _ h3.2, hd, hu⟩

theorem find_best_partition_complete_witness :
    2 ≤ 4 ∧ [(1 : Int), 1, 1, 1].length = 4 ∧
    ∀ a ∈ (find_best [1, 1, 1, 1] 4 []).2,
      ((0 ≤ a.s1 ∧ a.s1 < (4 : Nat)) ∧ (0 ≤ a.e1 ∧ a.e1 < (4 : Nat)) ∧
        (0 ≤ a.s2 ∧ a.s2 < (4 : Nat)) ∧ (0 ≤ a.e2 ∧ a.e2 < (4 : Nat))) ∧
      (arcSet (4 : Nat) a.s1 a.e1).Nonempty ∧ (arcSet (4 : Nat) a.s2 a.e2).Nonempty ∧
      Disjoint (arcSet (4 : Nat) a.s1 a.e1) (arcSet (4 : Nat) a.s2 a.e2) ∧
      arcSet (4 : Nat) a.s1 a.e1 ∪ arcSet (4 : Nat) a.s2 a.e2
        = Finset.Ico (0 : Int) (4 : Nat) :=
  ⟨by decide, by decide,
    find_best_partition_complete [1, 1, 1, 1] 4 (by decide) (by decide) []⟩

/-- C6: no duplicate partitions. For every `n`, every cost vector and every
prior content of the list, the canonical forms (computed by `normalize` with
the same `n`) of the assignments returned by `find_best` are pairwise
different: no two positions of the list hold entries with equal canonical
forms. -/
theorem find_best_no_duplicates (c : List Int) (n : Nat) (res : AssignmentList) :
    ((find_best c n res).2.map fun a => normalize a n).Nodup := by
  unfold find_best clear_assignments
  simp only []
  rw [sweep_eq_foldl]
  exact foldl_abs_step_nodup _ _ n _ _ (by simp [canon])

/-- C7: the sweep refines the two-pass reference only while the sums fit 64
bits. On the per-section totals `6·10^18`, `4.5·10^18`, `3·10^18` that the
program computes for the cost list `{2000000000, 1500000000, 1000000000}` over
3,000,000,000 days, `find_best` returns the difference 4500000000000000000
with the assignment `(2,0,1,1)`, while the two-pass reference gives
1500000000000000000 with `(0,0,1,2)`. For every vector of `n` non-negative
costs whose sum is at most `LLONG_MAX`, the best difference and the list of
`find_best` are those of the two-pass reference: all candidates in sweep order
as `(start mod n, end mod n, (end+1) mod n, (start-1+n) mod n)`, those whose
diff is the global minimum, first occurrence of each canonical form. -/
theorem find_best_two_pass_overflows :
    (find_best [6000000000000000000, 4500000000000000000, 3000000000000000000] 3 []
        = (4500000000000000000, [⟨2, 0, 1, 1⟩]) ∧
      two_pass [6000000000000000000, 4500000000000000000, 3000000000000000000] 3
        = (1500000000000000000, [⟨0, 0, 1, 2⟩])) ∧
    (∀ (c : List Int) (n : Nat) (res : AssignmentList), c.length = n →
      (∀ x ∈ c, 0 ≤ x) → c.sum ≤ LLONG_MAX → find_best c n res = two_pass c n) := by
  refine ⟨⟨by decide, by decide⟩, ?_⟩
  intro c n res hc hnn hsum
  rw [find_best_eq_exact c n hc hnn hsum res]
  exact find_best_exact_eq_two_pass c n hc res

theorem find_best_two_pass_overflows_witness :
    [(3 : Int), 7, 1, 1, 5, 3, 2, 2].length = 8 ∧
    (∀ x ∈ [(3 : Int), 7, 1, 1, 5, 3, 2, 2], 0 ≤ x) ∧
    [(3 : Int), 7, 1, 1, 5, 3, 2, 2].sum ≤ LLONG_MAX ∧
    find_best [3, 7, 1, 1, 5, 3, 2, 2] 8 [⟨9, 9, 9, 9⟩] = two_pass [3, 7, 1, 1, 5, 3, 2, 2] 8 :=
  ⟨by decide, by decide, by decide,
    find_best_two_pass_overflows.2 [3, 7, 1, 1, 5, 3, 2, 2] 8 [⟨9, 9, 9, 9⟩] (by decide)
      (by decide) (by decide)⟩

/-- C10 as stated fails: on `n = 4` with costs `[1,1,1,1]` the best
difference is 0 but the result list does not hold 4 assignments. -/
theorem scenario_A_four_assignments_fails :
    ¬ ((find_best [1, 1, 1, 1] 4 []).1 = 0 ∧ (find_best [1, 1, 1, 1] 4 []).2.length = 4) := by
  decide

/-- C10 amended: for `n = 4` with four equal positive costs `k` whose sum `4k`
is at most `LLONG_MAX`, `find_best` reports best difference 0 and returns
exactly 2 assignments, the two distinct 2-vs-2 splits `0..1 | 2..3` and
`1..2 | 3..0`, none duplicated. -/
theorem scenario_A_two_assignments (k : Int) (hk : 0 < k) (hmax : 4 * k ≤ LLONG_MAX)
    (res : AssignmentList) :
    find_best [k, k, k, k] 4 res = (0, [⟨0, 1, 2, 3⟩, ⟨1, 2, 3, 0⟩]) := by
  rw [find_best_eq_exact [k, k, k, k] 4 rfl (by
      intro x hx
      simp only [List.mem_cons, List.mem_singleton, List.not_mem_nil, or_false, or_self] at hx
      omega) (by
      simp only [List.sum_cons, List.sum_nil]
      omega) res]
  exact scenario_A_exact k hk res

theorem scenario_A_two_assignments_witness :
    (0 : Int) < 1 ∧ (4 : Int) * 1 ≤ LLONG_MAX ∧
    find_best [1, 1, 1, 1] 4 [] = (0, [⟨0, 1, 2, 3⟩, ⟨1, 2, 3, 0⟩]) :=
  ⟨by decide, by decide, scenario_A_two_assignments 1 (by decide) (by decide) []⟩

/-! ## Scenarios and degenerate inputs -/

/-- C11: scenario B. For `n = 3` and costs `[1,2,10]`, `find_best` reports
best difference 7 and returns exactly one assignment, whose arcs are the
sections `0..1` (sum 3) and the section `2..2` (sum 10). -/
theorem scenario_B (res : AssignmentList) :
    find_best [1, 2, 10] 3 res = (7, [⟨0, 1, 2, 2⟩]) ∧
    arcSum [1, 2, 10] 3 0 1 = 3 ∧ arcSum [1, 2, 10] 3 2 2 = 10 := by
  refine ⟨?_, by decide, by decide⟩
  rw [find_best_eq_exact [1, 2, 10] 3 rfl (by decide) (by decide) res,
    find_best_exact_eq_two_pass [1, 2, 10] 3 rfl res]
  decide

/-- C12: scenario D holds only while the per-section totals fit 64 bits. The
program accepts the cost list `{1000000000, 2100000000}` and the query
`? 1900-01-01 16429342-01-15` (6,000,000,000 days); the total of section 1
wraps to -5846744073709551616, the diff of the sweep wraps to a negative
value, and the program reports the difference 0 with the assignment
`(1,1,0,0)`. For `n = 2` and every pair of non-negative costs `c0`, `c1` whose
sum is at most `LLONG_MAX`, `find_best` reports best difference `|c0 - c1|` and
returns exactly one assignment, the split of section 0 against section 1, also
when `c0 = c1`. -/
theorem scenario_D_overflows :
    (accepted_initial [1000000000, 2100000000] ∧
      query_cmd ⟨init_ledger [1000000000, 2100000000], []⟩ ⟨1900, 1, 1⟩ ⟨16429342, 1, 15⟩
        = QueryOutcome.answered ⟨init_ledger [1000000000, 2100000000], [⟨1, 1, 0, 0⟩]⟩
            [6000000000000000000, -5846744073709551616] 0) ∧
    (∀ (c0 c1 : Int) (res : AssignmentList), 0 ≤ c0 → 0 ≤ c1 → c0 + c1 ≤ LLONG_MAX →
      find_best [c0, c1] 2 res = (|c0 - c1|, [⟨0, 0, 1, 1⟩])) := by
  refine ⟨⟨by decide, by decide⟩, ?_⟩
  intro c0 c1 res h0 h1 hsum
  rw [find_best_eq_exact [c0, c1] 2 rfl (by
      intro x hx
      simp only [List.mem_cons, List.mem_singleton, List.not_mem_nil, or_false] at hx
      rcases hx with rfl | rfl <;> assumption) (by
      simp only [List.sum_cons, List.sum_nil]
      omega) res]
  exact scenario_D_exact c0 c1 res

theorem scenario_D_overflows_witness :
    (0 : Int) ≤ 7 ∧ (0 : Int) ≤ 7 ∧ (7 : Int) + 7 ≤ LLONG_MAX ∧
    find_best [7, 7] 2 [] = (|(7 : Int) - 7|, [⟨0, 0, 1, 1⟩]) :=
  ⟨by decide, by decide, by decide,
    scenario_D_overflows.2 7 7 [] (by decide) (by decide) (by decide)⟩

/-- C17: empty or single section. For `n = 0` and for `n = 1`, whatever the
cost vector and the prior content of the list, `find_best` returns, reports
best difference 0 and leaves an empty assignment list. -/
theorem find_best_no_candidates (c : List Int) (res : AssignmentList) :
    find_best c 0 res = (0, []) ∧ find_best c 1 res = (0, []) := by
  constructor <;> rfl

/-- C18: degenerate range. For every history and every `start > end_`,
`compute_total` returns 0; and on the empty history `compute_total` returns 0
for every `start` and `end_`. -/
theorem compute_total_degenerate :
    (∀ (h : CostHistory) (start end_ : Int), start > end_ → compute_total h start end_ = 0) ∧
    (∀ start end_ : Int, compute_total init_history start end_ = 0) := by
  constructor
  · intro h start end_ hgt
    unfold compute_total
    rw [if_pos (Or.inl hgt)]
  · intro start end_
    unfold compute_total
    exact if_pos (Or.inr rfl)

theorem compute_total_degenerate_witness :
    compute_total [⟨0, 5⟩, ⟨10, 8⟩] 7 3 = 0 ∧ compute_total init_history 2 9 = 0 :=
  ⟨compute_total_degenerate.1 [⟨0, 5⟩, ⟨10, 8⟩] 7 3 (by decide),
    compute_total_degenerate.2 2 9⟩

/-- C13: scenario C holds only while the totals fit 64 bits. The program
accepts the cost list `{2147483647, 1}` and the update
`= 23520000-01-02 0: 1` (day 8589809640), which give section 0 the history
seeded with `(0, 2147483647)` and extended by `add_cost 8589809640 1`; its
total over the days `0..8589809639` is -268340966594536, not
`2147483647 * 8589809640`. For every seed cost `0 < c ≤ INT_MAX`, update day
`0 < D ≤ 4294967294` and update cost `0 < c2 ≤ INT_MAX`, the history built by
seeding `(0, c)` and then `add_cost D c2` has total `c * D` over `0..D-1`, total
`c * D + c2` over `0..D` and total `c2` over `D..D`. -/
theorem scenario_C_overflows :
    (update_cmd (init_ledger [2147483647, 1]) ⟨23520000, 1, 2⟩ 0 1
        = Outcome.accepted
            ⟨[add_cost (add_cost init_history 0 2147483647) 8589809640 1, [⟨0, 1⟩]],
              8589809640⟩ ∧
      compute_total (add_cost (add_cost init_history 0 2147483647) 8589809640 1)
          0 (8589809640 - 1) = -268340966594536 ∧
      (2147483647 : Int) * 8589809640 = 18446475732742957080) ∧
    (∀ c D c2 : Int, 0 < c → c ≤ INT_MAX → 0 < D → D ≤ 4294967294 → 0 < c2 →
      c2 ≤ INT_MAX →
      compute_total (add_cost (add_cost init_history 0 c) D c2) 0 (D - 1) = c * D ∧
      compute_total (add_cost (add_cost init_history 0 c) D c2) 0 D = c * D + c2 ∧
      compute_total (add_cost (add_cost init_history 0 c) D c2) D D = c2) := by
  refine ⟨⟨by decide, by decide, by decide⟩, ?_⟩
  intro c D c2 hc hc' hD hD' hc2 hc2'
  have hh : add_cost (add_cost init_history 0 c) D c2 = [⟨0, c⟩, ⟨D, c2⟩] := rfl
  have hs : (add_cost (add_cost init_history 0 c) D c2).Pairwise
      (fun a b => a.day ≤ b.day) := by
    rw [hh]
    simp only [List.pairwise_cons, List.mem_singleton, List.not_mem_nil, forall_eq,
      false_implies, implies_true, List.Pairwise.nil, and_true]
    omega
  have ht : TypedHistory (add_cost (add_cost init_history 0 c) D c2) := by
    rw [hh]
    unfold INT_MAX at hc' hc2'
    intro e he
    simp only [List.mem_cons, List.mem_singleton, List.not_mem_nil, or_false] at he
    unfold LLONG_MIN LLONG_MAX INT_MIN INT_MAX
    rcases he with rfl | rfl <;> simp only [] <;> omega
  have hmax : D ≤ LLONG_MAX := by unfold LLONG_MAX; omega
  rw [compute_total_eq_exact _ hs ht 0 (D - 1) (by decide) (by omega) (by omega),
    compute_total_eq_exact _ hs ht 0 D (by decide) hmax (by omega),
    compute_total_eq_exact _ hs ht D D (by unfold LLONG_MIN; omega) hmax (by omega)]
  exact scenario_C_exact c D c2 hc hD hc2

theorem scenario_C_overflows_witness :
    (0 : Int) < 5 ∧ (5 : Int) ≤ INT_MAX ∧ (0 : Int) < 10 ∧ (10 : Int) ≤ 4294967294 ∧
    (0 : Int) < 8 ∧ (8 : Int) ≤ INT_MAX ∧
    compute_total (add_cost (add_cost init_history 0 5) 10 8) 0 (10 - 1) = 5 * 10 ∧
    compute_total (add_cost (add_cost init_history 0 5) 10 8) 0 10 = 5 * 10 + 8 ∧
    compute_total (add_cost (add_cost init_history 0 5) 10 8) 10 10 = 8 :=
  ⟨by decide, by decide, by decide, by decide, by decide, by decide,
    scenario_C_overflows.2 5 10 8 (by decide) (by decide) (by decide) (by decide)
      (by decide) (by decide)⟩

/-! ## Canonical forms -/

/-- C14: duplicate detection decides partition identity. For every `n ≥ 2` and
any two assignments that are each a pair of complementary circular arcs over
`0..n-1`, the canonical forms under `normalize` are identical, and `duplicate`
reports 1 for the one against a list holding the other, if and only if their
unordered sets of arcs coincide; in particular `normalize` gives the same
result for `(A, B)` and `(B, A)`. -/
theorem normalize_decides_partition (n : Nat) (_hn : 2 ≤ n) (a b : Assignment)
    (ha : IsArcPartition n a) (hb : IsArcPartition n b) :
    (normalize a n = normalize b n ↔ SameArcs n a b) ∧
    (duplicate [b] a.s1 a.e1 a.s2 a.e2 n = true ↔ SameArcs n a b) ∧
    normalize ⟨a.s2, a.e2, a.s1, a.e1⟩ n = normalize a n := by
  refine ⟨normalize_eq_iff_sameArcs n a b ha hb, ?_,
    normalize_swap_arcs a n (partition_starts_ne n a ha)⟩
  rw [← normalize_eq_iff_sameArcs n a b ha hb]
  unfold duplicate
  rw [duplicate_loop_iff]
  simp [canon]

theorem normalize_decides_partition_witness :
    2 ≤ 4 ∧ IsArcPartition (4 : Nat) ⟨0, 1, 2, 3⟩ ∧ IsArcPartition (4 : Nat) ⟨2, 3, 0, 1⟩ ∧
    ((normalize ⟨0, 1, 2, 3⟩ (4 : Nat) = normalize ⟨2, 3, 0, 1⟩ (4 : Nat)
        ↔ SameArcs (4 : Nat) ⟨0, 1, 2, 3⟩ ⟨2, 3, 0, 1⟩) ∧
     (duplicate [⟨2, 3, 0, 1⟩] 0 1 2 3 (4 : Nat) = true
        ↔ SameArcs (4 : Nat) ⟨0, 1, 2, 3⟩ ⟨2, 3, 0, 1⟩) ∧
     normalize ⟨2, 3, 0, 1⟩ (4 : Nat) = normalize ⟨0, 1, 2, 3⟩ (4 : Nat)) :=
  ⟨by decide, by decide, by decide,
    normalize_decides_partition 4 (by decide) ⟨0, 1, 2, 3⟩ ⟨2, 3, 0, 1⟩ (by decide) (by decide)⟩

/-! ## The ledger under updates -/

/-- C15 as stated fails: the initial list `{1, 1}` is accepted, the update
`= 1900-01-01 0: 5` is accepted as the first update, and section 0 then has
the entries `(0, 1), (0, 5)`, whose days are not strictly increasing. -/
theorem history_strict_order_fails :
    accepted_initial [1, 1] ∧
    ∃ st, run_updates (init_ledger [1, 1]) [⟨⟨1900, 1, 1⟩, 0, 5⟩] = Outcome.accepted st ∧
      ∃ h ∈ st.hist, ¬ h.Pairwise (fun a b => a.day < b.day) :=
  ⟨by decide, ⟨[[⟨0, 1⟩, ⟨0, 5⟩], [⟨0, 1⟩]], 0⟩, by decide, [⟨0, 1⟩, ⟨0, 5⟩], by decide,
    by decide⟩

/-- C15 amended: after initialisation from an accepted initial cost list and
after every sequence of update commands accepted by the command processor,
every section's history is non-empty, has its index-0 entry at day 0, has
days non-decreasing from entry to entry and strictly increasing from the
second entry on; the days are strictly increasing throughout when no update
entry has day 0. -/
theorem history_order_invariant (initial : List Int) (cmds : List UpdateCmd) (st : Ledger)
    (_hi : accepted_initial initial)
    (hrun : run_updates (init_ledger initial) cmds = Outcome.accepted st) :
    ∀ h ∈ st.hist,
      h ≠ [] ∧ (entryAt h 0).day = 0 ∧ h.Pairwise (fun a b => a.day ≤ b.day) ∧
      h.tail.Pairwise (fun a b => a.day < b.day) ∧
      ((∀ e ∈ h.tail, e.day ≠ 0) → h.Pairwise (fun a b => a.day < b.day)) := by
  intro h hh
  obtain ⟨⟨hne, hz, hle, hs⟩, -⟩ := ledgerInv_run cmds _ st (ledgerInv_init initial) hrun h hh
  refine ⟨hne, hz, hle, hs, ?_⟩
  intro hnz
  cases h with
  | nil => exact absurd rfl hne
  | cons x t =>
    simp only [List.tail_cons] at hs hnz
    rw [List.pairwise_cons]
    refine ⟨fun a ha => ?_, hs⟩
    have h1 := (List.pairwise_cons.1 hle).1 a ha
    have h2 := hnz a ha
    have h3 : x.day = 0 := by simpa [entryAt] using hz
    omega

theorem history_order_invariant_witness :
    accepted_initial [1, 1] ∧
    run_updates (init_ledger [1, 1]) [⟨⟨1900, 1, 1⟩, 0, 5⟩, ⟨⟨1900, 1, 3⟩, 0, 7⟩]
      = Outcome.accepted ⟨[[⟨0, 1⟩, ⟨0, 5⟩, ⟨2, 7⟩], [⟨0, 1⟩]], 2⟩ ∧
    ∀ h ∈ (⟨[[⟨0, 1⟩, ⟨0, 5⟩, ⟨2, 7⟩], [⟨0, 1⟩]], 2⟩ : Ledger).hist,
      h ≠ [] ∧ (entryAt h 0).day = 0 ∧ h.Pairwise (fun a b => a.day ≤ b.day) ∧
      h.tail.Pairwise (fun a b => a.day < b.day) ∧
      ((∀ e ∈ h.tail, e.day ≠ 0) → h.Pairwise (fun a b => a.day < b.day)) :=
  ⟨by decide, by decide,
    history_order_invariant [1, 1] [⟨⟨1900, 1, 1⟩, 0, 5⟩, ⟨⟨1900, 1, 3⟩, 0, 7⟩] _ (by decide)
      (by decide)⟩

/-- C19: preceding-update rejection. In the state `st` left by an accepted
update command, whose date has day number `day0`, every update command whose
date has a day number `day ≤ day0` is rejected as invalid input, whatever its
target section and cost, and the state at the rejection is `st` itself: no
history is modified. -/
theorem update_not_after_last_rejected (st0 : Ledger) (dt0 : Date) (idx0 cost0 : Int)
    (st : Ledger) (hacc : update_cmd st0 dt0 idx0 cost0 = Outcome.accepted st)
    (dt : Date) (idx cost day0 day : Int) (h0 : date_to_days dt0 = some day0)
    (h1 : date_to_days dt = some day) (hle : day ≤ day0) :
    update_cmd st dt idx cost = Outcome.invalid st := by
  obtain ⟨d, hd, -, -, -, rfl⟩ := update_cmd_accepted st0 dt0 idx0 cost0 st hacc
  rw [h0] at hd
  simp only [Option.some.injEq] at hd
  subst hd
  have hnn := date_to_days_nonneg dt0 day0 h0
  unfold update_cmd
  rw [h1]
  simp only []
  rw [if_pos ⟨by omega, hle⟩]

theorem update_not_after_last_rejected_witness :
    update_cmd (init_ledger [1, 1]) ⟨1900, 1, 5⟩ 0 3
      = Outcome.accepted ⟨[[⟨0, 1⟩, ⟨4, 3⟩], [⟨0, 1⟩]], 4⟩ ∧
    date_to_days ⟨1900, 1, 5⟩ = some 4 ∧ date_to_days ⟨1900, 1, 5⟩ = some 4 ∧ (4 : Int) ≤ 4 ∧
    update_cmd ⟨[[⟨0, 1⟩, ⟨4, 3⟩], [⟨0, 1⟩]], 4⟩ ⟨1900, 1, 5⟩ 1 9
      = Outcome.invalid ⟨[[⟨0, 1⟩, ⟨4, 3⟩], [⟨0, 1⟩]], 4⟩ :=
  ⟨by decide, by decide, by decide, by decide,
    update_not_after_last_rejected (init_ledger [1, 1]) ⟨1900, 1, 5⟩ 0 3 _ (by decide)
      ⟨1900, 1, 5⟩ 1 9 4 4 (by decide) (by decide) (by decide)⟩

/-- C20: append-only history. `add_cost h day cost` leaves every entry at the
indices `0..count-1` unchanged, writes `(day, cost)` at index `count` and
increases `count` by exactly 1; an accepted update command for section `idx`
keeps the number of sections, appends its entry to the history of section
`idx` and leaves the history of every other section unchanged. -/
theorem add_cost_append_only :
    (∀ (h : CostHistory) (day cost : Int),
      (∀ i, i < h.length → entryAt (add_cost h day cost) i = entryAt h i) ∧
      entryAt (add_cost h day cost) h.length = ⟨day, cost⟩ ∧
      (add_cost h day cost).length = h.length + 1) ∧
    (∀ (st st1 : Ledger) (dt : Date) (idx cost : Int),
      update_cmd st dt idx cost = Outcome.accepted st1 →
      st1.hist.length = st.hist.length ∧
      (∃ day, date_to_days dt = some day ∧
        st1.hist.getD idx.toNat [] = add_cost (st.hist.getD idx.toNat []) day cost) ∧
      ∀ j : Nat, (j : Int) ≠ idx → st1.hist.getD j [] = st.hist.getD j []) := by
  constructor
  · intro h day cost
    refine ⟨?_, ?_, ?_⟩
    · intro i hi
      unfold entryAt add_cost
      rw [List.getD_append _ _ _ _ hi]
    · unfold entryAt add_cost
      rw [List.getD_append_right _ _ _ _ (le_refl _)]
      simp
    · simp [add_cost]
  · intro st st1 dt idx cost hacc
    obtain ⟨day, hday, -, hidx, -, rfl⟩ := update_cmd_accepted st dt idx cost st1 hacc
    simp only []
    refine ⟨by simp, ⟨day, hday, ?_⟩, ?_⟩
    · rw [List.getD_eq_getElem _ _ (by simp; omega)]
      simp
    · intro j hj
      by_cases hjl : j < st.hist.length
      · rw [List.getD_eq_getElem _ _ (by simp; omega), List.getD_eq_getElem _ _ hjl,
          List.getElem_set_ne (by omega)]
      · rw [List.getD_eq_default _ _ (by simp; omega), List.getD_eq_default _ _ (by omega)]

theorem add_cost_append_only_witness :
    update_cmd (init_ledger [1, 1]) ⟨1900, 1, 5⟩ 0 3
      = Outcome.accepted ⟨[[⟨0, 1⟩, ⟨4, 3⟩], [⟨0, 1⟩]], 4⟩ ∧
    (⟨[[⟨0, 1⟩, ⟨4, 3⟩], [⟨0, 1⟩]], 4⟩ : Ledger).hist.length = (init_ledger [1, 1]).hist.length ∧
    ∀ j : Nat, (j : Int) ≠ 0 →
      (⟨[[⟨0, 1⟩, ⟨4, 3⟩], [⟨0, 1⟩]], 4⟩ : Ledger).hist.getD j []
        = (init_ledger [1, 1]).hist.getD j [] :=
  ⟨by decide,
    (add_cost_append_only.2 (init_ledger [1, 1]) _ ⟨1900, 1, 5⟩ 0 3 (by decide)).1,
    (add_cost_append_only.2 (init_ledger [1, 1]) _ ⟨1900, 1, 5⟩ 0 3 (by decide)).2.2⟩

/-! ## 64-bit arithmetic -/

theorem sum_le_length_mul (c : List Int) (M : Int) (h : ∀ x ∈ c, x ≤ M) :
    c.sum ≤ c.length * M := by
  induction c with
  | nil => simp
  | cons a t ih =>
    have h1 := h a (List.mem_cons_self _ _)
    have h2 := ih (fun x hx => h x (List.mem_cons_of_mem _ hx))
    rw [List.sum_cons, List.length_cons]
    push_cast
    linarith

/-- With 10000 sections of cost `2^31-1` and the window of days `0..3652424`, the
grand total that `find_best` computes is not the exact grand total. -/
theorem grand_total_wraps :
    accepted_initial (List.replicate 10000 2147483647) ∧
    total_loop
        ((init_ledger (List.replicate 10000 2147483647)).hist.map
          fun h => compute_total h 0 3652424) 10000
      ≠ total_loop_exact
        ((init_ledger (List.replicate 10000 2147483647)).hist.map
          fun h => compute_total_exact h 0 3652424) 10000 := by
  constructor
  · refine ⟨fun v hv => ?_, ?_, ?_⟩
    · rw [List.eq_of_mem_replicate hv]
      decide
    · rw [List.length_replicate]; decide
    · rw [List.length_replicate]
  · have h64 : (init_ledger (List.replicate 10000 2147483647)).hist.map
          (fun h => compute_total h 0 3652424)
        = List.replicate 10000 (compute_total [⟨0, 2147483647⟩] 0 3652424) := by
      unfold init_ledger
      simp only []
      rw [List.map_replicate, List.map_replicate]
      rfl
    have hex : (init_ledger (List.replicate 10000 2147483647)).hist.map
          (fun h => compute_total_exact h 0 3652424)
        = List.replicate 10000 (compute_total_exact [⟨0, 2147483647⟩] 0 3652424) := by
      unfold init_ledger
      simp only []
      rw [List.map_replicate, List.map_replicate]
      rfl
    rw [h64, hex, total_loop_exact_replicate]
    have hv : compute_total_exact [⟨0, 2147483647⟩] 0 3652424 = 7843522959393975 := by decide
    rw [hv]
    have hr := (total_loop_range
      (List.replicate 10000 (compute_total [⟨0, 2147483647⟩] 0 3652424)) 10000).2
    unfold LLONG_MAX at hr
    intro heq
    rw [heq] at hr
    norm_num at hr

/-- Inside the range of C16 with a bounded number of sections nothing wraps:
every per-section total is exact; with at most 1175 sections so are the grand
total, the diff of every sweep candidate and the result of `find_best`; with at
most 587 sections so is every cell of `pref`. -/
theorem no_wrap_in_range (hists : List CostHistory) (start end_ : Int)
    (res : AssignmentList)
    (hh : ∀ h ∈ hists,
      OrderedHistory h ∧ ∀ e ∈ h, e.day ≤ LLONG_MAX ∧ 0 < e.cost ∧ e.cost ≤ INT_MAX)
    (h0 : 0 ≤ start) (hse : start ≤ end_) (hspan : end_ - start + 1 ≤ 3652425)
    (hend : end_ < LLONG_MAX) :
    (∀ h ∈ hists, compute_total h start end_ = compute_total_exact h start end_) ∧
    (hists.length ≤ 1175 →
      total_loop (hists.map fun h => compute_total h start end_) hists.length
        = total_loop_exact (hists.map fun h => compute_total_exact h start end_)
            hists.length ∧
      (∀ p ∈ ref_candidates hists.length,
        code_diff (pref_loop (hists.map fun h => compute_total h start end_) hists.length)
            (total_loop (hists.map fun h => compute_total h start end_) hists.length) p
          = code_diff_exact
              (pref_loop_exact (hists.map fun h => compute_total_exact h start end_)
                hists.length)
              (total_loop_exact (hists.map fun h => compute_total_exact h start end_)
                hists.length) p) ∧
      find_best (hists.map fun h => compute_total h start end_) hists.length res
        = find_best_exact (hists.map fun h => compute_total_exact h start end_)
            hists.length res) ∧
    (hists.length ≤ 587 →
      pref_loop (hists.map fun h => compute_total h start end_) hists.length
        = pref_loop_exact (hists.map fun h => compute_total_exact h start end_)
            hists.length) := by
  have hsec : ∀ h ∈ hists, compute_total h start end_ = compute_total_exact h start end_ ∧
      0 ≤ compute_total_exact h start end_ ∧
      compute_total_exact h start end_ ≤ MAX_SECTION_TOTAL := by
    intro h hm
    obtain ⟨e1, e2, e3⟩ := compute_total_eq_exact_nonneg h (hh h hm).1 (hh h hm).2 start end_
      h0 hse (by omega) hend
    refine ⟨e1, e2, ?_⟩
    unfold MAX_SECTION_TOTAL
    omega
  have hmap : (hists.map fun h => compute_total h start end_)
      = hists.map fun h => compute_total_exact h start end_ :=
    List.map_congr_left (fun h hm => (hsec h hm).1)
  rw [hmap]
  have hlen : (hists.map fun h => compute_total_exact h start end_).length = hists.length := by
    simp
  have hnn : ∀ x ∈ hists.map fun h => compute_total_exact h start end_, 0 ≤ x := by
    intro x hx
    obtain ⟨h, hm, rfl⟩ := List.mem_map.1 hx
    exact (hsec h hm).2.1
  have hsum : (hists.map fun h => compute_total_exact h start end_).sum
      ≤ hists.length * MAX_SECTION_TOTAL := by
    have := sum_le_length_mul (hists.map fun h => compute_total_exact h start end_)
      MAX_SECTION_TOTAL (by
        intro x hx
        obtain ⟨h, hm, rfl⟩ := List.mem_map.1 hx
        exact (hsec h hm).2.2)
    rw [hlen] at this
    exact this
  unfold MAX_SECTION_TOTAL at hsum
  refine ⟨fun h hm => (hsec h hm).1, fun hn => ?_, fun hn => ?_⟩
  · have hs : (hists.map fun h => compute_total_exact h start end_).sum ≤ LLONG_MAX := by
      unfold LLONG_MAX
      have : (hists.length : Int) ≤ 1175 := by omega
      omega
    exact ⟨total_loop_eq_exact _ _ hlen hnn hs,
      fun p hp => code_diff_eq_exact _ _ hlen hnn hs p hp,
      find_best_eq_exact _ _ hlen hnn hs res⟩
  · have hs : 2 * (hists.map fun h => compute_total_exact h start end_).sum ≤ LLONG_MAX := by
      unfold LLONG_MAX
      have : (hists.length : Int) ≤ 587 := by omega
      omega
    exact pref_loop_eq_exact _ _ hlen hnn hs

/-- C16: values wrap inside the accepted range. The program accepts 10000
sections of initial cost `2^31-1` and the query `? 1900-01-01 11899-12-31` (the
days `0..3652424`, 3,652,425 days); the grand total that `find_best` computes in
signed 64-bit arithmetic is not the exact grand total, which is above
`LLONG_MAX`. For every input with ordered histories, every day at most
`LLONG_MAX`, every cost a positive integer at most `2^31-1` and a query range
`0 ≤ start ≤ end_` of at most 3,652,425 days, every per-section total computed
by `compute_total` is the exact value; with at most 1175 sections so are the
grand total, the diff of every sweep candidate and the result of `find_best`;
and with at most 587 sections so is every doubled prefix sum up to `pref[2n]`. -/
theorem no_silent_wrap_overflows :
    (accepted_initial (List.replicate 10000 2147483647) ∧
      date_to_days ⟨1900, 1, 1⟩ = some 0 ∧ date_to_days ⟨11899, 12, 31⟩ = some 3652424 ∧
      total_loop
          ((init_ledger (List.replicate 10000 2147483647)).hist.map
            fun h => compute_total h 0 3652424) 10000
        ≠ total_loop_exact
          ((init_ledger (List.replicate 10000 2147483647)).hist.map
            fun h => compute_total_exact h 0 3652424) 10000) ∧
    (∀ (hists : List CostHistory) (start end_ : Int) (res : AssignmentList),
      (∀ h ∈ hists,
        OrderedHistory h ∧ ∀ e ∈ h, e.day ≤ LLONG_MAX ∧ 0 < e.cost ∧ e.cost ≤ INT_MAX) →
      0 ≤ start → start ≤ end_ → end_ - start + 1 ≤ 3652425 → end_ < LLONG_MAX →
      (∀ h ∈ hists, compute_total h start end_ = compute_total_exact h start end_) ∧
      (hists.length ≤ 1175 →
        total_loop (hists.map fun h => compute_total h start end_) hists.length
          = total_loop_exact (hists.map fun h => compute_total_exact h start end_)
              hists.length ∧
        (∀ p ∈ ref_candidates hists.length,
          code_diff (pref_loop (hists.map fun h => compute_total h start end_) hists.length)
              (total_loop (hists.map fun h => compute_total h start end_) hists.length) p
            = code_diff_exact
                (pref_loop_exact (hists.map fun h => compute_total_exact h start end_)
                  hists.length)
                (total_loop_exact (hists.map fun h => compute_total_exact h start end_)
                  hists.length) p) ∧
        find_best (hists.map fun h => compute_total h start end_) hists.length res
          = find_best_exact (hists.map fun h => compute_total_exact h start end_)
              hists.length res) ∧
      (hists.length ≤ 587 →
        pref_loop (hists.map fun h => compute_total h start end_) hists.length
          = pref_loop_exact (hists.map fun h => compute_total_exact h start end_)
              hists.length)) :=
  ⟨⟨grand_total_wraps.1, by decide, by decide, grand_total_wraps.2⟩,
    fun hists start end_ res hh h0 hse hspan hend =>
      no_wrap_in_range hists start end_ res hh h0 hse hspan hend⟩

theorem no_silent_wrap_overflows_witness :
    (∀ h ∈ [([⟨0, 5⟩, ⟨10, 8⟩] : CostHistory), [⟨0, 3⟩]],
      OrderedHistory h ∧ ∀ e ∈ h, e.day ≤ LLONG_MAX ∧ 0 < e.cost ∧ e.cost ≤ INT_MAX) ∧
    (0 : Int) ≤ 2 ∧ (2 : Int) ≤ 20 ∧ (20 : Int) - 2 + 1 ≤ 3652425 ∧ (20 : Int) < LLONG_MAX ∧
    [([⟨0, 5⟩, ⟨10, 8⟩] : CostHistory), [⟨0, 3⟩]].length ≤ 1175 ∧
    find_best ([([⟨0, 5⟩, ⟨10, 8⟩] : CostHistory), [⟨0, 3⟩]].map
        fun h => compute_total h 2 20) [([⟨0, 5⟩, ⟨10, 8⟩] : CostHistory), [⟨0, 3⟩]].length []
      = find_best_exact ([([⟨0, 5⟩, ⟨10, 8⟩] : CostHistory), [⟨0, 3⟩]].map
        fun h => compute_total_exact h 2 20)
          [([⟨0, 5⟩, ⟨10, 8⟩] : CostHistory), [⟨0, 3⟩]].length [] :=
  ⟨by decide, by decide, by decide, by decide, by decide, by decide,
    ((no_silent_wrap_overflows.2 [[⟨0, 5⟩, ⟨10, 8⟩], [⟨0, 3⟩]] 2 20 [] (by decide)
      (by decide) (by decide) (by decide) (by decide)).2.1 (by decide)).2.2⟩

/-! ## Initialisation and queries -/

/-- C21: the seeded histories are single entries, but their totals are
`(b - a + 1) * initial[i]` only while the product fits 64 bits. From the accepted
list `{2147483647, 1}` section 0 gets the history `[(0, 2147483647)]`, on which
`compute_total` over the days `0..8589809639` (the query
`? 1900-01-01 23520000-01-01`) returns -268340966594536 and not
`8589809640 * 2147483647`. After construction from an accepted list of `n`
initial costs there are `n` histories, the history of section `i` is exactly
the single entry `(0, initial[i])`, and `compute_total` on it over `a..b` is
`(b - a + 1) * initial[i]` for every `0 ≤ a ≤ b` with at most 4,294,967,295 days
from `a` to `b`. -/
theorem init_ledger_seeds_overflow :
    (accepted_initial [2147483647, 1] ∧
      (init_ledger [2147483647, 1]).hist.getD 0 [] = [⟨0, 2147483647⟩] ∧
      compute_total ((init_ledger [2147483647, 1]).hist.getD 0 []) 0 8589809639
        = -268340966594536 ∧
      ((8589809639 : Int) - 0 + 1) * 2147483647 = 18446475732742957080) ∧
    (∀ initial : List Int, accepted_initial initial →
      (init_ledger initial).hist.length = initial.length ∧
      ∀ i, i < initial.length →
        (init_ledger initial).hist.getD i [] = [⟨0, initial.getD i 0⟩] ∧
        ∀ a b : Int, 0 ≤ a → a ≤ b → b ≤ LLONG_MAX → b - a + 1 ≤ 4294967295 →
          compute_total ((init_ledger initial).hist.getD i []) a b
            = (b - a + 1) * initial.getD i 0) := by
  refine ⟨⟨by decide, by decide, by decide, by decide⟩, ?_⟩
  intro initial hacc
  obtain ⟨h1, h2⟩ := init_ledger_seeds_exact initial hacc
  refine ⟨h1, fun i hi => ⟨(h2 i hi).1, fun a b h0 hab hmax hspan => ?_⟩⟩
  have hv := hacc.1 (initial.getD i 0) (by
    rw [List.getD_eq_getElem _ _ hi]
    exact List.getElem_mem _)
  rw [(h2 i hi).1, compute_total_eq_exact _ (by simp) (typed_single _ hv.1 hv.2) a b
    (le_trans (by decide) h0) hmax hspan, ← (h2 i hi).1]
  exact (h2 i hi).2 a b h0 hab

theorem init_ledger_seeds_overflow_witness :
    accepted_initial [5, 3] ∧ (init_ledger [5, 3]).hist.length = [(5 : Int), 3].length ∧
    ∀ i, i < [(5 : Int), 3].length →
      (init_ledger [5, 3]).hist.getD i [] = [⟨0, [(5 : Int), 3].getD i 0⟩] ∧
      ∀ a b : Int, 0 ≤ a → a ≤ b → b ≤ LLONG_MAX → b - a + 1 ≤ 4294967295 →
        compute_total ((init_ledger [5, 3]).hist.getD i []) a b
          = (b - a + 1) * [(5 : Int), 3].getD i 0 :=
  ⟨by decide, init_ledger_seeds_overflow.2 [5, 3] (by decide)⟩

/-- C22: idempotent range query. An answered query leaves the ledger (every
history and `last_update_day`) as it was, its per-section totals are the
values of `compute_total` on the histories, and the same query asked again
with no update in between returns identical per-section totals and the
identical answer. -/
theorem query_is_idempotent (s s1 : Session) (d1 d2 : Date) (costs : List Int) (best : Int)
    (hq : query_cmd s d1 d2 = QueryOutcome.answered s1 costs best) :
    s1.ledger = s.ledger ∧
    (∃ a b, date_to_days d1 = some a ∧ date_to_days d2 = some b ∧
      costs = s.ledger.hist.map fun h => compute_total h a b) ∧
    query_cmd s1 d1 d2 = QueryOutcome.answered s1 costs best := by
  unfold query_cmd at hq ⊢
  cases ha : date_to_days d1 with
  | none => rw [ha] at hq; exact absurd hq (by simp)
  | some a =>
    cases hb : date_to_days d2 with
    | none => rw [ha, hb] at hq; exact absurd hq (by simp)
    | some b =>
      rw [ha, hb] at hq
      simp only [] at hq ⊢
      split at hq
      · exact absurd hq (by simp)
      · rename_i hab
        simp only [QueryOutcome.answered.injEq] at hq
        obtain ⟨h1, h2, h3⟩ := hq
        have hl : s1.ledger = s.ledger := by rw [← h1]
        refine ⟨hl, ⟨a, b, rfl, rfl, h2.symm⟩, ?_⟩
        rw [if_neg hab, hl]
        rw [find_best_res_irrelevant _ _ s1.solutions s.solutions, h2]
        rw [h2] at h1 h3
        rw [h1, h3]

theorem query_is_idempotent_witness :
    query_cmd ⟨init_ledger [5, 3], []⟩ ⟨1900, 1, 1⟩ ⟨1900, 1, 10⟩
      = QueryOutcome.answered ⟨init_ledger [5, 3], [⟨0, 0, 1, 1⟩]⟩ [50, 30] 20 ∧
    (⟨init_ledger [5, 3], [⟨0, 0, 1, 1⟩]⟩ : Session).ledger
      = (⟨init_ledger [5, 3], []⟩ : Session).ledger ∧
    query_cmd ⟨init_ledger [5, 3], [⟨0, 0, 1, 1⟩]⟩ ⟨1900, 1, 1⟩ ⟨1900, 1, 10⟩
      = QueryOutcome.answered ⟨init_ledger [5, 3], [⟨0, 0, 1, 1⟩]⟩ [50, 30] 20 :=
  ⟨by decide,
    (query_is_idempotent ⟨init_ledger [5, 3], []⟩ _ ⟨1900, 1, 1⟩ ⟨1900, 1, 10⟩ [50, 30] 20
      (by decide)).1,
    (query_is_idempotent ⟨init_ledger [5, 3], []⟩ _ ⟨1900, 1, 1⟩ ⟨1900, 1, 10⟩ [50, 30] 20
      (by decide)).2.2⟩

/-! ## Canonical order -/

/-- C24: canonical order. For every `n` and every two arcs, `normalize` returns
the pair unchanged or with the two arcs swapped, and afterwards the first
arc's circular length (`e >= s ? e-s+1 : n-s+e+1`) is smaller than the second's,
or the lengths are equal and the first arc's start index is at most the
second's; `normalize` is idempotent; and for indices in `0..n-1` the circular
length is the number of indices on the arc. -/
theorem normalize_canonical_order (n : Int) (a : Assignment) :
    (normalize a n = a ∨ normalize a n = ⟨a.s2, a.e2, a.s1, a.e1⟩) ∧
    (arc_len n (normalize a n).s1 (normalize a n).e1
        < arc_len n (normalize a n).s2 (normalize a n).e2 ∨
      (arc_len n (normalize a n).s1 (normalize a n).e1
          = arc_len n (normalize a n).s2 (normalize a n).e2 ∧
        (normalize a n).s1 ≤ (normalize a n).s2)) ∧
    normalize (normalize a n) n = normalize a n ∧
    (∀ s e : Int, 0 ≤ s → s < n → 0 ≤ e → e < n → arc_len n s e = (arcSet n s e).card) :=
  ⟨normalize_cases a n, normalize_ordered a n, normalize_idempotent a n,
    fun s e h1 h2 h3 h4 => arc_len_eq_card n s e h1 h2 h3 h4⟩

theorem normalize_canonical_order_witness :
    (0 : Int) ≤ 3 ∧ (3 : Int) < 4 ∧ (0 : Int) ≤ 0 ∧ (0 : Int) < 4 ∧
    arc_len 4 3 0 = (arcSet 4 3 0).card :=
  ⟨by decide, by decide, by decide, by decide,
    (normalize_canonical_order 4 ⟨0, 1, 2, 3⟩).2.2.2 3 0 (by decide) (by decide) (by decide)
      (by decide)⟩

/-! ## Prefix sums and complementary arcs -/

/-- C25: the cells of `pref` are the doubled prefix sums only while these fit
64 bits. On the per-section totals `6·10^18`, `4.5·10^18`, `3·10^18` that the
program computes for the cost list `{2000000000, 1500000000, 1000000000}` over
3,000,000,000 days, `pref[2]` is -7946744073709551616 while `c[0] + c[1]` is
10500000000000000000. For every vector of `n` non-negative costs whose
doubled sum is at most `LLONG_MAX`, `pref` has `2n+1` cells, for every `k` in
`0..2n` the cell `pref[k]` is the sum of `c[i mod n]` for `i` in `0..k-1`, and for
every `start` in `0..n-1` and `end_` in `start..start+n-2` the lookup
`pref[end_+1] - pref[start]` is the sum of `c[i mod n]` for `i` in `start..end_`,
which is the sum of `c` over the index set of the circular arc from
`start mod n` to `end_ mod n`. -/
theorem pref_doubled_sums_overflow :
    ((pref_loop [6000000000000000000, 4500000000000000000, 3000000000000000000] 3).getD 2 0
        = -7946744073709551616 ∧
      ∑ i in Finset.range 2,
          costAt [6000000000000000000, 4500000000000000000, 3000000000000000000] (i % 3)
        = 10500000000000000000) ∧
    (∀ (c : List Int) (n : Nat), c.length = n → (∀ x ∈ c, 0 ≤ x) → 2 * c.sum ≤ LLONG_MAX →
      (pref_loop c n).length = 2 * n + 1 ∧
      (∀ k, k ≤ 2 * n →
        (pref_loop c n).getD k 0 = ∑ i in Finset.range k, costAt c (i % n)) ∧
      ∀ start end_ : Nat, start < n → start ≤ end_ → end_ + 2 ≤ start + n →
        (pref_loop c n).getD (end_ + 1) 0 - (pref_loop c n).getD start 0
          = ∑ i in Finset.Ico start (end_ + 1), costAt c (i % n) ∧
        (pref_loop c n).getD (end_ + 1) 0 - (pref_loop c n).getD start 0
          = arcSum c n ((start : Int) % n) ((end_ : Int) % n)) := by
  refine ⟨⟨by decide, by decide⟩, ?_⟩
  intro c n hc hnn hsum
  rw [pref_loop_eq_exact c n hc hnn hsum]
  exact pref_doubled_sums_exact c n hc

theorem pref_doubled_sums_overflow_witness :
    [(1 : Int), 2, 10].length = 3 ∧ (∀ x ∈ [(1 : Int), 2, 10], 0 ≤ x) ∧
    2 * [(1 : Int), 2, 10].sum ≤ LLONG_MAX ∧ 2 < 3 ∧ 2 ≤ 3 ∧ 3 + 2 ≤ 2 + 3 ∧
    (pref_loop [1, 2, 10] 3).getD (3 + 1) 0 - (pref_loop [1, 2, 10] 3).getD 2 0
      = arcSum [1, 2, 10] (3 : Nat) (((2 : Nat) : Int) % (3 : Nat)) (((3 : Nat) : Int) % (3 : Nat)) :=
  ⟨by decide, by decide, by decide, by decide, by decide, by decide,
    ((pref_doubled_sums_overflow.2 [1, 2, 10] 3 (by decide) (by decide) (by decide)).2.2 2 3
      (by decide) (by decide) (by decide)).2⟩

/-- C26: the second arc is the complement of the first, but `total - sumA` is
its sum only while the sums fit 64 bits. On the four per-section totals `2^62`
that the program computes for four sections of cost 1073741824 over
4,294,967,296 days, for `start = end_ = 0` the value that the loop body computes
for `total - sumA` is -4611686018427387904, while the sum of `c` over the
complementary arc `1..3` is 13835058055282163712. For every `n ≥ 2`, `start` in
`0..n-1` and `end_` in `start..start+n-2`, the index set of the arc from
`(end_+1) mod n` to `(start-1+n) mod n` is the set of the indices of `0..n-1` that
are not on the arc from `start mod n` to `end_ mod n`; and for non-negative costs
whose sum is at most `LLONG_MAX`, the value computed for `total - sumA` is the
sum of `c` over that complementary arc. -/
theorem complementary_arc_overflows :
    (wrap64 (total_loop [4611686018427387904, 4611686018427387904, 4611686018427387904,
          4611686018427387904] 4
          - wrap64 ((pref_loop [4611686018427387904, 4611686018427387904, 4611686018427387904,
          4611686018427387904] 4).getD (0 + 1) 0 - (pref_loop [4611686018427387904, 4611686018427387904, 4611686018427387904,
          4611686018427387904] 4).getD 0 0))
        = -4611686018427387904 ∧
      arcSum [4611686018427387904, 4611686018427387904, 4611686018427387904,
          4611686018427387904] (4 : Nat)
          ((((0 : Nat) : Int) + 1) % (4 : Nat)) ((((0 : Nat) : Int) - 1 + (4 : Nat)) % (4 : Nat))
        = 13835058055282163712) ∧
    (∀ (c : List Int) (n start end_ : Nat), 2 ≤ n → c.length = n → start < n →
      start ≤ end_ → end_ + 2 ≤ start + n →
      arcSet n (((end_ : Int) + 1) % n) (((start : Int) - 1 + n) % n)
        = Finset.Ico (0 : Int) n \ arcSet n ((start : Int) % n) ((end_ : Int) % n) ∧
      ((∀ x ∈ c, 0 ≤ x) → c.sum ≤ LLONG_MAX →
        wrap64 (total_loop c n
            - wrap64 ((pref_loop c n).getD (end_ + 1) 0 - (pref_loop c n).getD start 0))
          = arcSum c n (((end_ : Int) + 1) % n) (((start : Int) - 1 + n) % n))) := by
  refine ⟨⟨by decide, by decide⟩, ?_⟩
  intro c n start end_ hn hc h1 h2 h3
  obtain ⟨e1, e2⟩ := complementary_arc_exact c n hn hc start end_ h1 h2 h3
  refine ⟨e1, fun hnn hsum => ?_⟩
  rw [total_loop_exact_eq_sum c n hc, pref_loop_exact_getD c n hc _ (by omega),
    pref_loop_exact_getD c n hc _ (by omega)] at e2
  obtain ⟨a1, a2⟩ := ref_psum_arc_bounds c n hc hnn start (end_ + 1) (by omega) (by omega)
    (by omega)
  have s0 := sum_nonneg_of_mem c hnn
  rw [pref_loop_getD c n hc _ (by omega), pref_loop_getD c n hc _ (by omega),
    wrap64_sub_wrap, total_loop_wrap, total_loop_exact_eq_sum c n hc, ← e2]
  unfold LLONG_MAX at hsum
  generalize c.sum = total at hsum a2 s0 ⊢
  generalize ref_psum c (end_ + 1) - ref_psum c start = a at a1 a2 ⊢
  rw [wrap64_eq_self total (by unfold LLONG_MIN; omega) (by unfold LLONG_MAX; omega),
    wrap64_eq_self a (by unfold LLONG_MIN; omega) (by unfold LLONG_MAX; omega),
    wrap64_eq_self (total - a) (by unfold LLONG_MIN; omega) (by unfold LLONG_MAX; omega)]

theorem complementary_arc_overflows_witness :
    2 ≤ 3 ∧ [(1 : Int), 2, 10].length = 3 ∧ 2 < 3 ∧ 2 ≤ 3 ∧ 3 + 2 ≤ 2 + 3 ∧
    arcSet (3 : Nat) ((((3 : Nat) : Int) + 1) % (3 : Nat))
        ((((2 : Nat) : Int) - 1 + (3 : Nat)) % (3 : Nat))
      = Finset.Ico (0 : Int) (3 : Nat)
          \ arcSet (3 : Nat) (((2 : Nat) : Int) % (3 : Nat)) (((3 : Nat) : Int) % (3 : Nat)) :=
  ⟨by decide, by decide, by decide, by decide, by decide,
    (complementary_arc_overflows.2 [1, 2, 10] 3 2 3 (by decide) (by decide) (by decide)
      (by decide) (by decide)).1⟩

/-- C29: the balance bound holds only while the sums fit 64 bits. The program
accepts the cost list `{2147483647, 1000000000, 2000000000}` and the query
`? 1900-01-01 8215621-01-07` (3,000,000,000 days); the per-section totals are
exact and non-negative, their sum overflows, and `find_best` reports
9004293132709551616, above the largest total 6442450941000000000. For every
`n ≥ 2` and every vector of `n` non-negative costs whose sum is at most
`LLONG_MAX`, the best difference reported by `find_best` is at most the largest
single cost, and it has the same parity as the sum of all costs. -/
theorem balance_bound_overflows :
    (accepted_initial [2147483647, 1000000000, 2000000000] ∧
      query_cmd ⟨init_ledger [2147483647, 1000000000, 2000000000], []⟩
          ⟨1900, 1, 1⟩ ⟨8215621, 1, 7⟩
        = QueryOutcome.answered
            ⟨init_ledger [2147483647, 1000000000, 2000000000], [⟨2, 0, 1, 1⟩]⟩
            [6442450941000000000, 3000000000000000000, 6000000000000000000]
            9004293132709551616 ∧
      List.max? [(6442450941000000000 : Int), 3000000000000000000, 6000000000000000000]
        = some 6442450941000000000) ∧
    (∀ (c : List Int) (n : Nat) (res : AssignmentList), 2 ≤ n → c.length = n →
      (∀ x ∈ c, 0 ≤ x) → c.sum ≤ LLONG_MAX →
      (∀ M, c.max? = some M → (find_best c n res).1 ≤ M) ∧
      (find_best c n res).1 % 2 = c.sum % 2) := by
  refine ⟨⟨by decide, by decide, by decide⟩, ?_⟩
  intro c n res hn hc hnn hsum
  rw [find_best_eq_exact c n hc hnn hsum res]
  exact balance_bound_exact c n hn hc hnn res

theorem balance_bound_overflows_witness :
    2 ≤ 3 ∧ [(1 : Int), 2, 10].length = 3 ∧ (∀ x ∈ [(1 : Int), 2, 10], 0 ≤ x) ∧
    [(1 : Int), 2, 10].sum ≤ LLONG_MAX ∧
    (find_best [1, 2, 10] 3 []).1 ≤ 10 ∧
    (find_best [1, 2, 10] 3 []).1 % 2 = [(1 : Int), 2, 10].sum % 2 :=
  ⟨by decide, by decide, by decide, by decide,
    (balance_bound_overflows.2 [1, 2, 10] 3 [] (by decide) (by decide) (by decide)
      (by decide)).1 10 (by decide),
    (balance_bound_overflows.2 [1, 2, 10] 3 [] (by decide) (by decide) (by decide)
      (by decide)).2⟩

/-! ## The two candidates of a partition and the stored assignments -/

/-- C23: every partition is swept twice with the same diff, but the count of
the best candidates is twice the number of returned assignments only while the
sums fit 64 bits. On the four per-section totals `2^62` that the program
computes for four sections of cost 1073741824 over 4,294,967,296 days, four
sweep candidates have the reported difference 0 as their diff and one
assignment is returned. For every `n ≥ 2` and every vector of `n` non-negative
costs whose sum is at most `LLONG_MAX`, every partition of `0..n-1` into two
complementary circular arcs `A`, `B` is generated by exactly two sweep
candidates, one with `start` the first index of `A` and one with `start` the
first index of `B` and the roles swapped, both with the same diff; and the
number of sweep candidates whose diff is the best difference is exactly twice
the number of returned assignments. -/
theorem each_partition_swept_twice_overflows :
    (((ref_candidates 4).filter fun p =>
          decide (code_diff (pref_loop [4611686018427387904, 4611686018427387904, 4611686018427387904,
            4611686018427387904] 4) (total_loop [4611686018427387904, 4611686018427387904, 4611686018427387904,
            4611686018427387904] 4) p
            = (find_best [4611686018427387904, 4611686018427387904, 4611686018427387904,
            4611686018427387904] 4 []).1)).length = 4 ∧
      (find_best [4611686018427387904, 4611686018427387904, 4611686018427387904,
            4611686018427387904] 4 []).2.length = 1) ∧
    (∀ (c : List Int) (n : Nat) (res : AssignmentList), 2 ≤ n → c.length = n →
      (∀ x ∈ c, 0 ≤ x) → c.sum ≤ LLONG_MAX →
      (∀ a, IsArcPartition n a →
        ∃ p q, p ∈ ref_candidates n ∧ q ∈ ref_candidates n ∧ p ≠ q ∧
          code_asg n p = a ∧ code_asg n q = ⟨a.s2, a.e2, a.s1, a.e1⟩ ∧
          (p.1 : Int) = a.s1 ∧ (q.1 : Int) = a.s2 ∧
          code_diff (pref_loop c n) (total_loop c n) p
            = code_diff (pref_loop c n) (total_loop c n) q ∧
          ∀ r ∈ ref_candidates n,
            normalize (code_asg n r) n = normalize a n → r = p ∨ r = q) ∧
      ((ref_candidates n).filter fun p =>
          decide (code_diff (pref_loop c n) (total_loop c n) p
            = (find_best c n res).1)).length
        = 2 * (find_best c n res).2.length) := by
  refine ⟨⟨by decide, by decide⟩, ?_⟩
  intro c n res hn hc hnn hsum
  obtain ⟨h1, h2⟩ := each_partition_swept_twice_exact c n hn hc res
  constructor
  · intro a ha
    obtain ⟨p, q, hp, hq, hne, e1, e2, e3, e4, e5, e6⟩ := h1 a ha
    refine ⟨p, q, hp, hq, hne, e1, e2, e3, e4, ?_, e6⟩
    rw [code_diff_eq_exact c n hc hnn hsum p hp, code_diff_eq_exact c n hc hnn hsum q hq]
    exact e5
  · rw [find_best_eq_exact c n hc hnn hsum res, ← h2]
    congr 1
    apply List.filter_congr
    intro p hp
    rw [code_diff_eq_exact c n hc hnn hsum p hp]

theorem each_partition_swept_twice_overflows_witness :
    2 ≤ 4 ∧ [(1 : Int), 1, 1, 1].length = 4 ∧ (∀ x ∈ [(1 : Int), 1, 1, 1], 0 ≤ x) ∧
    [(1 : Int), 1, 1, 1].sum ≤ LLONG_MAX ∧
    ((ref_candidates 4).filter fun p =>
        decide (code_diff (pref_loop [1, 1, 1, 1] 4) (total_loop [1, 1, 1, 1] 4) p
          = (find_best [1, 1, 1, 1] 4 []).1)).length
      = 2 * (find_best [1, 1, 1, 1] 4 []).2.length :=
  ⟨by decide, by decide, by decide, by decide,
    (each_partition_swept_twice_overflows.2 [1, 1, 1, 1] 4 [] (by decide) (by decide)
      (by decide) (by decide)).2⟩

/-- C28: the stored assignments have the stated shape only while the sums fit
64 bits. On the four per-section totals `2^62` that the program computes for
four sections of cost 1073741824 over 4,294,967,296 days, `find_best` returns
the assignment `(3,1,2,2)`, whose first arc wraps: `s1 = 3 > e1 = 1` and
`s2 = 2 < s1`. For every `n ≥ 2` and every vector of `n` non-negative costs whose
sum is at most `LLONG_MAX`, every assignment `(s1,e1,s2,e2)` returned by
`find_best` is stored as the sweep built it for a candidate, not in canonical
form, and satisfies `0 ≤ s1 ≤ e1 ≤ n-2`, `s2 = e1 + 1` and
`e2 = (s1 + n - 1) mod n`, so that the first arc does not wrap and `s1 < s2`; and
the returned list is strictly increasing in the lexicographic order on
`(s1, e1)`. -/
theorem stored_assignment_shape_overflows :
    ((find_best [4611686018427387904, 4611686018427387904, 4611686018427387904,
            4611686018427387904] 4 []).2 = [⟨3, 1, 2, 2⟩] ∧
      ¬ ∀ a ∈ (find_best [4611686018427387904, 4611686018427387904, 4611686018427387904,
            4611686018427387904] 4 []).2, a.s1 ≤ a.e1 ∧ a.s1 < a.s2) ∧
    (∀ (c : List Int) (n : Nat) (res : AssignmentList), 2 ≤ n → c.length = n →
      (∀ x ∈ c, 0 ≤ x) → c.sum ≤ LLONG_MAX →
      (∀ a ∈ (find_best c n res).2,
        (∃ p ∈ ref_candidates n, a = code_asg n p) ∧
        0 ≤ a.s1 ∧ a.s1 ≤ a.e1 ∧ a.e1 ≤ (n : Int) - 2 ∧ a.s2 = a.e1 + 1 ∧
        a.e2 = (a.s1 + n - 1) % n ∧ a.s1 < a.s2) ∧
      (find_best c n res).2.Pairwise
        (fun a b => a.s1 < b.s1 ∨ (a.s1 = b.s1 ∧ a.e1 < b.e1))) := by
  refine ⟨⟨by decide, by decide⟩, ?_⟩
  intro c n res hn hc hnn hsum
  rw [find_best_eq_exact c n hc hnn hsum res]
  exact stored_assignment_shape_exact c n hn hc res

theorem stored_assignment_shape_overflows_witness :
    2 ≤ 3 ∧ [(1 : Int), 2, 10].length = 3 ∧ (∀ x ∈ [(1 : Int), 2, 10], 0 ≤ x) ∧
    [(1 : Int), 2, 10].sum ≤ LLONG_MAX ∧
    (find_best [1, 2, 10] 3 []).2 = [⟨0, 1, 2, 2⟩] ∧
    normalize ⟨0, 1, 2, 2⟩ 3 ≠ ⟨0, 1, 2, 2⟩ ∧
    (find_best [1, 2, 10] 3 []).2.Pairwise
      (fun a b => a.s1 < b.s1 ∨ (a.s1 = b.s1 ∧ a.e1 < b.e1)) :=
  ⟨by decide, by decide, by decide, by decide, by decide, by decide,
    (stored_assignment_shape_overflows.2 [1, 2, 10] 3 [] (by decide) (by decide) (by decide)
      (by decide)).2⟩

/-! ## Circular symmetry -/

/-- C30: rotation and reversal leave the answer unchanged only while the sums
fit 64 bits. The program accepts the cost list
`{1000000000, 1000000000, 2147483647}` and the query
`? 1900-01-01 8215621-01-07` (3,000,000,000 days) and reports the difference
0; on the per-section totals rotated by one position `find_best` reports
442450941000000000. For every `n ≥ 2`, every vector `c` of `n` non-negative
costs whose sum is at most `LLONG_MAX` and every rotation `r`, `find_best` on the
rotated vector, whose entry `i` is `c[(i+r) mod n]`, reports the same best
difference and returns the same number of assignments as on `c`; and the same
holds for the reversed vector, whose entry `i` is `c[n-1-i]`. -/
theorem circular_symmetry_overflows :
    (accepted_initial [1000000000, 1000000000, 2147483647] ∧
      query_cmd ⟨init_ledger [1000000000, 1000000000, 2147483647], []⟩
          ⟨1900, 1, 1⟩ ⟨8215621, 1, 7⟩
        = QueryOutcome.answered
            ⟨init_ledger [1000000000, 1000000000, 2147483647], [⟨2, 0, 1, 1⟩]⟩
            [3000000000000000000, 3000000000000000000, 6442450941000000000] 0 ∧
      (find_best
          ([(3000000000000000000 : Int), 3000000000000000000, 6442450941000000000].rotate 1)
          3 []).1 = 442450941000000000) ∧
    (∀ (c : List Int) (n r : Nat) (res1 res2 : AssignmentList), 2 ≤ n → c.length = n →
      (∀ x ∈ c, 0 ≤ x) → c.sum ≤ LLONG_MAX →
      ((∀ i, i < n → costAt (c.rotate r) i = costAt c ((i + r) % n)) ∧
        (find_best (c.rotate r) n res1).1 = (find_best c n res2).1 ∧
        (find_best (c.rotate r) n res1).2.length = (find_best c n res2).2.length) ∧
      ((∀ i, i < n → costAt c.reverse i = costAt c (n - 1 - i)) ∧
        (find_best c.reverse n res1).1 = (find_best c n res2).1 ∧
        (find_best c.reverse n res1).2.length = (find_best c n res2).2.length)) := by
  refine ⟨⟨by decide, by decide, by decide⟩, ?_⟩
  intro c n r res1 res2 hn hc hnn hsum
  rw [find_best_eq_exact c n hc hnn hsum res2,
    find_best_eq_exact (c.rotate r) n (by rw [List.length_rotate, hc]) (nonneg_rotate c r hnn)
      (by rw [sum_rotate_eq]; exact hsum) res1,
    find_best_eq_exact c.reverse n (by rw [List.length_reverse, hc]) (nonneg_reverse c hnn)
      (by rw [List.sum_reverse]; exact hsum) res1]
  exact circular_symmetry_exact c n hn hc r res1 res2

theorem circular_symmetry_overflows_witness :
    2 ≤ 4 ∧ [(3 : Int), 1, 4, 1].length = 4 ∧ (∀ x ∈ [(3 : Int), 1, 4, 1], 0 ≤ x) ∧
    [(3 : Int), 1, 4, 1].sum ≤ LLONG_MAX ∧
    (find_best ([(3 : Int), 1, 4, 1].rotate 3) 4 []).1 = (find_best [3, 1, 4, 1] 4 []).1 ∧
    (find_best ([(3 : Int), 1, 4, 1].rotate 3) 4 []).2.length
      = (find_best [3, 1, 4, 1] 4 []).2.length ∧
    (find_best [(3 : Int), 1, 4, 1].reverse 4 []).1 = (find_best [3, 1, 4, 1] 4 []).1 ∧
    (find_best [(3 : Int), 1, 4, 1].reverse 4 []).2.length
      = (find_best [3, 1, 4, 1] 4 []).2.length :=
  ⟨by decide, by decide, by decide, by decide,
    (circular_symmetry_overflows.2 [3, 1, 4, 1] 4 3 [] [] (by decide) (by decide) (by decide)
      (by decide)).1.2.1,
    (circular_symmetry_overflows.2 [3, 1, 4, 1] 4 3 [] [] (by decide) (by decide) (by decide)
      (by decide)).1.2.2,
    (circular_symmetry_overflows.2 [3, 1, 4, 1] 4 3 [] [] (by decide) (by decide) (by decide)
      (by decide)).2.2.1,
    (circular_symmetry_overflows.2 [3, 1, 4, 1] 4 3 [] [] (by decide) (by decide) (by decide)
      (by decide)).2.2.2⟩

/-! ## Query isolation, same-day entries, index safety, day numbers -/

/-- C31: query isolation. The best difference and the assignment list that
`find_best` produces depend only on the cost vector and `n`, not on what the
assignment list held before: on the buffer that `main` reuses, any two prior
contents (cells and count) give the same difference and the same list
`items[0..count-1]`; on lists, any two prior lists give the same result; and
in `main` a query gives the same answer and leaves the same session whatever
`solutions` held before it. -/
theorem find_best_query_isolation (c : List Int) (n : Nat) :
    (∀ L1 L2 : AssignmentBuf,
      (buf_find_best c n L1).1 = (buf_find_best c n L2).1 ∧
      buf_view (buf_find_best c n L1).2 = buf_view (buf_find_best c n L2).2) ∧
    (∀ (L : AssignmentBuf) (res : AssignmentList),
      (buf_find_best c n L).1 = (find_best c n res).1 ∧
      buf_view (buf_find_best c n L).2 = (find_best c n res).2) ∧
    (∀ res1 res2 : AssignmentList, find_best c n res1 = find_best c n res2) ∧
    (∀ (led : Ledger) (sol1 sol2 : AssignmentList) (d1 d2 : Date) (s1 : Session)
        (costs : List Int) (best : Int),
      query_cmd ⟨led, sol1⟩ d1 d2 = QueryOutcome.answered s1 costs best →
      query_cmd ⟨led, sol2⟩ d1 d2 = QueryOutcome.answered s1 costs best) := by
  refine ⟨fun L1 L2 => ?_, fun L res => buf_find_best_view c n L res,
    fun res1 res2 => find_best_res_irrelevant c n res1 res2, ?_⟩
  · obtain ⟨a1, a2⟩ := buf_find_best_view c n L1 []
    obtain ⟨b1, b2⟩ := buf_find_best_view c n L2 []
    exact ⟨a1.trans b1.symm, a2.trans b2.symm⟩
  · intro led sol1 sol2 d1 d2 s1 costs best hq
    unfold query_cmd at hq ⊢
    cases ha : date_to_days d1 with
    | none => rw [ha] at hq; exact absurd hq (by simp)
    | some a =>
      cases hb : date_to_days d2 with
      | none => rw [ha, hb] at hq; exact absurd hq (by simp)
      | some b =>
        rw [ha, hb] at hq
        simp only [] at hq ⊢
        split at hq
        · exact absurd hq (by simp)
        · rename_i hab
          rw [if_neg hab]
          rw [find_best_res_irrelevant _ _ sol2 sol1]
          exact hq

theorem find_best_query_isolation_witness :
    (buf_find_best [1, 2, 3] 3 ⟨[⟨2, 0, 1, 1⟩, ⟨7, 7, 7, 7⟩], 2⟩).1
      = (buf_find_best [1, 2, 3] 3 ⟨[], 0⟩).1 ∧
    buf_view (buf_find_best [1, 2, 3] 3 ⟨[⟨2, 0, 1, 1⟩, ⟨7, 7, 7, 7⟩], 2⟩).2
      = buf_view (buf_find_best [1, 2, 3] 3 ⟨[], 0⟩).2 ∧
    query_cmd ⟨init_ledger [5, 3], []⟩ ⟨1900, 1, 1⟩ ⟨1900, 1, 10⟩
      = QueryOutcome.answered ⟨init_ledger [5, 3], [⟨0, 0, 1, 1⟩]⟩ [50, 30] 20 ∧
    query_cmd ⟨init_ledger [5, 3], [⟨1, 1, 0, 0⟩, ⟨4, 4, 4, 4⟩]⟩ ⟨1900, 1, 1⟩ ⟨1900, 1, 10⟩
      = QueryOutcome.answered ⟨init_ledger [5, 3], [⟨0, 0, 1, 1⟩]⟩ [50, 30] 20 :=
  ⟨((find_best_query_isolation [1, 2, 3] 3).1 _ _).1,
    ((find_best_query_isolation [1, 2, 3] 3).1 _ _).2,
    by decide,
    (find_best_query_isolation [] 0).2.2.2 (init_ledger [5, 3]) [] [⟨1, 1, 0, 0⟩, ⟨4, 4, 4, 4⟩]
      ⟨1900, 1, 1⟩ ⟨1900, 1, 10⟩ _ [50, 30] 20 (by decide)⟩

/-- C32: same-day entries are priced by the last of them, but only while the
total fits 64 bits. The program accepts the cost list `{1, 1}` and the update
`= 1900-01-01 0: 2147483647`, which gives section 0 the history
`[(0, 1), (0, 2147483647)]`; over the days `0..8589809639` (the query
`? 1900-01-01 23520000-01-01`) `compute_total` returns -268340966594536 while
the per-day sum is 18446475732742957080. For every non-empty history whose
values fit their C types and whose days are only non-decreasing, with first
day 0, and every window `0 ≤ start ≤ end_` of at most 4,294,967,295 days,
`compute_total` equals the per-day sum in which each day is priced at the cost
of the last entry (highest index) whose day is not later; and an entry
shadowed by a next entry with the same day contributes nothing: whatever its
cost, the total is the same. -/
theorem compute_total_same_day_entries_overflow :
    (update_cmd (init_ledger [1, 1]) ⟨1900, 1, 1⟩ 0 2147483647
        = Outcome.accepted ⟨[[⟨0, 1⟩, ⟨0, 2147483647⟩], [⟨0, 1⟩]], 0⟩ ∧
      compute_total [⟨0, 1⟩, ⟨0, 2147483647⟩] 0 8589809639 = -268340966594536 ∧
      per_day_total [⟨0, 1⟩, ⟨0, 2147483647⟩] 0 8589809639 = 18446475732742957080) ∧
    (∀ (h : CostHistory) (start end_ : Int), h ≠ [] → (entryAt h 0).day = 0 →
      h.Pairwise (fun a b => a.day ≤ b.day) → TypedHistory h → 0 ≤ start → start ≤ end_ →
      end_ ≤ LLONG_MAX → end_ - start + 1 ≤ 4294967295 →
      compute_total h start end_ = per_day_total h start end_ ∧
      (∀ D, 0 ≤ D → ∃ i, i < h.length ∧ (entryAt h i).day ≤ D ∧
        (∀ j, i < j → j < h.length → D < (entryAt h j).day) ∧
        effective_cost h D = (entryAt h i).cost) ∧
      (∀ j x, j + 1 < h.length → (entryAt h j).day = (entryAt h (j + 1)).day →
        INT_MIN ≤ x → x ≤ INT_MAX →
        compute_total (h.set j ⟨(entryAt h j).day, x⟩) start end_
          = compute_total h start end_)) := by
  refine ⟨⟨by decide, by decide, ?_⟩, ?_⟩
  · rw [← (compute_total_exact_same_day_entries [⟨0, 1⟩, ⟨0, 2147483647⟩] (by decide)
      (by decide) (by decide) 0 8589809639 (by decide) (by decide)).1]
    decide
  · intro h start end_ hne hd0 hs ht h0 hse hend hspan
    obtain ⟨e1, e2, e3⟩ := compute_total_exact_same_day_entries h hne hd0 hs start end_ h0 hse
    have hmin : LLONG_MIN ≤ start := le_trans (by decide) h0
    refine ⟨?_, e2, ?_⟩
    · rw [compute_total_eq_exact h hs ht start end_ hmin hend hspan]
      exact e1
    · intro j x hj hday hx1 hx2
      have hdays : ∀ i,
          (entryAt (h.set j ⟨(entryAt h j).day, x⟩) i).day = (entryAt h i).day := by
        intro i
        rw [entryAt_set]
        split
        · rename_i hh; rw [hh.1]
        · rfl
      have hs2 : (h.set j ⟨(entryAt h j).day, x⟩).Pairwise (fun a b => a.day ≤ b.day) := by
        rw [List.pairwise_iff_getElem]
        intro a b ha hb hab
        have := (List.pairwise_iff_getElem.1 hs) a b (by simpa using ha) (by simpa using hb) hab
        rw [← entryAt_eq_getElem _ a ha, ← entryAt_eq_getElem _ b hb, hdays, hdays,
          entryAt_eq_getElem h a (by simpa using ha), entryAt_eq_getElem h b (by simpa using hb)]
        exact this
      have hmem : entryAt h j ∈ h := by
        rw [entryAt_eq_getElem h j (by omega)]
        exact List.getElem_mem _
      have ht2 : TypedHistory (h.set j ⟨(entryAt h j).day, x⟩) := by
        intro e he
        rcases List.mem_or_eq_of_mem_set he with h1 | h1
        · exact ht e h1
        · subst h1
          exact ⟨(ht _ hmem).1, hx1, hx2⟩
      rw [compute_total_eq_exact _ hs2 ht2 start end_ hmin hend hspan,
        compute_total_eq_exact h hs ht start end_ hmin hend hspan]
      exact e3 j x hj hday

theorem compute_total_same_day_entries_overflow_witness :
    ([⟨0, 5⟩, ⟨0, 7⟩, ⟨3, 2⟩] : CostHistory) ≠ [] ∧
    (entryAt [⟨0, 5⟩, ⟨0, 7⟩, ⟨3, 2⟩] 0).day = 0 ∧
    ([⟨0, 5⟩, ⟨0, 7⟩, ⟨3, 2⟩] : CostHistory).Pairwise (fun a b => a.day ≤ b.day) ∧
    TypedHistory [⟨0, 5⟩, ⟨0, 7⟩, ⟨3, 2⟩] ∧ (0 : Int) ≤ 0 ∧ (0 : Int) ≤ 5 ∧
    (5 : Int) ≤ LLONG_MAX ∧ (5 : Int) - 0 + 1 ≤ 4294967295 ∧
    compute_total [⟨0, 5⟩, ⟨0, 7⟩, ⟨3, 2⟩] 0 5 = per_day_total [⟨0, 5⟩, ⟨0, 7⟩, ⟨3, 2⟩] 0 5 ∧
    compute_total [⟨0, 5⟩, ⟨0, 7⟩, ⟨3, 2⟩] 0 5 = 27 ∧
    compute_total [⟨0, 1000⟩, ⟨0, 7⟩, ⟨3, 2⟩] 0 5 = 27 :=
  ⟨by decide, by decide, by decide, by decide, by decide, by decide, by decide, by decide,
    (compute_total_same_day_entries_overflow.2 [⟨0, 5⟩, ⟨0, 7⟩, ⟨3, 2⟩] 0 5 (by decide)
      (by decide) (by decide) (by decide) (by decide) (by decide) (by decide)
      (by decide)).1,
    by decide, by decide⟩

/-- C33: index safety of the sweep. For every `n ≥ 1` and cost vector of
length `n`, `find_best` with every array access checked returns what
`find_best` returns, so no read of `c` (cells `0..n-1`) or access of `pref`
(cells `0..2n`) is out of range; every sweep candidate has `start ≤ n-1`
and `end_+1 ≤ 2n-1`; and every index stored in a returned assignment lies in
`0..n-1`. -/
theorem find_best_index_safety (c : List Int) (n : Nat) (hn : 1 ≤ n) (hc : c.length = n)
    (res : AssignmentList) :
    find_best_chk c n res = some (find_best c n res) ∧
    (∀ p ∈ ref_candidates n, p.1 ≤ n - 1 ∧ p.2 + 1 ≤ 2 * n - 1) ∧
    (∀ a ∈ (find_best c n res).2,
      (0 ≤ a.s1 ∧ a.s1 < n) ∧ (0 ≤ a.e1 ∧ a.e1 < n) ∧
      (0 ≤ a.s2 ∧ a.s2 < n) ∧ (0 ≤ a.e2 ∧ a.e2 < n)) := by
  refine ⟨find_best_chk_eq c n hc res, ?_, ?_⟩
  · intro p hp
    obtain ⟨h1, h2, h3⟩ := (mem_ref_candidates n p).1 hp
    omega
  · intro a ha
    obtain ⟨p, hp, rfl⟩ := result_is_candidate c n res a ha
    obtain ⟨b1, b2, b3, b4, -⟩ := ref_assignment_isArcPartition n p hp
    exact ⟨b1, b2, b3, b4⟩

theorem find_best_index_safety_witness :
    1 ≤ 3 ∧ [(4 : Int), 1, 5].length = 3 ∧
    find_best_chk [4, 1, 5] 3 [] = some (find_best [4, 1, 5] 3 []) ∧
    find_best [4, 1, 5] 3 [] = (0, [⟨0, 1, 2, 2⟩]) :=
  ⟨by decide, by decide,
    (find_best_index_safety [4, 1, 5] 3 (by decide) (by decide) []).1, by decide⟩

/-- C34: day numbering. `date_to_days` succeeds exactly for the dates that
`is_valid_date` accepts, which are the dates of year 1900 or later with a
real Gregorian month and day; it maps 1900-01-01 to 0; for every valid date
it maps the next calendar date to exactly one more; and it is strictly
increasing in chronological order. -/
theorem date_to_days_numbering :
    (∀ dt : Date, (date_to_days dt).isSome = is_valid_date dt.y dt.m dt.d) ∧
    (∀ y m d : Int, is_valid_date y m d = true ↔
      1900 ≤ y ∧ 1 ≤ m ∧ m ≤ 12 ∧ 1 ≤ d ∧ d ≤ gregorian_month_length y m) ∧
    date_to_days ⟨1900, 1, 1⟩ = some 0 ∧
    (∀ (dt : Date) (k : Int), date_to_days dt = some k →
      date_to_days (next_date dt) = some (k + 1)) ∧
    (∀ (a b : Date) (ka kb : Int), date_to_days a = some ka → date_to_days b = some kb →
      (date_lt a b ↔ ka < kb)) := by
  have hvalid : ∀ (dt : Date) (k : Int), date_to_days dt = some k →
      is_valid_date dt.y dt.m dt.d = true ∧ k = ref_day_number dt := by
    intro dt k hk
    cases hv : is_valid_date dt.y dt.m dt.d with
    | false =>
      unfold date_to_days at hk
      rw [hv] at hk
      exact absurd hk (by simp)
    | true =>
      rw [date_to_days_eq dt hv] at hk
      exact ⟨rfl, (Option.some.inj hk).symm⟩
  refine ⟨?_, is_valid_date_iff, by decide, ?_, ?_⟩
  · intro dt
    cases hv : is_valid_date dt.y dt.m dt.d with
    | false =>
      unfold date_to_days
      rw [hv]
      rfl
    | true => rw [date_to_days_eq dt hv]; rfl
  · intro dt k hk
    obtain ⟨hv, rfl⟩ := hvalid dt k hk
    obtain ⟨hv2, hnext⟩ := next_date_spec dt hv
    rw [date_to_days_eq _ hv2, hnext]
  · intro a b ka kb hka hkb
    obtain ⟨hva, rfl⟩ := hvalid a ka hka
    obtain ⟨hvb, rfl⟩ := hvalid b kb hkb
    constructor
    · exact ref_day_number_lt a b hva hvb
    · intro hlt
      rcases date_lt_trichotomy a b with h | h | h
      · exact h
      · rw [h] at hlt; exact absurd hlt (lt_irrefl _)
      · have := ref_day_number_lt b a hvb hva h
        omega

theorem date_to_days_numbering_witness :
    date_to_days ⟨2000, 2, 28⟩ = some 36582 ∧
    next_date ⟨2000, 2, 28⟩ = ⟨2000, 2, 29⟩ ∧
    date_to_days (next_date ⟨2000, 2, 28⟩) = some (36582 + 1) ∧
    date_to_days ⟨1900, 12, 31⟩ = some 364 ∧
    date_to_days ⟨1901, 1, 1⟩ = some 365 ∧
    (date_lt ⟨1900, 12, 31⟩ ⟨1901, 1, 1⟩ ↔ (364 : Int) < 365) :=
  ⟨by decide, by decide,
    date_to_days_numbering.2.2.2.1 ⟨2000, 2, 28⟩ 36582 (by decide),
    by decide, by decide,
    date_to_days_numbering.2.2.2.2 ⟨1900, 12, 31⟩ ⟨1901, 1, 1⟩ 364 365 (by decide) (by decide)⟩

end RoadMaintenance

namespace Friday13

/-! ## Day counts -/

section DayCount

theorem foldl_add_init {α : Type} (f : α → Int) (l : List α) (a : Int) :
    l.foldl (fun total x => total + f x) a = a + l.foldl (fun total x => total + f x) 0 := by
  induction l generalizing a with
  | nil => simp
  | cons x t ih =>
    simp only [List.foldl_cons]
    rw [ih (a + f x), ih (0 + f x)]
    ring

/-- The day count is the days of the years before, plus the days of the
months before, plus the day of the month less one. -/
theorem dayCount_eq (d : TDATE) :
    dayCountFrom1900 d
      = year_days d.m_Year + month_days_before d.m_Year d.m_Month + ((d.m_Day : Int) - 1) := by
  unfold dayCountFrom1900 year_days month_days_before
  simp only []
  rw [foldl_add_init (fun m : Nat => monthDays d.m_Year (m : Int))]

theorem year_days_succ (Y : Nat) (hY : 1900 ≤ Y) :
    year_days (Y + 1) = year_days Y + (if leapCalc Y then 366 else 365) := by
  unfold year_days
  have e : Y + 1 - 1900 = (Y - 1900) + 1 := by omega
  rw [e, List.range_succ, List.foldl_append]
  simp only [List.foldl_cons, List.foldl_nil]
  have e2 : (1900 : Int) + ((Y - 1900 : Nat) : Int) = (Y : Int) := by omega
  rw [e2]

theorem year_days_mono (Y1 Y2 : Nat) (h1 : 1900 ≤ Y1) (h : Y1 ≤ Y2) :
    year_days Y1 + 365 * ((Y2 : Int) - Y1) ≤ year_days Y2 := by
  induction Y2, h using Nat.le_induction with
  | base => simp
  | succ k hk ih =>
    rw [year_days_succ k (by omega)]
    split <;> push_cast <;> omega

theorem year_days_nonneg (Y : Nat) : 0 ≤ year_days Y := by
  by_cases h : 1900 ≤ Y
  · have := year_days_mono 1900 Y (le_refl _) h
    have h0 : year_days 1900 = 0 := rfl
    omega
  · unfold year_days
    have : Y - 1900 = 0 := by omega
    rw [this]
    rfl

theorem monthDays_table (Y : Int) (M : Nat) (h1 : 1 ≤ M) (h2 : M ≤ 12) :
    monthDays Y M = if M = 2 then (if leapCalc Y = true then 29 else 28)
      else if M = 4 ∨ M = 6 ∨ M = 9 ∨ M = 11 then 30 else 31 := by
  have hm : M = 1 ∨ M = 2 ∨ M = 3 ∨ M = 4 ∨ M = 5 ∨ M = 6 ∨ M = 7 ∨ M = 8 ∨ M = 9 ∨ M = 10
      ∨ M = 11 ∨ M = 12 := by omega
  unfold monthDays
  rcases hm with rfl | rfl | rfl | rfl | rfl | rfl | rfl | rfl | rfl | rfl | rfl | rfl <;>
    first
    | rfl
    | (cases leapCalc Y <;> rfl)

theorem monthDays_bounds (Y : Int) (M : Nat) (h1 : 1 ≤ M) (h2 : M ≤ 12) :
    28 ≤ monthDays Y M ∧ monthDays Y M ≤ 31 := by
  rw [monthDays_table Y M h1 h2]
  split_ifs <;> omega

theorem month_days_before_succ (Y M : Nat) (h1 : 1 ≤ M) :
    month_days_before Y (M + 1) = month_days_before Y M + monthDays Y M := by
  unfold month_days_before
  have e : M + 1 - 1 = (M - 1) + 1 := by omega
  rw [e, List.range'_1_concat, List.foldl_append]
  simp only [List.foldl_cons, List.foldl_nil]
  have e2 : 1 + (M - 1) = M := by omega
  rw [e2]

theorem month_days_before_one (Y : Nat) : month_days_before Y 1 = 0 := rfl

theorem month_days_before_mono (Y M1 M2 : Nat) (h1 : 1 ≤ M1) (h : M1 < M2) (h2 : M2 ≤ 12) :
    month_days_before Y M1 + monthDays Y M1 ≤ month_days_before Y M2 := by
  induction M2, h using Nat.le_induction with
  | base => rw [month_days_before_succ Y M1 h1]
  | succ k hk ih =>
    rw [month_days_before_succ Y k (by omega)]
    have := ih (by omega)
    have := monthDays_bounds Y k (by omega) (by omega)
    omega

/-- The months of a year have as many days as the year. -/
theorem month_days_before_year (Y : Nat) :
    month_days_before Y 12 + monthDays Y ((12 : Nat) : Int)
      = if leapCalc Y then 366 else 365 := by
  unfold month_days_before monthDays
  cases leapCalc Y <;> rfl

theorem month_days_before_nonneg (Y M : Nat) (h1 : 1 ≤ M) (h2 : M ≤ 12) :
    0 ≤ month_days_before Y M := by
  rcases Nat.eq_or_lt_of_le h1 with h | h
  · rw [← h, month_days_before_one]
  · have := month_days_before_mono Y 1 M (le_refl _) h h2
    have := monthDays_bounds Y 1 (le_refl _) (by omega)
    rw [month_days_before_one] at *
    omega

theorem legitDate_iff (d : TDATE) :
    legitDate d = true ↔
      1900 ≤ d.m_Year ∧ 1 ≤ d.m_Month ∧ d.m_Month ≤ 12 ∧ 1 ≤ d.m_Day ∧
      (d.m_Day : Int) ≤ monthDays d.m_Year d.m_Month := by
  unfold legitDate BASE_YEAR
  split_ifs with h1 h2
  · simp only [Bool.false_eq_true, false_iff]; omega
  · simp only [Bool.false_eq_true, false_iff]; omega
  · simp only [true_iff]; omega

/-- A legit date lies within its year. -/
theorem dayCount_bounds (d : TDATE) (h : legitDate d = true) :
    year_days d.m_Year ≤ dayCountFrom1900 d ∧
    dayCountFrom1900 d < year_days (d.m_Year + 1) := by
  obtain ⟨h1, h2, h3, h4, h5⟩ := (legitDate_iff d).1 h
  rw [dayCount_eq, year_days_succ _ h1, ← month_days_before_year]
  have hn := month_days_before_nonneg d.m_Year d.m_Month h2 h3
  refine ⟨by omega, ?_⟩
  rcases Nat.eq_or_lt_of_le h3 with he | hl
  · rw [he] at h5 ⊢
    omega
  · have := month_days_before_mono d.m_Year d.m_Month 12 h2 hl (le_refl _)
    have := monthDays_bounds d.m_Year 12 (by omega) (le_refl _)
    omega

/-- On legit dates the day count is strictly increasing in chronological
order. -/
theorem dayCount_lt_of_before (a b : TDATE) (ha : legitDate a = true) (hb : legitDate b = true)
    (h : date_before a b) : dayCountFrom1900 a < dayCountFrom1900 b := by
  obtain ⟨a1, a2, a3, a4, a5⟩ := (legitDate_iff a).1 ha
  obtain ⟨b1, b2, b3, b4, b5⟩ := (legitDate_iff b).1 hb
  rcases h with h | ⟨hy, h⟩
  · have hA := (dayCount_bounds a ha).2
    have hB := (dayCount_bounds b hb).1
    have := year_days_mono (a.m_Year + 1) b.m_Year (by omega) (by omega)
    omega
  · rw [dayCount_eq, dayCount_eq, hy]
    rcases h with h | ⟨hm, h⟩
    · have := month_days_before_mono b.m_Year a.m_Month b.m_Month a2 h b3
      rw [hy] at a5
      omega
    · rw [hm]; omega

theorem date_before_trichotomy (a b : TDATE) : date_before a b ∨ a = b ∨ date_before b a := by
  obtain ⟨y, m, d⟩ := a
  obtain ⟨y2, m2, d2⟩ := b
  unfold date_before
  simp only [TDATE.mk.injEq]
  omega

theorem dayCount_lt_iff (a b : TDATE) (ha : legitDate a = true) (hb : legitDate b = true) :
    dayCountFrom1900 a < dayCountFrom1900 b ↔ date_before a b := by
  constructor
  · intro h
    rcases date_before_trichotomy a b with h1 | h1 | h1
    · exact h1
    · rw [h1] at h; exact absurd h (lt_irrefl _)
    · have := dayCount_lt_of_before b a hb ha h1
      omega
  · exact dayCount_lt_of_before a b ha hb

end DayCount

/-! ## The weekday -/

section Weekday

theorem wrap32_eq_self (x : Int) (h1 : -2147483648 ≤ x) (h2 : x ≤ 2147483647) :
    wrap32 x = x := by
  unfold wrap32; omega

theorem to_unsigned_eq (n : Nat) (h : n < 4294967296) : to_unsigned (n : Int) = n := by
  unfold to_unsigned; omega

theorem to_ushort_eq (n : Nat) (h : n < 65536) : to_ushort (n : Int) = n := by
  unfold to_ushort; omega

/-- Zeller's congruence on a date whose year fits an `int`, with the
divisions rounding down. -/
theorem weekDay_eq (Y M D : Nat) (hY : 1900 ≤ Y) (hY2 : (Y : Int) ≤ INT_MAX) (hM : 1 ≤ M) :
    weekDay ⟨Y, M, D⟩
      = (((D : Int) + (13 * ((if M < 3 then (M : Int) + 12 else M) + 1)) / 5
          + (if M < 3 then (Y : Int) - 1 else Y) % 100
          + (if M < 3 then (Y : Int) - 1 else Y) % 100 / 4
          + (if M < 3 then (Y : Int) - 1 else Y) / 100 / 4
          + 5 * ((if M < 3 then (Y : Int) - 1 else Y) / 100)) % 7 + 6) % 7 := by
  unfold INT_MAX at hY2
  unfold weekDay
  simp only []
  rw [wrap32_eq_self (Y : Int) (by omega) (by omega)]
  have hw : wrap32 ((Y : Int) - 1) = (Y : Int) - 1 := wrap32_eq_self _ (by omega) (by omega)
  rw [hw]
  have hc : ((M : Int) < 3) ↔ M < 3 := by omega
  simp only [hc]
  have t1 : ∀ x : Int, 0 ≤ x → Int.tmod x 100 = x % 100 :=
    fun x hx => Int.tmod_eq_emod hx (by decide)
  have t2 : ∀ x : Int, 0 ≤ x → Int.tdiv x 100 = x / 100 :=
    fun x hx => Int.tdiv_eq_ediv hx (by decide)
  have t3 : ∀ x : Int, 0 ≤ x → Int.tdiv x 4 = x / 4 :=
    fun x hx => Int.tdiv_eq_ediv hx (by decide)
  have t4 : ∀ x : Int, 0 ≤ x → Int.tdiv x 5 = x / 5 :=
    fun x hx => Int.tdiv_eq_ediv hx (by decide)
  have t5 : ∀ x : Int, 0 ≤ x → Int.tmod (Int.tmod x 7 + 6) 7 = (x % 7 + 6) % 7 := by
    intro x hx
    rw [Int.tmod_eq_emod hx (by decide), Int.tmod_eq_emod (by omega) (by decide)]
  have hy0 : 0 ≤ (if M < 3 then (Y : Int) - 1 else Y) := by split <;> omega
  have hm0 : 0 ≤ 13 * ((if M < 3 then (M : Int) + 12 else M) + 1) := by split <;> omega
  rw [t1 _ hy0, t2 _ hy0, t3 _ (by omega), t3 _ (by omega), t4 _ hm0, t5 _ (by omega)]

/-- Every year from 1900 to `INT_MAX` has a 13th between March and December
on which `weekDay` returns 5. -/
theorem friday_in_year (Y : Nat) (hY : 1900 ≤ Y) (hY2 : (Y : Int) ≤ INT_MAX) :
    ∃ M, 3 ≤ M ∧ M ≤ 12 ∧ weekDay ⟨Y, M, 13⟩ = 5 := by
  have hC : ∃ r : Int, r = ((Y : Int) % 100 + (Y : Int) % 100 / 4 + (Y : Int) / 100 / 4
      + 5 * ((Y : Int) / 100)) % 7 := ⟨_, rfl⟩
  obtain ⟨r, hr⟩ := hC
  have hcases : r = 0 ∨ r = 1 ∨ r = 2 ∨ r = 3 ∨ r = 4 ∨ r = 5 ∨ r = 6 := by omega
  have key : ∀ M : Nat, 3 ≤ M → M ≤ 12 →
      (((13 : Int) + (13 * ((M : Int) + 1)) / 5 + r) % 7 = 6) → weekDay ⟨Y, M, 13⟩ = 5 := by
    intro M h3 h12 hh
    rw [weekDay_eq Y M 13 hY hY2 (by omega), if_neg (by omega), if_neg (by omega)]
    push_cast
    omega
  rcases hcases with h | h | h | h | h | h | h
  · exact ⟨10, by omega, by omega, key 10 (by omega) (by omega) (by rw [h]; decide)⟩
  · exact ⟨4, by omega, by omega, key 4 (by omega) (by omega) (by rw [h]; decide)⟩
  · exact ⟨9, by omega, by omega, key 9 (by omega) (by omega) (by rw [h]; decide)⟩
  · exact ⟨6, by omega, by omega, key 6 (by omega) (by omega) (by rw [h]; decide)⟩
  · exact ⟨3, by omega, by omega, key 3 (by omega) (by omega) (by rw [h]; decide)⟩
  · exact ⟨8, by omega, by omega, key 8 (by omega) (by omega) (by rw [h]; decide)⟩
  · exact ⟨5, by omega, by omega, key 5 (by omega) (by omega) (by rw [h]; decide)⟩

end Weekday

/-! ## The weekday against the day count -/

section WeekdayCount

theorem leapCalc_eq (Y : Int) (hY : 0 ≤ Y) :
    leapCalc Y = decide (Y % 4000 ≠ 0 ∧ (Y % 400 = 0 ∨ (Y % 100 ≠ 0 ∧ Y % 4 = 0))) := by
  unfold leapCalc
  rw [Int.tmod_eq_emod hY (by decide), Int.tmod_eq_emod hY (by decide),
    Int.tmod_eq_emod hY (by decide), Int.tmod_eq_emod hY (by decide)]
  split_ifs with h1 h2 h3
  · symm; rw [decide_eq_false_iff_not]; omega
  · symm; rw [decide_eq_true_iff]; omega
  · symm; rw [decide_eq_false_iff_not]; omega
  · by_cases h4 : Y % 4 = 0
    · rw [decide_eq_true h4]; symm; rw [decide_eq_true_iff]; omega
    · rw [decide_eq_false h4]; symm; rw [decide_eq_false_iff_not]; omega

theorem zeller_core (x : Int) :
    x % 100 + x % 100 / 4 + x / 100 / 4 + 5 * (x / 100)
      = gregorian_days x - 7 * (52 * x + 17 * (x / 100)) := by
  unfold gregorian_days
  omega

theorem gregorian_days_succ (x : Int) :
    gregorian_days x = gregorian_days (x - 1) + 365
      + (if (x % 4 = 0 ∧ x % 100 ≠ 0) ∨ x % 400 = 0 then 1 else 0) := by
  unfold gregorian_days
  split <;> omega

/-- Up to the year 4000 the days of the years before `Y` follow the
Gregorian count of leap years. -/
theorem year_days_closed (Y : Nat) (h1 : 1900 ≤ Y) (h2 : Y ≤ 4000) :
    year_days Y = gregorian_days ((Y : Int) - 1) - 693595 := by
  induction Y, h1 using Nat.le_induction with
  | base => rfl
  | succ k hk ih =>
    rw [year_days_succ k hk, ih (by omega), leapCalc_eq _ (by omega)]
    have hs := gregorian_days_succ (k : Int)
    have e : ((k + 1 : Nat) : Int) - 1 = (k : Int) := by push_cast; ring
    rw [e]
    by_cases hl : ((k : Int) % 4000 ≠ 0 ∧ ((k : Int) % 400 = 0 ∨
        ((k : Int) % 100 ≠ 0 ∧ (k : Int) % 4 = 0)))
    · rw [decide_eq_true hl, if_pos rfl]
      split_ifs at hs <;> omega
    · rw [decide_eq_false hl, if_neg (by decide)]
      split_ifs at hs <;> omega

theorem month_days_before_table (Y M : Nat) (h1 : 1 ≤ M) (h2 : M ≤ 12) :
    month_days_before Y M
      = (153 * ((if M < 3 then (M : Int) + 12 else M) - 3) + 2) / 5
        + (if M < 3 then -306 else if leapCalc Y = true then 60 else 59) := by
  have hm : M = 1 ∨ M = 2 ∨ M = 3 ∨ M = 4 ∨ M = 5 ∨ M = 6 ∨ M = 7 ∨ M = 8 ∨ M = 9 ∨ M = 10
      ∨ M = 11 ∨ M = 12 := by omega
  unfold month_days_before monthDays
  rcases hm with rfl | rfl | rfl | rfl | rfl | rfl | rfl | rfl | rfl | rfl | rfl | rfl <;>
    first
    | rfl
    | (cases leapCalc Y <;> rfl)

/-- Before 4000-03-01 `weekDay` agrees with the day count: day 0 is a
Monday. -/
theorem weekDay_eq_dayCount (d : TDATE) (hl : legitDate d = true)
    (hb : date_before d ⟨4000, 3, 1⟩) :
    weekDay d = (dayCountFrom1900 d + 1) % 7 := by
  obtain ⟨h1, h2, h3, h4, h5⟩ := (legitDate_iff d).1 hl
  obtain ⟨Y, M, D⟩ := d
  unfold date_before at hb
  simp only [] at h1 h2 h3 h4 h5 hb
  have hY : Y ≤ 4000 := by omega
  rw [weekDay_eq Y M D h1 (by unfold INT_MAX; omega) h2, dayCount_eq]
  simp only []
  rw [year_days_closed Y h1 hY, month_days_before_table Y M h2 h3,
    leapCalc_eq _ (by omega)]
  clear h5
  have hm : M = 1 ∨ M = 2 ∨ M = 3 ∨ M = 4 ∨ M = 5 ∨ M = 6 ∨ M = 7 ∨ M = 8 ∨ M = 9 ∨ M = 10
      ∨ M = 11 ∨ M = 12 := by omega
  have hs := gregorian_days_succ (Y : Int)
  have z1 := zeller_core (Y : Int)
  have z2 := zeller_core ((Y : Int) - 1)
  generalize gregorian_days (Y : Int) = G1 at hs z1 ⊢
  generalize gregorian_days ((Y : Int) - 1) = G0 at hs z2 ⊢
  by_cases hlp : ((Y : Int) % 4000 ≠ 0 ∧ ((Y : Int) % 400 = 0 ∨
      ((Y : Int) % 100 ≠ 0 ∧ (Y : Int) % 4 = 0)))
  · rw [decide_eq_true hlp]
    have hg : ((Y : Int) % 4 = 0 ∧ (Y : Int) % 100 ≠ 0) ∨ (Y : Int) % 400 = 0 := by omega
    rw [if_pos hg] at hs
    simp only [if_true]
    rcases hm with rfl | rfl | rfl | rfl | rfl | rfl | rfl | rfl | rfl | rfl | rfl | rfl <;>
      simp only [Nat.reduceLT, if_true, if_false, Nat.cast_ofNat] <;> omega
  · rw [decide_eq_false hlp]
    simp only [Bool.false_eq_true, if_false]
    by_cases hg : ((Y : Int) % 4 = 0 ∧ (Y : Int) % 100 ≠ 0) ∨ (Y : Int) % 400 = 0
    · -- a Gregorian leap year that `leapCalc` rejects: the year 4000, January or February
      have hY4 : Y = 4000 := by omega
      have hM : M = 1 ∨ M = 2 := by omega
      clear hs
      rcases hM with rfl | rfl <;>
        simp only [Nat.reduceLT, if_true, if_false, Nat.cast_ofNat] <;> omega
    · rw [if_neg hg] at hs
      rcases hm with rfl | rfl | rfl | rfl | rfl | rfl | rfl | rfl | rfl | rfl | rfl | rfl <;>
        simp only [Nat.reduceLT, if_true, if_false, Nat.cast_ofNat] <;> omega

end WeekdayCount

end Friday13

namespace Friday13

/-! ## The weekday and the forward search on the whole range of `TDATE` -/

section WholeRange

/-- The last step of `weekDay` gives 5 exactly when the sum of Zeller's
congruence is 6 modulo 7, whatever its sign. -/
theorem tmod_friday (a : Int) : Int.tmod (Int.tmod a 7 + 6) 7 = 5 ↔ a % 7 = 6 := by
  rcases le_or_lt 0 a with h | h
  · rw [Int.tmod_eq_emod h (by decide), Int.tmod_eq_emod (by omega) (by decide)]
    omega
  · have h1 : Int.tmod a 7 = a + 7 * ((-a) / 7) := by
      have h2 : Int.tdiv a 7 = -((-a) / 7) := by
        have h3 := Int.neg_tdiv (-a) 7
        rw [neg_neg] at h3
        rw [h3, Int.tdiv_eq_ediv (by omega) (by decide)]
      rw [Int.tmod_def, h2]
      ring
    rw [h1, Int.tmod_eq_emod (by omega) (by decide)]
    omega

/-- Every year has a 13th between March and December on which `weekDay`
returns 5, also when the year does not fit the `int` of `weekDay`. -/
theorem friday_in_year_all (Y : Nat) : ∃ M, 3 ≤ M ∧ M ≤ 12 ∧ weekDay ⟨Y, M, 13⟩ = 5 := by
  have hC : ∃ x : Int, x = Int.tmod (wrap32 (Y : Int)) 100
      + Int.tdiv (Int.tmod (wrap32 (Y : Int)) 100) 4
      + Int.tdiv (Int.tdiv (wrap32 (Y : Int)) 100) 4
      + 5 * Int.tdiv (wrap32 (Y : Int)) 100 := ⟨_, rfl⟩
  obtain ⟨x, hx⟩ := hC
  have key : ∀ M : Nat, 3 ≤ M → M ≤ 12 →
      (((13 : Int) + (13 * ((M : Int) + 1)) / 5 + x) % 7 = 6) → weekDay ⟨Y, M, 13⟩ = 5 := by
    intro M h3 h12 hh
    unfold weekDay
    simp only []
    rw [if_neg (by omega), if_neg (by omega),
      Int.tdiv_eq_ediv (show (0 : Int) ≤ 13 * ((M : Int) + 1) by omega) (by decide)]
    rw [tmod_friday]
    rw [hx] at hh
    push_cast
    omega
  have hcases : x % 7 = 0 ∨ x % 7 = 1 ∨ x % 7 = 2 ∨ x % 7 = 3 ∨ x % 7 = 4 ∨ x % 7 = 5
      ∨ x % 7 = 6 := by omega
  rcases hcases with h | h | h | h | h | h | h
  · exact ⟨10, by omega, by omega, key 10 (by omega) (by omega) (by norm_num; omega)⟩
  · exact ⟨4, by omega, by omega, key 4 (by omega) (by omega) (by norm_num; omega)⟩
  · exact ⟨9, by omega, by omega, key 9 (by omega) (by omega) (by norm_num; omega)⟩
  · exact ⟨6, by omega, by omega, key 6 (by omega) (by omega) (by norm_num; omega)⟩
  · exact ⟨3, by omega, by omega, key 3 (by omega) (by omega) (by norm_num; omega)⟩
  · exact ⟨8, by omega, by omega, key 8 (by omega) (by omega) (by norm_num; omega)⟩
  · exact ⟨5, by omega, by omega, key 5 (by omega) (by omega) (by norm_num; omega)⟩

theorem to_unsigned_wrap32 (n : Nat) (h : n < 4294967296) :
    to_unsigned (wrap32 (n : Int)) = n := by
  unfold to_unsigned wrap32
  omega

theorem wrap32_succ (x : Int) : wrap32 (wrap32 x + 1) = wrap32 (x + 1) := by
  unfold wrap32
  omega

/-- The state of the forward search in month `t` against the candidate it
tests, the year held in an `int`. -/
theorem loop_cand_wrap (t : Nat) (h : t / 12 < 4294967296) :
    makeDate (to_unsigned (wrap32 ((t / 12 : Nat) : Int)))
        (to_ushort ((t % 12 + 1 : Nat) : Int)) 13
      = month_cand t := by
  rw [to_unsigned_wrap32 _ h, to_ushort_eq _ (by omega)]
  rfl

end WholeRange

end Friday13

namespace Friday13

/-! ## The search loops -/

section Search

theorem month_cand_index (d : TDATE) (h1 : 1 ≤ d.m_Month) (h2 : d.m_Month ≤ 12)
    (h3 : d.m_Day = 13) : month_cand (month_index d.m_Year d.m_Month) = d := by
  obtain ⟨y, m, dd⟩ := d
  simp only [] at h1 h2 h3
  unfold month_cand month_index
  rw [TDATE.mk.injEq]
  dsimp only
  refine ⟨by omega, by omega, h3.symm⟩

theorem month_cand_legit (t : Nat) (h : 22800 ≤ t) : legitDate (month_cand t) = true := by
  rw [legitDate_iff]
  unfold month_cand
  simp only []
  have := monthDays_bounds ((t / 12 : Nat) : Int) (t % 12 + 1) (by omega) (by omega)
  refine ⟨by omega, by omega, by omega, by omega, ?_⟩
  push_cast at this ⊢
  omega

theorem month_cand_before (s t : Nat) : date_before (month_cand s) (month_cand t) ↔ s < t := by
  unfold date_before month_cand
  simp only []
  omega

/-- The state of a search loop in month `t` against the candidate it tests. -/
theorem loop_cand (t : Nat) (h : t / 12 < 4294967296) :
    makeDate (to_unsigned ((t / 12 : Nat) : Int)) (to_ushort ((t % 12 + 1 : Nat) : Int)) 13
      = month_cand t := by
  rw [to_unsigned_eq _ h, to_ushort_eq _ (by omega)]
  rfl

/-- The loop of `nextFriday13`, started in month `t`, returns the candidate
of the first month from `t` on that passes the test, if the years up to
there fit the `unsigned` field of `TDATE`. -/
theorem next_loop_spec (date : TDATE) (n fuel t : Nat) (hf : n < fuel)
    (hy : (t + n) / 12 < 4294967296)
    (hrej : ∀ i, i < n → accept_next date (month_cand (t + i)) = false)
    (hacc : accept_next date (month_cand (t + n)) = true) :
    next_loop date fuel (wrap32 ((t / 12 : Nat) : Int)) ((t % 12 + 1 : Nat) : Int)
      = some (true, month_cand (t + n)) := by
  induction n generalizing fuel t with
  | zero =>
    obtain ⟨f, rfl⟩ : ∃ f, fuel = f + 1 := ⟨fuel - 1, by omega⟩
    rw [Nat.add_zero] at hy hacc
    rw [next_loop]
    simp only []
    rw [loop_cand_wrap t hy]
    rw [if_pos hacc]
    rfl
  | succ n ih =>
    obtain ⟨f, rfl⟩ : ∃ f, fuel = f + 1 := ⟨fuel - 1, by omega⟩
    have hty : (t + 1) / 12 ≤ (t + (n + 1)) / 12 := Nat.div_le_div_right (by omega)
    have ht0 : t / 12 ≤ (t + 1) / 12 := Nat.div_le_div_right (by omega)
    rw [next_loop]
    simp only []
    rw [loop_cand_wrap t (by omega)]
    have hr0 := hrej 0 (by omega)
    rw [Nat.add_zero] at hr0
    rw [if_neg (by rw [hr0]; decide)]
    have hstate : (if ((t % 12 + 1 : Nat) : Int) + 1 > 12
          then wrap32 (wrap32 ((t / 12 : Nat) : Int) + 1)
          else wrap32 ((t / 12 : Nat) : Int)) = wrap32 (((t + 1) / 12 : Nat) : Int) ∧
        (if ((t % 12 + 1 : Nat) : Int) + 1 > 12 then (1 : Int)
          else ((t % 12 + 1 : Nat) : Int) + 1) = (((t + 1) % 12 + 1 : Nat) : Int) := by
      by_cases hm : t % 12 = 11
      · have e1 : (t + 1) / 12 = t / 12 + 1 := by omega
        have e2 : (t + 1) % 12 = 0 := by omega
        rw [if_pos (by omega), if_pos (by omega), e1, e2, wrap32_succ]
        exact ⟨by push_cast; rfl, by norm_num⟩
      · have e1 : (t + 1) / 12 = t / 12 := by omega
        have e2 : (t + 1) % 12 = t % 12 + 1 := by omega
        rw [if_neg (by omega), if_neg (by omega), e1, e2]
        exact ⟨rfl, by push_cast; ring⟩
    rw [hstate.1, hstate.2]
    have e3 : t + (n + 1) = t + 1 + n := by omega
    rw [e3] at hy hacc ⊢
    apply ih f (t + 1) (by omega) hy
    · intro i hi
      have := hrej (i + 1) (by omega)
      rw [show t + (i + 1) = t + 1 + i by omega] at this
      exact this
    · exact hacc

theorem isFriday13_iff (d : TDATE) :
    isFriday13 d = true ↔ legitDate d = true ∧ d.m_Day = 13 ∧ weekDay d = 5 := by
  unfold isFriday13
  simp only [Bool.and_eq_true, decide_eq_true_eq, and_assoc]

theorem accept_next_iff (date c : TDATE) :
    accept_next date c = true ↔
      legitDate c = true ∧ dayCountFrom1900 date < dayCountFrom1900 c ∧ isFriday13 c = true := by
  unfold accept_next
  simp only [Bool.and_eq_true, decide_eq_true_eq, and_assoc, gt_iff_lt]

theorem accept_prev_iff (date c : TDATE) :
    accept_prev date c = true ↔
      legitDate c = true ∧ dayCountFrom1900 c < dayCountFrom1900 date ∧ isFriday13 c = true := by
  unfold accept_prev
  simp only [Bool.and_eq_true, decide_eq_true_eq, and_assoc]

/-- A date that `isFriday13` accepts is the candidate of its month. -/
theorem friday_month_cand (d : TDATE) (h : isFriday13 d = true) :
    month_cand (month_index d.m_Year d.m_Month) = d ∧
    22800 ≤ month_index d.m_Year d.m_Month := by
  obtain ⟨hl, h13, -⟩ := (isFriday13_iff d).1 h
  obtain ⟨h1, h2, h3, -, -⟩ := (legitDate_iff d).1 hl
  refine ⟨month_cand_index d h2 h3 h13, ?_⟩
  unfold month_index
  omega

/-- After a legit date before 4294967295-05-13 there is, within 23 months
counted from January of its year and within the range of `TDATE`, a month
whose 13th passes the test of the forward search. -/
theorem next_candidate (date : TDATE) (hl : legitDate date = true)
    (hb : date_before date ⟨4294967295, 5, 13⟩) :
    ∃ n, n + (date.m_Month - 1) ≤ 23 ∧
      (month_index date.m_Year date.m_Month + n) / 12 < 4294967296 ∧
      accept_next date (month_cand (month_index date.m_Year date.m_Month + n)) = true := by
  obtain ⟨h1, h2, h3, h4, h5⟩ := (legitDate_iff date).1 hl
  by_cases hyr : date.m_Year < 4294967295
  · obtain ⟨M, hM3, hM12, hw⟩ := friday_in_year_all (date.m_Year + 1)
    have hc : month_cand (month_index date.m_Year date.m_Month
        + (12 + (M - 1) - (date.m_Month - 1))) = ⟨date.m_Year + 1, M, 13⟩ := by
      unfold month_cand month_index
      rw [TDATE.mk.injEq]
      refine ⟨by omega, by omega, rfl⟩
    have hlc : legitDate ⟨date.m_Year + 1, M, 13⟩ = true := by
      rw [← hc]
      apply month_cand_legit
      unfold month_index
      omega
    refine ⟨12 + (M - 1) - (date.m_Month - 1), by omega, by unfold month_index; omega, ?_⟩
    rw [hc, accept_next_iff]
    refine ⟨hlc, ?_, (isFriday13_iff _).2 ⟨hlc, rfl, hw⟩⟩
    apply dayCount_lt_of_before date _ hl hlc
    unfold date_before
    left
    simp only []
    omega
  · have hyeq : date.m_Year = 4294967295 := by
      unfold date_before at hb
      simp only [] at hb
      omega
    have hm : date.m_Month ≤ 5 := by
      unfold date_before at hb
      simp only [] at hb
      omega
    have hc : month_cand (month_index date.m_Year date.m_Month + (5 - date.m_Month))
        = ⟨4294967295, 5, 13⟩ := by
      unfold month_cand month_index
      rw [TDATE.mk.injEq]
      refine ⟨by omega, by omega, rfl⟩
    have hlc : legitDate ⟨4294967295, 5, 13⟩ = true := by decide
    refine ⟨5 - date.m_Month, by omega, by unfold month_index; omega, ?_⟩
    rw [hc, accept_next_iff]
    exact ⟨hlc, dayCount_lt_of_before date _ hl hlc hb, by decide⟩

/-- From a legit date before 4294967295-05-13 the forward search meets a
month that passes the test within 23 months. -/
theorem next_search (date : TDATE) (hl : legitDate date = true)
    (hb : date_before date ⟨4294967295, 5, 13⟩) :
    ∃ n, n + (date.m_Month - 1) ≤ 23 ∧
      (month_index date.m_Year date.m_Month + n) / 12 < 4294967296 ∧
      accept_next date (month_cand (month_index date.m_Year date.m_Month + n)) = true ∧
      ∀ i, i < n →
        accept_next date (month_cand (month_index date.m_Year date.m_Month + i)) = false := by
  obtain ⟨n0, hn0, hy0, hacc0⟩ := next_candidate date hl hb
  have hex : ∃ n, accept_next date
      (month_cand (month_index date.m_Year date.m_Month + n)) = true := ⟨n0, hacc0⟩
  have hle : Nat.find hex ≤ n0 := Nat.find_min' hex hacc0
  refine ⟨Nat.find hex, by omega, ?_, Nat.find_spec hex, ?_⟩
  · have : (month_index date.m_Year date.m_Month + Nat.find hex) / 12
        ≤ (month_index date.m_Year date.m_Month + n0) / 12 :=
      Nat.div_le_div_right (by omega)
    omega
  · intro i hi
    have := Nat.find_min hex hi
    simpa using this

/-- What `nextFriday13` returns on a legit date before 4294967295-05-13. -/
theorem nextFriday13_spec (date : TDATE) (hl : legitDate date = true)
    (hb : date_before date ⟨4294967295, 5, 13⟩) :
    ∃ r : TDATE, (∀ fuel, 24 ≤ fuel → nextFriday13 fuel date = some (true, r)) ∧
      isFriday13 r = true ∧ dayCountFrom1900 date < dayCountFrom1900 r ∧
      ∀ d, isFriday13 d = true → dayCountFrom1900 date < dayCountFrom1900 d →
        dayCountFrom1900 r ≤ dayCountFrom1900 d := by
  obtain ⟨h1, h2, h3, h4, h5⟩ := (legitDate_iff date).1 hl
  obtain ⟨n, hn, hyn, hacc, hrej⟩ := next_search date hl hb
  have hacc2 := (accept_next_iff _ _).1 hacc
  have ht0 : month_index date.m_Year date.m_Month / 12 = date.m_Year ∧
      month_index date.m_Year date.m_Month % 12 + 1 = date.m_Month := by
    unfold month_index; omega
  refine ⟨month_cand (month_index date.m_Year date.m_Month + n), ?_, hacc2.2.2, hacc2.2.1, ?_⟩
  · intro fuel hfuel
    unfold nextFriday13
    rw [hl]
    simp only [Bool.not_true, Bool.false_eq_true, if_false]
    have := next_loop_spec date n fuel (month_index date.m_Year date.m_Month) (by omega)
      hyn hrej hacc
    rw [ht0.1, ht0.2] at this
    exact this
  · intro d hd hafter
    by_contra hcon
    have hlt : dayCountFrom1900 d < dayCountFrom1900
        (month_cand (month_index date.m_Year date.m_Month + n)) := by omega
    obtain ⟨hdc, hdt⟩ := friday_month_cand d hd
    have hdl := ((isFriday13_iff d).1 hd).1
    have hb1 := (dayCount_lt_iff _ _ hdl hacc2.1).1 hlt
    rw [← hdc, month_cand_before] at hb1
    have hb2 := (dayCount_lt_iff _ _ hl hdl).1 hafter
    have hge : month_index date.m_Year date.m_Month ≤ month_index d.m_Year d.m_Month := by
      obtain ⟨g1, g2, g3, g4, g5⟩ := (legitDate_iff d).1 hdl
      unfold date_before at hb2
      unfold month_index
      have h13 := ((isFriday13_iff d).1 hd).2.1
      omega
    have hrej2 := hrej (month_index d.m_Year d.m_Month - month_index date.m_Year date.m_Month)
      (by omega)
    rw [show month_index date.m_Year date.m_Month
      + (month_index d.m_Year d.m_Month - month_index date.m_Year date.m_Month)
      = month_index d.m_Year d.m_Month by omega, hdc] at hrej2
    have : accept_next date d = true := (accept_next_iff _ _).2 ⟨hdl, hafter, hd⟩
    rw [this] at hrej2
    exact absurd hrej2 (by decide)

/-- In the range of `TDATE` no date that `isFriday13` accepts comes after
4294967295-05-13. -/
theorem last_friday13 (d : TDATE) (hy : d.m_Year ≤ UINT_MAX) (hd : isFriday13 d = true) :
    ¬ date_before ⟨4294967295, 5, 13⟩ d := by
  intro hb
  obtain ⟨hl, h13, hw⟩ := (isFriday13_iff d).1 hd
  obtain ⟨g1, g2, g3, g4, g5⟩ := (legitDate_iff d).1 hl
  obtain ⟨y, m, dd⟩ := d
  simp only [] at hy h13 hw g2 g3 hb
  unfold UINT_MAX at hy
  unfold date_before at hb
  simp only [] at hb
  subst h13
  have hyeq : y = 4294967295 := by omega
  subst hyeq
  have hm : 6 ≤ m := by omega
  interval_cases m <;> exact absurd hw (by decide)

theorem to_unsigned_le (x : Int) : to_unsigned x ≤ UINT_MAX := by
  unfold to_unsigned UINT_MAX; omega

/-- No legit date that a `TDATE` can hold comes after 4294967295-12-31. -/
theorem last_date_max (d : TDATE) (hy : d.m_Year ≤ UINT_MAX) (hl : legitDate d = true) :
    dayCountFrom1900 d ≤ dayCountFrom1900 ⟨4294967295, 12, 31⟩ := by
  have hlast : legitDate ⟨4294967295, 12, 31⟩ = true := by decide
  by_contra hcon
  have hb := (dayCount_lt_iff _ _ hlast hl).1 (by omega)
  obtain ⟨h1, h2, h3, h4, h5⟩ := (legitDate_iff d).1 hl
  have := monthDays_bounds d.m_Year d.m_Month h2 h3
  unfold date_before at hb
  unfold UINT_MAX at hy
  simp only [] at hb
  omega

/-- Started on 4294967295-12-31, the loop of `nextFriday13` never returns. -/
theorem next_loop_last (fuel : Nat) (y m : Int) :
    next_loop ⟨4294967295, 12, 31⟩ fuel y m = none := by
  induction fuel generalizing y m with
  | zero => rfl
  | succ f ih =>
    rw [next_loop]
    simp only []
    have hrej : accept_next ⟨4294967295, 12, 31⟩ (makeDate (to_unsigned y) (to_ushort m) 13)
        = false := by
      rw [Bool.eq_false_iff]
      intro hacc
      obtain ⟨hl, hlt, -⟩ := (accept_next_iff _ _).1 hacc
      have := last_date_max _ (to_unsigned_le y) hl
      omega
    rw [hrej]
    simp only [Bool.false_eq_true, if_false]
    exact ih _ _

/-- One step back of the loop of `prevFriday13` from month `t` after
January 1900: it goes on in month `t - 1`. -/
theorem prev_state (t : Nat) (h : 22801 ≤ t) (hy : t / 12 ≤ 2147483647) :
    (if ((t % 12 + 1 : Nat) : Int) - 1 < 1 then wrap32 (((t / 12 : Nat) : Int) - 1)
      else ((t / 12 : Nat) : Int)) = (((t - 1) / 12 : Nat) : Int) ∧
    (if ((t % 12 + 1 : Nat) : Int) - 1 < 1 then (12 : Int)
      else ((t % 12 + 1 : Nat) : Int) - 1) = (((t - 1) % 12 + 1 : Nat) : Int) ∧
    ¬ ((((t - 1) / 12 : Nat) : Int) < BASE_YEAR) := by
  unfold BASE_YEAR
  by_cases hm : t % 12 = 0
  · have e1 : (t - 1) / 12 = t / 12 - 1 := by omega
    have e2 : (t - 1) % 12 = 11 := by omega
    rw [if_pos (by omega), if_pos (by omega), e1, e2, wrap32_eq_self _ (by omega) (by omega)]
    refine ⟨by omega, by norm_num, by omega⟩
  · have e1 : (t - 1) / 12 = t / 12 := by omega
    have e2 : (t - 1) % 12 + 1 = t % 12 := by omega
    rw [if_neg (by omega), if_neg (by omega), e1, e2]
    refine ⟨rfl, by omega, by omega⟩

/-- The loop of `prevFriday13`, started in month `t`, returns the candidate
of the first month from `t` back that passes the test. -/
theorem prev_loop_found (date : TDATE) (n fuel t : Nat) (hf : n < fuel)
    (ht : 22800 + n ≤ t) (hy : t / 12 ≤ 2147483647)
    (hrej : ∀ i, i < n → accept_prev date (month_cand (t - i)) = false)
    (hacc : accept_prev date (month_cand (t - n)) = true) :
    prev_loop date fuel ((t / 12 : Nat) : Int) ((t % 12 + 1 : Nat) : Int)
      = some (true, month_cand (t - n)) := by
  induction n generalizing fuel t with
  | zero =>
    obtain ⟨f, rfl⟩ : ∃ f, fuel = f + 1 := ⟨fuel - 1, by omega⟩
    rw [Nat.sub_zero] at hacc
    rw [prev_loop]
    simp only []
    rw [loop_cand t (by omega)]
    rw [if_pos hacc]
    rfl
  | succ n ih =>
    obtain ⟨f, rfl⟩ : ∃ f, fuel = f + 1 := ⟨fuel - 1, by omega⟩
    rw [prev_loop]
    simp only []
    rw [loop_cand t (by omega)]
    have hr0 := hrej 0 (by omega)
    rw [Nat.sub_zero] at hr0
    rw [if_neg (by rw [hr0]; decide)]
    obtain ⟨s1, s2, s3⟩ := prev_state t (by omega) hy
    rw [s1, s2, if_neg s3]
    have e3 : t - (n + 1) = t - 1 - n := by omega
    rw [e3] at hacc ⊢
    apply ih f (t - 1) (by omega) (by omega)
      (le_trans (Nat.div_le_div_right (Nat.sub_le t 1)) hy)
    · intro i hi
      have := hrej (i + 1) (by omega)
      rw [show t - (i + 1) = t - 1 - i by omega] at this
      exact this
    · exact hacc

/-- The loop of `prevFriday13`, started in month `t`, returns false and
leaves the date when no month from `t` back to January 1900 passes the
test. -/
theorem prev_loop_none (date : TDATE) (k fuel t : Nat) (hf : k < fuel)
    (ht : t = 22800 + k) (hy : t / 12 ≤ 2147483647)
    (hrej : ∀ i, i ≤ k → accept_prev date (month_cand (t - i)) = false) :
    prev_loop date fuel ((t / 12 : Nat) : Int) ((t % 12 + 1 : Nat) : Int)
      = some (false, date) := by
  induction k generalizing fuel t with
  | zero =>
    obtain ⟨f, rfl⟩ : ∃ f, fuel = f + 1 := ⟨fuel - 1, by omega⟩
    subst ht
    rw [prev_loop]
    simp only []
    rw [loop_cand _ (by omega)]
    have hr0 := hrej 0 (le_refl _)
    rw [Nat.sub_zero] at hr0
    rw [if_neg (by rw [hr0]; decide)]
    rfl
  | succ k ih =>
    obtain ⟨f, rfl⟩ : ∃ f, fuel = f + 1 := ⟨fuel - 1, by omega⟩
    rw [prev_loop]
    simp only []
    rw [loop_cand t (by omega)]
    have hr0 := hrej 0 (by omega)
    rw [Nat.sub_zero] at hr0
    rw [if_neg (by rw [hr0]; decide)]
    obtain ⟨s1, s2, s3⟩ := prev_state t (by omega) hy
    rw [s1, s2, if_neg s3]
    apply ih f (t - 1) (by omega) (by omega)
      (le_trans (Nat.div_le_div_right (Nat.sub_le t 1)) hy)
    intro i hi
    have := hrej (i + 1) (by omega)
    rw [show t - (i + 1) = t - 1 - i by omega] at this
    exact this

/-- A date accepted by `isFriday13` that lies before a legit date is the
candidate of a month between January 1900 and the month of that date. -/
theorem friday_before_index (date d : TDATE) (hl : legitDate date = true)
    (hd : isFriday13 d = true) (hb : dayCountFrom1900 d < dayCountFrom1900 date) :
    month_index d.m_Year d.m_Month ≤ month_index date.m_Year date.m_Month := by
  have hdl := ((isFriday13_iff d).1 hd).1
  have hb2 := (dayCount_lt_iff _ _ hdl hl).1 hb
  obtain ⟨g1, g2, g3, g4, g5⟩ := (legitDate_iff d).1 hdl
  obtain ⟨h1, h2, h3, h4, h5⟩ := (legitDate_iff date).1 hl
  unfold date_before at hb2
  unfold month_index
  omega

/-- What `prevFriday13` returns on a legit date whose year fits an `int`. -/
theorem prevFriday13_spec (date : TDATE) (hl : legitDate date = true)
    (hy : (date.m_Year : Int) ≤ INT_MAX) :
    ∃ r : Bool × TDATE,
      (∀ fuel, 12 * (date.m_Year - 1900) + 12 ≤ fuel → prevFriday13 fuel date = some r) ∧
      ((∃ d, isFriday13 d = true ∧ dayCountFrom1900 d < dayCountFrom1900 date) →
        r.1 = true ∧ isFriday13 r.2 = true ∧
        dayCountFrom1900 r.2 < dayCountFrom1900 date ∧
        ∀ d, isFriday13 d = true → dayCountFrom1900 d < dayCountFrom1900 date →
          dayCountFrom1900 d ≤ dayCountFrom1900 r.2) ∧
      ((¬ ∃ d, isFriday13 d = true ∧ dayCountFrom1900 d < dayCountFrom1900 date) →
        r = (false, date)) := by
  obtain ⟨h1, h2, h3, h4, h5⟩ := (legitDate_iff date).1 hl
  unfold INT_MAX at hy
  have ht0 : month_index date.m_Year date.m_Month / 12 = date.m_Year ∧
      month_index date.m_Year date.m_Month % 12 + 1 = date.m_Month ∧
      22800 ≤ month_index date.m_Year date.m_Month ∧
      month_index date.m_Year date.m_Month - 22800 < 12 * (date.m_Year - 1900) + 12 := by
    unfold month_index; omega
  obtain ⟨t1, t2, t3, t4⟩ := ht0
  have hrun : ∀ fuel, prevFriday13 fuel date
      = prev_loop date fuel ((month_index date.m_Year date.m_Month / 12 : Nat) : Int)
          ((month_index date.m_Year date.m_Month % 12 + 1 : Nat) : Int) := by
    intro fuel
    unfold prevFriday13
    rw [hl, t1, t2]
    simp only [Bool.not_true, Bool.false_eq_true, if_false]
    rw [wrap32_eq_self _ (by omega) (by omega)]
  by_cases hex : ∃ n, n ≤ month_index date.m_Year date.m_Month - 22800 ∧
      accept_prev date (month_cand (month_index date.m_Year date.m_Month - n)) = true
  · -- some month back to January 1900 passes the test
    have hn := Nat.find_spec hex
    have hmin := fun i (hi : i < Nat.find hex) => Nat.find_min hex hi
    generalize Nat.find hex = n at hn hmin
    obtain ⟨hn1, hacc⟩ := hn
    have hacc2 := (accept_prev_iff _ _).1 hacc
    refine ⟨(true, month_cand (month_index date.m_Year date.m_Month - n)), ?_, ?_, ?_⟩
    · intro fuel hfuel
      rw [hrun]
      apply prev_loop_found date n fuel _ (by omega) (by omega) (by omega) _ hacc
      intro i hi
      have := hmin i hi
      rw [Bool.eq_false_iff]
      intro hh
      exact this ⟨by omega, hh⟩
    · intro _
      refine ⟨rfl, hacc2.2.2, hacc2.2.1, ?_⟩
      intro d hd hbefore
      by_contra hcon
      simp only [] at hcon
      obtain ⟨hdc, hdt⟩ := friday_month_cand d hd
      have hdl := ((isFriday13_iff d).1 hd).1
      have hle := friday_before_index date d hl hd hbefore
      have hb1 := (dayCount_lt_iff _ _ hacc2.1 hdl).1 (by omega)
      rw [← hdc, month_cand_before] at hb1
      apply hmin (month_index date.m_Year date.m_Month - month_index d.m_Year d.m_Month)
        (by omega)
      refine ⟨by omega, ?_⟩
      rw [show month_index date.m_Year date.m_Month
        - (month_index date.m_Year date.m_Month - month_index d.m_Year d.m_Month)
        = month_index d.m_Year d.m_Month by omega, hdc]
      exact (accept_prev_iff _ _).2 ⟨hdl, hbefore, hd⟩
    · intro hno
      exact absurd ⟨_, hacc2.2.2, hacc2.2.1⟩ hno
  · -- no month back to January 1900 passes the test
    have hrej : ∀ i, i ≤ month_index date.m_Year date.m_Month - 22800 →
        accept_prev date (month_cand (month_index date.m_Year date.m_Month - i)) = false := by
      intro i hi
      rw [Bool.eq_false_iff]
      intro hh
      exact hex ⟨i, hi, hh⟩
    have hnone : ¬ ∃ d, isFriday13 d = true ∧ dayCountFrom1900 d < dayCountFrom1900 date := by
      rintro ⟨d, hd, hbefore⟩
      obtain ⟨hdc, hdt⟩ := friday_month_cand d hd
      have hdl := ((isFriday13_iff d).1 hd).1
      have hle := friday_before_index date d hl hd hbefore
      have := hrej (month_index date.m_Year date.m_Month - month_index d.m_Year d.m_Month)
        (by omega)
      rw [show month_index date.m_Year date.m_Month
        - (month_index date.m_Year date.m_Month - month_index d.m_Year d.m_Month)
        = month_index d.m_Year d.m_Month by omega, hdc,
        (accept_prev_iff _ _).2 ⟨hdl, hbefore, hd⟩] at this
      exact absurd this (by decide)
    refine ⟨(false, date), ?_, fun h => absurd h hnone, fun _ => rfl⟩
    intro fuel hfuel
    rw [hrun]
    exact prev_loop_none date (month_index date.m_Year date.m_Month - 22800) fuel _ (by omega)
      (by omega) (by omega) hrej

/-! ## The backward search against the calendar -/

theorem date_before_trans_le (d date : TDATE) (h1 : date_before d date)
    (h2 : ¬ date_before ⟨4000, 3, 1⟩ date) : date_before d ⟨4000, 3, 1⟩ := by
  unfold date_before at h1 h2 ⊢
  simp only [] at h1 h2 ⊢
  omega

/-- Before 4000-03-01 the dates that `isFriday13` accepts are the Friday 13ths
of the calendar. -/
theorem isFriday13_iff_calendar (d : TDATE) (hb : date_before d ⟨4000, 3, 1⟩) :
    isFriday13 d = true ↔ calendar_friday13 d := by
  rw [isFriday13_iff]
  unfold calendar_friday13
  constructor
  · rintro ⟨hl, h13, hw⟩
    exact ⟨hl, h13, by rw [← weekDay_eq_dayCount d hl hb]; exact hw⟩
  · rintro ⟨hl, h13, hw⟩
    exact ⟨hl, h13, by rw [weekDay_eq_dayCount d hl hb]; exact hw⟩

theorem prev_loop_step (date : TDATE) (fuel : Nat) (y m y1 m1 : Int)
    (hrej : accept_prev date (makeDate (to_unsigned y) (to_ushort m) 13) = false)
    (hy1 : (if m - 1 < 1 then wrap32 (y - 1) else y) = y1)
    (hm1 : (if m - 1 < 1 then 12 else m - 1) = m1) (hbase : ¬ y1 < BASE_YEAR) :
    prev_loop date (fuel + 1) y m = prev_loop date fuel y1 m1 := by
  rw [prev_loop]
  simp only []
  rw [hrej, hy1, hm1, if_neg (by decide), if_neg hbase]

theorem prev_loop_accept (date : TDATE) (fuel : Nat) (y m : Int)
    (hacc : accept_prev date (makeDate (to_unsigned y) (to_ushort m) 13) = true) :
    prev_loop date (fuel + 1) y m
      = some (true, makeDate (to_unsigned y) (to_ushort m) 13) := by
  rw [prev_loop]
  simp only []
  rw [if_pos hacc]

/-- On 4001-01-01 `prevFriday13` returns 4000-10-13, the latest 13th before it
on which `weekDay` returns 5. -/
theorem prevFriday13_4001 (fuel : Nat) (hf : 4 ≤ fuel) :
    prevFriday13 fuel ⟨4001, 1, 1⟩ = some (true, ⟨4000, 10, 13⟩) := by
  obtain ⟨f, rfl⟩ : ∃ f, fuel = f + 1 + 1 + 1 + 1 := ⟨fuel - 4, by omega⟩
  have hl : legitDate ⟨4001, 1, 1⟩ = true := by decide
  unfold prevFriday13
  rw [hl]
  simp only [Bool.not_true, Bool.false_eq_true, if_false]
  have hw : wrap32 ((4001 : Nat) : Int) = 4001 := by decide
  rw [hw]
  have r1 : accept_prev ⟨4001, 1, 1⟩ (makeDate (to_unsigned 4001) (to_ushort ((1 : Nat) : Int)) 13)
      = false := by
    rw [Bool.eq_false_iff]
    intro hacc
    obtain ⟨hlc, hlt, -⟩ := (accept_prev_iff _ _).1 hacc
    have := (dayCount_lt_iff _ _ hlc hl).1 hlt
    exact absurd this (by decide)
  have r2 : accept_prev ⟨4001, 1, 1⟩ (makeDate (to_unsigned 4000) (to_ushort 12) 13)
      = false := by
    rw [Bool.eq_false_iff]
    intro hacc
    exact absurd ((accept_prev_iff _ _).1 hacc).2.2 (by decide)
  have r3 : accept_prev ⟨4001, 1, 1⟩ (makeDate (to_unsigned 4000) (to_ushort 11) 13)
      = false := by
    rw [Bool.eq_false_iff]
    intro hacc
    exact absurd ((accept_prev_iff _ _).1 hacc).2.2 (by decide)
  have r4 : accept_prev ⟨4001, 1, 1⟩ (makeDate (to_unsigned 4000) (to_ushort 10) 13)
      = true := by
    rw [accept_prev_iff]
    have hlc : legitDate (makeDate (to_unsigned 4000) (to_ushort 10) 13) = true := by decide
    exact ⟨hlc, dayCount_lt_of_before _ _ hlc hl (by decide), by decide⟩
  rw [prev_loop_step _ _ 4001 ((1 : Nat) : Int) 4000 12 r1 (by decide) (by decide) (by decide),
    prev_loop_step _ _ 4000 12 4000 11 r2 (by decide) (by decide) (by decide),
    prev_loop_step _ _ 4000 11 4000 10 r3 (by decide) (by decide) (by decide),
    prev_loop_accept _ _ 4000 10 r4]
  rfl

/-- Up to 4000-03-01 `prevFriday13` finds the nearest preceding Friday 13th
of the calendar, or returns false and leaves the date. -/
theorem prevFriday13_calendar (date : TDATE) (hr : ¬ date_before ⟨4000, 3, 1⟩ date) :
    ∃ r : Bool × TDATE,
      (∀ fuel, 12 * (date.m_Year - 1900) + 12 ≤ fuel → prevFriday13 fuel date = some r) ∧
      ((legitDate date = true ∧
          ∃ d, calendar_friday13 d ∧ dayCountFrom1900 d < dayCountFrom1900 date) →
        r.1 = true ∧ calendar_friday13 r.2 ∧
        dayCountFrom1900 r.2 < dayCountFrom1900 date ∧
        ∀ d, calendar_friday13 d → dayCountFrom1900 d < dayCountFrom1900 date →
          dayCountFrom1900 d ≤ dayCountFrom1900 r.2) ∧
      ((¬ (legitDate date = true ∧
          ∃ d, calendar_friday13 d ∧ dayCountFrom1900 d < dayCountFrom1900 date)) →
        r = (false, date)) := by
  by_cases hl : legitDate date = true
  · have hy : (date.m_Year : Int) ≤ INT_MAX := by
      unfold INT_MAX
      unfold date_before at hr
      simp only [] at hr
      omega
    have hconv : ∀ d, legitDate d = true → dayCountFrom1900 d < dayCountFrom1900 date →
        (isFriday13 d = true ↔ calendar_friday13 d) := fun d hd hlt =>
      isFriday13_iff_calendar d
        (date_before_trans_le d date ((dayCount_lt_iff d date hd hl).1 hlt) hr)
    obtain ⟨r, h1, h2, h3⟩ := prevFriday13_spec date hl hy
    refine ⟨r, h1, ?_, ?_⟩
    · rintro ⟨-, d, hd, hlt⟩
      obtain ⟨a1, a2, a3, a4⟩ := h2 ⟨d, (hconv d hd.1 hlt).2 hd, hlt⟩
      exact ⟨a1, (hconv r.2 ((isFriday13_iff r.2).1 a2).1 a3).1 a2, a3,
        fun d2 hd2 hlt2 => a4 d2 ((hconv d2 hd2.1 hlt2).2 hd2) hlt2⟩
    · intro hno
      apply h3
      rintro ⟨d, hd, hlt⟩
      exact hno ⟨hl, d, (hconv d ((isFriday13_iff d).1 hd).1 hlt).1 hd, hlt⟩
  · refine ⟨(false, date), ?_, fun h => absurd h.1 hl, fun _ => rfl⟩
    intro fuel _
    unfold prevFriday13
    rw [Bool.not_eq_true] at hl
    rw [hl]
    rfl

end Search

end Friday13

namespace Friday13

/-! ## Counting -/

section Counting

theorem count_step_eq (from_ to_ : TDATE) (res : Int) (y m : Nat) :
    count_step from_ to_ res y m = res + (if counted from_ to_ ⟨y, m, 13⟩ then 1 else 0) := by
  unfold count_step makeDate counted
  simp only []
  by_cases hl : legitDate ⟨y, m, 13⟩ = true
  · rw [hl]
    simp only [Bool.not_true, Bool.false_eq_true, if_false, true_and]
    by_cases hr : dayCountFrom1900 ⟨y, m, 13⟩ < dayCountFrom1900 from_ ∨
        dayCountFrom1900 ⟨y, m, 13⟩ > dayCountFrom1900 to_
    · rw [if_pos hr, if_neg (by omega)]
      simp
    · rw [if_neg hr]
      by_cases hf : isFriday13 ⟨y, m, 13⟩ = true
      · have hw := ((isFriday13_iff _).1 hf).2.2
        rw [if_pos hf, if_pos ⟨hw, by omega, by omega⟩]
      · have hw : ¬ weekDay ⟨y, m, 13⟩ = 5 := fun hw => hf ((isFriday13_iff _).2 ⟨hl, rfl, hw⟩)
        rw [if_neg hf, if_neg (fun hh => hw hh.1)]
        simp
  · rw [Bool.not_eq_true] at hl
    rw [hl]
    simp

theorem foldl_range'_sum (g : Nat → Int) (a k : Nat) (r : Int) :
    (List.range' a k).foldl (fun res m => res + g m) r = r + ∑ m in Finset.Ico a (a + k), g m := by
  induction k generalizing r with
  | zero => simp
  | succ k ih =>
    rw [List.range'_1_concat, List.foldl_append, ih]
    simp only [List.foldl_cons, List.foldl_nil]
    rw [show a + (k + 1) = (a + k) + 1 by omega, Finset.sum_Ico_succ_top (by omega)]
    ring

theorem Ico_clip (a b : Nat) : Finset.Ico a (a + (b + 1 - a)) = Finset.Ico a (b + 1) := by
  ext x
  simp only [Finset.mem_Ico]
  omega

/-- A legit date that is not before `from_` and not after `to_` has its year
between their years, and in the first year a month not before that of
`from_`, in the last year a month not after that of `to_`. -/
theorem between_year_month (from_ to_ d : TDATE) (hf : legitDate from_ = true)
    (ht : legitDate to_ = true) (hd : legitDate d = true)
    (h1 : dayCountFrom1900 from_ ≤ dayCountFrom1900 d)
    (h2 : dayCountFrom1900 d ≤ dayCountFrom1900 to_) :
    from_.m_Year ≤ d.m_Year ∧ d.m_Year ≤ to_.m_Year ∧
    (d.m_Year = from_.m_Year → from_.m_Month ≤ d.m_Month) ∧
    (d.m_Year = to_.m_Year → d.m_Month ≤ to_.m_Month) := by
  have n1 : ¬ date_before d from_ := fun hb => by
    have := dayCount_lt_of_before d from_ hd hf hb
    omega
  have n2 : ¬ date_before to_ d := fun hb => by
    have := dayCount_lt_of_before to_ d ht hd hb
    omega
  unfold date_before at n1 n2
  omega

/-- The months that the inner loop of `countFriday13` skips in the first and
in the last year hold no date that counts. -/
theorem month_clip (from_ to_ : TDATE) (hf : legitDate from_ = true)
    (ht : legitDate to_ = true) (y : Nat) :
    ∑ m in Finset.Ico (if y = from_.m_Year then from_.m_Month else 1)
        ((if y = to_.m_Year then to_.m_Month else 12) + 1),
        (if counted from_ to_ ⟨y, m, 13⟩ then (1 : Int) else 0)
      = ∑ m in Finset.Ico 1 13, (if counted from_ to_ ⟨y, m, 13⟩ then (1 : Int) else 0) := by
  obtain ⟨f1, f2, f3, -, -⟩ := (legitDate_iff from_).1 hf
  obtain ⟨t1, t2, t3, -, -⟩ := (legitDate_iff to_).1 ht
  apply Finset.sum_subset
  · intro m hm
    rw [Finset.mem_Ico] at hm ⊢
    split_ifs at hm <;> omega
  · intro m hm hnot
    rw [Finset.mem_Ico] at hm hnot
    rw [if_neg]
    intro hc
    obtain ⟨hl, -, -, c1, c2⟩ := hc
    obtain ⟨-, -, b3, b4⟩ := between_year_month from_ to_ ⟨y, m, 13⟩ hf ht hl c1 c2
    simp only [] at b3 b4
    split_ifs at hnot <;> omega

/-- The value that `countFriday13` computes when it returns true: the number
of pairs of a year between the two years and a month whose 13th counts. -/
theorem count_eq_sum (from_ to_ : TDATE) (hf : legitDate from_ = true)
    (ht : legitDate to_ = true)
    (hle : ¬ dayCountFrom1900 to_ < dayCountFrom1900 from_) (v : Int) :
    countFriday13 from_ to_ (some v)
      = (true, some (∑ y in Finset.Ico from_.m_Year (to_.m_Year + 1),
          ∑ m in Finset.Ico 1 13, (if counted from_ to_ ⟨y, m, 13⟩ then (1 : Int) else 0))) := by
  unfold countFriday13
  rw [hf, ht, if_neg (by simp), if_neg hle]
  simp only []
  have hinner : (fun (res : Int) (y : Nat) =>
      (List.range' (if y = from_.m_Year then from_.m_Month else 1)
        ((if y = to_.m_Year then to_.m_Month else 12) + 1
          - (if y = from_.m_Year then from_.m_Month else 1))).foldl
        (fun res m => count_step from_ to_ res y m) res)
      = fun (res : Int) (y : Nat) => res +
          ∑ m in Finset.Ico 1 13, (if counted from_ to_ ⟨y, m, 13⟩ then (1 : Int) else 0) := by
    funext res y
    have hstep : (fun res m => count_step from_ to_ res y m)
        = fun (res : Int) (m : Nat) =>
          res + (if counted from_ to_ ⟨y, m, 13⟩ then (1 : Int) else 0) := by
      funext res m
      exact count_step_eq from_ to_ res y m
    rw [hstep, foldl_range'_sum, Ico_clip, month_clip from_ to_ hf ht y]
  rw [hinner, foldl_range'_sum, Ico_clip, zero_add]

/-- The double sum over years and months is the number of dates that
count. -/
theorem sum_eq_card (from_ to_ : TDATE) (hf : legitDate from_ = true)
    (ht : legitDate to_ = true) :
    ∃ S : Finset TDATE, (∀ d, d ∈ S ↔ counted from_ to_ d) ∧
      ∑ y in Finset.Ico from_.m_Year (to_.m_Year + 1),
          ∑ m in Finset.Ico 1 13, (if counted from_ to_ ⟨y, m, 13⟩ then (1 : Int) else 0)
        = (S.card : Int) := by
  refine ⟨((Finset.Ico from_.m_Year (to_.m_Year + 1) ×ˢ Finset.Ico 1 13).filter
      (fun p : Nat × Nat => counted from_ to_ ⟨p.1, p.2, 13⟩)).image
      (fun p : Nat × Nat => (⟨p.1, p.2, 13⟩ : TDATE)), ?_, ?_⟩
  · intro d
    rw [Finset.mem_image]
    constructor
    · rintro ⟨p, hp, rfl⟩
      exact (Finset.mem_filter.1 hp).2
    · intro hc
      obtain ⟨hl, h13, -, c1, c2⟩ := id hc
      obtain ⟨b1, b2, -, -⟩ := between_year_month from_ to_ d hf ht hl c1 c2
      obtain ⟨-, g2, g3, -, -⟩ := (legitDate_iff d).1 hl
      have hd : (⟨d.m_Year, d.m_Month, 13⟩ : TDATE) = d := by
        obtain ⟨y, m, dd⟩ := d
        simp only [] at h13
        rw [h13]
      refine ⟨(d.m_Year, d.m_Month), ?_, hd⟩
      rw [Finset.mem_filter, Finset.mem_product, Finset.mem_Ico, Finset.mem_Ico]
      simp only []
      rw [hd]
      exact ⟨⟨⟨b1, by omega⟩, ⟨g2, by omega⟩⟩, hc⟩
  · rw [Finset.card_image_of_injective, Finset.card_filter, Finset.sum_product]
    · push_cast
      rfl
    · intro p q hpq
      simp only [TDATE.mk.injEq, and_true] at hpq
      exact Prod.ext hpq.1 hpq.2

end Counting

end Friday13

namespace Friday13

/-! ## Claims about the weekday and the Friday 13th searches -/

/-- C35: weekday consistency fails from 4000-03-01 on. On the legit date
4000-03-01 `weekDay` returns 3 while the day count under the calendar of
`leapCalc`, which has no 29 February 4000, gives `(dayCountFrom1900 + 1) mod 7
= 2`; on every legit date before 4000-03-01 the two agree. -/
theorem weekDay_ignores_year_4000 :
    legitDate ⟨4000, 3, 1⟩ = true ∧ weekDay ⟨4000, 3, 1⟩ = 3 ∧
    (dayCountFrom1900 ⟨4000, 3, 1⟩ + 1) % 7 = 2 ∧
    legitDate ⟨4000, 2, 29⟩ = false ∧
    (∀ d : TDATE, legitDate d = true → date_before d ⟨4000, 3, 1⟩ →
      weekDay d = (dayCountFrom1900 d + 1) % 7) := by
  refine ⟨by decide, by decide, ?_, by decide, weekDay_eq_dayCount⟩
  rw [dayCount_eq, year_days_closed 4000 (by decide) (by decide)]
  decide

theorem weekDay_ignores_year_4000_witness :
    legitDate ⟨2024, 9, 13⟩ = true ∧ date_before ⟨2024, 9, 13⟩ ⟨4000, 3, 1⟩ ∧
    weekDay ⟨2024, 9, 13⟩ = (dayCountFrom1900 ⟨2024, 9, 13⟩ + 1) % 7 :=
  ⟨by decide, by decide,
    weekDay_ignores_year_4000.2.2.2.2 ⟨2024, 9, 13⟩ (by decide) (by decide)⟩

/-- C36, as stated, fails: 4294967295-12-31 is a legit date, no legit date
that a `TDATE` can hold lies after it, and the search loop of `nextFriday13`
started on it never returns, whatever the number of iterations allowed. -/
theorem nextFriday13_fails_on_last_date :
    legitDate ⟨4294967295, 12, 31⟩ = true ∧
    (∀ d : TDATE, d.m_Year ≤ UINT_MAX → legitDate d = true →
      dayCountFrom1900 d ≤ dayCountFrom1900 ⟨4294967295, 12, 31⟩) ∧
    (∀ fuel : Nat, nextFriday13 fuel ⟨4294967295, 12, 31⟩ = none) := by
  refine ⟨by decide, last_date_max, fun fuel => ?_⟩
  unfold nextFriday13
  rw [show legitDate ⟨4294967295, 12, 31⟩ = true from by decide]
  exact next_loop_last fuel _ _

/-- C36, amended: for every legit date before 4294967295-05-13, the last date
that `isFriday13` accepts in the range of `TDATE`, the search loop of
`nextFriday13` terminates within 24 iterations, returns true and sets the date
to a 13th that `isFriday13` accepts, that lies strictly after the input date,
and that no other date accepted by `isFriday13` after the input date
precedes. -/
theorem nextFriday13_nearest (date : TDATE) (hl : legitDate date = true)
    (hb : date_before date ⟨4294967295, 5, 13⟩) :
    ∃ r : TDATE, (∀ fuel, 24 ≤ fuel → nextFriday13 fuel date = some (true, r)) ∧
      r.m_Day = 13 ∧ isFriday13 r = true ∧
      dayCountFrom1900 date < dayCountFrom1900 r ∧
      ∀ d, isFriday13 d = true → dayCountFrom1900 date < dayCountFrom1900 d →
        dayCountFrom1900 r ≤ dayCountFrom1900 d := by
  obtain ⟨r, h1, h2, h3, h4⟩ := nextFriday13_spec date hl hb
  exact ⟨r, h1, ((isFriday13_iff r).1 h2).2.1, h2, h3, h4⟩

theorem nextFriday13_nearest_witness :
    isFriday13 ⟨4294967295, 5, 13⟩ = true ∧
    legitDate ⟨1900, 1, 1⟩ = true ∧ date_before ⟨1900, 1, 1⟩ ⟨4294967295, 5, 13⟩ ∧
    nextFriday13 24 ⟨1900, 1, 1⟩ = some (true, ⟨1900, 4, 13⟩) ∧
    (∃ r : TDATE, (∀ fuel, 24 ≤ fuel → nextFriday13 fuel ⟨1900, 1, 1⟩ = some (true, r)) ∧
      r.m_Day = 13 ∧ isFriday13 r = true ∧
      dayCountFrom1900 ⟨1900, 1, 1⟩ < dayCountFrom1900 r ∧
      ∀ d, isFriday13 d = true → dayCountFrom1900 ⟨1900, 1, 1⟩ < dayCountFrom1900 d →
        dayCountFrom1900 r ≤ dayCountFrom1900 d) ∧
    legitDate ⟨2147483648, 6, 1⟩ = true ∧
    date_before ⟨2147483648, 6, 1⟩ ⟨4294967295, 5, 13⟩ ∧
    ∃ r : TDATE,
      (∀ fuel, 24 ≤ fuel → nextFriday13 fuel ⟨2147483648, 6, 1⟩ = some (true, r)) ∧
      r.m_Day = 13 ∧ isFriday13 r = true ∧
      dayCountFrom1900 ⟨2147483648, 6, 1⟩ < dayCountFrom1900 r ∧
      ∀ d, isFriday13 d = true → dayCountFrom1900 ⟨2147483648, 6, 1⟩ < dayCountFrom1900 d →
        dayCountFrom1900 r ≤ dayCountFrom1900 d :=
  ⟨by decide, by decide, by decide, by decide,
    nextFriday13_nearest ⟨1900, 1, 1⟩ (by decide) (by decide),
    by decide, by decide,
    nextFriday13_nearest ⟨2147483648, 6, 1⟩ (by decide) (by decide)⟩

/-- On the legit date 2147483648-06-01 the year does not fit the `int`
variable `y` of `prevFriday13`, which becomes negative, so that `prevFriday13`
returns false after one iteration and leaves the date, although 1900-04-13
lies before the date. -/
theorem prevFriday13_2147483648 :
    legitDate ⟨2147483648, 6, 1⟩ = true ∧
    (∀ fuel : Nat, 1 ≤ fuel →
      prevFriday13 fuel ⟨2147483648, 6, 1⟩ = some (false, ⟨2147483648, 6, 1⟩)) ∧
    isFriday13 ⟨1900, 4, 13⟩ = true ∧
    dayCountFrom1900 ⟨1900, 4, 13⟩ < dayCountFrom1900 ⟨2147483648, 6, 1⟩ := by
  have hl : legitDate ⟨2147483648, 6, 1⟩ = true := by decide
  refine ⟨hl, ?_, by decide,
    dayCount_lt_of_before _ _ (by decide) hl (by decide)⟩
  intro fuel hfuel
  obtain ⟨f, rfl⟩ : ∃ f, fuel = f + 1 := ⟨fuel - 1, by omega⟩
  unfold prevFriday13
  rw [hl]
  simp only [Bool.not_true, Bool.false_eq_true, if_false]
  have hw : wrap32 ((2147483648 : Nat) : Int) = -2147483648 := by decide
  have hc : makeDate (to_unsigned (-2147483648)) (to_ushort ((6 : Nat) : Int)) 13
      = ⟨2147483648, 6, 13⟩ := by decide
  have hlc : legitDate ⟨2147483648, 6, 13⟩ = true := by decide
  have hrej : accept_prev ⟨2147483648, 6, 1⟩ ⟨2147483648, 6, 13⟩ = false := by
    rw [Bool.eq_false_iff]
    intro hacc
    have hlt := ((accept_prev_iff _ _).1 hacc).2.1
    have := (dayCount_lt_iff _ _ hlc hl).1 hlt
    exact absurd this (by decide)
  rw [hw, prev_loop]
  simp only []
  rw [hc, hrej]
  rfl

/-- C37: `prevFriday13` finds the nearest preceding Friday 13th only up to
4000-03-01. On the legit date 2147483648-06-01 the year does not fit the `int`
variable `y`, which becomes negative, and `prevFriday13` returns false and
leaves the date although the Friday 13th 1900-04-13 lies before it. On the
legit date 4001-01-01 it returns 4000-10-13, which by the day count of the
program is a Thursday: `weekDay` ignores that 4000 is no leap year. For every
date that is not after 4000-03-01 the search ends within 12 iterations per
year since 1900 plus 12; if the date is legit and some Friday 13th of the
calendar (hence on or after 1900-01-01) lies strictly before it,
`prevFriday13` returns true and sets the date to the latest such day;
otherwise, and so for a date that is not legit, it returns false and leaves
the date unchanged. -/
theorem prevFriday13_misses_fridays :
    (legitDate ⟨2147483648, 6, 1⟩ = true ∧
      (∀ fuel : Nat, 1 ≤ fuel →
        prevFriday13 fuel ⟨2147483648, 6, 1⟩ = some (false, ⟨2147483648, 6, 1⟩)) ∧
      calendar_friday13 ⟨1900, 4, 13⟩ ∧
      dayCountFrom1900 ⟨1900, 4, 13⟩ < dayCountFrom1900 ⟨2147483648, 6, 1⟩) ∧
    (legitDate ⟨4001, 1, 1⟩ = true ∧
      (∀ fuel : Nat, 4 ≤ fuel →
        prevFriday13 fuel ⟨4001, 1, 1⟩ = some (true, ⟨4000, 10, 13⟩)) ∧
      (dayCountFrom1900 ⟨4000, 10, 13⟩ + 1) % 7 = 4) ∧
    (∀ date : TDATE, ¬ date_before ⟨4000, 3, 1⟩ date →
      ∃ r : Bool × TDATE,
        (∀ fuel, 12 * (date.m_Year - 1900) + 12 ≤ fuel → prevFriday13 fuel date = some r) ∧
        ((legitDate date = true ∧
            ∃ d, calendar_friday13 d ∧ dayCountFrom1900 d < dayCountFrom1900 date) →
          r.1 = true ∧ calendar_friday13 r.2 ∧
          dayCountFrom1900 r.2 < dayCountFrom1900 date ∧
          ∀ d, calendar_friday13 d → dayCountFrom1900 d < dayCountFrom1900 date →
            dayCountFrom1900 d ≤ dayCountFrom1900 r.2) ∧
        ((¬ (legitDate date = true ∧
            ∃ d, calendar_friday13 d ∧ dayCountFrom1900 d < dayCountFrom1900 date)) →
          r = (false, date))) := by
  refine ⟨⟨prevFriday13_2147483648.1, prevFriday13_2147483648.2.1, by decide,
    prevFriday13_2147483648.2.2.2⟩, ⟨by decide, prevFriday13_4001, ?_⟩,
    prevFriday13_calendar⟩
  rw [dayCount_eq, year_days_closed 4000 (by decide) (by decide)]
  decide

theorem prevFriday13_misses_fridays_witness :
    ¬ date_before ⟨4000, 3, 1⟩ ⟨1900, 4, 14⟩ ∧
    prevFriday13 12 ⟨1900, 4, 14⟩ = some (true, ⟨1900, 4, 13⟩) ∧
    prevFriday13 12 ⟨1900, 4, 13⟩ = some (false, ⟨1900, 4, 13⟩) ∧
    ∃ r : Bool × TDATE,
      (∀ fuel, 12 * (1900 - 1900) + 12 ≤ fuel → prevFriday13 fuel ⟨1900, 4, 14⟩ = some r) ∧
      ((legitDate ⟨1900, 4, 14⟩ = true ∧
          ∃ d, calendar_friday13 d ∧ dayCountFrom1900 d < dayCountFrom1900 ⟨1900, 4, 14⟩) →
        r.1 = true ∧ calendar_friday13 r.2 ∧
        dayCountFrom1900 r.2 < dayCountFrom1900 ⟨1900, 4, 14⟩ ∧
        ∀ d, calendar_friday13 d → dayCountFrom1900 d < dayCountFrom1900 ⟨1900, 4, 14⟩ →
          dayCountFrom1900 d ≤ dayCountFrom1900 r.2) ∧
      ((¬ (legitDate ⟨1900, 4, 14⟩ = true ∧
          ∃ d, calendar_friday13 d ∧ dayCountFrom1900 d < dayCountFrom1900 ⟨1900, 4, 14⟩)) →
        r = (false, ⟨1900, 4, 14⟩)) :=
  ⟨by decide, by decide, by decide,
    prevFriday13_misses_fridays.2.2 ⟨1900, 4, 14⟩ (by decide)⟩

/-- C38, as stated, fails: with the two legit dates 1900-04-13 and 1900-07-13
in chronological order and a null pointer `cnt`, `countFriday13` returns false;
with a cell for the count it returns true and counts 2. -/
theorem countFriday13_null_count_fails :
    legitDate ⟨1900, 4, 13⟩ = true ∧ legitDate ⟨1900, 7, 13⟩ = true ∧
    ¬ date_before ⟨1900, 7, 13⟩ ⟨1900, 4, 13⟩ ∧
    countFriday13 ⟨1900, 4, 13⟩ ⟨1900, 7, 13⟩ none = (false, none) ∧
    countFriday13 ⟨1900, 4, 13⟩ ⟨1900, 7, 13⟩ (some 0) = (true, some 2) := by
  decide

/-- C38, amended: `countFriday13` counts inclusively. It returns false exactly
when the pointer `cnt` is null, `legitDate` rejects one of the two dates or
`to_` is chronologically before `from_`, and the count is then not written;
otherwise it returns true and sets the count to the number of dates `d` that
are legit, have day 13 and `weekDay d = 5`, with `from_ ≤ d ≤ to_` in day count,
both ends included. -/
theorem countFriday13_inclusive (from_ to_ : TDATE) (cnt : Option Int) :
    ((countFriday13 from_ to_ cnt).1 = false ↔
      (cnt = none ∨ legitDate from_ = false ∨ legitDate to_ = false ∨
        date_before to_ from_)) ∧
    ((countFriday13 from_ to_ cnt).1 = false → (countFriday13 from_ to_ cnt).2 = cnt) ∧
    ((countFriday13 from_ to_ cnt).1 = true →
      ∃ S : Finset TDATE,
        (∀ d, d ∈ S ↔ (legitDate d = true ∧ d.m_Day = 13 ∧ weekDay d = 5 ∧
          dayCountFrom1900 from_ ≤ dayCountFrom1900 d ∧
          dayCountFrom1900 d ≤ dayCountFrom1900 to_)) ∧
        (countFriday13 from_ to_ cnt).2 = some (S.card : Int)) := by
  cases cnt with
  | none =>
    have h : countFriday13 from_ to_ none = (false, none) := by
      unfold countFriday13
      rfl
    rw [h]
    exact ⟨⟨fun _ => Or.inl rfl, fun _ => rfl⟩, fun _ => rfl, fun h => absurd h (by simp)⟩
  | some v =>
    have hfail : countFriday13 from_ to_ (some v) = (false, some v) →
        (legitDate from_ = false ∨ legitDate to_ = false ∨ date_before to_ from_) →
        ((countFriday13 from_ to_ (some v)).1 = false ↔
          (some v = none ∨ legitDate from_ = false ∨ legitDate to_ = false ∨
            date_before to_ from_)) ∧
        ((countFriday13 from_ to_ (some v)).1 = false →
          (countFriday13 from_ to_ (some v)).2 = some v) ∧
        ((countFriday13 from_ to_ (some v)).1 = true →
          ∃ S : Finset TDATE,
            (∀ d, d ∈ S ↔ (legitDate d = true ∧ d.m_Day = 13 ∧ weekDay d = 5 ∧
              dayCountFrom1900 from_ ≤ dayCountFrom1900 d ∧
              dayCountFrom1900 d ≤ dayCountFrom1900 to_)) ∧
            (countFriday13 from_ to_ (some v)).2 = some (S.card : Int)) := by
      intro h hc
      rw [h]
      exact ⟨⟨fun _ => Or.inr hc, fun _ => rfl⟩, fun _ => rfl, fun h => absurd h (by simp)⟩
    by_cases hf : legitDate from_ = true
    · by_cases ht : legitDate to_ = true
      · by_cases hlt : dayCountFrom1900 to_ < dayCountFrom1900 from_
        · apply hfail
          · unfold countFriday13
            rw [hf, ht, if_neg (by simp), if_pos hlt]
          · exact Or.inr (Or.inr ((dayCount_lt_iff _ _ ht hf).1 hlt))
        · have hsome := count_eq_sum from_ to_ hf ht hlt v
          obtain ⟨S, hS, hcard⟩ := sum_eq_card from_ to_ hf ht
          rw [hsome]
          refine ⟨⟨fun h => absurd h (by simp), ?_⟩, fun h => absurd h (by simp),
            fun _ => ⟨S, hS, by rw [hcard]⟩⟩
          rintro (h | h | h | h)
          · exact absurd h (by simp)
          · rw [hf] at h; exact absurd h (by decide)
          · rw [ht] at h; exact absurd h (by decide)
          · exact absurd ((dayCount_lt_iff _ _ ht hf).2 h) hlt
      · rw [Bool.not_eq_true] at ht
        apply hfail
        · unfold countFriday13
          rw [hf, ht]
          rfl
        · exact Or.inr (Or.inl ht)
    · rw [Bool.not_eq_true] at hf
      apply hfail
      · unfold countFriday13
        rw [hf]
        rfl
      · exact Or.inl hf

theorem countFriday13_inclusive_witness :
    (countFriday13 ⟨1900, 4, 13⟩ ⟨1900, 7, 13⟩ (some 0)).1 = true ∧
    countFriday13 ⟨1900, 4, 14⟩ ⟨1900, 7, 12⟩ (some 5) = (true, some 0) ∧
    countFriday13 ⟨1900, 7, 13⟩ ⟨1900, 4, 13⟩ (some 5) = (false, some 5) ∧
    ∃ S : Finset TDATE,
      (∀ d, d ∈ S ↔ (legitDate d = true ∧ d.m_Day = 13 ∧ weekDay d = 5 ∧
        dayCountFrom1900 ⟨1900, 4, 13⟩ ≤ dayCountFrom1900 d ∧
        dayCountFrom1900 d ≤ dayCountFrom1900 ⟨1900, 7, 13⟩)) ∧
      (countFriday13 ⟨1900, 4, 13⟩ ⟨1900, 7, 13⟩ (some 0)).2 = some (S.card : Int) :=
  ⟨by decide, by decide, by decide,
    (countFriday13_inclusive ⟨1900, 4, 13⟩ ⟨1900, 7, 13⟩ (some 0)).2.2 (by decide)⟩

end Friday13

namespace TollSystem

/-! ## Timestamps -/

section Timestamps

theorem tick_cmp_eq_zero (a b : Tick) : tick_cmp a b = 0 ↔ a = b := by
  obtain ⟨am, ad, ah, an⟩ := a
  obtain ⟨bm, bd, bh, bn⟩ := b
  unfold tick_cmp
  simp only [Tick.mk.injEq]
  split_ifs <;> omega

theorem tick_cmp_antisymm (a b : Tick) : tick_cmp b a = - tick_cmp a b := by
  unfold tick_cmp
  split_ifs <;> omega

theorem tick_cmp_trans_le_lt (a b c : Tick) (h1 : tick_cmp a b ≤ 0) (h2 : tick_cmp b c < 0) :
    tick_cmp a c < 0 := by
  unfold tick_cmp at *
  split_ifs at h1 h2 ⊢ <;> omega

theorem tick_cmp_trans_le_le (a b c : Tick) (h1 : tick_cmp a b ≤ 0) (h2 : tick_cmp b c ≤ 0) :
    tick_cmp a c ≤ 0 := by
  unfold tick_cmp at *
  split_ifs at h1 h2 ⊢ <;> omega

theorem tick_wrap32_eq_self (x : Int) (h1 : -2147483648 ≤ x) (h2 : x ≤ 2147483647) :
    wrap32 x = x := by
  unfold wrap32; omega

theorem valid_tick_bounds (t : Tick) (h : valid_tick t = true) :
    (1 ≤ t.m ∧ t.m ≤ 12) ∧ (1 ≤ t.d ∧ t.d ≤ 31) ∧ (0 ≤ t.h ∧ t.h ≤ 23) ∧
    (0 ≤ t.n ∧ t.n ≤ 59) := by
  unfold valid_tick at h
  split_ifs at h with h1 h2 h3 h4
  have hm : t.m = 1 ∨ t.m = 2 ∨ t.m = 3 ∨ t.m = 4 ∨ t.m = 5 ∨ t.m = 6 ∨ t.m = 7 ∨ t.m = 8
      ∨ t.m = 9 ∨ t.m = 10 ∨ t.m = 11 ∨ t.m = 12 := by omega
  have hd : month_days.getD (t.m - 1).toNat 0 ≤ 31 := by
    rcases hm with h | h | h | h | h | h | h | h | h | h | h | h <;> rw [h] <;> decide
  omega

/-- On timestamps that `valid_tick` accepts no subtraction of `tick_cmp`
overflows. -/
theorem tick_cmp32_eq (a b : Tick) (ha : valid_tick a = true) (hb : valid_tick b = true) :
    tick_cmp32 a b = tick_cmp a b := by
  obtain ⟨a1, a2, a3, a4⟩ := valid_tick_bounds a ha
  obtain ⟨b1, b2, b3, b4⟩ := valid_tick_bounds b hb
  unfold tick_cmp32 tick_cmp
  rw [tick_wrap32_eq_self _ (by omega) (by omega), tick_wrap32_eq_self _ (by omega) (by omega),
    tick_wrap32_eq_self _ (by omega) (by omega), tick_wrap32_eq_self _ (by omega) (by omega)]

end Timestamps

/-! ## Binary search -/

section BinarySearch

theorem lower_bound_loop_eq (arr : List Peep) (target : Tick) (fuel left right : Nat) :
    lower_bound_loop arr target fuel left right
      = partition_loop (fun i => decide (tick_cmp (tickAt arr i) target < 0)) fuel left right := by
  induction fuel generalizing left right with
  | zero => rfl
  | succ f ih =>
    rw [lower_bound_loop, partition_loop]
    simp only [decide_eq_true_eq]
    rw [ih, ih]

theorem upper_bound_loop_eq (arr : List Peep) (target : Tick) (fuel left right : Nat) :
    upper_bound_loop arr target fuel left right
      = partition_loop (fun i => decide (tick_cmp (tickAt arr i) target ≤ 0)) fuel left right := by
  induction fuel generalizing left right with
  | zero => rfl
  | succ f ih =>
    rw [upper_bound_loop, partition_loop]
    simp only [decide_eq_true_eq]
    rw [ih, ih]

/-- The binary search returns the index that splits the range: the test
holds before it and fails from it on, provided that it holds below `left`,
fails from `right` on, and that the fuel covers the interval. -/
theorem partition_loop_spec (p : Nat → Bool) (n fuel left right : Nat)
    (hlr : left ≤ right) (hrn : right ≤ n) (hf : right - left ≤ fuel)
    (hlo : ∀ i, i < left → p i = true) (hhi : ∀ i, right ≤ i → i < n → p i = false)
    (hmono : ∀ i j, i ≤ j → j < n → p j = true → p i = true) :
    partition_loop p fuel left right ≤ n ∧
    (∀ i, i < partition_loop p fuel left right → p i = true) ∧
    (∀ i, partition_loop p fuel left right ≤ i → i < n → p i = false) := by
  induction fuel generalizing left right with
  | zero =>
    have : left = right := by omega
    subst this
    exact ⟨hrn, hlo, hhi⟩
  | succ f ih =>
    rw [partition_loop]
    by_cases hlt : left < right
    · rw [if_pos hlt]
      simp only []
      have hmid1 : left ≤ left + (right - left) / 2 := by omega
      have hmid2 : left + (right - left) / 2 < right := by omega
      by_cases hp : p (left + (right - left) / 2) = true
      · rw [if_pos hp]
        apply ih (left + (right - left) / 2 + 1) right (by omega) hrn (by omega) _ hhi
        intro i hi
        exact hmono i (left + (right - left) / 2) (by omega) (by omega) hp
      · rw [if_neg hp]
        apply ih left (left + (right - left) / 2) (by omega) (by omega) (by omega) hlo
        intro i hi1 hi2
        by_contra hcon
        rw [Bool.not_eq_false] at hcon
        exact hp (hmono _ i hi1 hi2 hcon)
    · rw [if_neg hlt]
      have : left = right := by omega
      subst this
      exact ⟨hrn, hlo, hhi⟩

theorem sorted_le (arr : List Peep) (n : Nat) (hs : SortedPeeps arr n) (i j : Nat)
    (hij : i ≤ j) (hj : j < n) : tick_cmp (tickAt arr i) (tickAt arr j) ≤ 0 := by
  rcases Nat.eq_or_lt_of_le hij with h | h
  · rw [h, (tick_cmp_eq_zero _ _).2 rfl]
  · exact hs j hj i h

/-- What `lower_bound` returns on a sorted array. -/
theorem lower_bound_spec (arr : List Peep) (n : Nat) (target : Tick)
    (hs : SortedPeeps arr n) :
    lower_bound arr n target ≤ n ∧
    (∀ i, i < lower_bound arr n target → tick_cmp (tickAt arr i) target < 0) ∧
    (∀ i, lower_bound arr n target ≤ i → i < n → 0 ≤ tick_cmp (tickAt arr i) target) := by
  unfold lower_bound
  rw [lower_bound_loop_eq]
  obtain ⟨h1, h2, h3⟩ := partition_loop_spec
    (fun i => decide (tick_cmp (tickAt arr i) target < 0)) n n 0 n (Nat.zero_le _) (le_refl _)
    (by omega) (fun i hi => absurd hi (Nat.not_lt_zero _)) (fun i hi1 hi2 => by omega)
    (fun i j hij hj hp => by
      simp only [decide_eq_true_eq] at hp ⊢
      exact tick_cmp_trans_le_lt _ _ _ (sorted_le arr n hs i j hij hj) hp)
  refine ⟨h1, fun i hi => ?_, fun i hi1 hi2 => ?_⟩
  · simpa using h2 i hi
  · simpa using h3 i hi1 hi2

/-- What `upper_bound` returns on a sorted array. -/
theorem upper_bound_spec (arr : List Peep) (n : Nat) (target : Tick)
    (hs : SortedPeeps arr n) :
    upper_bound arr n target ≤ n ∧
    (∀ i, i < upper_bound arr n target → tick_cmp (tickAt arr i) target ≤ 0) ∧
    (∀ i, upper_bound arr n target ≤ i → i < n → 0 < tick_cmp (tickAt arr i) target) := by
  unfold upper_bound
  rw [upper_bound_loop_eq]
  obtain ⟨h1, h2, h3⟩ := partition_loop_spec
    (fun i => decide (tick_cmp (tickAt arr i) target ≤ 0)) n n 0 n (Nat.zero_le _) (le_refl _)
    (by omega) (fun i hi => absurd hi (Nat.not_lt_zero _)) (fun i hi1 hi2 => by omega)
    (fun i j hij hj hp => by
      simp only [decide_eq_true_eq] at hp ⊢
      exact tick_cmp_trans_le_le _ _ _ (sorted_le arr n hs i j hij hj) hp)
  refine ⟨h1, fun i hi => ?_, fun i hi1 hi2 => ?_⟩
  · simpa using h2 i hi
  · simpa using h3 i hi1 hi2

end BinarySearch

end TollSystem

namespace TollSystem

/-! ## Claim about the binary searches -/

/-- C39: binary search bounds. For every array of `n` sightings sorted
non-decreasingly by `tick_cmp` and every target timestamp, `lower_bound`
returns the first index whose timestamp is `≥ target` (`n` if none) and
`upper_bound` the first index whose timestamp is `> target` (`n` if none), so
that `lower_bound ≤ upper_bound` and the indices `lower_bound ≤ i <
upper_bound` are exactly those whose timestamp equals the target; on the
timestamps that `valid_tick` accepts the comparison does not overflow. -/
theorem binary_search_bounds (arr : List Peep) (n : Nat) (target : Tick)
    (hs : SortedPeeps arr n) :
    (lower_bound arr n target ≤ n ∧
      (∀ i, i < lower_bound arr n target → tick_cmp (tickAt arr i) target < 0) ∧
      (∀ i, lower_bound arr n target ≤ i → i < n → 0 ≤ tick_cmp (tickAt arr i) target)) ∧
    (upper_bound arr n target ≤ n ∧
      (∀ i, i < upper_bound arr n target → tick_cmp (tickAt arr i) target ≤ 0) ∧
      (∀ i, upper_bound arr n target ≤ i → i < n → 0 < tick_cmp (tickAt arr i) target)) ∧
    lower_bound arr n target ≤ upper_bound arr n target ∧
    (∀ i, i < n →
      ((lower_bound arr n target ≤ i ∧ i < upper_bound arr n target) ↔
        tickAt arr i = target)) ∧
    (∀ a b : Tick, valid_tick a = true → valid_tick b = true →
      tick_cmp32 a b = tick_cmp a b) := by
  obtain ⟨l1, l2, l3⟩ := lower_bound_spec arr n target hs
  obtain ⟨u1, u2, u3⟩ := upper_bound_spec arr n target hs
  refine ⟨⟨l1, l2, l3⟩, ⟨u1, u2, u3⟩, ?_, ?_, tick_cmp32_eq⟩
  · by_contra hcon
    have hlt : upper_bound arr n target < lower_bound arr n target := by omega
    have a1 := l2 _ hlt
    have a2 := u3 _ (le_refl _) (by omega)
    omega
  · intro i hi
    rw [← tick_cmp_eq_zero]
    constructor
    · rintro ⟨h1, h2⟩
      have a1 := l3 i h1 hi
      have a2 := u2 i h2
      omega
    · intro h0
      constructor
      · by_contra hcon
        have := l2 i (by omega)
        omega
      · by_contra hcon
        have := u3 i (by omega) hi
        omega

theorem binary_search_bounds_witness :
    SortedPeeps [⟨7, ⟨1, 5, 10, 0⟩⟩, ⟨3, ⟨2, 1, 8, 30⟩⟩, ⟨9, ⟨2, 1, 8, 30⟩⟩, ⟨4, ⟨6, 20, 23, 59⟩⟩] 4 ∧
    lower_bound [⟨7, ⟨1, 5, 10, 0⟩⟩, ⟨3, ⟨2, 1, 8, 30⟩⟩, ⟨9, ⟨2, 1, 8, 30⟩⟩, ⟨4, ⟨6, 20, 23, 59⟩⟩] 4
      ⟨2, 1, 8, 30⟩ = 1 ∧
    upper_bound [⟨7, ⟨1, 5, 10, 0⟩⟩, ⟨3, ⟨2, 1, 8, 30⟩⟩, ⟨9, ⟨2, 1, 8, 30⟩⟩, ⟨4, ⟨6, 20, 23, 59⟩⟩] 4
      ⟨2, 1, 8, 30⟩ = 3 ∧
    lower_bound [⟨7, ⟨1, 5, 10, 0⟩⟩, ⟨3, ⟨2, 1, 8, 30⟩⟩, ⟨9, ⟨2, 1, 8, 30⟩⟩, ⟨4, ⟨6, 20, 23, 59⟩⟩] 4
        ⟨2, 1, 8, 30⟩
      ≤ upper_bound [⟨7, ⟨1, 5, 10, 0⟩⟩, ⟨3, ⟨2, 1, 8, 30⟩⟩, ⟨9, ⟨2, 1, 8, 30⟩⟩,
        ⟨4, ⟨6, 20, 23, 59⟩⟩] 4 ⟨2, 1, 8, 30⟩ :=
  ⟨by decide, by decide, by decide,
    (binary_search_bounds [⟨7, ⟨1, 5, 10, 0⟩⟩, ⟨3, ⟨2, 1, 8, 30⟩⟩, ⟨9, ⟨2, 1, 8, 30⟩⟩,
      ⟨4, ⟨6, 20, 23, 59⟩⟩] 4 ⟨2, 1, 8, 30⟩ (by decide)).2.2.1⟩

end TollSystem
